import Mathlib

/-!
# A verification development for the cpp-to-x86-64 compiler

Shallow embedding of `tokenization.hpp` (token data model and the tokeniser
loop), `parser.hpp` (AST, the precedence-climbing expression parser and the
statement parser) and `generator.hpp` (type checking, symbol table with undo
log, stack-machine code emission).

Conventions of the embedding:

* `std::exit(EXIT_FAILURE)` after a diagnostic is an `Except.error` carrying
  the kind of the diagnostic; a `std::optional` result is an `Option`.
* Arena pointers are owned subtrees, so AST nodes are inductive values.
* `std::string` is `String`; a `char` is the code of a `Char` below 256.
* `size_t` counters are natural numbers reduced modulo `2 ^ 64`.
* Loops and recursion of the tokeniser and the parsers take a budget `fuel`;
  `returns f r` says that every budget from some point on gives `r`.
-/

namespace Compiler

/-! ## Tokens (`tokenization.hpp`) -/

/-- The enumeration `TokenType`, constructors in the order of the source. -/
inductive TokenType
  | exit | int_lit | semi | ident | cnst | assign | plus | mod | mul | sub | div
  | open_paren | close_paren | open_curly | close_curly
  | eq | lt | gt | lte | gte | neq
  | if_ | print | else_ | elif | int_ | char_ | char_lit | bool_ | bool_lit
  | true_ | false_ | let_ | and_ | or_ | not_
  deriving DecidableEq, Repr

/-- The struct `Token`: a kind and an optional literal text. -/
structure Token where
  type : TokenType
  val : Option String := none
  deriving DecidableEq, Repr

/-! ## Abstract syntax (`parser.hpp`) -/

/-- The enumeration `DataType`. -/
inductive DataType
  | Int | Char | Bool
  deriving DecidableEq, Repr

/-- The enumeration `UnaryOp`. -/
inductive UnaryOp
  | Negate | Not
  deriving DecidableEq, Repr

mutual
/-- The struct `NodeTerm`, a variant over `NodeTermLit`, `NodeTermIdent`,
`NodeTermParen` and `NodeTermUnary`. -/
inductive NodeTerm
  | Lit (token : Token)
  | Ident (ident : Token)
  | Paren (expr : NodeExpr)
  | Unary (op : UnaryOp) (operand : NodeTerm)
/-- The struct `NodeBinExpr`, a variant over the thirteen structs
`NodeBinExprAdd`, ..., `NodeBinExprOr`, each with the fields `lhs`, `rhs`. -/
inductive NodeBinExpr
  | Add (lhs rhs : NodeExpr)
  | Mul (lhs rhs : NodeExpr)
  | Sub (lhs rhs : NodeExpr)
  | Div (lhs rhs : NodeExpr)
  | Mod (lhs rhs : NodeExpr)
  | Eq (lhs rhs : NodeExpr)
  | Gt (lhs rhs : NodeExpr)
  | Neq (lhs rhs : NodeExpr)
  | Lte (lhs rhs : NodeExpr)
  | Gte (lhs rhs : NodeExpr)
  | Lt (lhs rhs : NodeExpr)
  | And (lhs rhs : NodeExpr)
  | Or (lhs rhs : NodeExpr)
/-- The struct `NodeExpr`: a term or a binary expression. -/
inductive NodeExpr
  | Term (term : NodeTerm)
  | BinExpr (bin_expr : NodeBinExpr)
end

mutual
/-- The struct `NodeStmt`, a variant over the seven statement structs. -/
inductive NodeStmt
  | Exit (expr : NodeExpr)
  | Const (ident : Token) (dtype : DataType) (expr : NodeExpr)
  | Scope (scope : NodeStmtScope)
  | Print (expr : NodeExpr)
  | If (expr : NodeExpr) (scope : NodeStmtScope) (cont : Option NodeStmtIfCont)
  | Let (ident : Token) (dtype : DataType) (expr : Option NodeExpr)
  | Assign (ident : Token) (expr : NodeExpr)
/-- The struct `NodeStmtScope`. -/
inductive NodeStmtScope
  | mk (stmts : List NodeStmt)
/-- The struct `NodeStmtIfCont`, a variant over `NodeStmtElse` and
`NodeStmtElif`. -/
inductive NodeStmtIfCont
  | Else (scope : NodeStmtScope)
  | Elif (expr : NodeExpr) (scope : NodeStmtScope) (cont : Option NodeStmtIfCont)
end

/-- The struct `NodeProg`. -/
structure NodeProg where
  stmts : List NodeStmt

/-! ## The expression parser (`parser.hpp`) -/

/-- Ways in which a parser call ends without a result: a diagnostic followed
by `std::exit(EXIT_FAILURE)`, or the recursion budget of the model running
out (the source recursion itself is unbounded). -/
inductive ParseError
  | expected_term_but_got_minus
  | expected_term_after_unary
  | expected_close_paren
  | expected_semi
  | unable_to_parse_expression
  | unexpected_operation
  | out_of_fuel
  | expected_open_curly
  | expected_statement_inside_scope
  | expected_close_curly
  | expected_open_paren
  | expected_close_paren_after_condition
  | expected_scope
  | expected_expression
  | expected_type
  | expected_valid_type
  | expected_identifier_after_type
  | expected_assign_after_identifier
  | expected_expression_after_assign
  | expected_semi_after_let
  | expected_statement
  deriving DecidableEq, Repr

/-- The method `Parser::peek` with offset 0. -/
def peek (tokens : List Token) (index : Nat) : Option Token :=
  tokens[index]?

/-- The method `Parser::try_consume`: the token and the advanced index when
the next token has the requested kind. -/
def try_consume (tokens : List Token) (index : Nat) (type : TokenType) :
    Option (Token × Nat) :=
  match peek tokens index with
  | some t => if t.type = type then some (t, index + 1) else none
  | none => none

/-- The method `Parser::get_precedence` over the table `precedence`. -/
def get_precedence : TokenType → Int
  | .or_ => 0
  | .and_ => 1
  | .eq => 2
  | .neq => 2
  | .lt => 3
  | .gt => 3
  | .lte => 3
  | .gte => 3
  | .plus => 4
  | .sub => 4
  | .mul => 5
  | .div => 5
  | .mod => 5
  | _ => -1

/-- The `if`/`else if` chain on `op.type` at the end of the loop body of
`Parser::parse_expr`, which wraps `expr_lhs` and `expr_rhs` into the node of
the operator; `none` is the final `else` (fatal). -/
def make_bin_expr (type : TokenType) (expr_lhs expr_rhs : NodeExpr) : Option NodeBinExpr :=
  if type = .plus then some (.Add expr_lhs expr_rhs)
  else if type = .mul then some (.Mul expr_lhs expr_rhs)
  else if type = .sub then some (.Sub expr_lhs expr_rhs)
  else if type = .div then some (.Div expr_lhs expr_rhs)
  else if type = .mod then some (.Mod expr_lhs expr_rhs)
  else if type = .eq then some (.Eq expr_lhs expr_rhs)
  else if type = .neq then some (.Neq expr_lhs expr_rhs)
  else if type = .lt then some (.Lt expr_lhs expr_rhs)
  else if type = .gt then some (.Gt expr_lhs expr_rhs)
  else if type = .lte then some (.Lte expr_lhs expr_rhs)
  else if type = .gte then some (.Gte expr_lhs expr_rhs)
  else if type = .and_ then some (.And expr_lhs expr_rhs)
  else if type = .or_ then some (.Or expr_lhs expr_rhs)
  else none

mutual
/-- The method `Parser::parse_term`.  The result carries the index after the
call, also when the result is `std::nullopt`. -/
def parse_term (tokens : List Token) :
    Nat → Bool → Nat → Except ParseError (Option NodeTerm × Nat)
  | 0, _, _ => .error .out_of_fuel
  | fuel + 1, allow_unary, index =>
    match try_consume tokens index .int_lit with
    | some (tok, i) => .ok (some (.Lit tok), i)
    | none =>
    match try_consume tokens index .char_lit with
    | some (tok, i) => .ok (some (.Lit tok), i)
    | none =>
    match try_consume tokens index .bool_lit with
    | some (tok, i) => .ok (some (.Lit tok), i)
    | none =>
    match try_consume tokens index .sub with
    | some (_, i) =>
      if allow_unary = false then .error .expected_term_but_got_minus
      else
        match parse_term tokens fuel false i with
        | .error e => .error e
        | .ok (none, _) => .error .expected_term_after_unary
        | .ok (some operand, j) => .ok (some (.Unary .Negate operand), j)
    | none =>
    match try_consume tokens index .not_ with
    | some (_, i) =>
      if allow_unary = false then .error .expected_term_but_got_minus
      else
        match parse_term tokens fuel false i with
        | .error e => .error e
        | .ok (none, _) => .error .expected_term_after_unary
        | .ok (some operand, j) => .ok (some (.Unary .Not operand), j)
    | none =>
    match try_consume tokens index .ident with
    | some (tok, i) => .ok (some (.Ident tok), i)
    | none =>
    match try_consume tokens index .open_paren with
    | some (_, i) =>
      match parse_expr tokens fuel 0 true i with
      | .error e => .error e
      | .ok (none, j) => .ok (none, j)
      | .ok (some node_expr, j) =>
        match try_consume tokens j .close_paren with
        | some (_, k) => .ok (some (.Paren node_expr), k)
        | none => .error .expected_close_paren
    | none => .ok (none, index)
/-- The method `Parser::parse_expr`: one term, then the `while (true)` loop. -/
def parse_expr (tokens : List Token) :
    Nat → Int → Bool → Nat → Except ParseError (Option NodeExpr × Nat)
  | 0, _, _, _ => .error .out_of_fuel
  | fuel + 1, min_prec, allow_unary, index =>
    match parse_term tokens fuel allow_unary index with
    | .error e => .error e
    | .ok (none, i) => .ok (none, i)
    | .ok (some term_lhs, i) =>
      match parse_expr_loop tokens fuel min_prec (.Term term_lhs) i with
      | .error e => .error e
      | .ok (expr_lhs, j) => .ok (some expr_lhs, j)
/-- The `while (true)` loop of `Parser::parse_expr`, started with the
accumulated left operand `expr_lhs`. -/
def parse_expr_loop (tokens : List Token) :
    Nat → Int → NodeExpr → Nat → Except ParseError (NodeExpr × Nat)
  | 0, _, _, _ => .error .out_of_fuel
  | fuel + 1, min_prec, expr_lhs, index =>
    match peek tokens index with
    | none => .error .expected_semi
    | some curr_tok =>
      if get_precedence curr_tok.type < min_prec then .ok (expr_lhs, index)
      else
        match parse_expr tokens fuel (get_precedence curr_tok.type + 1) false (index + 1) with
        | .error e => .error e
        | .ok (none, _) => .error .unable_to_parse_expression
        | .ok (some expr_rhs, j) =>
          match make_bin_expr curr_tok.type expr_lhs expr_rhs with
          | none => .error .unexpected_operation
          | some bin_expr => parse_expr_loop tokens fuel min_prec (.BinExpr bin_expr) j
end

/-! ## Emitted assembly (`generator.hpp`) -/

/-- The register names that occur in the emitted text. -/
inductive Reg
  | rax | rbx | rdx | rdi | rsi | al | bl
  deriving DecidableEq, Repr

/-- The operand string handed to `Generator::push`: a register name or
`QWORD [rsp + k]`. -/
inductive Operand
  | reg (r : Reg)
  | qword_rsp (k : Nat)
  deriving DecidableEq, Repr

/-- The suffix of a `set` instruction. -/
inductive Cond
  | e | ne | l | g | le | ge
  deriving DecidableEq, Repr

/-- One line written to `output`.  `Instr.text` gives its characters. -/
inductive Instr
  | extern_ (symbol : String)
  | global_ (symbol : String)
  | label (name : String)
  | mov_imm (dst : Reg) (imm : Int)
  | mov_imm_flush_left (dst : Reg) (imm : Int)
  | push (src : Operand)
  | pop (dst : Reg)
  | neg (dst : Reg)
  | cmp_imm (a : Reg) (imm : Int)
  | cmp (a b : Reg)
  | set (cc : Cond) (dst : Reg)
  | movzx (dst src : Reg)
  | add (dst src : Reg)
  | sub (dst src : Reg)
  | imul (src : Reg)
  | cqo
  | idiv (src : Reg)
  | and_ (dst src : Reg)
  | or_ (dst src : Reg)
  | test (a b : Reg)
  | jo (target : String)
  | je (target : String)
  | jz (target : String)
  | jmp (target : String)
  | call (target : String)
  | lea_rsi_rsp_minus_1
  | mov_byte_rsp_minus_1 (imm : Nat)
  | syscall
  deriving DecidableEq, Repr

/-- The text of a register name. -/
def Reg.text : Reg → String
  | .rax => "rax" | .rbx => "rbx" | .rdx => "rdx" | .rdi => "rdi" | .rsi => "rsi"
  | .al => "al" | .bl => "bl"

/-- The text of a push operand. -/
def Operand.text : Operand → String
  | .reg r => r.text
  | .qword_rsp k => "QWORD [rsp + " ++ toString k ++ "]"

/-- The text of a condition suffix. -/
def Cond.text : Cond → String
  | .e => "e" | .ne => "ne" | .l => "l" | .g => "g" | .le => "le" | .ge => "ge"

/-- The characters the generator writes to `output` for a line. -/
def Instr.text : Instr → String
  | .extern_ s => "extern " ++ s ++ "\n"
  | .global_ s => "global " ++ s ++ "\n"
  | .label n => n ++ ":\n"
  | .mov_imm d v => "    mov " ++ d.text ++ ", " ++ toString v ++ "\n"
  | .mov_imm_flush_left d v => "mov " ++ d.text ++ ", " ++ toString v ++ "\n"
  | .push o => "    push " ++ o.text ++ "\n"
  | .pop d => "    pop " ++ d.text ++ "\n"
  | .neg d => "    neg " ++ d.text ++ "\n"
  | .cmp_imm a v => "    cmp " ++ a.text ++ ", " ++ toString v ++ "\n"
  | .cmp a b => "    cmp " ++ a.text ++ ", " ++ b.text ++ "\n"
  | .set cc d => "    set" ++ cc.text ++ " " ++ d.text ++ "\n"
  | .movzx d s => "    movzx " ++ d.text ++ ", " ++ s.text ++ "\n"
  | .add d s => "    add " ++ d.text ++ ", " ++ s.text ++ "\n"
  | .sub d s => "    sub " ++ d.text ++ ", " ++ s.text ++ "\n"
  | .imul s => "    imul " ++ s.text ++ "\n"
  | .cqo => "    cqo\n"
  | .idiv s => "    idiv " ++ s.text ++ "\n"
  | .and_ d s => "    and " ++ d.text ++ ", " ++ s.text ++ "\n"
  | .or_ d s => "    or " ++ d.text ++ ", " ++ s.text ++ "\n"
  | .test a b => "    test " ++ a.text ++ ", " ++ b.text ++ "\n"
  | .jo t => "    jo " ++ t ++ "\n"
  | .je t => "    je " ++ t ++ "\n"
  | .jz t => "    jz " ++ t ++ "\n"
  | .jmp t => "    jmp " ++ t ++ "\n"
  | .call t => "    call " ++ t ++ "\n"
  | .lea_rsi_rsp_minus_1 => "    lea rsi, [rsp-1]\n"
  | .mov_byte_rsp_minus_1 v => "    mov byte [rsp-1], " ++ toString v ++ "\n"
  | .syscall => "    syscall\n"

/-- The string `output.str()` of a list of emitted lines. -/
def render (output : List Instr) : String :=
  String.join (output.map Instr.text)

/-! ## Generator state (`generator.hpp`) -/

/-- Diagnostics after which the generator calls `exit(EXIT_FAILURE)`, and the
uncaught `std::bad_optional_access` of `.value()` on a token without text. -/
inductive GenError
  | integer_literal_out_of_bounds
  | invalid_integer_literal
  | unknown_boolean_literal
  | unknown_literal_type
  | bad_optional_access
  | variable_not_declared
  | negate_non_integer
  | not_non_integer_non_boolean
  | addition_operands
  | multiplication_operands
  | subtraction_operands
  | division_operands
  | modulo_operands
  | equality_operands
  | non_equality_operands
  | less_than_operands
  | greater_than_operands
  | less_than_equal_operands
  | greater_than_equal_operands
  | and_operands
  | or_operands
  | variable_already_declared
  | type_mismatch_declaration
  | assignment_missing_identifier
  | assignment_undeclared
  | assignment_immutable
  | type_mismatch_assignment
  | exit_scope_without_frame
  deriving DecidableEq, Repr

/-- The struct `Generator::Var`. -/
structure Var where
  stack_loc : Nat
  dtype : DataType
  mut_ : Bool := false
  deriving DecidableEq, Repr

/-- The struct `Generator::ScopeEntry`. -/
structure ScopeEntry where
  name : String
  old_binding : Option Var
  deriving DecidableEq, Repr

/-- The modulus of `size_t` arithmetic. -/
def size_t_mod : Nat := 2 ^ 64

/-- The data members of `class Generator` that change during generation.
`globals` is the finite map as its lookup function.  `scopes` lists the
frames innermost first: its head is `scopes.back()`; inside a frame the
entries are in the order in which they were logged. -/
structure Generator where
  is_terminated : Bool := false
  output : List Instr := []
  stack_size : Nat := 0
  label_count : Nat := 0
  globals : String → Option Var := fun _ => none
  scopes : List (List ScopeEntry) := []

/-- The wrapping `size_t` operations used by the generator. -/
def size_t_inc (a : Nat) : Nat := (a + 1) % size_t_mod

/-- The decrement `a--` of a `size_t`. -/
def size_t_dec (a : Nat) : Nat := (a + size_t_mod - 1) % size_t_mod

/-- The difference `a - b` of two `size_t`. -/
def size_t_sub (a b : Nat) : Nat := (a + size_t_mod - b % size_t_mod) % size_t_mod

/-- The product `a * b` of two `size_t`. -/
def size_t_mul (a b : Nat) : Nat := (a * b) % size_t_mod

/-- The assignment `globals[name] = var`. -/
def globals_set (globals : String → Option Var) (name : String) (var : Var) :
    String → Option Var :=
  fun k => if k = name then some var else globals k

/-- The call `globals.erase(name)`. -/
def globals_erase (globals : String → Option Var) (name : String) : String → Option Var :=
  fun k => if k = name then none else globals k

/-- The body of the loop of `Generator::exit_scope` for one entry. -/
def restore_entry (globals : String → Option Var) (entry : ScopeEntry) : String → Option Var :=
  match entry.old_binding with
  | some old => globals_set globals entry.name old
  | none => globals_erase globals entry.name

/-- The conversion `std::stoll(text, &idx, 10)` followed by the check
`idx != text.size()`: optional white space, an optional sign, at least one
decimal digit, and nothing after the digits. -/
def stoll (text : String) : Except GenError Int :=
  let is_space := fun (c : Char) => c = ' ' || (9 ≤ c.toNat && c.toNat ≤ 13)
  let cs := text.toList.dropWhile is_space
  let negative := cs.head? = some '-'
  let cs := if cs.head? = some '-' ∨ cs.head? = some '+' then cs.tail else cs
  let digits := cs.takeWhile Char.isDigit
  let rest := cs.dropWhile Char.isDigit
  if digits = [] then .error .invalid_integer_literal
  else
    let magnitude : Nat := digits.foldl (fun acc c => acc * 10 + (c.toNat - 48)) 0
    let value : Int := if negative then -(magnitude : Int) else magnitude
    if value < -(2 ^ 63 : Int) ∨ (2 ^ 63 : Int) - 1 < value then
      .error .integer_literal_out_of_bounds
    else if rest ≠ [] then .error .invalid_integer_literal
    else .ok value

/-- The conversion `static_cast<int64_t>(text[0])` of a (signed) `char`;
`text[0]` of the empty string is the terminating zero. -/
def char_value (text : String) : Int :=
  match text.toList with
  | [] => 0
  | c :: _ => if c.toNat % 256 < 128 then (c.toNat % 256 : Nat) else (c.toNat % 256 : Nat) - 256

namespace Generator

/-- Appends one line to `output` (`output << ...`). -/
def emit (gen : Generator) (line : Instr) : Generator :=
  { gen with output := gen.output ++ [line] }

/-- The method `Generator::push`. -/
def push (gen : Generator) (reg : Operand) : Generator :=
  { gen with output := gen.output ++ [.push reg], stack_size := size_t_inc gen.stack_size }

/-- The method `Generator::pop`. -/
def pop (gen : Generator) (reg : Reg) : Generator :=
  { gen with output := gen.output ++ [.pop reg], stack_size := size_t_dec gen.stack_size }

/-- The method `Generator::create_label`. -/
def create_label (gen : Generator) : String × Generator :=
  ("label" ++ toString gen.label_count, { gen with label_count := gen.label_count + 1 })

/-- The method `Generator::enter_scope`. -/
def enter_scope (gen : Generator) : Generator :=
  { gen with scopes := [] :: gen.scopes }

/-- The method `Generator::exit_scope`.  Calling `back()` on an empty
`scopes` is undefined in the source; the model reports it as an error. -/
def exit_scope (gen : Generator) : Except GenError Generator :=
  match gen.scopes with
  | [] => .error .exit_scope_without_frame
  | frame :: rest =>
    .ok { gen with globals := frame.foldl restore_entry gen.globals, scopes := rest }

/-- The method `Generator::update_var`; `old_var` refers to the entry of
`name` in `globals`, which the final assignment overwrites. -/
def update_var (gen : Generator) (name : String) (old_var new_var : Var) : Generator :=
  { gen with
    scopes := match gen.scopes with
      | [] => []
      | frame :: rest => (frame ++ [{ name := name, old_binding := some old_var }]) :: rest
    globals := globals_set gen.globals name new_var }

/-- The method `Generator::declare_var`. -/
def declare_var (gen : Generator) (name : String) (var : Var) : Generator :=
  { gen with
    globals := globals_set gen.globals name var
    scopes := match gen.scopes with
      | [] => [[{ name := name, old_binding := gen.globals name }]]
      | frame :: rest => (frame ++ [{ name := name, old_binding := gen.globals name }]) :: rest }

/-- The method `Generator::is_declared`. -/
def is_declared (gen : Generator) (name : String) : Bool :=
  match gen.scopes with
  | [] => false
  | frame :: _ => frame.any (fun entry => entry.name = name)

/-- The method `Generator::gen_lit`. -/
def gen_lit (tok : Token) (gen : Generator) : Except GenError (DataType × Generator) :=
  match tok.type with
  | .int_lit =>
    match tok.val with
    | none => .error .bad_optional_access
    | some text =>
      match stoll text with
      | .error e => .error e
      | .ok value => .ok (.Int, gen.emit (.mov_imm .rax value) |>.push (.reg .rax))
  | .char_lit =>
    match tok.val with
    | none => .error .bad_optional_access
    | some text => .ok (.Char, gen.emit (.mov_imm .rax (char_value text)) |>.push (.reg .rax))
  | .bool_lit =>
    match tok.val with
    | none => .error .bad_optional_access
    | some value =>
      if value = "true" then .ok (.Bool, gen.emit (.mov_imm .rax 1) |>.push (.reg .rax))
      else if value = "false" then .ok (.Bool, gen.emit (.mov_imm .rax 0) |>.push (.reg .rax))
      else .error .unknown_boolean_literal
  | _ => .error .unknown_literal_type

mutual
/-- The method `Generator::gen_term` (the four functions of `TermVisitor`). -/
def gen_term : NodeTerm → Generator → Except GenError (DataType × Generator)
  | .Lit token, gen => gen_lit token gen
  | .Ident ident, gen =>
    match ident.val with
    | none => .error .bad_optional_access
    | some name =>
      match gen.globals name with
      | none => .error .variable_not_declared
      | some var =>
        .ok (var.dtype,
          gen.push (.qword_rsp (size_t_mul (size_t_sub gen.stack_size var.stack_loc) 8)))
  | .Paren expr, gen => gen_expr expr gen
  | .Unary .Negate operand, gen =>
    match gen_term operand gen with
    | .error e => .error e
    | .ok (dtype, gen) =>
      if dtype ≠ .Int then .error .negate_non_integer
      else .ok (.Int, gen.pop .rax |>.emit (.neg .rax) |>.push (.reg .rax))
  | .Unary .Not operand, gen =>
    match gen_term operand gen with
    | .error e => .error e
    | .ok (dtype, gen) =>
      if dtype ≠ .Int ∧ dtype ≠ .Bool then .error .not_non_integer_non_boolean
      else .ok (.Bool, gen.pop .rax |>.emit (.cmp_imm .rax 0) |>.emit (.set .e .al)
        |>.emit (.movzx .rax .al) |>.push (.reg .rax))
/-- The method `Generator::gen_bin_expr` (the thirteen functions of
`BinExprVisitor`).  `Add` and `Mul` generate `lhs` first, the others `rhs`. -/
def gen_bin_expr : NodeBinExpr → Generator → Except GenError (DataType × Generator)
  | .Add lhs rhs, gen =>
    match gen_expr lhs gen with
    | .error e => .error e
    | .ok (lhs_type, gen) =>
    match gen_expr rhs gen with
    | .error e => .error e
    | .ok (rhs_type, gen) =>
      if lhs_type ≠ .Int ∨ rhs_type ≠ .Int then .error .addition_operands
      else .ok (.Int, gen.pop .rax |>.pop .rbx |>.emit (.add .rax .rbx)
        |>.emit (.jo "overflow_error") |>.push (.reg .rax))
  | .Mul lhs rhs, gen =>
    match gen_expr lhs gen with
    | .error e => .error e
    | .ok (lhs_type, gen) =>
    match gen_expr rhs gen with
    | .error e => .error e
    | .ok (rhs_type, gen) =>
      if lhs_type ≠ .Int ∨ rhs_type ≠ .Int then .error .multiplication_operands
      else .ok (.Int, gen.pop .rax |>.pop .rbx |>.emit (.imul .rbx)
        |>.emit (.jo "overflow_error") |>.push (.reg .rax))
  | .Sub lhs rhs, gen =>
    match gen_expr rhs gen with
    | .error e => .error e
    | .ok (rhs_type, gen) =>
    match gen_expr lhs gen with
    | .error e => .error e
    | .ok (lhs_type, gen) =>
      if lhs_type ≠ .Int ∨ rhs_type ≠ .Int then .error .subtraction_operands
      else .ok (.Int, gen.pop .rax |>.pop .rbx |>.emit (.sub .rax .rbx)
        |>.emit (.jo "overflow_error") |>.push (.reg .rax))
  | .Div lhs rhs, gen =>
    match gen_expr rhs gen with
    | .error e => .error e
    | .ok (rhs_type, gen) =>
    match gen_expr lhs gen with
    | .error e => .error e
    | .ok (lhs_type, gen) =>
      if lhs_type ≠ .Int ∨ rhs_type ≠ .Int then .error .division_operands
      else .ok (.Int, gen.pop .rax |>.pop .rbx |>.emit (.cmp_imm .rbx 0)
        |>.emit (.je "divzero_error") |>.emit .cqo |>.emit (.idiv .rbx) |>.push (.reg .rax))
  | .Mod lhs rhs, gen =>
    match gen_expr rhs gen with
    | .error e => .error e
    | .ok (rhs_type, gen) =>
    match gen_expr lhs gen with
    | .error e => .error e
    | .ok (lhs_type, gen) =>
      if lhs_type ≠ .Int ∨ rhs_type ≠ .Int then .error .modulo_operands
      else .ok (.Int, gen.pop .rax |>.pop .rbx |>.emit (.cmp_imm .rbx 0)
        |>.emit (.je "divzero_error") |>.emit .cqo |>.emit (.idiv .rbx) |>.push (.reg .rdx))
  | .Eq lhs rhs, gen =>
    match gen_expr rhs gen with
    | .error e => .error e
    | .ok (rhs_type, gen) =>
    match gen_expr lhs gen with
    | .error e => .error e
    | .ok (lhs_type, gen) =>
      if lhs_type ≠ rhs_type then .error .equality_operands
      else .ok (.Bool, gen.pop .rax |>.pop .rbx |>.emit (.cmp .rax .rbx)
        |>.emit (.set .e .al) |>.emit (.movzx .rax .al) |>.push (.reg .rax))
  | .Neq lhs rhs, gen =>
    match gen_expr rhs gen with
    | .error e => .error e
    | .ok (rhs_type, gen) =>
    match gen_expr lhs gen with
    | .error e => .error e
    | .ok (lhs_type, gen) =>
      if lhs_type ≠ rhs_type then .error .non_equality_operands
      else .ok (.Bool, gen.pop .rax |>.pop .rbx |>.emit (.cmp .rax .rbx)
        |>.emit (.set .ne .al) |>.emit (.movzx .rax .al) |>.push (.reg .rax))
  | .Lt lhs rhs, gen =>
    match gen_expr rhs gen with
    | .error e => .error e
    | .ok (rhs_type, gen) =>
    match gen_expr lhs gen with
    | .error e => .error e
    | .ok (lhs_type, gen) =>
      if lhs_type ≠ .Int ∨ rhs_type ≠ .Int then .error .less_than_operands
      else .ok (.Bool, gen.pop .rax |>.pop .rbx |>.emit (.cmp .rax .rbx)
        |>.emit (.set .l .al) |>.emit (.movzx .rax .al) |>.push (.reg .rax))
  | .Gt lhs rhs, gen =>
    match gen_expr rhs gen with
    | .error e => .error e
    | .ok (rhs_type, gen) =>
    match gen_expr lhs gen with
    | .error e => .error e
    | .ok (lhs_type, gen) =>
      if lhs_type ≠ .Int ∨ rhs_type ≠ .Int then .error .greater_than_operands
      else .ok (.Bool, gen.pop .rax |>.pop .rbx |>.emit (.cmp .rax .rbx)
        |>.emit (.set .g .al) |>.emit (.movzx .rax .al) |>.push (.reg .rax))
  | .Lte lhs rhs, gen =>
    match gen_expr rhs gen with
    | .error e => .error e
    | .ok (rhs_type, gen) =>
    match gen_expr lhs gen with
    | .error e => .error e
    | .ok (lhs_type, gen) =>
      if lhs_type ≠ .Int ∨ rhs_type ≠ .Int then .error .less_than_equal_operands
      else .ok (.Bool, gen.pop .rax |>.pop .rbx |>.emit (.cmp .rax .rbx)
        |>.emit (.set .le .al) |>.emit (.movzx .rax .al) |>.push (.reg .rax))
  | .Gte lhs rhs, gen =>
    match gen_expr rhs gen with
    | .error e => .error e
    | .ok (rhs_type, gen) =>
    match gen_expr lhs gen with
    | .error e => .error e
    | .ok (lhs_type, gen) =>
      if lhs_type ≠ .Int ∨ rhs_type ≠ .Int then .error .greater_than_equal_operands
      else .ok (.Bool, gen.pop .rax |>.pop .rbx |>.emit (.cmp .rax .rbx)
        |>.emit (.set .ge .al) |>.emit (.movzx .rax .al) |>.push (.reg .rax))
  | .And lhs rhs, gen =>
    match gen_expr rhs gen with
    | .error e => .error e
    | .ok (rhs_type, gen) =>
    match gen_expr lhs gen with
    | .error e => .error e
    | .ok (lhs_type, gen) =>
      if (lhs_type ≠ .Int ∧ lhs_type ≠ .Bool) ∨ (rhs_type ≠ .Int ∧ rhs_type ≠ .Bool) then
        .error .and_operands
      else .ok (.Bool, gen.pop .rax |>.pop .rbx
        |>.emit (.cmp_imm .rax 0) |>.emit (.set .ne .al) |>.emit (.movzx .rax .al)
        |>.emit (.cmp_imm .rbx 0) |>.emit (.set .ne .bl) |>.emit (.movzx .rbx .bl)
        |>.emit (.and_ .rax .rbx) |>.push (.reg .rax))
  | .Or lhs rhs, gen =>
    match gen_expr rhs gen with
    | .error e => .error e
    | .ok (rhs_type, gen) =>
    match gen_expr lhs gen with
    | .error e => .error e
    | .ok (lhs_type, gen) =>
      if lhs_type ≠ .Int ∨ rhs_type ≠ .Int then .error .or_operands
      else .ok (.Bool, gen.pop .rax |>.pop .rbx
        |>.emit (.cmp_imm .rax 0) |>.emit (.set .ne .al) |>.emit (.movzx .rax .al)
        |>.emit (.cmp_imm .rbx 0) |>.emit (.set .ne .bl) |>.emit (.movzx .rbx .bl)
        |>.emit (.or_ .rax .rbx) |>.push (.reg .rax))
/-- The method `Generator::gen_expr`. -/
def gen_expr : NodeExpr → Generator → Except GenError (DataType × Generator)
  | .Term term, gen => gen_term term gen
  | .BinExpr bin_expr, gen => gen_bin_expr bin_expr gen
end

/-- The method `Generator::gen_exit`. -/
def gen_exit (gen : Generator) : Generator :=
  let gen := gen.emit (.mov_imm .rax 1) |>.emit (.mov_imm .rdi 1) |>.emit .lea_rsi_rsp_minus_1
    |>.emit (.mov_byte_rsp_minus_1 10) |>.emit (.mov_imm .rdx 1) |>.emit .syscall
    |>.emit (.mov_imm .rax 60) |>.pop .rdi |>.emit .syscall
  { gen with is_terminated := true }

mutual
/-- The method `Generator::gen_stmt` (the seven functions of `StmtVisitor`). -/
def gen_stmt : NodeStmt → Generator → Except GenError Generator
  | .Exit expr, gen =>
    match gen_expr expr gen with
    | .error e => .error e
    | .ok (_, gen) => .ok gen.gen_exit
  | .Print expr, gen =>
    match gen_expr expr gen with
    | .error e => .error e
    | .ok (dtype, gen) =>
      let gen := gen.pop .rdi
      match dtype with
      | .Int => .ok (gen.emit (.call "print_int"))
      | .Bool => .ok (gen.emit (.call "print_int"))
      | .Char => .ok (gen.emit (.call "print_char"))
  | .If expr scope cont, gen =>
    match gen_expr expr gen with
    | .error e => .error e
    | .ok (_, gen) =>
      let gen := gen.pop .rax
      let label := gen.create_label.1
      let gen := gen.create_label.2
      let gen := gen.emit (.test .rax .rax) |>.emit (.jz label)
      match gen_scope scope gen with
      | .error e => .error e
      | .ok gen => gen_stmt_if_cont cont label gen
  | .Const ident dtype expr, gen =>
    match ident.val with
    | none => .error .bad_optional_access
    | some name =>
      if gen.is_declared name then .error .variable_already_declared
      else
        match gen_expr expr gen with
        | .error e => .error e
        | .ok (expr_type, gen) =>
          if expr_type ≠ dtype then .error .type_mismatch_declaration
          else .ok (gen.declare_var name { stack_loc := gen.stack_size, dtype := dtype })
  | .Let ident dtype expr, gen =>
    match ident.val with
    | none => .error .bad_optional_access
    | some name =>
      if gen.is_declared name then .error .variable_already_declared
      else
        match expr with
        | none =>
          let gen := gen.emit (.mov_imm_flush_left .rax 0) |>.push (.reg .rax)
          .ok (gen.declare_var name { stack_loc := gen.stack_size, dtype := dtype, mut_ := true })
        | some expr =>
          match gen_expr expr gen with
          | .error e => .error e
          | .ok (expr_type, gen) =>
            if expr_type ≠ dtype then .error .type_mismatch_declaration
            else .ok (gen.declare_var name
              { stack_loc := gen.stack_size, dtype := dtype, mut_ := true })
  | .Assign ident expr, gen =>
    match ident.val with
    | none => .error .assignment_missing_identifier
    | some name =>
      match gen.globals name with
      | none => .error .assignment_undeclared
      | some existing_var =>
        if existing_var.mut_ = false then .error .assignment_immutable
        else
          match gen_expr expr gen with
          | .error e => .error e
          | .ok (type, gen) =>
            if type ≠ existing_var.dtype then .error .type_mismatch_assignment
            else .ok (gen.update_var name existing_var
              { stack_loc := gen.stack_size, dtype := type, mut_ := true })
  | .Scope scope, gen => gen_scope scope gen
/-- The branch on `stmt_if->cont.has_value()` that ends the function of
`StmtVisitor` for `NodeStmtIf`; `label` is the target of the `jz`. -/
def gen_stmt_if_cont : Option NodeStmtIfCont → String → Generator → Except GenError Generator
  | some cont, label, gen =>
    let end_label := gen.create_label.1
    let gen := gen.create_label.2
    let gen := gen.emit (.jmp end_label) |>.emit (.label label)
    match gen_if_cont cont end_label gen with
    | .error e => .error e
    | .ok gen => .ok (gen.emit (.label end_label))
  | none, label, gen => .ok (gen.emit (.label label))
/-- The method `Generator::gen_scope`. -/
def gen_scope : NodeStmtScope → Generator → Except GenError Generator
  | .mk stmts, gen =>
    match gen_scope_stmts stmts gen.enter_scope with
    | .error e => .error e
    | .ok gen => gen.exit_scope
/-- The `for` loop of `Generator::gen_scope`. -/
def gen_scope_stmts : List NodeStmt → Generator → Except GenError Generator
  | [], gen => .ok gen
  | stmt_s :: rest, gen =>
    match gen_stmt stmt_s gen with
    | .error e => .error e
    | .ok gen => gen_scope_stmts rest gen
/-- The method `Generator::gen_if_cont` (the two functions of
`StmtIfContVisitor`). -/
def gen_if_cont : NodeStmtIfCont → String → Generator → Except GenError Generator
  | .Elif expr scope cont, end_label, gen =>
    match gen_expr expr gen with
    | .error e => .error e
    | .ok (_, gen) =>
      let gen := gen.pop .rax
      let label := gen.create_label.1
      let gen := gen.create_label.2
      let gen := gen.emit (.test .rax .rax) |>.emit (.jz label)
      match gen_scope scope gen with
      | .error e => .error e
      | .ok gen => gen_elif_cont cont label end_label (gen.emit (.jmp end_label))
  | .Else scope, _, gen => gen_scope scope gen
/-- The branch on `stmt_elif->cont.has_value()` that ends the function of
`StmtIfContVisitor` for `NodeStmtElif`. -/
def gen_elif_cont : Option NodeStmtIfCont → String → String → Generator →
    Except GenError Generator
  | some cont, label, end_label, gen => gen_if_cont cont end_label (gen.emit (.label label))
  | none, _, _, gen => .ok gen
end

/-- The `for` loop of `Generator::gen_prog`; the flag tells whether the loop
was left through `return output.str()`. -/
def gen_prog_loop : List NodeStmt → Generator → Except GenError (Bool × Generator)
  | [], gen => .ok (false, gen)
  | stmt :: rest, gen =>
    if gen.is_terminated then .ok (true, gen)
    else
      match gen_stmt stmt gen with
      | .error e => .error e
      | .ok gen => gen_prog_loop rest gen

/-- The method `Generator::gen_prog` run on the generator `gen`, with the
final generator as result; the returned string is `render` of its `output`. -/
def gen_prog_run (prog : NodeProg) (gen : Generator) : Except GenError Generator :=
  let gen := gen.emit (.extern_ "print_int") |>.emit (.extern_ "print_string")
    |>.emit (.extern_ "print_char") |>.emit (.extern_ "overflow_error")
    |>.emit (.extern_ "divzero_error") |>.emit (.global_ "_start") |>.emit (.label "_start")
  match gen_prog_loop prog.stmts gen with
  | .error e => .error e
  | .ok (true, gen) => .ok gen
  | .ok (false, gen) => .ok gen.gen_exit

/-- The lines returned by `Generator(prog).gen_prog()`: the method run on a
freshly constructed generator. -/
def gen_prog (prog : NodeProg) : Except GenError (List Instr) :=
  match gen_prog_run prog {} with
  | .error e => .error e
  | .ok gen => .ok gen.output

end Generator

open Generator

/-! ## Auxiliary definitions for the statements

These definitions describe the code above in a uniform way; the lemmas
`gen_bin_expr_eq` and `gen_lit_eq` below prove that they agree with it. -/

/-- A generator that differs from `gen` by appended output and one more
stack slot: the net effect of a successful expression generation. -/
def pushed (gen : Generator) (code : List Instr) : Generator :=
  { gen with output := gen.output ++ code, stack_size := size_t_inc gen.stack_size }

/-- The type and the value that `gen_lit` loads for a literal token. -/
def literal_value (tok : Token) : Except GenError (DataType × Int) :=
  match tok.type with
  | .int_lit =>
    match tok.val with
    | none => .error .bad_optional_access
    | some text =>
      match stoll text with
      | .error e => .error e
      | .ok value => .ok (.Int, value)
  | .char_lit =>
    match tok.val with
    | none => .error .bad_optional_access
    | some text => .ok (.Char, char_value text)
  | .bool_lit =>
    match tok.val with
    | none => .error .bad_optional_access
    | some value =>
      if value = "true" then .ok (.Bool, 1)
      else if value = "false" then .ok (.Bool, 0)
      else .error .unknown_boolean_literal
  | _ => .error .unknown_literal_type

/-- The operand that `gen_bin_expr` generates first. -/
def NodeBinExpr.first : NodeBinExpr → NodeExpr
  | .Add lhs _ => lhs | .Mul lhs _ => lhs
  | .Sub _ rhs => rhs | .Div _ rhs => rhs | .Mod _ rhs => rhs | .Eq _ rhs => rhs
  | .Gt _ rhs => rhs | .Neq _ rhs => rhs | .Lte _ rhs => rhs | .Gte _ rhs => rhs
  | .Lt _ rhs => rhs | .And _ rhs => rhs | .Or _ rhs => rhs

/-- The operand that `gen_bin_expr` generates second. -/
def NodeBinExpr.second : NodeBinExpr → NodeExpr
  | .Add _ rhs => rhs | .Mul _ rhs => rhs
  | .Sub lhs _ => lhs | .Div lhs _ => lhs | .Mod lhs _ => lhs | .Eq lhs _ => lhs
  | .Gt lhs _ => lhs | .Neq lhs _ => lhs | .Lte lhs _ => lhs | .Gte lhs _ => lhs
  | .Lt lhs _ => lhs | .And lhs _ => lhs | .Or lhs _ => lhs

/-- The operand type check of `gen_bin_expr`, as a function of the types of
the operand generated first and of the operand generated second. -/
def NodeBinExpr.accepts : NodeBinExpr → DataType → DataType → Bool
  | .Eq _ _, t1, t2 => t2 = t1
  | .Neq _ _, t1, t2 => t2 = t1
  | .And _ _, t1, t2 => (t1 = .Int ∨ t1 = .Bool) ∧ (t2 = .Int ∨ t2 = .Bool)
  | _, t1, t2 => t1 = .Int ∧ t2 = .Int

/-- The type that `gen_bin_expr` returns for an accepted node. -/
def NodeBinExpr.result_type : NodeBinExpr → DataType
  | .Add _ _ => .Int | .Mul _ _ => .Int | .Sub _ _ => .Int | .Div _ _ => .Int | .Mod _ _ => .Int
  | _ => .Bool

/-- The diagnostic of `gen_bin_expr` for a rejected node. -/
def NodeBinExpr.error : NodeBinExpr → GenError
  | .Add _ _ => .addition_operands
  | .Mul _ _ => .multiplication_operands
  | .Sub _ _ => .subtraction_operands
  | .Div _ _ => .division_operands
  | .Mod _ _ => .modulo_operands
  | .Eq _ _ => .equality_operands
  | .Gt _ _ => .greater_than_operands
  | .Neq _ _ => .non_equality_operands
  | .Lte _ _ => .less_than_equal_operands
  | .Gte _ _ => .greater_than_equal_operands
  | .Lt _ _ => .less_than_operands
  | .And _ _ => .and_operands
  | .Or _ _ => .or_operands

/-- The lines that `gen_bin_expr` emits after the code of the two operands. -/
def NodeBinExpr.tail_code : NodeBinExpr → List Instr
  | .Add _ _ => [.pop .rax, .pop .rbx, .add .rax .rbx, .jo "overflow_error", .push (.reg .rax)]
  | .Mul _ _ => [.pop .rax, .pop .rbx, .imul .rbx, .jo "overflow_error", .push (.reg .rax)]
  | .Sub _ _ => [.pop .rax, .pop .rbx, .sub .rax .rbx, .jo "overflow_error", .push (.reg .rax)]
  | .Div _ _ => [.pop .rax, .pop .rbx, .cmp_imm .rbx 0, .je "divzero_error", .cqo, .idiv .rbx,
      .push (.reg .rax)]
  | .Mod _ _ => [.pop .rax, .pop .rbx, .cmp_imm .rbx 0, .je "divzero_error", .cqo, .idiv .rbx,
      .push (.reg .rdx)]
  | .Eq _ _ => [.pop .rax, .pop .rbx, .cmp .rax .rbx, .set .e .al, .movzx .rax .al, .push (.reg .rax)]
  | .Neq _ _ => [.pop .rax, .pop .rbx, .cmp .rax .rbx, .set .ne .al, .movzx .rax .al, .push (.reg .rax)]
  | .Lt _ _ => [.pop .rax, .pop .rbx, .cmp .rax .rbx, .set .l .al, .movzx .rax .al, .push (.reg .rax)]
  | .Gt _ _ => [.pop .rax, .pop .rbx, .cmp .rax .rbx, .set .g .al, .movzx .rax .al, .push (.reg .rax)]
  | .Lte _ _ => [.pop .rax, .pop .rbx, .cmp .rax .rbx, .set .le .al, .movzx .rax .al, .push (.reg .rax)]
  | .Gte _ _ => [.pop .rax, .pop .rbx, .cmp .rax .rbx, .set .ge .al, .movzx .rax .al, .push (.reg .rax)]
  | .And _ _ => [.pop .rax, .pop .rbx, .cmp_imm .rax 0, .set .ne .al, .movzx .rax .al,
      .cmp_imm .rbx 0, .set .ne .bl, .movzx .rbx .bl, .and_ .rax .rbx, .push (.reg .rax)]
  | .Or _ _ => [.pop .rax, .pop .rbx, .cmp_imm .rax 0, .set .ne .al, .movzx .rax .al,
      .cmp_imm .rbx 0, .set .ne .bl, .movzx .rbx .bl, .or_ .rax .rbx, .push (.reg .rax)]

/-- The field `lhs` of the struct inside a `NodeBinExpr`. -/
def NodeBinExpr.lhs : NodeBinExpr → NodeExpr
  | .Add lhs _ => lhs | .Mul lhs _ => lhs | .Sub lhs _ => lhs | .Div lhs _ => lhs
  | .Mod lhs _ => lhs | .Eq lhs _ => lhs | .Gt lhs _ => lhs | .Neq lhs _ => lhs
  | .Lte lhs _ => lhs | .Gte lhs _ => lhs | .Lt lhs _ => lhs | .And lhs _ => lhs
  | .Or lhs _ => lhs

/-- The field `rhs` of the struct inside a `NodeBinExpr`. -/
def NodeBinExpr.rhs : NodeBinExpr → NodeExpr
  | .Add _ rhs => rhs | .Mul _ rhs => rhs | .Sub _ rhs => rhs | .Div _ rhs => rhs
  | .Mod _ rhs => rhs | .Eq _ rhs => rhs | .Gt _ rhs => rhs | .Neq _ rhs => rhs
  | .Lte _ rhs => rhs | .Gte _ rhs => rhs | .Lt _ rhs => rhs | .And _ rhs => rhs
  | .Or _ rhs => rhs

/-- A token that is a literal or an identifier. -/
def is_term_token (t : Token) : Prop :=
  t.type = .int_lit ∨ t.type = .char_lit ∨ t.type = .bool_lit ∨ t.type = .ident

instance (t : Token) : Decidable (is_term_token t) := by
  unfold is_term_token; infer_instance

/-- The term node of a literal or identifier token. -/
def term_of_token (t : Token) : NodeExpr :=
  if t.type = .ident then .Term (.Ident t) else .Term (.Lit t)

/-- The expression `BinExpr(op, lhs, rhs)` for the operator token kind `op`
(for a kind that is no operator, `lhs`). -/
def binary_node (op : TokenType) (lhs rhs : NodeExpr) : NodeExpr :=
  match op with
  | .or_ => .BinExpr (.Or lhs rhs)
  | .and_ => .BinExpr (.And lhs rhs)
  | .eq => .BinExpr (.Eq lhs rhs)
  | .neq => .BinExpr (.Neq lhs rhs)
  | .lt => .BinExpr (.Lt lhs rhs)
  | .gt => .BinExpr (.Gt lhs rhs)
  | .lte => .BinExpr (.Lte lhs rhs)
  | .gte => .BinExpr (.Gte lhs rhs)
  | .plus => .BinExpr (.Add lhs rhs)
  | .sub => .BinExpr (.Sub lhs rhs)
  | .mul => .BinExpr (.Mul lhs rhs)
  | .div => .BinExpr (.Div lhs rhs)
  | .mod => .BinExpr (.Mod lhs rhs)
  | _ => lhs

/-- The precedence table in the words of the specification (higher binds
tighter): `||` = 0, `&&` = 1, `==` and `!=` = 2, `<`, `>`, `<=` and `>=` = 3,
`+` and `-` = 4, `*`, `/` and `%` = 5.  These thirteen token kinds are the
binary operators; every other kind has no level.  It is written down
independently of `get_precedence`, which is compared with it. -/
def spec_precedence : TokenType → Option Nat
  | .or_ => some 0
  | .and_ => some 1
  | .eq => some 2
  | .neq => some 2
  | .lt => some 3
  | .gt => some 3
  | .lte => some 3
  | .gte => some 3
  | .plus => some 4
  | .sub => some 4
  | .mul => some 5
  | .div => some 5
  | .mod => some 5
  | _ => none

/-- The frame stack `S'` is `S` with entries appended to its innermost frame
(to a first frame when `S` has none). -/
def frame_extends (S S' : List (List ScopeEntry)) : Prop :=
  match S with
  | [] => S' = [] ∨ ∃ f, S' = [f]
  | f :: rest => ∃ extra, S' = (f ++ extra) :: rest

/-- The statement is a `let` or `const` declaration of `name`. -/
def NodeStmt.declares : NodeStmt → String → Prop
  | .Const ident _ _, name => ident.val = some name
  | .Let ident _ _, name => ident.val = some name
  | _, _ => False

/-- The arithmetic operators `+ - * / %`. -/
def NodeBinExpr.is_arithmetic : NodeBinExpr → Bool
  | .Add _ _ => true | .Mul _ _ => true | .Sub _ _ => true | .Div _ _ => true
  | .Mod _ _ => true | _ => false

/-- The operators `==` and `!=`. -/
def NodeBinExpr.is_equality : NodeBinExpr → Bool
  | .Eq _ _ => true | .Neq _ _ => true | _ => false

/-- The operators `<`, `>`, `<=` and `>=`. -/
def NodeBinExpr.is_ordering : NodeBinExpr → Bool
  | .Lt _ _ => true | .Gt _ _ => true | .Lte _ _ => true | .Gte _ _ => true | _ => false

/-- The operand type check of `gen_bin_expr` as a function of the types of
`lhs` and `rhs`. -/
def NodeBinExpr.accepts_types : NodeBinExpr → DataType → DataType → Bool
  | .Eq _ _, tl, tr => tl = tr
  | .Neq _ _, tl, tr => tl = tr
  | .And _ _, tl, tr => (tl = .Int ∨ tl = .Bool) ∧ (tr = .Int ∨ tr = .Bool)
  | _, tl, tr => tl = .Int ∧ tr = .Int

/-! ## A machine model of the emitted instructions

Registers and stack slots hold signed 64-bit values, as integers in
`[-2^63, 2^63)`.  The stack is listed top first, so `QWORD [rsp + k]` is the
entry `k / 8`.  Only the effects that the generated code observes are
modelled: the flags `ZF`, `SF`, `OF`, the registers, and the stack. -/

/-- The value of an integer reduced to signed 64-bit two's complement. -/
def wrap64 (x : Int) : Int := (x + 2 ^ 63) % 2 ^ 64 - 2 ^ 63

/-- The integer is representable as a signed 64-bit value. -/
def fits64 (x : Int) : Prop := -(2 ^ 63) ≤ x ∧ x ≤ 2 ^ 63 - 1

instance (x : Int) : Decidable (fits64 x) := by
  unfold fits64; infer_instance

/-- The machine state. -/
structure Machine where
  rax : Int := 0
  rbx : Int := 0
  rdx : Int := 0
  rdi : Int := 0
  rsi : Int := 0
  zf : Bool := false
  sf : Bool := false
  of : Bool := false
  stack : List Int := []
  deriving DecidableEq, Repr

/-- How the execution of a piece of straight-line code ends. -/
inductive Outcome
  | running (m : Machine)
  | jumped (target : String) (m : Machine)
  | fault
  | unmodelled
  deriving DecidableEq, Repr

namespace Machine

/-- The value of a register; `al` and `bl` are the low bytes of `rax`, `rbx`. -/
def get (m : Machine) : Reg → Int
  | .rax => m.rax
  | .rbx => m.rbx
  | .rdx => m.rdx
  | .rdi => m.rdi
  | .rsi => m.rsi
  | .al => m.rax % 256
  | .bl => m.rbx % 256

/-- Writes a register; writing `al` or `bl` replaces the low byte only. -/
def set (m : Machine) (r : Reg) (v : Int) : Machine :=
  match r with
  | .rax => { m with rax := v }
  | .rbx => { m with rbx := v }
  | .rdx => { m with rdx := v }
  | .rdi => { m with rdi := v }
  | .rsi => { m with rsi := v }
  | .al => { m with rax := m.rax - m.rax % 256 + v % 256 }
  | .bl => { m with rbx := m.rbx - m.rbx % 256 + v % 256 }

/-- The flags after an arithmetic instruction whose exact result is `exact`
and whose stored result is `wrap64 exact`. -/
def set_flags (m : Machine) (exact : Int) : Machine :=
  { m with
    zf := decide (wrap64 exact = 0)
    sf := decide (wrap64 exact < 0)
    of := decide (wrap64 exact ≠ exact) }

/-- The condition tested by `set<cc>`. -/
def holds (m : Machine) : Cond → Bool
  | .e => m.zf
  | .ne => !m.zf
  | .l => m.sf != m.of
  | .ge => m.sf == m.of
  | .g => !m.zf && (m.sf == m.of)
  | .le => m.zf || (m.sf != m.of)

/-- The effect of one instruction. -/
def step (m : Machine) : Instr → Outcome
  | .extern_ _ => .running m
  | .global_ _ => .running m
  | .label _ => .running m
  | .mov_imm dst imm => .running (m.set dst imm)
  | .mov_imm_flush_left dst imm => .running (m.set dst imm)
  | .push (.reg r) => .running { m with stack := m.get r :: m.stack }
  | .push (.qword_rsp k) =>
    if k % 8 = 0 then
      match m.stack[k / 8]? with
      | some v => .running { m with stack := v :: m.stack }
      | none => .unmodelled
    else .unmodelled
  | .pop dst =>
    match m.stack with
    | v :: rest => .running ({ m with stack := rest }.set dst v)
    | [] => .unmodelled
  | .neg dst => .running ((m.set dst (wrap64 (-m.get dst))).set_flags (-m.get dst))
  | .cmp_imm a imm => .running (m.set_flags (m.get a - imm))
  | .cmp a b => .running (m.set_flags (m.get a - m.get b))
  | .set cc dst => .running (m.set dst (if m.holds cc then 1 else 0))
  | .movzx dst src => .running (m.set dst (m.get src))
  | .add dst src =>
    .running ((m.set dst (wrap64 (m.get dst + m.get src))).set_flags (m.get dst + m.get src))
  | .sub dst src =>
    .running ((m.set dst (wrap64 (m.get dst - m.get src))).set_flags (m.get dst - m.get src))
  | .imul src =>
    .running { m with
      rax := wrap64 (m.rax * m.get src)
      rdx := (m.rax * m.get src - wrap64 (m.rax * m.get src)) / 2 ^ 64
      of := decide (wrap64 (m.rax * m.get src) ≠ m.rax * m.get src) }
  | .cqo => .running { m with rdx := if m.rax < 0 then -1 else 0 }
  | .idiv src =>
    if m.get src = 0 then .fault
    else if fits64 ((m.rdx * 2 ^ 64 + m.rax % 2 ^ 64).tdiv (m.get src)) then
      .running { m with
        rax := (m.rdx * 2 ^ 64 + m.rax % 2 ^ 64).tdiv (m.get src)
        rdx := (m.rdx * 2 ^ 64 + m.rax % 2 ^ 64).tmod (m.get src) }
    else .fault
  | .and_ dst src =>
    .running ((m.set dst (Int.land (m.get dst) (m.get src))).set_flags
      (Int.land (m.get dst) (m.get src)))
  | .or_ dst src =>
    .running ((m.set dst (Int.lor (m.get dst) (m.get src))).set_flags
      (Int.lor (m.get dst) (m.get src)))
  | .test a b => .running (m.set_flags (Int.land (m.get a) (m.get b)))
  | .jo target => if m.of then .jumped target m else .running m
  | .je target => if m.zf then .jumped target m else .running m
  | .jz target => if m.zf then .jumped target m else .running m
  | .jmp target => .jumped target m
  | .call _ => .unmodelled
  | .lea_rsi_rsp_minus_1 => .unmodelled
  | .mov_byte_rsp_minus_1 _ => .unmodelled
  | .syscall => .unmodelled

/-- Executes straight-line code until it ends, jumps away or stops. -/
def exec : List Instr → Machine → Outcome
  | [], m => .running m
  | i :: rest, m =>
    match m.step i with
    | .running m1 => exec rest m1
    | o => o

end Machine

/-! ## Reference values of expressions -/

/-- The result of evaluating an expression: a value, one of the two run-time
errors, or a case that the evaluation leaves out (`-2^63 / -1`, and
expressions without a value such as a malformed literal). -/
inductive EvalResult
  | value (v : Int)
  | overflow
  | divzero
  | excluded
  deriving DecidableEq, Repr

/-- Evaluates `r1`, then `r2`, then applies `f` to the two values. -/
def EvalResult.both (r1 r2 : EvalResult) (f : Int → Int → EvalResult) : EvalResult :=
  match r1 with
  | .value a =>
    match r2 with
    | .value b => f a b
    | o => o
  | o => o

/-- The result of `+`, `-`, `*` on exact result `x`: overflow outside the
signed 64-bit range. -/
def checked (x : Int) : EvalResult :=
  if fits64 x then .value x else .overflow

/-- The value 1 for a true and 0 for a false proposition. -/
def truth (p : Prop) [Decidable p] : EvalResult :=
  .value (if p then 1 else 0)

/-- Truncating division of `a` by `b` with the function `op` (quotient or
remainder). -/
def divided (op : Int → Int → Int) (a b : Int) : EvalResult :=
  if b = 0 then .divzero
  else if a = -(2 ^ 63) ∧ b = -1 then .excluded
  else .value (op a b)

mutual
/-- The reference value of a term in the environment `env`; `negate` is the
meaning of unary minus. -/
def ref_eval_term (negate : Int → Int) (env : String → Int) : NodeTerm → EvalResult
  | .Lit token =>
    match literal_value token with
    | .ok (_, v) => .value v
    | .error _ => .excluded
  | .Ident ident =>
    match ident.val with
    | some name => .value (env name)
    | none => .excluded
  | .Paren expr => ref_eval negate env expr
  | .Unary .Negate operand =>
    match ref_eval_term negate env operand with
    | .value v => .value (negate v)
    | o => o
  | .Unary .Not operand =>
    match ref_eval_term negate env operand with
    | .value v => truth (v = 0)
    | o => o
/-- The reference value of a binary expression.  The operands are evaluated
in the order in which their code is emitted: `lhs` first for `+` and `*`,
`rhs` first for the other operators. -/
def ref_eval_bin (negate : Int → Int) (env : String → Int) : NodeBinExpr → EvalResult
  | .Add lhs rhs =>
    (ref_eval negate env lhs).both (ref_eval negate env rhs) fun a b => checked (a + b)
  | .Mul lhs rhs =>
    (ref_eval negate env lhs).both (ref_eval negate env rhs) fun a b => checked (a * b)
  | .Sub lhs rhs =>
    (ref_eval negate env rhs).both (ref_eval negate env lhs) fun b a => checked (a - b)
  | .Div lhs rhs =>
    (ref_eval negate env rhs).both (ref_eval negate env lhs) fun b a => divided Int.tdiv a b
  | .Mod lhs rhs =>
    (ref_eval negate env rhs).both (ref_eval negate env lhs) fun b a => divided Int.tmod a b
  | .Eq lhs rhs =>
    (ref_eval negate env rhs).both (ref_eval negate env lhs) fun b a => truth (a = b)
  | .Gt lhs rhs =>
    (ref_eval negate env rhs).both (ref_eval negate env lhs) fun b a => truth (a > b)
  | .Neq lhs rhs =>
    (ref_eval negate env rhs).both (ref_eval negate env lhs) fun b a => truth (a ≠ b)
  | .Lte lhs rhs =>
    (ref_eval negate env rhs).both (ref_eval negate env lhs) fun b a => truth (a ≤ b)
  | .Gte lhs rhs =>
    (ref_eval negate env rhs).both (ref_eval negate env lhs) fun b a => truth (a ≥ b)
  | .Lt lhs rhs =>
    (ref_eval negate env rhs).both (ref_eval negate env lhs) fun b a => truth (a < b)
  | .And lhs rhs =>
    (ref_eval negate env rhs).both (ref_eval negate env lhs) fun b a => truth (a ≠ 0 ∧ b ≠ 0)
  | .Or lhs rhs =>
    (ref_eval negate env rhs).both (ref_eval negate env lhs) fun b a => truth (a ≠ 0 ∨ b ≠ 0)
/-- The reference value of an expression. -/
def ref_eval (negate : Int → Int) (env : String → Int) : NodeExpr → EvalResult
  | .Term term => ref_eval_term negate env term
  | .BinExpr bin_expr => ref_eval_bin negate env bin_expr
end

/-- The run-time stack `stack` belongs to the generator state `gen`: its
depth is `stack_size`, and the slot `stack_loc` of every bound variable,
counted from the bottom, holds the value of the variable in `env`. -/
def stack_holds (gen : Generator) (env : String → Int) (stack : List Int) : Prop :=
  stack.length = gen.stack_size ∧
  ∀ name var, gen.globals name = some var →
    1 ≤ var.stack_loc ∧ var.stack_loc ≤ gen.stack_size ∧
    stack[gen.stack_size - var.stack_loc]? = some (env name)

/-- What correctness of the code of an expression says of an execution that
starts with the stack `stack` and ends as `o`, for the reference result `r`. -/
def agrees (r : EvalResult) (o : Outcome) (stack : List Int) : Prop :=
  match r with
  | .value v => ∃ m, o = .running m ∧ m.stack = v :: stack
  | .overflow => ∃ m, o = .jumped "overflow_error" m
  | .divzero => ∃ m, o = .jumped "divzero_error" m
  | .excluded => o = .fault

/-- `agrees` together with the range of the value. -/
def agrees_fits (r : EvalResult) (o : Outcome) (stack : List Int) : Prop :=
  agrees r o stack ∧ ∀ v, r = .value v → fits64 v

/-- The operation of a binary node on the values of the operand generated
first and of the operand generated second. -/
def NodeBinExpr.apply : NodeBinExpr → Int → Int → EvalResult
  | .Add _ _ => fun a b => checked (a + b)
  | .Mul _ _ => fun a b => checked (a * b)
  | .Sub _ _ => fun b a => checked (a - b)
  | .Div _ _ => fun b a => divided Int.tdiv a b
  | .Mod _ _ => fun b a => divided Int.tmod a b
  | .Eq _ _ => fun b a => truth (a = b)
  | .Gt _ _ => fun b a => truth (a > b)
  | .Neq _ _ => fun b a => truth (a ≠ b)
  | .Lte _ _ => fun b a => truth (a ≤ b)
  | .Gte _ _ => fun b a => truth (a ≥ b)
  | .Lt _ _ => fun b a => truth (a < b)
  | .And _ _ => fun b a => truth (a ≠ 0 ∧ b ≠ 0)
  | .Or _ _ => fun b a => truth (a ≠ 0 ∨ b ≠ 0)

/-- The code after the operands of `/` (`quotient = true`) and `%`. -/
def div_tail (quotient : Bool) : List Instr :=
  [.pop .rax, .pop .rbx, .cmp_imm .rbx 0, .je "divzero_error", .cqo, .idiv .rbx,
    .push (.reg (if quotient then .rax else .rdx))]

/-- The signed comparison that a condition code tests after `cmp x, y`. -/
def Cond.rel : Cond → Int → Int → Bool
  | .e, x, y => decide (x = y)
  | .ne, x, y => decide (x ≠ y)
  | .l, x, y => decide (x < y)
  | .g, x, y => decide (x > y)
  | .le, x, y => decide (x ≤ y)
  | .ge, x, y => decide (x ≥ y)

/-- The code after the operands of a comparison. -/
def compare_tail (cc : Cond) : List Instr :=
  [.pop .rax, .pop .rbx, .cmp .rax .rbx, .set cc .al, .movzx .rax .al, .push (.reg .rax)]

/-- The code after the operands of `&&` (`conj = true`) and `||`. -/
def logical_tail (conj : Bool) : List Instr :=
  [.pop .rax, .pop .rbx, .cmp_imm .rax 0, .set .ne .al, .movzx .rax .al,
    .cmp_imm .rbx 0, .set .ne .bl, .movzx .rbx .bl,
    if conj then .and_ .rax .rbx else .or_ .rax .rbx, .push (.reg .rax)]

/-- Continues the evaluation with `f` when `r` is a value. -/
def EvalResult.bind (r : EvalResult) (f : Int → EvalResult) : EvalResult :=
  match r with
  | .value v => f v
  | o => o

/-- Unary minus as the `neg` instruction computes it. -/
def neg64 (v : Int) : Int := wrap64 (-v)

/-! ## Concrete programs used in the statements -/

/-- The expression of an integer literal with the given text. -/
def int_expr (text : String) : NodeExpr := .Term (.Lit ⟨.int_lit, some text⟩)

/-- The expression of a boolean literal with the given text. -/
def bool_expr (text : String) : NodeExpr := .Term (.Lit ⟨.bool_lit, some text⟩)

/-- The identifier token of a name. -/
def ident_token (name : String) : Token := ⟨.ident, some name⟩

/-- The statement `let int <name> = <text>;`. -/
def let_int (name text : String) : NodeStmt :=
  .Let (ident_token name) .Int (some (int_expr text))

/-- The expression `1 + 2 * 3`. -/
def expr_1_plus_2_times_3 : NodeExpr :=
  .BinExpr (.Add (int_expr "1") (.BinExpr (.Mul (int_expr "2") (int_expr "3"))))

/-- The expression `10 - 2 - 3`, parsed as `(10 - 2) - 3`. -/
def expr_10_minus_2_minus_3 : NodeExpr :=
  .BinExpr (.Sub (.BinExpr (.Sub (int_expr "10") (int_expr "2"))) (int_expr "3"))

/-- The expression `-(0 - 9223372036854775807 - 1)`, the negation of `-2^63`. -/
def expr_negate_min : NodeExpr :=
  .Term (.Unary .Negate (.Paren (.BinExpr (.Sub
    (.BinExpr (.Sub (int_expr "0") (int_expr "9223372036854775807"))) (int_expr "1")))))

/-! ## Decimal literals and the lines of expression code -/

/-- The number that a string of decimal digits denotes. -/
def decimal_value (digits : List Char) : Nat :=
  digits.foldl (fun acc c => acc * 10 + (c.toNat - 48)) 0

/-- The kinds of lines that the code of an expression consists of. -/
def Instr.in_expr : Instr → Bool
  | .mov_imm _ _ => true | .push _ => true | .pop _ => true | .neg _ => true
  | .cmp_imm _ _ => true | .cmp _ _ => true | .set _ _ => true | .movzx _ _ => true
  | .add _ _ => true | .sub _ _ => true | .imul _ => true | .cqo => true | .idiv _ => true
  | .and_ _ _ => true | .or_ _ _ => true | .jo _ => true | .je _ => true
  | _ => false

/-! ## Processes: the machine with the `write` and `exit` system calls -/

/-- The machine together with what the exit sequence uses besides registers
and stack: the byte at `[rsp-1]` when it is known, whether `rsi` holds the
address `rsp-1`, and the bytes written so far to file descriptor 1. -/
structure Process where
  machine : Machine := {}
  byte_below : Option Nat := none
  rsi_below : Bool := false
  written : List Nat := []
  deriving DecidableEq, Repr

/-- How a run of emitted code ends: still running, left through the `exit`
system call with the value of `rdi`, jumped to a label, or stopped. -/
inductive Ending
  | running (p : Process)
  | exited (status : Int) (p : Process)
  | jumped (target : String) (p : Process)
  | fault
  | unmodelled
  deriving DecidableEq, Repr

namespace Process

/-- The effect of one instruction on a process.  `syscall` with `rax = 1` is
`write(rdi, rsi, rdx)`, modelled for one byte at `[rsp-1]` written to file
descriptor 1, and with `rax = 60` it is `exit(rdi)`.  Loading an immediate
into a register other than `rsi` keeps what is known about `[rsp-1]` and
`rsi`; every other instruction of the machine ends it. -/
def step (p : Process) : Instr → Ending
  | .lea_rsi_rsp_minus_1 => .running { p with rsi_below := true }
  | .mov_byte_rsp_minus_1 imm => .running { p with byte_below := some (imm % 256) }
  | .syscall =>
    if p.machine.rax = 1 then
      match p.byte_below with
      | some byte =>
        if p.machine.rdi = 1 ∧ p.machine.rdx = 1 ∧ p.rsi_below = true then
          .running { p with
            machine := { p.machine with rax := 1 }
            written := p.written ++ [byte] }
        else .unmodelled
      | none => .unmodelled
    else if p.machine.rax = 60 then .exited p.machine.rdi p
    else .unmodelled
  | .mov_imm dst imm =>
    .running { p with
      machine := p.machine.set dst imm
      rsi_below := p.rsi_below && decide (dst ≠ .rsi) }
  | i =>
    match p.machine.step i with
    | .running m => .running { p with machine := m, byte_below := none, rsi_below := false }
    | .jumped target m =>
      .jumped target { p with machine := m, byte_below := none, rsi_below := false }
    | .fault => .fault
    | .unmodelled => .unmodelled

/-- Runs straight-line code until it ends, exits, jumps away or stops. -/
def run : List Instr → Process → Ending
  | [], p => .running p
  | i :: rest, p =>
    match p.step i with
    | .running p1 => run rest p1
    | o => o

end Process

/-- The lines of `gen_exit`. -/
def exit_sequence : List Instr :=
  [.mov_imm .rax 1, .mov_imm .rdi 1, .lea_rsi_rsp_minus_1, .mov_byte_rsp_minus_1 10,
    .mov_imm .rdx 1, .syscall, .mov_imm .rax 60, .pop .rdi, .syscall]

/-- The lines that `gen_prog` writes before the statements. -/
def prologue : List Instr :=
  [.extern_ "print_int", .extern_ "print_string", .extern_ "print_char",
    .extern_ "overflow_error", .extern_ "divzero_error", .global_ "_start", .label "_start"]

/-! ## Assignments inside blocks and what leaving a frame restores -/

mutual
/-- The statement contains an assignment to `x`, at any block depth. -/
def NodeStmt.assigns (x : String) : NodeStmt → Bool
  | .Exit _ => false
  | .Const _ _ _ => false
  | .Scope scope => NodeStmtScope.assigns x scope
  | .Print _ => false
  | .If _ scope cont => NodeStmtScope.assigns x scope || NodeStmtIfCont.assigns_opt x cont
  | .Let _ _ _ => false
  | .Assign ident _ => decide (ident.val = some x)
/-- The block contains an assignment to `x`, at any block depth. -/
def NodeStmtScope.assigns (x : String) : NodeStmtScope → Bool
  | .mk stmts => NodeStmt.assigns_list x stmts
/-- One of the statements contains an assignment to `x`. -/
def NodeStmt.assigns_list (x : String) : List NodeStmt → Bool
  | [] => false
  | s :: rest => NodeStmt.assigns x s || NodeStmt.assigns_list x rest
/-- The `else` or `elif` clause contains an assignment to `x`. -/
def NodeStmtIfCont.assigns (x : String) : NodeStmtIfCont → Bool
  | .Else scope => NodeStmtScope.assigns x scope
  | .Elif _ scope cont => NodeStmtScope.assigns x scope || NodeStmtIfCont.assigns_opt x cont
/-- The clause, when present, contains an assignment to `x`. -/
def NodeStmtIfCont.assigns_opt (x : String) : Option NodeStmtIfCont → Bool
  | none => false
  | some cont => NodeStmtIfCont.assigns x cont
end

/-- The innermost frame of a frame stack, empty when there is none. -/
def top_frame (scopes : List (List ScopeEntry)) : List ScopeEntry :=
  match scopes with
  | [] => []
  | frame :: _ => frame

/-- The binding of `x` that the loop of `exit_scope` would leave when run on
the log `frame` and the symbol table `globals`. -/
def restored (frame : List ScopeEntry) (globals : String → Option Var) (x : String) :
    Option Var :=
  frame.foldl restore_entry globals x

/-- Between two generator states the binding that leaving the innermost
frame would restore for `x` is the same, and the binding of `x` itself is the
same when the earlier frame already has an entry of `x`. -/
def keeps (x : String) (gen g' : Generator) : Prop :=
  restored (top_frame g'.scopes) g'.globals x = restored (top_frame gen.scopes) gen.globals x ∧
  (gen.is_declared x = true → g'.globals x = gen.globals x)

/-! ## More concrete programs -/

/-- The statement `print <name>;`. -/
def print_ident (name : String) : NodeStmt := .Print (.Term (.Ident (ident_token name)))

/-- The statement `<name> = <text>;` with an integer literal. -/
def assign_int (name text : String) : NodeStmt := .Assign (ident_token name) (int_expr text)

/-! ## Counting: stack slots, labels, pushes and pops -/

mutual
/-- The number of stack slots that generating the statement allocates: one
for each declaration and each assignment in it, at any block depth. -/
def NodeStmt.slots : NodeStmt → Nat
  | .Exit _ => 0
  | .Const _ _ _ => 1
  | .Scope scope => NodeStmtScope.slots scope
  | .Print _ => 0
  | .If _ scope cont => NodeStmtScope.slots scope + NodeStmtIfCont.slots_opt cont
  | .Let _ _ _ => 1
  | .Assign _ _ => 1
/-- The number of stack slots that generating the block allocates. -/
def NodeStmtScope.slots : NodeStmtScope → Nat
  | .mk stmts => NodeStmt.slots_list stmts
/-- The number of stack slots that generating the statements allocates. -/
def NodeStmt.slots_list : List NodeStmt → Nat
  | [] => 0
  | s :: rest => NodeStmt.slots s + NodeStmt.slots_list rest
/-- The number of stack slots that generating the clause allocates. -/
def NodeStmtIfCont.slots : NodeStmtIfCont → Nat
  | .Else scope => NodeStmtScope.slots scope
  | .Elif _ scope cont => NodeStmtScope.slots scope + NodeStmtIfCont.slots_opt cont
/-- The number of stack slots that generating the clause, when present,
allocates. -/
def NodeStmtIfCont.slots_opt : Option NodeStmtIfCont → Nat
  | none => 0
  | some cont => NodeStmtIfCont.slots cont
end

/-- The generator `g'` has the `stack_size` of `gen` plus `n`, in `size_t`
arithmetic. -/
def grows (gen g' : Generator) (n : Nat) : Prop :=
  gen.stack_size < size_t_mod →
    g'.stack_size < size_t_mod ∧ g'.stack_size = (gen.stack_size + n) % size_t_mod

mutual
/-- The number of calls of `create_label` made while the statement is
generated. -/
def NodeStmt.labels : NodeStmt → Nat
  | .Exit _ => 0
  | .Const _ _ _ => 0
  | .Scope scope => NodeStmtScope.labels scope
  | .Print _ => 0
  | .If _ scope cont =>
    1 + NodeStmtScope.labels scope + (if cont.isSome then 1 else 0) +
      NodeStmtIfCont.labels_opt cont
  | .Let _ _ _ => 0
  | .Assign _ _ => 0
/-- The number of calls of `create_label` made while the block is generated. -/
def NodeStmtScope.labels : NodeStmtScope → Nat
  | .mk stmts => NodeStmt.labels_list stmts
/-- The number of calls of `create_label` made while the statements are
generated. -/
def NodeStmt.labels_list : List NodeStmt → Nat
  | [] => 0
  | s :: rest => NodeStmt.labels s + NodeStmt.labels_list rest
/-- The number of calls of `create_label` made while the clause is generated. -/
def NodeStmtIfCont.labels : NodeStmtIfCont → Nat
  | .Else scope => NodeStmtScope.labels scope
  | .Elif _ scope cont => 1 + NodeStmtScope.labels scope + NodeStmtIfCont.labels_opt cont
/-- The number of calls of `create_label` made while the clause, when
present, is generated. -/
def NodeStmtIfCont.labels_opt : Option NodeStmtIfCont → Nat
  | none => 0
  | some cont => NodeStmtIfCont.labels cont
end

/-- The labels returned by `n` successive calls of `create_label`. -/
def mint : Nat → Generator → List String × Generator
  | 0, gen => ([], gen)
  | n + 1, gen => ((gen.create_label.1 :: (mint n gen.create_label.2).1), (mint n gen.create_label.2).2)

/-- The number of `push` lines in a piece of code. -/
def pushes (code : List Instr) : Nat :=
  code.countP fun i => match i with
    | .push _ => true
    | _ => false

/-- The number of `pop` lines in a piece of code. -/
def pops (code : List Instr) : Nat :=
  code.countP fun i => match i with
    | .pop _ => true
    | _ => false

/-- After every prefix of the code the stack is at most `d` slots lower than
at the start. -/
def dips (code : List Instr) (d : Nat) : Prop :=
  ∀ k, pops (code.take k) ≤ pushes (code.take k) + d

/-- The code has one more `push` than `pop`, and no prefix of it has more
`pop` than `push`. -/
def one_up (code : List Instr) : Prop :=
  pushes code = pops code + 1 ∧ dips code 0

/-! ## The tokeniser (`tokenization.hpp`) -/

/-- Ways in which `Tokeniser::tokenise` ends without a result: a diagnostic
followed by `std::exit(EXIT_FAILURE)`, or the iteration budget of the model
running out. -/
inductive TokenError
  | unexpected_end_after_quote
  | unexpected_end_after_escape
  | unknown_escape_sequence
  | newline_in_char_literal
  | expected_closing_quote
  | unknown_character
  | out_of_fuel
  deriving DecidableEq, Repr

/-- The function `std::isspace` in the "C" locale. -/
def is_space (c : Char) : Bool :=
  c = ' ' || (9 ≤ c.toNat && c.toNat ≤ 13)

/-- The map `keywords`. -/
def keyword (text : String) : Option TokenType :=
  if text = "exit" then some .exit
  else if text = "const" then some .cnst
  else if text = "print" then some .print
  else if text = "if" then some .if_
  else if text = "else" then some .else_
  else if text = "elif" then some .elif
  else if text = "int" then some .int_
  else if text = "char" then some .char_
  else if text = "bool" then some .bool_
  else if text = "true" then some .true_
  else if text = "false" then some .false_
  else if text = "let" then some .let_
  else none

/-- The map `singleCharTokens`. -/
def single_char_token (c : Char) : Option TokenType :=
  if c = ';' then some .semi
  else if c = '=' then some .assign
  else if c = '+' then some .plus
  else if c = '*' then some .mul
  else if c = '-' then some .sub
  else if c = '/' then some .div
  else if c = '<' then some .lt
  else if c = '>' then some .gt
  else if c = '%' then some .mod
  else if c = '(' then some .open_paren
  else if c = ')' then some .close_paren
  else if c = '{' then some .open_curly
  else if c = '}' then some .close_curly
  else if c = '!' then some .not_
  else none

/-- The map `doubleCharTokens`, on the two characters of the key. -/
def double_char_token (c1 c2 : Char) : Option TokenType :=
  if c1 = '=' ∧ c2 = '=' then some .eq
  else if c1 = '!' ∧ c2 = '=' then some .neq
  else if c1 = '<' ∧ c2 = '=' then some .lte
  else if c1 = '>' ∧ c2 = '=' then some .gte
  else if c1 = '&' ∧ c2 = '&' then some .and_
  else if c1 = '|' ∧ c2 = '|' then some .or_
  else none

/-- The number of characters that the loop of the block-comment branch
consumes: it runs while both `peek()` and `peek(1)` exist, `peek()` is not
`*` and `peek(1)` is not `/`. -/
def block_comment_scan : List Char → Nat
  | c0 :: c1 :: rest =>
    if c0 ≠ '*' ∧ c1 ≠ '/' then 1 + block_comment_scan (c1 :: rest) else 0
  | _ => 0

/-- The closing-quote check and the token of a character literal with value
`value`, the closing quote expected at `index`. -/
def close_char_literal (src : List Char) (index : Nat) (tokens : List Token) (value : Char) :
    Except TokenError (Nat × List Token) :=
  if src[index]? = some '\'' then
    .ok (index + 1, tokens ++ [⟨.char_lit, some (String.singleton value)⟩])
  else .error .expected_closing_quote

/-- One iteration of the `while` loop of `Tokeniser::tokenise` at `index`,
where `peek()` is `c`: the index and the tokens after the iteration.  The
inner loops consume the longest run of matching characters. -/
def tokenise_step (src : List Char) (index : Nat) (tokens : List Token) (c : Char) :
    Except TokenError (Nat × List Token) :=
  if c.isAlpha then
    let buf := c :: (src.drop (index + 1)).takeWhile Char.isAlphanum
    match keyword (String.mk buf) with
    | some type =>
      if type = .true_ ∨ type = .false_ then
        .ok (index + buf.length, tokens ++ [⟨.bool_lit, some (String.mk buf)⟩])
      else .ok (index + buf.length, tokens ++ [⟨type, none⟩])
    | none => .ok (index + buf.length, tokens ++ [⟨.ident, some (String.mk buf)⟩])
  else if c.isDigit then
    let buf := c :: (src.drop (index + 1)).takeWhile Char.isDigit
    .ok (index + buf.length, tokens ++ [⟨.int_lit, some (String.mk buf)⟩])
  else if is_space c then .ok (index + 1, tokens)
  else if c = '\'' then
    match src[index + 1]? with
    | none => .error .unexpected_end_after_quote
    | some next_char =>
      if next_char = '\\' then
        match src[index + 2]? with
        | none => .error .unexpected_end_after_escape
        | some escape_char =>
          if escape_char = 'n' then close_char_literal src (index + 3) tokens '\n'
          else if escape_char = 't' then close_char_literal src (index + 3) tokens '\t'
          else if escape_char = '\\' then close_char_literal src (index + 3) tokens '\\'
          else if escape_char = '\'' then close_char_literal src (index + 3) tokens '\''
          else if escape_char = '0' then close_char_literal src (index + 3) tokens '\x00'
          else .error .unknown_escape_sequence
      else if next_char = '\n' then .error .newline_in_char_literal
      else close_char_literal src (index + 2) tokens next_char
  else if c = '/' then
    if src[index + 1]? = some '/' then
      .ok (index + ((src.drop index).takeWhile (fun x => x ≠ '\n')).length, tokens)
    else if src[index + 1]? = some '*' then
      .ok (index + 2 + block_comment_scan (src.drop (index + 2)) + 2, tokens)
    else .ok (index, tokens)
  else
    match (src[index + 1]?).bind (double_char_token c) with
    | some type => .ok (index + 2, tokens ++ [⟨type, none⟩])
    | none =>
      match single_char_token c with
      | some type => .ok (index + 1, tokens ++ [⟨type, none⟩])
      | none => .error .unknown_character

/-- The `while (peek().has_value())` loop of `Tokeniser::tokenise`. -/
def tokenise_loop (src : List Char) : Nat → Nat → List Token → Except TokenError (List Token)
  | 0, _, _ => .error .out_of_fuel
  | fuel + 1, index, tokens =>
    match src[index]? with
    | none => .ok tokens
    | some c =>
      match tokenise_step src index tokens c with
      | .error e => .error e
      | .ok (i, toks) => tokenise_loop src fuel i toks

/-- The method `Tokeniser::tokenise` of a tokeniser constructed on `src`. -/
def tokenise (src : String) (fuel : Nat) : Except TokenError (List Token) :=
  tokenise_loop src.toList fuel 0 []

/-! ## The statement parser (`parser.hpp`) -/

/-- The table `Parser::typeMappings`. -/
def type_mapping : TokenType → Option DataType
  | .int_ => some .Int
  | .char_ => some .Char
  | .bool_ => some .Bool
  | _ => none

mutual
/-- The method `Parser::parse_scope`. -/
def parse_scope (tokens : List Token) :
    Nat → Nat → Except ParseError (Option NodeStmtScope × Nat)
  | 0, _ => .error .out_of_fuel
  | fuel + 1, index =>
    match try_consume tokens index .open_curly with
    | none => .error .expected_open_curly
    | some (_, i) =>
      match parse_scope_loop tokens fuel [] i with
      | .error e => .error e
      | .ok (stmts, j) =>
        match try_consume tokens j .close_curly with
        | none => .error .expected_close_curly
        | some (_, k) => .ok (some (.mk stmts), k)
termination_by structural fuel _ => fuel
/-- The `while` loop of `Parser::parse_scope`, started with the statements
collected so far. -/
def parse_scope_loop (tokens : List Token) :
    Nat → List NodeStmt → Nat → Except ParseError (List NodeStmt × Nat)
  | 0, _, _ => .error .out_of_fuel
  | fuel + 1, stmts, index =>
    match peek tokens index with
    | none => .ok (stmts, index)
    | some t =>
      if t.type = .close_curly then .ok (stmts, index)
      else
        match parse_stmt tokens fuel index with
        | .error e => .error e
        | .ok (none, _) => .error .expected_statement_inside_scope
        | .ok (some stmt, j) => parse_scope_loop tokens fuel (stmts ++ [stmt]) j
termination_by structural fuel _ _ => fuel
/-- The method `Parser::parse_if_cont`. -/
def parse_if_cont (tokens : List Token) :
    Nat → Nat → Except ParseError (Option NodeStmtIfCont × Nat)
  | 0, _ => .error .out_of_fuel
  | fuel + 1, index =>
    match try_consume tokens index .elif with
    | some (_, i) =>
      match try_consume tokens i .open_paren with
      | none => .error .expected_open_paren
      | some (_, i) =>
        match parse_expr tokens fuel 0 true i with
        | .error e => .error e
        | .ok (none, _) => .error .expected_expression
        | .ok (some node_expr, j) =>
          match try_consume tokens j .close_paren with
          | none => .error .expected_close_paren_after_condition
          | some (_, j) =>
            match parse_scope tokens fuel j with
            | .error e => .error e
            | .ok (none, _) => .error .expected_scope
            | .ok (some node_scope, k) =>
              match parse_if_cont tokens fuel k with
              | .error e => .error e
              | .ok (cont, k) => .ok (some (.Elif node_expr node_scope cont), k)
    | none =>
      match try_consume tokens index .else_ with
      | some (_, i) =>
        match parse_scope tokens fuel i with
        | .error e => .error e
        | .ok (none, _) => .error .expected_scope
        | .ok (some node_scope, k) => .ok (some (.Else node_scope), k)
      | none => .ok (none, index)
termination_by structural fuel _ => fuel
/-- The method `Parser::parse_stmt`.  Every branch of the source tests the
same token `peek()`. -/
def parse_stmt (tokens : List Token) :
    Nat → Nat → Except ParseError (Option NodeStmt × Nat)
  | 0, _ => .error .out_of_fuel
  | fuel + 1, index =>
    match peek tokens index with
    | none => .ok (none, index)
    | some t =>
      if t.type = .exit then
        match parse_expr tokens fuel 0 true (index + 1) with
        | .error e => .error e
        | .ok (none, _) => .error .expected_expression
        | .ok (some node_expr, j) =>
          match try_consume tokens j .semi with
          | none => .error .expected_semi
          | some (_, k) => .ok (some (.Exit node_expr), k)
      else if t.type = .print then
        match parse_expr tokens fuel 0 true (index + 1) with
        | .error e => .error e
        | .ok (none, _) => .error .expected_expression
        | .ok (some node_expr, j) =>
          match try_consume tokens j .semi with
          | none => .error .expected_semi
          | some (_, k) => .ok (some (.Print node_expr), k)
      else if t.type = .cnst then
        match peek tokens (index + 1) with
        | none => .error .expected_type
        | some type_tok =>
          match type_mapping type_tok.type with
          | none => .error .expected_valid_type
          | some dtype =>
            match peek tokens (index + 2) with
            | none => .error .expected_identifier_after_type
            | some ident =>
              if ident.type ≠ .ident then .error .expected_identifier_after_type
              else
                match peek tokens (index + 3) with
                | none => .error .expected_assign_after_identifier
                | some assign =>
                  if assign.type ≠ .assign then .error .expected_assign_after_identifier
                  else
                    match parse_expr tokens fuel 0 true (index + 4) with
                    | .error e => .error e
                    | .ok (none, _) => .error .expected_expression
                    | .ok (some node_expr, j) =>
                      match try_consume tokens j .semi with
                      | none => .error .expected_semi
                      | some (_, k) => .ok (some (.Const ident dtype node_expr), k)
      else if t.type = .let_ then
        match peek tokens (index + 1) with
        | none => .error .expected_type
        | some type_tok =>
          match type_mapping type_tok.type with
          | none => .error .expected_valid_type
          | some dtype =>
            match peek tokens (index + 2) with
            | none => .error .expected_identifier_after_type
            | some ident =>
              if ident.type ≠ .ident then .error .expected_identifier_after_type
              else
                match try_consume tokens (index + 3) .assign with
                | some (_, i) =>
                  match parse_expr tokens fuel 0 true i with
                  | .error e => .error e
                  | .ok (none, _) => .error .expected_expression_after_assign
                  | .ok (some node_expr, j) =>
                    match try_consume tokens j .semi with
                    | none => .error .expected_semi_after_let
                    | some (_, k) => .ok (some (.Let ident dtype (some node_expr)), k)
                | none =>
                  match try_consume tokens (index + 3) .semi with
                  | none => .error .expected_semi_after_let
                  | some (_, k) => .ok (some (.Let ident dtype none), k)
      else if t.type = .ident then
        match peek tokens (index + 1) with
        | none => .error .expected_assign_after_identifier
        | some assign =>
          if assign.type ≠ .assign then .error .expected_assign_after_identifier
          else
            match parse_expr tokens fuel 0 true (index + 2) with
            | .error e => .error e
            | .ok (none, _) => .error .expected_expression
            | .ok (some node_expr, j) =>
              match try_consume tokens j .semi with
              | none => .error .expected_semi
              | some (_, k) => .ok (some (.Assign t node_expr), k)
      else if t.type = .open_curly then
        match parse_scope tokens fuel index with
        | .error e => .error e
        | .ok (none, _) => .error .expected_scope
        | .ok (some node_scope, k) => .ok (some (.Scope node_scope), k)
      else if t.type = .if_ then
        match try_consume tokens (index + 1) .open_paren with
        | none => .error .expected_open_paren
        | some (_, i) =>
          match parse_expr tokens fuel 0 true i with
          | .error e => .error e
          | .ok (none, _) => .error .expected_expression
          | .ok (some node_expr, j) =>
            match try_consume tokens j .close_paren with
            | none => .error .expected_close_paren_after_condition
            | some (_, j) =>
              match parse_scope tokens fuel j with
              | .error e => .error e
              | .ok (none, _) => .error .expected_scope
              | .ok (some node_scope, k) =>
                match parse_if_cont tokens fuel k with
                | .error e => .error e
                | .ok (cont, k) => .ok (some (.If node_expr node_scope cont), k)
      else .ok (none, index)
termination_by structural fuel _ => fuel
end

/-- The `while` loop of `Parser::parse_prog`, started with the statements
collected so far. -/
def parse_prog_loop (tokens : List Token) :
    Nat → List NodeStmt → Nat → Except ParseError (List NodeStmt × Nat)
  | 0, _, _ => .error .out_of_fuel
  | fuel + 1, stmts, index =>
    match peek tokens index with
    | none => .ok (stmts, index)
    | some _ =>
      match parse_stmt tokens fuel index with
      | .error e => .error e
      | .ok (none, _) => .error .expected_statement
      | .ok (some node_stmt, j) => parse_prog_loop tokens fuel (stmts ++ [node_stmt]) j

/-- The method `Parser::parse_prog` on a freshly constructed parser, with the
final index. -/
def parse_prog (tokens : List Token) (fuel : Nat) : Except ParseError (NodeProg × Nat) :=
  match parse_prog_loop tokens fuel [] 0 with
  | .error e => .error e
  | .ok (stmts, index) => .ok (⟨stmts⟩, index)

/-- The method `Parser::parse`; `parse_prog` always returns a program, so the
branch `Expected Program` is never taken. -/
def parse (tokens : List Token) (fuel : Nat) : Except ParseError NodeProg :=
  match parse_prog tokens fuel with
  | .error e => .error e
  | .ok (prog, _) => .ok prog

/-! ## Token layouts and results that need enough recursion budget -/

/-- The kind of the token at position `index`, when there is one. -/
def kind_at (tokens : List Token) (index : Nat) : Option TokenType :=
  (peek tokens index).map Token.type

/-- The call `f`, as a function of its recursion budget, returns `r`: every
budget from some point on gives the result `r`. -/
def returns {α : Type} (f : Nat → α) (r : α) : Prop :=
  ∃ fuel0, ∀ fuel, fuel0 ≤ fuel → f fuel = r

/-- The operator of the unary node built for a `-` token (`Negate`) or a `!`
token (`Not`). -/
def unary_op (type : TokenType) : UnaryOp :=
  if type = .sub then .Negate else .Not

/-- The continuation of an `if` with the `elif` clauses `elifs` (condition and
body, in source order) and the optional `else` body `els`: one `Elif` node per
clause, each holding the rest of the chain, with `Else els` or nothing at the
end. -/
def if_chain : List (NodeExpr × NodeStmtScope) → Option NodeStmtScope → Option NodeStmtIfCont
  | [], none => none
  | [], some els => some (.Else els)
  | (e, sc) :: rest, els => some (.Elif e sc (if_chain rest els))

/-- The conditions and bodies of the `Elif` nodes of a continuation, from the
outermost node inwards. -/
def NodeStmtIfCont.clauses : NodeStmtIfCont → List (NodeExpr × NodeStmtScope)
  | .Else _ => []
  | .Elif e sc none => [(e, sc)]
  | .Elif e sc (some c) => (e, sc) :: c.clauses

/-- The body of the `Else` leaf at the end of a continuation, when the chain
ends in one. -/
def NodeStmtIfCont.else_body : NodeStmtIfCont → Option NodeStmtScope
  | .Else sc => some sc
  | .Elif _ _ none => none
  | .Elif _ _ (some c) => c.else_body

/-- The tokens from `index` on are a well-formed tail of an `if`: the clauses
`elif ( e ) { ... }` of `elifs` in order, then `else { ... }` when `els` is
present, ending at `stop`; without an `else` clause the token at `stop` is
neither `elif` nor `else`. -/
inductive if_tail (tokens : List Token) :
    Nat → List (NodeExpr × NodeStmtScope) → Option NodeStmtScope → Nat → Prop
  | done (index : Nat) (h1 : kind_at tokens index ≠ some .elif)
      (h2 : kind_at tokens index ≠ some .else_) : if_tail tokens index [] none index
  | else_clause (index : Nat) (sc : NodeStmtScope) (stop : Nat)
      (h1 : kind_at tokens index = some .else_)
      (h2 : returns (fun fuel => parse_scope tokens fuel (index + 1)) (.ok (some sc, stop))) :
      if_tail tokens index [] (some sc) stop
  | elif_clause (index : Nat) (e : NodeExpr) (j : Nat) (sc : NodeStmtScope) (k : Nat)
      (rest : List (NodeExpr × NodeStmtScope)) (els : Option NodeStmtScope) (stop : Nat)
      (h1 : kind_at tokens index = some .elif)
      (h2 : kind_at tokens (index + 1) = some .open_paren)
      (h3 : returns (fun fuel => parse_expr tokens fuel 0 true (index + 2)) (.ok (some e, j)))
      (h4 : kind_at tokens j = some .close_paren)
      (h5 : returns (fun fuel => parse_scope tokens fuel (j + 1)) (.ok (some sc, k)))
      (h6 : if_tail tokens k rest els stop) :
      if_tail tokens index ((e, sc) :: rest) els stop

/-- The end of a statement form whose last part is an expression, for the
statement starting at `index` with its expression starting at `start`: once
the expression is parsed as `e` up to `j`, `parse_stmt` returns `node e` and
the index `j + 1` when the token at `j` is `;`, and is fatal with `missing`
when the token at `j` is anything else or absent; when the expression parser
is fatal, so is `parse_stmt`, with the same diagnostic. -/
def ends_with_semi (tokens : List Token) (index start : Nat) (node : NodeExpr → NodeStmt)
    (missing : ParseError) : Prop :=
  (∀ e j, returns (fun fuel => parse_expr tokens fuel 0 true start) (.ok (some e, j)) →
    (kind_at tokens j = some .semi →
      returns (fun fuel => parse_stmt tokens fuel index) (.ok (some (node e), j + 1))) ∧
    (kind_at tokens j ≠ some .semi →
      returns (fun fuel => parse_stmt tokens fuel index) (.error missing))) ∧
  (∀ err, returns (fun fuel => parse_expr tokens fuel 0 true start) (.error err) →
    returns (fun fuel => parse_stmt tokens fuel index) (.error err))

/-! ## The log of a frame: the entry that counts for a name -/

/-- The entry of `name` that was logged last in `frame`, when there is one. -/
def last_entry (frame : List ScopeEntry) (name : String) : Option ScopeEntry :=
  frame.reverse.find? fun entry => entry.name = name

/-! ## Exit statements at any block depth -/

mutual
/-- The statement is an `exit` or contains one, at any block depth. -/
def NodeStmt.has_exit : NodeStmt → Bool
  | .Exit _ => true
  | .Const _ _ _ => false
  | .Scope scope => NodeStmtScope.has_exit scope
  | .Print _ => false
  | .If _ scope cont => NodeStmtScope.has_exit scope || NodeStmtIfCont.has_exit_opt cont
  | .Let _ _ _ => false
  | .Assign _ _ => false
/-- The block contains an `exit`, at any block depth. -/
def NodeStmtScope.has_exit : NodeStmtScope → Bool
  | .mk stmts => NodeStmt.has_exit_list stmts
/-- One of the statements is an `exit` or contains one. -/
def NodeStmt.has_exit_list : List NodeStmt → Bool
  | [] => false
  | s :: rest => NodeStmt.has_exit s || NodeStmt.has_exit_list rest
/-- The `else` or `elif` clause contains an `exit`. -/
def NodeStmtIfCont.has_exit : NodeStmtIfCont → Bool
  | .Else scope => NodeStmtScope.has_exit scope
  | .Elif _ scope cont => NodeStmtScope.has_exit scope || NodeStmtIfCont.has_exit_opt cont
/-- The clause, when present, contains an `exit`. -/
def NodeStmtIfCont.has_exit_opt : Option NodeStmtIfCont → Bool
  | none => false
  | some cont => NodeStmtIfCont.has_exit cont
end

/-- The generator `g'` is terminated when `gen` is, and in any case when
`flag` holds: what generating a piece of syntax that contains an `exit`
exactly when `flag` holds does to `is_terminated`. -/
def ends_terminated (flag : Bool) (gen g' : Generator) : Prop :=
  (gen.is_terminated = true → g'.is_terminated = true) ∧
  (flag = true → g'.is_terminated = true)

/-! ## Bindings, the stack size and the offsets of identifier references -/

/-- Every binding in `globals`, and every binding saved in the log of a scope
frame (the bindings that `exit_scope` puts back), names a slot of the stack
as the generator counts it: `1 ≤ stack_loc ≤ stack_size`. -/
def bindings_in_stack (gen : Generator) : Prop :=
  (∀ name var, gen.globals name = some var →
    1 ≤ var.stack_loc ∧ var.stack_loc ≤ gen.stack_size) ∧
  ∀ frame ∈ gen.scopes, ∀ entry ∈ frame, ∀ old, entry.old_binding = some old →
    1 ≤ old.stack_loc ∧ old.stack_loc ≤ gen.stack_size

/-- The change of the generator's `stack_size` that comes with a line: `push`
is written together with `stack_size++`, `pop` with `stack_size--`. -/
def Instr.stack_delta : Instr → Int
  | .push _ => 1
  | .pop _ => -1
  | _ => 0

/-- A line `push QWORD [rsp + k]` written at stack size `depth` has an offset
that is a multiple of 8 and addresses one of the `depth` slots; every other
line passes. -/
def Instr.offset_in_stack (depth : Int) : Instr → Bool
  | .push (.qword_rsp k) => decide (k % 8 = 0) && decide (((k / 8 : Nat) : Int) < depth)
  | _ => true

/-- Every `push QWORD [rsp + k]` in the code passes `Instr.offset_in_stack`
at the stack size at which the generator wrote it, the code starting at stack
size `depth`. -/
def offsets_in_stack : Int → List Instr → Bool
  | _, [] => true
  | depth, i :: rest => i.offset_in_stack depth && offsets_in_stack (depth + i.stack_delta) rest

/-- A line that is no `push QWORD [rsp + k]`. -/
def Instr.no_ref : Instr → Bool
  | .push (.qword_rsp _) => false
  | _ => true

/-- What generation from `gen` to `g'` does to the bindings: `g'` extends the
output of `gen` by some code, and when the bindings of `gen` are in the stack
and the stack size of `gen` plus the number of `push` lines of the code stays
below `2^61`, then the bindings of `g'` are in the stack, the stack size has
not fallen and equals the old one plus the pushes minus the pops of the code,
and every identifier reference in the code has its offset in the stack. -/
def tracks (gen g' : Generator) : Prop :=
  ∃ code, g'.output = gen.output ++ code ∧
    (bindings_in_stack gen → gen.stack_size + pushes code < 2 ^ 61 →
      bindings_in_stack g' ∧ gen.stack_size ≤ g'.stack_size ∧
      g'.stack_size + pops code = gen.stack_size + pushes code ∧
      offsets_in_stack gen.stack_size code = true)

/-! ## Statements in source order -/

/-- The statements `stmts` are those that `parse_stmt` returns one after the
other from `index` up to the end of the tokens: the first is parsed at
`index` and ends at some `j > index`, the next is parsed at `j`, and after
the last one no token is left. -/
def stmts_from (tokens : List Token) : Nat → List NodeStmt → Prop
  | index, [] => tokens.length ≤ index
  | index, s :: rest =>
    ∃ j, index < j ∧ j ≤ tokens.length ∧
      returns (fun fuel => parse_stmt tokens fuel index) (.ok (some s, j)) ∧
      stmts_from tokens j rest

/-! ## Theorems -/

/-! ### The expression parser -/

theorem parse_term_of_term_token (tokens : List Token) (fuel : Nat) (allow_unary : Bool)
    (index : Nat) (t : Token) (hp : tokens[index]? = some t) (ht : is_term_token t) :
    parse_term tokens (fuel + 1) allow_unary index =
      .ok (some (if t.type = .ident then .Ident t else .Lit t), index + 1) := by
  rcases t with ⟨ty, v⟩
  simp only [is_term_token] at ht
  rcases ht with h | h | h | h <;> subst h <;>
    simp [parse_term, try_consume, peek, hp]

theorem make_bin_expr_of_precedence {type : TokenType} (h : 0 ≤ get_precedence type)
    (lhs rhs : NodeExpr) :
    (make_bin_expr type lhs rhs).map NodeExpr.BinExpr = some (binary_node type lhs rhs) := by
  cases type <;> simp [get_precedence] at h <;> simp [make_bin_expr, binary_node]

theorem parse_expr_loop_stop (tokens : List Token) (fuel : Nat) (min_prec : Int)
    (lhs : NodeExpr) (index : Nat) (t : Token) (hp : tokens[index]? = some t)
    (hlt : get_precedence t.type < min_prec) :
    parse_expr_loop tokens (fuel + 1) min_prec lhs index = .ok (lhs, index) := by
  simp [parse_expr_loop, peek, hp, hlt]

theorem parse_expr_loop_step (tokens : List Token) (fuel : Nat) (min_prec : Int)
    (lhs rhs : NodeExpr) (index j : Nat) (t : Token)
    (hp : tokens[index]? = some t)
    (hge : min_prec ≤ get_precedence t.type) (hop : 0 ≤ get_precedence t.type)
    (hr : parse_expr tokens fuel (get_precedence t.type + 1) false (index + 1) =
      .ok (some rhs, j)) :
    parse_expr_loop tokens (fuel + 1) min_prec lhs index =
      parse_expr_loop tokens fuel min_prec (binary_node t.type lhs rhs) j := by
  have hm := make_bin_expr_of_precedence hop lhs rhs
  cases hb : make_bin_expr t.type lhs rhs with
  | none => simp [hb] at hm
  | some b =>
    simp only [hb, Option.map_some', Option.some.injEq] at hm
    simp [parse_expr_loop, peek, hp, not_lt.mpr hge, hr, hb, hm]

theorem parse_expr_of_term (tokens : List Token) (fuel : Nat) (min_prec : Int)
    (allow_unary : Bool) (index : Nat) (t : Token) (hp : tokens[index]? = some t)
    (ht : is_term_token t) :
    parse_expr tokens (fuel + 2) min_prec allow_unary index =
      match parse_expr_loop tokens (fuel + 1) min_prec (term_of_token t) (index + 1) with
      | .error e => .error e
      | .ok (expr_lhs, j) => .ok (some expr_lhs, j) := by
  rw [parse_expr, parse_term_of_term_token tokens fuel allow_unary index t hp ht]
  unfold term_of_token
  split_ifs <;> rfl

theorem parse_expr_three_terms (t1 o1 t2 o2 t3 s : Token) (rest : List Token)
    (fuel : Nat)
    (h1 : is_term_token t1) (h2 : is_term_token t2) (h3 : is_term_token t3)
    (p1 : 0 ≤ get_precedence o1.type) (p2 : 0 ≤ get_precedence o2.type)
    (hs : s.type = .semi) :
    parse_expr (t1 :: o1 :: t2 :: o2 :: t3 :: s :: rest) (fuel + 6) 0 true 0 =
      .ok (some (if get_precedence o2.type ≤ get_precedence o1.type
        then binary_node o2.type
          (binary_node o1.type (term_of_token t1) (term_of_token t2)) (term_of_token t3)
        else binary_node o1.type (term_of_token t1)
          (binary_node o2.type (term_of_token t2) (term_of_token t3))), 5) := by
  have psemi : get_precedence s.type = -1 := by rw [hs]; rfl
  generalize htk : t1 :: o1 :: t2 :: o2 :: t3 :: s :: rest = tokens
  have k0 : tokens[0]? = some t1 := by subst htk; simp
  have k1 : tokens[1]? = some o1 := by subst htk; simp
  have k2 : tokens[2]? = some t2 := by subst htk; simp
  have k3 : tokens[3]? = some o2 := by subst htk; simp
  have k4 : tokens[4]? = some t3 := by subst htk; simp
  have k5 : tokens[5]? = some s := by subst htk; simp
  rw [parse_expr_of_term tokens (fuel + 4) 0 true 0 t1 k0 h1]
  by_cases hc : get_precedence o2.type ≤ get_precedence o1.type
  · have r2 : parse_expr tokens (fuel + 4) (get_precedence o1.type + 1) false (1 + 1) =
        .ok (some (term_of_token t2), 3) := by
      rw [parse_expr_of_term tokens (fuel + 2) _ false 2 t2 k2 h2,
        parse_expr_loop_stop tokens (fuel + 2) _ _ 3 o2 k3 (by omega)]
    have r3 : parse_expr tokens (fuel + 3) (get_precedence o2.type + 1) false (3 + 1) =
        .ok (some (term_of_token t3), 5) := by
      rw [parse_expr_of_term tokens (fuel + 1) _ false 4 t3 k4 h3,
        parse_expr_loop_stop tokens (fuel + 1) _ _ 5 s k5 (by omega)]
    rw [parse_expr_loop_step tokens (fuel + 4) 0 _ _ 1 3 o1 k1 p1 p1 r2,
      parse_expr_loop_step tokens (fuel + 3) 0 _ _ 3 5 o2 k3 p2 p2 r3,
      parse_expr_loop_stop tokens (fuel + 2) 0 _ 5 s k5 (by omega)]
    simp [hc]
  · have r3 : parse_expr tokens (fuel + 2) (get_precedence o2.type + 1) false (3 + 1) =
        .ok (some (term_of_token t3), 5) := by
      rw [parse_expr_of_term tokens fuel _ false 4 t3 k4 h3,
        parse_expr_loop_stop tokens fuel _ _ 5 s k5 (by omega)]
    have r2 : parse_expr tokens (fuel + 4) (get_precedence o1.type + 1) false (1 + 1) =
        .ok (some (binary_node o2.type (term_of_token t2) (term_of_token t3)), 5) := by
      rw [parse_expr_of_term tokens (fuel + 2) _ false 2 t2 k2 h2,
        parse_expr_loop_step tokens (fuel + 2) _ _ _ 3 5 o2 k3 (by omega) p2 r3,
        parse_expr_loop_stop tokens (fuel + 1) _ _ 5 s k5 (by omega)]
    rw [parse_expr_loop_step tokens (fuel + 4) 0 _ _ 1 5 o1 k1 p1 p1 r2,
      parse_expr_loop_stop tokens (fuel + 3) 0 _ 5 s k5 (by omega)]
    simp [hc]

theorem get_precedence_eq_spec (type : TokenType) :
    get_precedence type = (spec_precedence type).elim (-1) (fun level => (level : Int)) := by
  cases type <;> rfl

theorem get_precedence_of_spec {type : TokenType} {level : Nat}
    (h : spec_precedence type = some level) : get_precedence type = (level : Int) := by
  rw [get_precedence_eq_spec, h]; rfl

/-- C1: `get_precedence` is the thirteen-entry table of the specification
(`||` 0, `&&` 1, `==` `!=` 2, `<` `>` `<=` `>=` 3, `+` `-` 4, `*` `/` `%` 5,
and -1 for every other token), and for literal or identifier tokens
`t1 t2 t3` and operator tokens `o1 o2` whose levels in that table are `l1`
and `l2`, `parse_expr` with minimum precedence 0 on `t1 o1 t2 o2 t3 ;`
(whatever follows the `;`) returns, for every recursion budget of at least 6,
`(t1 o1 t2) o2 t3` when `l2 ≤ l1` and `t1 o1 (t2 o2 t3)` when `l2 > l1`, with
the index on the `;`. -/
theorem parse_expr_precedence_climbing (t1 o1 t2 o2 t3 s : Token) (rest : List Token)
    (fuel l1 l2 : Nat)
    (h1 : is_term_token t1) (h2 : is_term_token t2) (h3 : is_term_token t3)
    (p1 : spec_precedence o1.type = some l1) (p2 : spec_precedence o2.type = some l2)
    (hs : s.type = .semi) :
    (∀ type, get_precedence type =
      (spec_precedence type).elim (-1) (fun level => (level : Int))) ∧
    get_precedence o1.type = (l1 : Int) ∧ get_precedence o2.type = (l2 : Int) ∧
    parse_expr (t1 :: o1 :: t2 :: o2 :: t3 :: s :: rest) (fuel + 6) 0 true 0 =
      .ok (some (if l2 ≤ l1
        then binary_node o2.type
          (binary_node o1.type (term_of_token t1) (term_of_token t2)) (term_of_token t3)
        else binary_node o1.type (term_of_token t1)
          (binary_node o2.type (term_of_token t2) (term_of_token t3))), 5) := by
  have g1 := get_precedence_of_spec p1
  have g2 := get_precedence_of_spec p2
  refine ⟨get_precedence_eq_spec, g1, g2, ?_⟩
  rw [parse_expr_three_terms t1 o1 t2 o2 t3 s rest fuel h1 h2 h3
    (by rw [g1]; exact Int.ofNat_nonneg l1) (by rw [g2]; exact Int.ofNat_nonneg l2) hs,
    g1, g2]
  by_cases hc : l2 ≤ l1
  · rw [if_pos hc, if_pos (Int.ofNat_le.mpr hc)]
  · rw [if_neg hc, if_neg (fun h => hc (Int.ofNat_le.mp h))]

/-- Witness of C1, one pair of operators for each step of the table:
`1 + 2 * 3 ;` parses as `1 + (2 * 3)`, `10 - 2 - 3 ;` as `(10 - 2) - 3`,
`a || b && c ;` as `a || (b && c)`, `a && b || c ;` as `(a && b) || c`,
`a && b == c ;` as `a && (b == c)`, `1 != 2 < 3 ;` as `1 != (2 < 3)`,
`1 <= 2 + 3 ;` as `1 <= (2 + 3)`, `1 > 2 >= 3 ;` as `(1 > 2) >= 3`,
`1 * 2 / 3 ;` as `(1 * 2) / 3` and `1 % 2 - 3 ;` as `(1 % 2) - 3`, each
leaving the index on the `;`. -/
theorem parse_expr_precedence_climbing_witness :
    parse_expr [⟨.int_lit, some "1"⟩, ⟨.plus, none⟩, ⟨.int_lit, some "2"⟩, ⟨.mul, none⟩,
        ⟨.int_lit, some "3"⟩, ⟨.semi, none⟩] 6 0 true 0 =
      .ok (some (.BinExpr (.Add (.Term (.Lit ⟨.int_lit, some "1"⟩))
        (.BinExpr (.Mul (.Term (.Lit ⟨.int_lit, some "2"⟩))
          (.Term (.Lit ⟨.int_lit, some "3"⟩)))))), 5) ∧
    parse_expr [⟨.int_lit, some "10"⟩, ⟨.sub, none⟩, ⟨.int_lit, some "2"⟩, ⟨.sub, none⟩,
        ⟨.int_lit, some "3"⟩, ⟨.semi, none⟩] 6 0 true 0 =
      .ok (some (.BinExpr (.Sub (.BinExpr (.Sub (.Term (.Lit ⟨.int_lit, some "10"⟩))
        (.Term (.Lit ⟨.int_lit, some "2"⟩)))) (.Term (.Lit ⟨.int_lit, some "3"⟩)))), 5) ∧
    parse_expr [⟨.ident, some "a"⟩, ⟨.or_, none⟩, ⟨.ident, some "b"⟩, ⟨.and_, none⟩,
        ⟨.ident, some "c"⟩, ⟨.semi, none⟩] 6 0 true 0 =
      .ok (some (.BinExpr (.Or (.Term (.Ident ⟨.ident, some "a"⟩))
        (.BinExpr (.And (.Term (.Ident ⟨.ident, some "b"⟩))
          (.Term (.Ident ⟨.ident, some "c"⟩)))))), 5) ∧
    parse_expr [⟨.ident, some "a"⟩, ⟨.and_, none⟩, ⟨.ident, some "b"⟩, ⟨.or_, none⟩,
        ⟨.ident, some "c"⟩, ⟨.semi, none⟩] 6 0 true 0 =
      .ok (some (.BinExpr (.Or (.BinExpr (.And (.Term (.Ident ⟨.ident, some "a"⟩))
        (.Term (.Ident ⟨.ident, some "b"⟩)))) (.Term (.Ident ⟨.ident, some "c"⟩)))), 5) ∧
    parse_expr [⟨.ident, some "a"⟩, ⟨.and_, none⟩, ⟨.ident, some "b"⟩, ⟨.eq, none⟩,
        ⟨.ident, some "c"⟩, ⟨.semi, none⟩] 6 0 true 0 =
      .ok (some (.BinExpr (.And (.Term (.Ident ⟨.ident, some "a"⟩))
        (.BinExpr (.Eq (.Term (.Ident ⟨.ident, some "b"⟩))
          (.Term (.Ident ⟨.ident, some "c"⟩)))))), 5) ∧
    parse_expr [⟨.int_lit, some "1"⟩, ⟨.neq, none⟩, ⟨.int_lit, some "2"⟩, ⟨.lt, none⟩,
        ⟨.int_lit, some "3"⟩, ⟨.semi, none⟩] 6 0 true 0 =
      .ok (some (.BinExpr (.Neq (.Term (.Lit ⟨.int_lit, some "1"⟩))
        (.BinExpr (.Lt (.Term (.Lit ⟨.int_lit, some "2"⟩))
          (.Term (.Lit ⟨.int_lit, some "3"⟩)))))), 5) ∧
    parse_expr [⟨.int_lit, some "1"⟩, ⟨.lte, none⟩, ⟨.int_lit, some "2"⟩, ⟨.plus, none⟩,
        ⟨.int_lit, some "3"⟩, ⟨.semi, none⟩] 6 0 true 0 =
      .ok (some (.BinExpr (.Lte (.Term (.Lit ⟨.int_lit, some "1"⟩))
        (.BinExpr (.Add (.Term (.Lit ⟨.int_lit, some "2"⟩))
          (.Term (.Lit ⟨.int_lit, some "3"⟩)))))), 5) ∧
    parse_expr [⟨.int_lit, some "1"⟩, ⟨.gt, none⟩, ⟨.int_lit, some "2"⟩, ⟨.gte, none⟩,
        ⟨.int_lit, some "3"⟩, ⟨.semi, none⟩] 6 0 true 0 =
      .ok (some (.BinExpr (.Gte (.BinExpr (.Gt (.Term (.Lit ⟨.int_lit, some "1"⟩))
        (.Term (.Lit ⟨.int_lit, some "2"⟩)))) (.Term (.Lit ⟨.int_lit, some "3"⟩)))), 5) ∧
    parse_expr [⟨.int_lit, some "1"⟩, ⟨.mul, none⟩, ⟨.int_lit, some "2"⟩, ⟨.div, none⟩,
        ⟨.int_lit, some "3"⟩, ⟨.semi, none⟩] 6 0 true 0 =
      .ok (some (.BinExpr (.Div (.BinExpr (.Mul (.Term (.Lit ⟨.int_lit, some "1"⟩))
        (.Term (.Lit ⟨.int_lit, some "2"⟩)))) (.Term (.Lit ⟨.int_lit, some "3"⟩)))), 5) ∧
    parse_expr [⟨.int_lit, some "1"⟩, ⟨.mod, none⟩, ⟨.int_lit, some "2"⟩, ⟨.sub, none⟩,
        ⟨.int_lit, some "3"⟩, ⟨.semi, none⟩] 6 0 true 0 =
      .ok (some (.BinExpr (.Sub (.BinExpr (.Mod (.Term (.Lit ⟨.int_lit, some "1"⟩))
        (.Term (.Lit ⟨.int_lit, some "2"⟩)))) (.Term (.Lit ⟨.int_lit, some "3"⟩)))), 5) :=
  ⟨(parse_expr_precedence_climbing ⟨.int_lit, some "1"⟩ ⟨.plus, none⟩ ⟨.int_lit, some "2"⟩
      ⟨.mul, none⟩ ⟨.int_lit, some "3"⟩ ⟨.semi, none⟩ [] 0 4 5
      (by decide) (by decide) (by decide) rfl rfl rfl).2.2.2,
    (parse_expr_precedence_climbing ⟨.int_lit, some "10"⟩ ⟨.sub, none⟩ ⟨.int_lit, some "2"⟩
      ⟨.sub, none⟩ ⟨.int_lit, some "3"⟩ ⟨.semi, none⟩ [] 0 4 4
      (by decide) (by decide) (by decide) rfl rfl rfl).2.2.2,
    (parse_expr_precedence_climbing ⟨.ident, some "a"⟩ ⟨.or_, none⟩ ⟨.ident, some "b"⟩
      ⟨.and_, none⟩ ⟨.ident, some "c"⟩ ⟨.semi, none⟩ [] 0 0 1
      (by decide) (by decide) (by decide) rfl rfl rfl).2.2.2,
    (parse_expr_precedence_climbing ⟨.ident, some "a"⟩ ⟨.and_, none⟩ ⟨.ident, some "b"⟩
      ⟨.or_, none⟩ ⟨.ident, some "c"⟩ ⟨.semi, none⟩ [] 0 1 0
      (by decide) (by decide) (by decide) rfl rfl rfl).2.2.2,
    (parse_expr_precedence_climbing ⟨.ident, some "a"⟩ ⟨.and_, none⟩ ⟨.ident, some "b"⟩
      ⟨.eq, none⟩ ⟨.ident, some "c"⟩ ⟨.semi, none⟩ [] 0 1 2
      (by decide) (by decide) (by decide) rfl rfl rfl).2.2.2,
    (parse_expr_precedence_climbing ⟨.int_lit, some "1"⟩ ⟨.neq, none⟩ ⟨.int_lit, some "2"⟩
      ⟨.lt, none⟩ ⟨.int_lit, some "3"⟩ ⟨.semi, none⟩ [] 0 2 3
      (by decide) (by decide) (by decide) rfl rfl rfl).2.2.2,
    (parse_expr_precedence_climbing ⟨.int_lit, some "1"⟩ ⟨.lte, none⟩ ⟨.int_lit, some "2"⟩
      ⟨.plus, none⟩ ⟨.int_lit, some "3"⟩ ⟨.semi, none⟩ [] 0 3 4
      (by decide) (by decide) (by decide) rfl rfl rfl).2.2.2,
    (parse_expr_precedence_climbing ⟨.int_lit, some "1"⟩ ⟨.gt, none⟩ ⟨.int_lit, some "2"⟩
      ⟨.gte, none⟩ ⟨.int_lit, some "3"⟩ ⟨.semi, none⟩ [] 0 3 3
      (by decide) (by decide) (by decide) rfl rfl rfl).2.2.2,
    (parse_expr_precedence_climbing ⟨.int_lit, some "1"⟩ ⟨.mul, none⟩ ⟨.int_lit, some "2"⟩
      ⟨.div, none⟩ ⟨.int_lit, some "3"⟩ ⟨.semi, none⟩ [] 0 5 5
      (by decide) (by decide) (by decide) rfl rfl rfl).2.2.2,
    (parse_expr_precedence_climbing ⟨.int_lit, some "1"⟩ ⟨.mod, none⟩ ⟨.int_lit, some "2"⟩
      ⟨.sub, none⟩ ⟨.int_lit, some "3"⟩ ⟨.semi, none⟩ [] 0 5 4
      (by decide) (by decide) (by decide) rfl rfl rfl).2.2.2⟩

/-! ### The generator: uniform descriptions and the frame of `gen_expr` -/

theorem gen_bin_expr_eq (b : NodeBinExpr) (gen : Generator) :
    gen_bin_expr b gen =
      match gen_expr b.first gen with
      | .error e => .error e
      | .ok (t1, gen1) =>
        match gen_expr b.second gen1 with
        | .error e => .error e
        | .ok (t2, gen2) =>
          if b.accepts t1 t2 then
            .ok (b.result_type, { gen2 with
              output := gen2.output ++ b.tail_code
              stack_size := size_t_inc (size_t_dec (size_t_dec gen2.stack_size)) })
          else .error b.error := by
  cases b <;> simp only [gen_bin_expr, NodeBinExpr.first, NodeBinExpr.second] <;>
    cases gen_expr _ gen with
    | error e => rfl
    | ok r1 =>
      obtain ⟨t1, gen1⟩ := r1
      simp only []
      cases gen_expr _ gen1 with
      | error e => rfl
      | ok r2 =>
        obtain ⟨t2, gen2⟩ := r2
        cases t1 <;> cases t2 <;>
          simp [NodeBinExpr.accepts, NodeBinExpr.result_type, NodeBinExpr.error,
            NodeBinExpr.tail_code, emit, push, pop]

theorem size_t_inc_dec_dec_inc_inc (s : Nat) :
    size_t_inc (size_t_dec (size_t_dec (size_t_inc (size_t_inc s)))) = size_t_inc s := by
  simp only [size_t_inc, size_t_dec, size_t_mod]; omega

theorem size_t_inc_dec_inc (s : Nat) :
    size_t_inc (size_t_dec (size_t_inc s)) = size_t_inc s := by
  simp only [size_t_inc, size_t_dec, size_t_mod]; omega

theorem emit_push_eq (gen : Generator) (i : Instr) (o : Operand) :
    (gen.emit i).push o = pushed gen [i, .push o] := by
  simp [pushed, emit, push]

theorem gen_lit_eq (tok : Token) (gen : Generator) :
    gen_lit tok gen =
      match literal_value tok with
      | .error e => .error e
      | .ok (ty, v) => .ok (ty, pushed gen [.mov_imm .rax v, .push (.reg .rax)]) := by
  rcases tok with ⟨type, val⟩
  cases type <;> cases val <;> simp only [gen_lit, literal_value] <;> try rfl
  · cases stoll _ <;> simp [emit_push_eq]
  · simp [emit_push_eq]
  · split_ifs <;> simp [emit_push_eq]

theorem gen_lit_frame (tok : Token) (gen g' : Generator) (ty : DataType)
    (h : gen_lit tok gen = .ok (ty, g')) :
    ∃ v, literal_value tok = .ok (ty, v) ∧
      g' = pushed gen [.mov_imm .rax v, .push (.reg .rax)] := by
  rw [gen_lit_eq] at h
  split at h
  · cases h
  · rename_i ty1 v hv
    simp only [Except.ok.injEq, Prod.mk.injEq] at h
    exact ⟨v, by rw [hv, h.1], h.2.symm⟩

mutual
theorem gen_term_frame : ∀ (t : NodeTerm) (gen g' : Generator) (ty : DataType),
    gen_term t gen = .ok (ty, g') → ∃ code, g' = pushed gen code
  | .Lit tok, gen, g', ty, h => by
    rw [gen_term] at h
    obtain ⟨v, _, hv⟩ := gen_lit_frame tok gen g' ty h
    exact ⟨_, hv⟩
  | .Ident ident, gen, g', ty, h => by
    rw [gen_term] at h
    split at h
    · cases h
    · split at h
      · cases h
      · simp only [Except.ok.injEq, Prod.mk.injEq] at h
        exact ⟨[.push (.qword_rsp (size_t_mul (size_t_sub gen.stack_size (by assumption : Var).stack_loc) 8))], by rw [← h.2]; simp [pushed, push]⟩
  | .Paren e, gen, g', ty, h => by
    rw [gen_term] at h
    exact gen_expr_frame e gen g' ty h
  | .Unary .Negate operand, gen, g', ty, h => by
    rw [gen_term] at h
    split at h
    · cases h
    · rename_i dtype g1 h1
      obtain ⟨c1, hc1⟩ := gen_term_frame operand gen g1 dtype h1
      split at h
      · cases h
      · simp only [Except.ok.injEq, Prod.mk.injEq] at h
        refine ⟨c1 ++ [.pop .rax, .neg .rax, .push (.reg .rax)], ?_⟩
        rw [← h.2, hc1]
        simp [pushed, emit, push, pop, size_t_inc_dec_inc]
  | .Unary .Not operand, gen, g', ty, h => by
    rw [gen_term] at h
    split at h
    · cases h
    · rename_i dtype g1 h1
      obtain ⟨c1, hc1⟩ := gen_term_frame operand gen g1 dtype h1
      split at h
      · cases h
      · simp only [Except.ok.injEq, Prod.mk.injEq] at h
        refine ⟨c1 ++ [.pop .rax, .cmp_imm .rax 0, .set .e .al, .movzx .rax .al,
          .push (.reg .rax)], ?_⟩
        rw [← h.2, hc1]
        simp [pushed, emit, push, pop, size_t_inc_dec_inc]
termination_by t => sizeOf t
theorem gen_bin_expr_frame : ∀ (b : NodeBinExpr) (gen g' : Generator) (ty : DataType),
    gen_bin_expr b gen = .ok (ty, g') → ∃ code, g' = pushed gen code
  | b, gen, g', ty, h => by
    rw [gen_bin_expr_eq] at h
    split at h
    · cases h
    · rename_i t1 g1 h1
      split at h
      · cases h
      · rename_i t2 g2 h2
        have hb1 : sizeOf b.first < sizeOf b := by cases b <;> simp [NodeBinExpr.first] <;> omega
        have hb2 : sizeOf b.second < sizeOf b := by cases b <;> simp [NodeBinExpr.second] <;> omega
        obtain ⟨c1, hc1⟩ := gen_expr_frame b.first gen g1 t1 h1
        obtain ⟨c2, hc2⟩ := gen_expr_frame b.second g1 g2 t2 h2
        split at h
        · simp only [Except.ok.injEq, Prod.mk.injEq] at h
          refine ⟨c1 ++ c2 ++ b.tail_code, ?_⟩
          rw [← h.2, hc2, hc1]
          simp [pushed, size_t_inc_dec_dec_inc_inc]
        · cases h
termination_by b => sizeOf b
theorem gen_expr_frame : ∀ (e : NodeExpr) (gen g' : Generator) (ty : DataType),
    gen_expr e gen = .ok (ty, g') → ∃ code, g' = pushed gen code
  | .Term t, gen, g', ty, h => by
    rw [gen_expr] at h
    exact gen_term_frame t gen g' ty h
  | .BinExpr b, gen, g', ty, h => by
    rw [gen_expr] at h
    exact gen_bin_expr_frame b gen g' ty h
termination_by e => sizeOf e
end


/-! ### The generator: what succeeds depends on `globals` only -/

theorem pushed_globals (gen : Generator) (code : List Instr) :
    (pushed gen code).globals = gen.globals := rfl

theorem pushed_scopes (gen : Generator) (code : List Instr) :
    (pushed gen code).scopes = gen.scopes := rfl

theorem pushed_stack_size (gen : Generator) (code : List Instr) :
    (pushed gen code).stack_size = size_t_inc gen.stack_size := rfl

theorem pushed_output (gen : Generator) (code : List Instr) :
    (pushed gen code).output = gen.output ++ code := rfl

mutual
theorem gen_term_globals_only : ∀ (t : NodeTerm) (gen g' gen2 : Generator) (ty : DataType),
    gen_term t gen = .ok (ty, g') → gen2.globals = gen.globals →
    ∃ g2', gen_term t gen2 = .ok (ty, g2')
  | .Lit tok, gen, g', gen2, ty, h, _ => by
    rw [gen_term] at h ⊢
    obtain ⟨v, hv, _⟩ := gen_lit_frame tok gen g' ty h
    rw [gen_lit_eq, hv]
    exact ⟨_, rfl⟩
  | .Ident ident, gen, g', gen2, ty, h, hg => by
    rw [gen_term] at h ⊢
    rw [hg]
    split at h
    · cases h
    · split at h
      · cases h
      · simp only [Except.ok.injEq, Prod.mk.injEq] at h
        rw [← h.1]
        exact ⟨_, rfl⟩
  | .Paren e, gen, g', gen2, ty, h, hg => by
    rw [gen_term] at h ⊢
    exact gen_expr_globals_only e gen g' gen2 ty h hg
  | .Unary .Negate operand, gen, g', gen2, ty, h, hg => by
    rw [gen_term] at h ⊢
    split at h
    · cases h
    · rename_i dtype g1 h1
      obtain ⟨g3, h3⟩ := gen_term_globals_only operand gen g1 gen2 dtype h1 hg
      rw [h3]
      split at h
      · cases h
      · rename_i hd
        simp only [Except.ok.injEq, Prod.mk.injEq] at h
        simp only [hd, if_false, ← h.1]
        exact ⟨_, rfl⟩
  | .Unary .Not operand, gen, g', gen2, ty, h, hg => by
    rw [gen_term] at h ⊢
    split at h
    · cases h
    · rename_i dtype g1 h1
      obtain ⟨g3, h3⟩ := gen_term_globals_only operand gen g1 gen2 dtype h1 hg
      rw [h3]
      split at h
      · cases h
      · rename_i hd
        simp only [Except.ok.injEq, Prod.mk.injEq] at h
        simp only [hd, if_false, ← h.1]
        exact ⟨_, rfl⟩
termination_by t => sizeOf t
theorem gen_bin_expr_globals_only : ∀ (b : NodeBinExpr) (gen g' gen2 : Generator)
    (ty : DataType), gen_bin_expr b gen = .ok (ty, g') → gen2.globals = gen.globals →
    ∃ g2', gen_bin_expr b gen2 = .ok (ty, g2')
  | b, gen, g', gen2, ty, h, hg => by
    rw [gen_bin_expr_eq] at h ⊢
    split at h
    · cases h
    · rename_i t1 g1 h1
      split at h
      · cases h
      · rename_i t2 g2 h2
        have hb1 : sizeOf b.first < sizeOf b := by cases b <;> simp [NodeBinExpr.first] <;> omega
        have hb2 : sizeOf b.second < sizeOf b := by
          cases b <;> simp [NodeBinExpr.second] <;> omega
        obtain ⟨c1, hc1⟩ := gen_expr_frame b.first gen g1 t1 h1
        obtain ⟨g3, h3⟩ := gen_expr_globals_only b.first gen g1 gen2 t1 h1 hg
        obtain ⟨c3, hc3⟩ := gen_expr_frame b.first gen2 g3 t1 h3
        have hg3 : g3.globals = g1.globals := by rw [hc3, hc1, pushed_globals, pushed_globals, hg]
        obtain ⟨g4, h4⟩ := gen_expr_globals_only b.second g1 g2 g3 t2 h2 hg3
        rw [h3]
        simp only [h4]
        split at h
        · rename_i ha
          simp only [Except.ok.injEq, Prod.mk.injEq] at h
          simp only [ha, if_true, ← h.1]
          exact ⟨_, rfl⟩
        · cases h
termination_by b => sizeOf b
theorem gen_expr_globals_only : ∀ (e : NodeExpr) (gen g' gen2 : Generator) (ty : DataType),
    gen_expr e gen = .ok (ty, g') → gen2.globals = gen.globals →
    ∃ g2', gen_expr e gen2 = .ok (ty, g2')
  | .Term t, gen, g', gen2, ty, h, hg => by
    rw [gen_expr] at h ⊢
    exact gen_term_globals_only t gen g' gen2 ty h hg
  | .BinExpr b, gen, g', gen2, ty, h, hg => by
    rw [gen_expr] at h ⊢
    exact gen_bin_expr_globals_only b gen g' gen2 ty h hg
termination_by e => sizeOf e
end

theorem frame_extends_refl (S : List (List ScopeEntry)) : frame_extends S S := by
  cases S with
  | nil => exact Or.inl rfl
  | cons f rest => exact ⟨[], by simp⟩

theorem frame_extends_trans {S S' S'' : List (List ScopeEntry)}
    (h1 : frame_extends S S') (h2 : frame_extends S' S'') : frame_extends S S'' := by
  cases S with
  | nil =>
    rcases h1 with h1 | ⟨f, h1⟩
    · subst h1; exact h2
    · subst h1
      obtain ⟨extra, h2⟩ := h2
      exact Or.inr ⟨_, h2⟩
  | cons f rest =>
    obtain ⟨e1, h1⟩ := h1
    subst h1
    obtain ⟨e2, h2⟩ := h2
    exact ⟨e1 ++ e2, by rw [h2, List.append_assoc]⟩

theorem frame_extends_of_eq {S S' : List (List ScopeEntry)} (h : S' = S) :
    frame_extends S S' := h ▸ frame_extends_refl S

theorem gen_expr_scopes {e : NodeExpr} {gen g' : Generator} {ty : DataType}
    (h : gen_expr e gen = .ok (ty, g')) : g'.scopes = gen.scopes := by
  obtain ⟨c, hc⟩ := gen_expr_frame e gen g' ty h
  rw [hc]; rfl

theorem declare_var_frame_extends (gen : Generator) (name : String) (var : Var) :
    frame_extends gen.scopes (gen.declare_var name var).scopes := by
  unfold declare_var
  cases hs : gen.scopes with
  | nil => exact Or.inr ⟨_, rfl⟩
  | cons f rest => exact ⟨_, rfl⟩

theorem update_var_frame_extends (gen : Generator) (name : String) (old_var new_var : Var) :
    frame_extends gen.scopes (gen.update_var name old_var new_var).scopes := by
  unfold update_var
  cases hs : gen.scopes with
  | nil => exact Or.inl rfl
  | cons f rest => exact ⟨_, rfl⟩

mutual
theorem gen_stmt_frame_extends : ∀ (s : NodeStmt) (gen g' : Generator),
    gen_stmt s gen = .ok g' → frame_extends gen.scopes g'.scopes
  | .Exit expr, gen, g', h => by
    rw [gen_stmt] at h
    split at h
    · cases h
    · rename_i ty g1 h1
      simp only [Except.ok.injEq] at h
      rw [← h]
      exact frame_extends_of_eq (gen_expr_scopes h1 :)
  | .Print expr, gen, g', h => by
    rw [gen_stmt] at h
    split at h
    · cases h
    · rename_i ty g1 h1
      have := gen_expr_scopes h1
      cases ty <;> simp only [Except.ok.injEq] at h <;> rw [← h] <;>
        exact frame_extends_of_eq this
  | .If expr scope cont, gen, g', h => by
    rw [gen_stmt] at h
    split at h
    · cases h
    · rename_i ty g1 h1
      have e1 := gen_expr_scopes h1
      simp only [] at h
      split at h
      · cases h
      · rename_i g2 h2
        have e2 := gen_scope_scopes scope _ g2 h2
        have e3 := gen_stmt_if_cont_scopes cont _ g2 g' h
        exact frame_extends_of_eq (by rw [e3, e2]; exact e1)
  | .Const ident dtype expr, gen, g', h => by
    rw [gen_stmt] at h
    split at h
    · cases h
    · split at h
      · cases h
      · split at h
        · cases h
        · rename_i ty g1 h1
          split at h
          · cases h
          · simp only [Except.ok.injEq] at h
            rw [← h, ← gen_expr_scopes h1]
            exact declare_var_frame_extends _ _ _
  | .Let ident dtype expr, gen, g', h => by
    rw [gen_stmt] at h
    split at h
    · cases h
    · split at h
      · cases h
      · split at h
        · simp only [Except.ok.injEq] at h
          rw [← h]
          exact (declare_var_frame_extends
            ((gen.emit (.mov_imm_flush_left .rax 0)).push (.reg .rax)) _ _ :)
        · split at h
          · cases h
          · rename_i ty g1 h1
            split at h
            · cases h
            · simp only [Except.ok.injEq] at h
              rw [← h, ← gen_expr_scopes h1]
              exact declare_var_frame_extends _ _ _
  | .Assign ident expr, gen, g', h => by
    rw [gen_stmt] at h
    split at h
    · cases h
    · split at h
      · cases h
      · split at h
        · cases h
        · split at h
          · cases h
          · rename_i ty g1 h1
            split at h
            · cases h
            · simp only [Except.ok.injEq] at h
              rw [← h, ← gen_expr_scopes h1]
              exact update_var_frame_extends _ _ _ _
  | .Scope scope, gen, g', h => by
    rw [gen_stmt] at h
    exact frame_extends_of_eq (gen_scope_scopes scope gen g' h)
theorem gen_stmt_if_cont_scopes : ∀ (c : Option NodeStmtIfCont) (label : String)
    (gen g' : Generator), gen_stmt_if_cont c label gen = .ok g' → g'.scopes = gen.scopes
  | some cont, label, gen, g', h => by
    rw [gen_stmt_if_cont] at h
    split at h
    · cases h
    · rename_i g1 h1
      simp only [Except.ok.injEq] at h
      rw [← h]
      exact (gen_if_cont_scopes cont _ _ g1 h1 :)
  | none, label, gen, g', h => by
    rw [gen_stmt_if_cont] at h
    simp only [Except.ok.injEq] at h
    rw [← h]; rfl
theorem gen_scope_scopes : ∀ (sc : NodeStmtScope) (gen g' : Generator),
    gen_scope sc gen = .ok g' → g'.scopes = gen.scopes
  | .mk stmts, gen, g', h => by
    rw [gen_scope] at h
    split at h
    · cases h
    · rename_i g1 h1
      have := gen_scope_stmts_frame_extends stmts _ g1 h1
      obtain ⟨extra, he⟩ := this
      unfold exit_scope at h
      rw [he] at h
      simp only [Except.ok.injEq] at h
      rw [← h]
theorem gen_scope_stmts_frame_extends : ∀ (l : List NodeStmt) (gen g' : Generator),
    gen_scope_stmts l gen = .ok g' → frame_extends gen.scopes g'.scopes
  | [], gen, g', h => by
    rw [gen_scope_stmts] at h
    simp only [Except.ok.injEq] at h
    rw [← h]; exact frame_extends_refl _
  | s :: rest, gen, g', h => by
    rw [gen_scope_stmts] at h
    split at h
    · cases h
    · rename_i g1 h1
      exact frame_extends_trans (gen_stmt_frame_extends s gen g1 h1)
        (gen_scope_stmts_frame_extends rest g1 g' h)
theorem gen_if_cont_scopes : ∀ (c : NodeStmtIfCont) (end_label : String)
    (gen g' : Generator), gen_if_cont c end_label gen = .ok g' → g'.scopes = gen.scopes
  | .Elif expr scope cont, end_label, gen, g', h => by
    rw [gen_if_cont] at h
    split at h
    · cases h
    · rename_i ty g1 h1
      have e1 := gen_expr_scopes h1
      simp only [] at h
      split at h
      · cases h
      · rename_i g2 h2
        have e2 := gen_scope_scopes scope _ g2 h2
        have e3 := gen_elif_cont_scopes cont _ _ _ g' h
        rw [e3]; simp only [emit]; rw [e2]; exact e1
  | .Else scope, end_label, gen, g', h => by
    rw [gen_if_cont] at h
    exact gen_scope_scopes scope gen g' h
theorem gen_elif_cont_scopes : ∀ (c : Option NodeStmtIfCont) (label end_label : String)
    (gen g' : Generator), gen_elif_cont c label end_label gen = .ok g' →
    g'.scopes = gen.scopes
  | some cont, label, end_label, gen, g', h => by
    rw [gen_elif_cont] at h
    exact (gen_if_cont_scopes cont _ _ g' h :)
  | none, label, end_label, gen, g', h => by
    rw [gen_elif_cont] at h
    simp only [Except.ok.injEq] at h
    rw [← h]
end

theorem stoll_error (text : String) (err : GenError) (h : stoll text = .error err) :
    err = .invalid_integer_literal ∨ err = .integer_literal_out_of_bounds := by
  unfold stoll at h
  simp only [] at h
  split_ifs at h <;> cases h <;> simp

theorem literal_value_error (tok : Token) (err : GenError)
    (h : literal_value tok = .error err) : err ≠ .variable_already_declared := by
  rcases tok with ⟨type, val⟩
  cases type <;> cases val <;> simp only [literal_value] at h <;> try (cases h; decide)
  · split at h
    · rename_i e he
      cases h
      rcases stoll_error _ _ he with h | h <;> rw [h] <;> decide
    · cases h
  · cases h
  · split_ifs at h
    cases h; decide

mutual
theorem gen_term_error : ∀ (t : NodeTerm) (gen : Generator) (err : GenError),
    gen_term t gen = .error err → err ≠ .variable_already_declared
  | .Lit tok, gen, err, h => by
    rw [gen_term, gen_lit_eq] at h
    split at h
    · rename_i e he
      cases h
      exact literal_value_error tok _ he
    · cases h
  | .Ident ident, gen, err, h => by
    rw [gen_term] at h
    split at h
    · cases h; decide
    · split at h
      · cases h; decide
      · cases h
  | .Paren e, gen, err, h => by
    rw [gen_term] at h
    exact gen_expr_error e gen err h
  | .Unary .Negate operand, gen, err, h => by
    rw [gen_term] at h
    split at h
    · rename_i e1 h1
      cases h
      exact gen_term_error operand gen _ h1
    · split at h
      · cases h; decide
      · cases h
  | .Unary .Not operand, gen, err, h => by
    rw [gen_term] at h
    split at h
    · rename_i e1 h1
      cases h
      exact gen_term_error operand gen _ h1
    · split at h
      · cases h; decide
      · cases h
termination_by t => sizeOf t
theorem gen_bin_expr_error : ∀ (b : NodeBinExpr) (gen : Generator) (err : GenError),
    gen_bin_expr b gen = .error err → err ≠ .variable_already_declared
  | b, gen, err, h => by
    rw [gen_bin_expr_eq] at h
    have hb1 : sizeOf b.first < sizeOf b := by cases b <;> simp [NodeBinExpr.first] <;> omega
    have hb2 : sizeOf b.second < sizeOf b := by
      cases b <;> simp [NodeBinExpr.second] <;> omega
    split at h
    · rename_i e1 h1
      cases h
      exact gen_expr_error b.first gen _ h1
    · split at h
      · rename_i e2 h2
        cases h
        exact gen_expr_error b.second _ _ h2
      · split at h
        · cases h
        · cases h
          cases b <;> simp [NodeBinExpr.error]
termination_by b => sizeOf b
theorem gen_expr_error : ∀ (e : NodeExpr) (gen : Generator) (err : GenError),
    gen_expr e gen = .error err → err ≠ .variable_already_declared
  | .Term t, gen, err, h => by
    rw [gen_expr] at h
    exact gen_term_error t gen err h
  | .BinExpr b, gen, err, h => by
    rw [gen_expr] at h
    exact gen_bin_expr_error b gen err h
termination_by e => sizeOf e
end

theorem is_declared_declare_var (gen : Generator) (name : String) (var : Var) :
    (gen.declare_var name var).is_declared name = true := by
  unfold declare_var is_declared
  cases gen.scopes <;> simp

theorem is_declared_of_frame_extends {gen g' : Generator} {name : String}
    (h : frame_extends gen.scopes g'.scopes) (hd : gen.is_declared name = true) :
    g'.is_declared name = true := by
  unfold is_declared at hd ⊢
  cases hs : gen.scopes with
  | nil => rw [hs] at hd; cases hd
  | cons f rest =>
    rw [hs] at hd h
    obtain ⟨extra, he⟩ := h
    rw [he]
    simp only [List.any_append, Bool.or_eq_true] at hd ⊢
    exact Or.inl hd

theorem gen_stmt_declares_is_declared {d : NodeStmt} {name : String} (hd : d.declares name)
    {gen g' : Generator} (h : gen_stmt d gen = .ok g') : g'.is_declared name = true := by
  cases d <;> simp only [NodeStmt.declares] at hd
  · rw [gen_stmt, hd] at h
    simp only [] at h
    split at h
    · cases h
    · split at h
      · cases h
      · split at h
        · cases h
        · simp only [Except.ok.injEq] at h
          rw [← h]
          exact is_declared_declare_var _ _ _
  · rw [gen_stmt, hd] at h
    simp only [] at h
    split at h
    · cases h
    · split at h
      · simp only [Except.ok.injEq] at h
        rw [← h]
        exact is_declared_declare_var _ _ _
      · split at h
        · cases h
        · split at h
          · cases h
          · simp only [Except.ok.injEq] at h
            rw [← h]
            exact is_declared_declare_var _ _ _

theorem gen_stmt_declares_of_is_declared {d : NodeStmt} {name : String} (hd : d.declares name)
    {gen : Generator} (h : gen.is_declared name = true) :
    gen_stmt d gen = .error .variable_already_declared := by
  cases d <;> simp only [NodeStmt.declares] at hd <;> rw [gen_stmt, hd] <;> simp [h]

theorem gen_stmt_declares_not_rejected {d : NodeStmt} {name : String} (hd : d.declares name)
    {gen : Generator} (h : gen.is_declared name = false) :
    gen_stmt d gen ≠ .error .variable_already_declared := by
  cases d <;> simp only [NodeStmt.declares] at hd <;> rw [gen_stmt, hd] <;>
    simp only [h, Bool.false_eq_true, if_false] <;> intro hc
  · split at hc
    · rename_i e he
      cases hc
      exact gen_expr_error _ _ _ he rfl
    · split at hc <;> cases hc
  · split at hc
    · cases hc
    · split at hc
      · rename_i e he
        cases hc
        exact gen_expr_error _ _ _ he rfl
      · split at hc <;> cases hc

/-- The outcome of `gen_bin_expr` in terms of the types of its operands, each
generated from the state in which `gen_bin_expr` starts. -/
theorem gen_bin_expr_of_operands (b : NodeBinExpr) (gen gl gr : Generator) (tl tr : DataType)
    (hl : gen_expr b.lhs gen = .ok (tl, gl)) (hr : gen_expr b.rhs gen = .ok (tr, gr)) :
    (b.accepts_types tl tr = true → ∃ g', gen_bin_expr b gen = .ok (b.result_type, g')) ∧
    (b.accepts_types tl tr = false → gen_bin_expr b gen = .error b.error) := by
  rw [gen_bin_expr_eq]
  have key : ∀ (x y : NodeExpr) (tx ty : DataType) (gx gy : Generator),
      gen_expr x gen = .ok (tx, gx) → gen_expr y gen = .ok (ty, gy) →
      ∃ g2, gen_expr y gx = .ok (ty, g2) := by
    intro x y tx ty gx gy hx hy
    obtain ⟨c, hc⟩ := gen_expr_frame x gen gx tx hx
    exact gen_expr_globals_only y gen gy gx ty hy (by rw [hc]; rfl)
  cases b <;> simp only [NodeBinExpr.lhs, NodeBinExpr.rhs] at hl hr <;>
    simp only [NodeBinExpr.first, NodeBinExpr.second]
  case Add | Mul =>
    obtain ⟨g2, h2⟩ := key _ _ _ _ _ _ hl hr
    rw [hl]; simp only [h2]
    cases tl <;> cases tr <;>
      simp [NodeBinExpr.accepts, NodeBinExpr.accepts_types, NodeBinExpr.result_type]
  all_goals
    obtain ⟨g2, h2⟩ := key _ _ _ _ _ _ hr hl
    rw [hr]; simp only [h2]
    cases tl <;> cases tr <;>
      simp [NodeBinExpr.accepts, NodeBinExpr.accepts_types, NodeBinExpr.result_type]

theorem gen_bin_expr_outcome (b : NodeBinExpr) (gen gl gr : Generator) (tl tr : DataType)
    (hl : gen_expr b.lhs gen = .ok (tl, gl)) (hr : gen_expr b.rhs gen = .ok (tr, gr)) :
    ((∃ err, gen_bin_expr b gen = .error err) ↔ b.accepts_types tl tr = false) ∧
    ((∃ ty g', gen_bin_expr b gen = .ok (ty, g')) ↔ b.accepts_types tl tr = true) ∧
    (∀ ty g', gen_bin_expr b gen = .ok (ty, g') → ty = b.result_type) := by
  have h := gen_bin_expr_of_operands b gen gl gr tl tr hl hr
  cases ha : b.accepts_types tl tr with
  | true =>
    obtain ⟨g', hg⟩ := h.1 ha
    rw [hg]
    simp
  | false =>
    rw [h.2 ha]
    simp

/-! ### The machine: the code of an expression computes its reference value -/

theorem wrap64_of_fits {x : Int} (h : fits64 x) : wrap64 x = x := by
  unfold wrap64; unfold fits64 at h; omega

theorem fits64_wrap64 (x : Int) : fits64 (wrap64 x) := by
  unfold wrap64 fits64; omega

theorem wrap64_eq_iff (x : Int) : wrap64 x = x ↔ fits64 x :=
  ⟨fun h => h ▸ fits64_wrap64 x, wrap64_of_fits⟩

theorem exec_append (c1 c2 : List Instr) (m : Machine) :
    m.exec (c1 ++ c2) =
      match m.exec c1 with
      | .running m1 => m1.exec c2
      | o => o := by
  induction c1 generalizing m with
  | nil => rfl
  | cons i rest ih =>
    simp only [List.cons_append, Machine.exec]
    cases hstep : m.step i with
    | running m1 => exact ih m1
    | jumped t m1 => rfl
    | fault => rfl
    | unmodelled => rfl

theorem ref_eval_bin_eq (negate : Int → Int) (env : String → Int) (b : NodeBinExpr) :
    ref_eval_bin negate env b =
      (ref_eval negate env b.first).both (ref_eval negate env b.second) b.apply := by
  cases b <;> rfl

theorem tail_add (l r : NodeExpr) (m : Machine) (a c : Int) (st : List Int)
    (hm : m.stack = c :: a :: st) :
    agrees_fits ((NodeBinExpr.Add l r).apply a c) (m.exec (NodeBinExpr.Add l r).tail_code) st := by
  obtain ⟨rax, rbx, rdx, rdi, rsi, zf, sf, of, stack⟩ := m
  simp only at hm
  subst hm
  simp only [NodeBinExpr.apply, NodeBinExpr.tail_code, Machine.exec, Machine.step, Machine.set,
    Machine.get, Machine.set_flags, checked, agrees_fits]
  simp only [Int.add_comm c a]
  by_cases hf : fits64 (a + c)
  · simp [hf, wrap64_of_fits hf, agrees]
  · have hw : wrap64 (a + c) ≠ a + c := by rw [Ne, wrap64_eq_iff]; exact hf
    simp [hf, hw, agrees]

theorem natAbs_tmod_le (c a : Int) : (c.tmod a).natAbs ≤ c.natAbs := by
  cases c with
  | ofNat m =>
    cases a with
    | ofNat n =>
      simp only [Int.ofNat_eq_coe]
      rw [← Int.ofNat_tmod]
      simp only [Int.natAbs_ofNat]
      exact Nat.mod_le m n
    | negSucc n =>
      simp only [Int.ofNat_eq_coe]
      rw [Int.negSucc_eq, Int.tmod_neg]
      have : ((m : Int)).tmod ((n : Int) + 1) = ((m % (n + 1) : Nat) : Int) := by
        rw [Int.ofNat_tmod]; rfl
      rw [this]
      simp only [Int.natAbs_ofNat]
      exact Nat.mod_le m _
  | negSucc m =>
    cases a with
    | ofNat n =>
      show (Int.tmod (Int.negSucc m) (Int.ofNat n)).natAbs ≤ _
      simp only [Int.tmod]
      simp only [Int.natAbs_neg, Int.natAbs_ofNat]
      exact Nat.mod_le _ _
    | negSucc n =>
      show (Int.tmod (Int.negSucc m) (Int.negSucc n)).natAbs ≤ _
      simp only [Int.tmod]
      simp only [Int.natAbs_neg, Int.natAbs_ofNat]
      exact Nat.mod_le _ _

theorem tmod_sign (c a : Int) : (0 ≤ c → 0 ≤ c.tmod a) ∧ (c ≤ 0 → c.tmod a ≤ 0) := by
  constructor
  · intro h; exact Int.tmod_nonneg a h
  · intro h
    cases c with
    | ofNat m =>
      have : m = 0 := by simp only [Int.ofNat_eq_coe] at h; omega
      subst this
      simp
    | negSucc m =>
      cases a with
      | ofNat n =>
        show Int.tmod (Int.negSucc m) (Int.ofNat n) ≤ 0
        simp only [Int.tmod]
        exact Int.neg_nonpos_of_nonneg (Int.ofNat_nonneg _)
      | negSucc n =>
        show Int.tmod (Int.negSucc m) (Int.negSucc n) ≤ 0
        simp only [Int.tmod]
        exact Int.neg_nonpos_of_nonneg (Int.ofNat_nonneg _)

theorem fits64_tdiv {c a : Int} (hc : fits64 c) (ha : fits64 a) (h0 : a ≠ 0) :
    fits64 (c.tdiv a) ↔ ¬(c = -(2 ^ 63) ∧ a = -1) := by
  unfold fits64 at *
  by_cases h1 : a = -1
  · subst h1
    have : c.tdiv (-1) = -c := by rw [Int.tdiv_neg, Int.tdiv_one]
    rw [this]
    constructor
    · intro h; omega
    · intro h; simp at h; omega
  · have hq := Int.natAbs_tdiv c a
    have hle : (c.natAbs).div (a.natAbs) ≤ c.natAbs := Nat.div_le_self _ _
    by_cases h2 : a = 1
    · subst h2
      rw [Int.tdiv_one]
      constructor
      · intro _; omega
      · intro _; omega
    · have h3 : 2 ≤ a.natAbs := by omega
      have h4 : (c.natAbs).div (a.natAbs) ≤ c.natAbs / 2 := by
        show c.natAbs / a.natAbs ≤ c.natAbs / 2
        exact Nat.div_le_div_left h3 (by decide)
      constructor
      · intro _; omega
      · intro _; omega

theorem fits64_tmod {c a : Int} (hc : fits64 c) : fits64 (c.tmod a) := by
  have h1 := natAbs_tmod_le c a
  have h2 := tmod_sign c a
  unfold fits64 at *
  omega

theorem dividend_eq {c : Int} (hc : fits64 c) :
    (if c < 0 then -1 else 0) * 2 ^ 64 + c % 2 ^ 64 = c := by
  unfold fits64 at hc
  split_ifs <;> omega

theorem tail_mul (l r : NodeExpr) (m : Machine) (a c : Int) (st : List Int)
    (hm : m.stack = c :: a :: st) :
    agrees_fits ((NodeBinExpr.Mul l r).apply a c) (m.exec (NodeBinExpr.Mul l r).tail_code) st := by
  obtain ⟨rax, rbx, rdx, rdi, rsi, zf, sf, of, stack⟩ := m
  simp only at hm
  subst hm
  simp only [NodeBinExpr.apply, NodeBinExpr.tail_code, Machine.exec, Machine.step, Machine.set,
    Machine.get, Machine.set_flags, checked, agrees_fits]
  simp only [Int.mul_comm c a]
  by_cases hf : fits64 (a * c)
  · simp [hf, wrap64_of_fits hf, agrees]
  · have hw : wrap64 (a * c) ≠ a * c := by rw [Ne, wrap64_eq_iff]; exact hf
    simp [hf, hw, agrees]

theorem tail_sub (l r : NodeExpr) (m : Machine) (a c : Int) (st : List Int)
    (hm : m.stack = c :: a :: st) :
    agrees_fits ((NodeBinExpr.Sub l r).apply a c) (m.exec (NodeBinExpr.Sub l r).tail_code) st := by
  obtain ⟨rax, rbx, rdx, rdi, rsi, zf, sf, of, stack⟩ := m
  simp only at hm
  subst hm
  simp only [NodeBinExpr.apply, NodeBinExpr.tail_code, Machine.exec, Machine.step, Machine.set,
    Machine.get, Machine.set_flags, checked, agrees_fits]
  by_cases hf : fits64 (c - a)
  · simp [hf, wrap64_of_fits hf, agrees]
  · have hw : wrap64 (c - a) ≠ c - a := by rw [Ne, wrap64_eq_iff]; exact hf
    simp [hf, hw, agrees]

theorem exec_div_tail_zero (q : Bool) (m : Machine) (c : Int) (st : List Int)
    (hm : m.stack = c :: 0 :: st) : ∃ m1, m.exec (div_tail q) = .jumped "divzero_error" m1 := by
  obtain ⟨rax, rbx, rdx, rdi, rsi, zf, sf, of, stack⟩ := m
  simp only at hm
  subst hm
  exact ⟨_, rfl⟩

theorem exec_div_tail_fault (q : Bool) (m : Machine) (a c : Int) (st : List Int)
    (hm : m.stack = c :: a :: st) (ha : fits64 a) (hc : fits64 c) (h0 : a ≠ 0)
    (hn : ¬fits64 (c.tdiv a)) : m.exec (div_tail q) = .fault := by
  obtain ⟨rax, rbx, rdx, rdi, rsi, zf, sf, of, stack⟩ := m
  simp only at hm
  subst hm
  simp only [div_tail, Machine.exec, Machine.step, Machine.set, Machine.get, Machine.set_flags,
    Int.sub_zero, wrap64_of_fits ha, h0, decide_False, if_false, Bool.false_eq_true,
    dividend_eq hc, hn]

theorem exec_div_tail_value (q : Bool) (m : Machine) (a c : Int) (st : List Int)
    (hm : m.stack = c :: a :: st) (ha : fits64 a) (hc : fits64 c) (h0 : a ≠ 0)
    (hn : fits64 (c.tdiv a)) :
    ∃ m1, m.exec (div_tail q) = .running m1 ∧
      m1.stack = (if q then c.tdiv a else c.tmod a) :: st := by
  obtain ⟨rax, rbx, rdx, rdi, rsi, zf, sf, of, stack⟩ := m
  simp only at hm
  subst hm
  simp only [div_tail, Machine.exec, Machine.step, Machine.set, Machine.get, Machine.set_flags,
    Int.sub_zero, wrap64_of_fits ha, h0, decide_False, if_false, Bool.false_eq_true,
    dividend_eq hc, hn, if_true]
  cases q <;> exact ⟨_, rfl, rfl⟩

theorem agrees_divided (q : Bool) (m : Machine) (a c : Int) (st : List Int)
    (hm : m.stack = c :: a :: st) (ha : fits64 a) (hc : fits64 c) :
    agrees_fits (divided (if q then Int.tdiv else Int.tmod) c a) (m.exec (div_tail q)) st := by
  unfold divided agrees_fits
  by_cases h0 : a = 0
  · subst h0
    obtain ⟨m1, h1⟩ := exec_div_tail_zero q m c st hm
    rw [if_pos rfl, h1]
    exact ⟨⟨m1, rfl⟩, fun v hv => by cases hv⟩
  · rw [if_neg h0]
    have hq := fits64_tdiv hc ha h0
    by_cases hx : c = -(2 ^ 63) ∧ a = -1
    · rw [if_pos hx, exec_div_tail_fault q m a c st hm ha hc h0 (fun h => hq.mp h hx)]
      exact ⟨rfl, fun v hv => by cases hv⟩
    · obtain ⟨m1, h1, h2⟩ := exec_div_tail_value q m a c st hm ha hc h0 (hq.mpr hx)
      rw [if_neg hx, h1]
      refine ⟨⟨m1, rfl, ?_⟩, ?_⟩
      · rw [h2]; cases q <;> rfl
      · intro v hv
        simp only [EvalResult.value.injEq] at hv
        subst hv
        cases q
        · exact fits64_tmod hc
        · exact hq.mpr hx

theorem tail_div (l r : NodeExpr) (m : Machine) (a c : Int) (st : List Int)
    (hm : m.stack = c :: a :: st) (ha : fits64 a) (hc : fits64 c) :
    agrees_fits ((NodeBinExpr.Div l r).apply a c) (m.exec (NodeBinExpr.Div l r).tail_code) st :=
  agrees_divided true m a c st hm ha hc

theorem tail_mod (l r : NodeExpr) (m : Machine) (a c : Int) (st : List Int)
    (hm : m.stack = c :: a :: st) (ha : fits64 a) (hc : fits64 c) :
    agrees_fits ((NodeBinExpr.Mod l r).apply a c) (m.exec (NodeBinExpr.Mod l r).tail_code) st :=
  agrees_divided false m a c st hm ha hc

theorem holds_set_flags (m : Machine) (cc : Cond) (x y : Int) (hx : fits64 x) (hy : fits64 y) :
    (m.set_flags (x - y)).holds cc = cc.rel x y := by
  unfold fits64 at hx hy
  rw [Bool.eq_iff_iff]
  cases cc <;>
    simp only [Machine.holds, Machine.set_flags, Cond.rel, bne_iff_ne, beq_iff_eq,
      Bool.and_eq_true, Bool.or_eq_true, Bool.not_eq_true', decide_eq_true_iff,
      decide_eq_false_iff_not, ne_eq, decide_eq_decide] <;>
    unfold wrap64 <;> omega

theorem low_byte (x : Int) (b : Bool) :
    (x - x % 256 + (if b = true then 1 else 0) % 256) % 256 = if b = true then 1 else 0 := by
  cases b <;> simp <;> omega

theorem exec_compare_tail (cc : Cond) (m : Machine) (a c : Int) (st : List Int)
    (hm : m.stack = c :: a :: st) (ha : fits64 a) (hc : fits64 c) :
    ∃ m1, m.exec (compare_tail cc) = .running m1 ∧
      m1.stack = (if cc.rel c a = true then 1 else 0) :: st := by
  obtain ⟨rax, rbx, rdx, rdi, rsi, zf, sf, of, stack⟩ := m
  simp only at hm
  subst hm
  refine ⟨_, rfl, ?_⟩
  show ((c - c % 256 + (if (Machine.set_flags
    { rax := c, rbx := a, rdx := rdx, rdi := rdi, rsi := rsi, zf := zf, sf := sf, of := of,
      stack := st } (c - a)).holds cc = true then 1 else 0) % 256) % 256) :: st = _
  rw [holds_set_flags _ cc c a hc ha, low_byte]

theorem tail_compare (b : NodeBinExpr) (cc : Cond) (rel : Int → Int → Prop)
    [∀ x y, Decidable (rel x y)]
    (hcode : b.tail_code = compare_tail cc)
    (happ : ∀ a c, b.apply a c = truth (rel c a))
    (hrel : ∀ x y, cc.rel x y = decide (rel x y))
    (m : Machine) (a c : Int) (st : List Int)
    (hm : m.stack = c :: a :: st) (ha : fits64 a) (hc : fits64 c) :
    agrees_fits (b.apply a c) (m.exec b.tail_code) st := by
  obtain ⟨m1, h1, h2⟩ := exec_compare_tail cc m a c st hm ha hc
  rw [hcode, happ, h1]
  unfold truth agrees_fits agrees
  simp only [hrel, decide_eq_true_eq] at h2
  refine ⟨⟨m1, rfl, h2⟩, ?_⟩
  intro v hv
  simp only [EvalResult.value.injEq] at hv
  subst hv
  unfold fits64
  split_ifs <;> omega

theorem exec_logical_tail (conj : Bool) (m : Machine) (a c : Int) (st : List Int)
    (hm : m.stack = c :: a :: st) (ha : fits64 a) (hc : fits64 c) :
    ∃ m1, m.exec (logical_tail conj) = .running m1 ∧
      m1.stack = (if conj then (if c ≠ 0 ∧ a ≠ 0 then 1 else 0)
        else (if c ≠ 0 ∨ a ≠ 0 then 1 else 0)) :: st := by
  obtain ⟨rax, rbx, rdx, rdi, rsi, zf, sf, of, stack⟩ := m
  simp only at hm
  subst hm
  have hc0 : wrap64 (c - 0) = 0 ↔ c = 0 := by rw [Int.sub_zero, wrap64_of_fits hc]
  have ha0 : wrap64 (a - 0) = 0 ↔ a = 0 := by rw [Int.sub_zero, wrap64_of_fits ha]
  cases conj
  · refine ⟨_, rfl, ?_⟩
    show (Int.lor
      ((c - c % 256 + (if (!decide (wrap64 (c - 0) = 0)) = true then 1 else 0) % 256) % 256)
      ((a - a % 256 + (if (!decide (wrap64 (a - 0) = 0)) = true then 1 else 0) % 256) % 256))
        :: st = _
    rw [low_byte, low_byte]
    by_cases h1 : c = 0 <;> by_cases h2 : a = 0 <;>
      simp only [hc0, ha0, h1, h2, decide_True, decide_False, Bool.not_true, Bool.not_false,
        Bool.false_eq_true, if_false, if_true, ne_eq, not_true_eq_false, not_false_eq_true,
        or_self, or_true, true_or, Bool.false_eq_true] <;> rfl
  · refine ⟨_, rfl, ?_⟩
    show (Int.land
      ((c - c % 256 + (if (!decide (wrap64 (c - 0) = 0)) = true then 1 else 0) % 256) % 256)
      ((a - a % 256 + (if (!decide (wrap64 (a - 0) = 0)) = true then 1 else 0) % 256) % 256))
        :: st = _
    rw [low_byte, low_byte]
    by_cases h1 : c = 0 <;> by_cases h2 : a = 0 <;>
      simp only [hc0, ha0, h1, h2, decide_True, decide_False, Bool.not_true, Bool.not_false,
        Bool.false_eq_true, if_false, if_true, ne_eq, not_true_eq_false, not_false_eq_true,
        and_self, and_true, true_and, and_false, false_and] <;> rfl

theorem tail_logical (b : NodeBinExpr) (conj : Bool)
    (hcode : b.tail_code = logical_tail conj)
    (happ : ∀ a c, b.apply a c =
      if conj then truth (c ≠ 0 ∧ a ≠ 0) else truth (c ≠ 0 ∨ a ≠ 0))
    (m : Machine) (a c : Int) (st : List Int)
    (hm : m.stack = c :: a :: st) (ha : fits64 a) (hc : fits64 c) :
    agrees_fits (b.apply a c) (m.exec b.tail_code) st := by
  obtain ⟨m1, h1, h2⟩ := exec_logical_tail conj m a c st hm ha hc
  rw [hcode, happ, h1]
  cases conj <;> simp only [Bool.false_eq_true, if_false, if_true] at h2 ⊢ <;>
    unfold truth agrees_fits agrees <;>
    refine ⟨⟨m1, rfl, h2⟩, ?_⟩ <;>
    intro v hv <;>
    simp only [EvalResult.value.injEq] at hv <;>
    subst hv <;>
    unfold fits64 <;>
    split_ifs <;> omega

/-- The code after the operands of every binary node does what the node's
operation says. -/
theorem tail_correct (b : NodeBinExpr) (m : Machine) (a c : Int) (st : List Int)
    (hm : m.stack = c :: a :: st) (ha : fits64 a) (hc : fits64 c) :
    agrees_fits (b.apply a c) (m.exec b.tail_code) st := by
  cases b with
  | Add l r => exact tail_add l r m a c st hm
  | Mul l r => exact tail_mul l r m a c st hm
  | Sub l r => exact tail_sub l r m a c st hm
  | Div l r => exact tail_div l r m a c st hm ha hc
  | Mod l r => exact tail_mod l r m a c st hm ha hc
  | Eq l r =>
    exact tail_compare (.Eq l r) .e (fun x y => x = y) rfl (fun _ _ => rfl) (fun _ _ => rfl)
      m a c st hm ha hc
  | Gt l r =>
    exact tail_compare (.Gt l r) .g (fun x y => x > y) rfl (fun _ _ => rfl) (fun _ _ => rfl)
      m a c st hm ha hc
  | Neq l r =>
    exact tail_compare (.Neq l r) .ne (fun x y => x ≠ y) rfl (fun _ _ => rfl) (fun _ _ => rfl)
      m a c st hm ha hc
  | Lte l r =>
    exact tail_compare (.Lte l r) .le (fun x y => x ≤ y) rfl (fun _ _ => rfl) (fun _ _ => rfl)
      m a c st hm ha hc
  | Gte l r =>
    exact tail_compare (.Gte l r) .ge (fun x y => x ≥ y) rfl (fun _ _ => rfl) (fun _ _ => rfl)
      m a c st hm ha hc
  | Lt l r =>
    exact tail_compare (.Lt l r) .l (fun x y => x < y) rfl (fun _ _ => rfl) (fun _ _ => rfl)
      m a c st hm ha hc
  | And l r => exact tail_logical (.And l r) true rfl (fun _ _ => rfl) m a c st hm ha hc
  | Or l r => exact tail_logical (.Or l r) false rfl (fun _ _ => rfl) m a c st hm ha hc

theorem both_eq_bind (r1 r2 : EvalResult) (f : Int → Int → EvalResult) :
    r1.both r2 f = r1.bind fun a => r2.bind (f a) := by
  cases r1 <;> cases r2 <;> rfl

theorem agrees_fits_bind (r : EvalResult) (c1 c2 : List Instr) (m : Machine)
    (st1 st2 : List Int) (f : Int → EvalResult)
    (h1 : agrees_fits r (m.exec c1) st1)
    (h2 : ∀ (v : Int) (m1 : Machine), fits64 v → m1.stack = v :: st1 →
      agrees_fits (f v) (m1.exec c2) st2) :
    agrees_fits (r.bind f) (m.exec (c1 ++ c2)) st2 := by
  rw [exec_append]
  obtain ⟨ha, hf⟩ := h1
  cases r with
  | value v =>
    obtain ⟨m1, hm1, hs1⟩ := ha
    rw [hm1]
    exact h2 v m1 (hf v rfl) hs1
  | overflow =>
    obtain ⟨m1, hm1⟩ := ha
    rw [hm1]
    exact ⟨⟨m1, rfl⟩, fun v hv => by cases hv⟩
  | divzero =>
    obtain ⟨m1, hm1⟩ := ha
    rw [hm1]
    exact ⟨⟨m1, rfl⟩, fun v hv => by cases hv⟩
  | excluded =>
    simp only [agrees] at ha
    rw [ha]
    exact ⟨rfl, fun v hv => by cases hv⟩

theorem stoll_fits (text : String) (v : Int) (h : stoll text = .ok v) : fits64 v := by
  unfold stoll at h
  simp only [] at h
  unfold fits64
  split_ifs at h <;> simp only [Except.ok.injEq] at h <;> subst h <;> omega

theorem char_value_fits (text : String) : fits64 (char_value text) := by
  unfold char_value fits64
  split
  · omega
  · split_ifs <;> omega

theorem literal_value_fits (tok : Token) (ty : DataType) (v : Int)
    (h : literal_value tok = .ok (ty, v)) : fits64 v := by
  rcases tok with ⟨type, val⟩
  cases type <;> cases val <;> simp only [literal_value] at h <;> try (cases h; done)
  · split at h
    · cases h
    · rename_i value hv
      simp only [Except.ok.injEq, Prod.mk.injEq] at h
      exact h.2 ▸ stoll_fits _ _ hv
  · simp only [Except.ok.injEq, Prod.mk.injEq] at h
    exact h.2 ▸ char_value_fits _
  · split_ifs at h <;> simp only [Except.ok.injEq, Prod.mk.injEq] at h <;>
      rw [← h.2] <;> unfold fits64 <;> omega

theorem exec_negate_tail (m : Machine) (v : Int) (st : List Int) (hm : m.stack = v :: st) :
    ∃ m1, m.exec [.pop .rax, .neg .rax, .push (.reg .rax)] = .running m1 ∧
      m1.stack = wrap64 (-v) :: st := by
  obtain ⟨rax, rbx, rdx, rdi, rsi, zf, sf, of, stack⟩ := m
  simp only at hm
  subst hm
  exact ⟨_, rfl, rfl⟩

theorem exec_not_tail (m : Machine) (v : Int) (st : List Int) (hm : m.stack = v :: st)
    (hv : fits64 v) :
    ∃ m1, m.exec [.pop .rax, .cmp_imm .rax 0, .set .e .al, .movzx .rax .al,
        .push (.reg .rax)] = .running m1 ∧
      m1.stack = (if v = 0 then 1 else 0) :: st := by
  obtain ⟨rax, rbx, rdx, rdi, rsi, zf, sf, of, stack⟩ := m
  simp only at hm
  subst hm
  refine ⟨_, rfl, ?_⟩
  show ((v - v % 256 + (if decide (wrap64 (v - 0) = 0) = true then 1 else 0) % 256) % 256)
    :: st = _
  rw [low_byte, Int.sub_zero, wrap64_of_fits hv]
  simp

theorem stack_holds_push {gen : Generator} {env : String → Int} {stack : List Int}
    (h : stack_holds gen env stack) (v : Int) (code : List Instr)
    (hb : gen.stack_size + 1 < 2 ^ 64) :
    stack_holds (pushed gen code) env (v :: stack) := by
  obtain ⟨hl, hv⟩ := h
  have hs : (pushed gen code).stack_size = gen.stack_size + 1 := by
    simp only [pushed, size_t_inc, size_t_mod]; omega
  refine ⟨by rw [hs, List.length_cons, hl], ?_⟩
  intro name var hg
  obtain ⟨h1, h2, h3⟩ := hv name var hg
  refine ⟨h1, by rw [hs]; omega, ?_⟩
  rw [hs]
  have : gen.stack_size + 1 - var.stack_loc = (gen.stack_size - var.stack_loc) + 1 := by omega
  rw [this, List.getElem?_cons_succ]
  exact h3

theorem exec_ident (gen : Generator) (env : String → Int) (m : Machine) (name : String)
    (var : Var) (hg : gen.globals name = some var) (hs : stack_holds gen env m.stack)
    (hb : m.stack.length + 1 < 2 ^ 61) :
    m.exec [.push (.qword_rsp (size_t_mul (size_t_sub gen.stack_size var.stack_loc) 8))] =
      .running { m with stack := env name :: m.stack } := by
  obtain ⟨hl, hv⟩ := hs
  obtain ⟨h1, h2, h3⟩ := hv name var hg
  have hk : size_t_mul (size_t_sub gen.stack_size var.stack_loc) 8 =
      (gen.stack_size - var.stack_loc) * 8 := by
    simp only [size_t_mul, size_t_sub, size_t_mod]; omega
  rw [hk]
  simp only [Machine.exec, Machine.step, Nat.mul_mod_left, if_true,
    Nat.mul_div_cancel _ (by decide : 0 < 8), h3]

mutual
theorem gen_term_correct : ∀ (t : NodeTerm) (gen g' : Generator) (ty : DataType)
    (code : List Instr) (env : String → Int) (m : Machine),
    gen_term t gen = .ok (ty, g') → g'.output = gen.output ++ code →
    (∀ n, fits64 (env n)) → stack_holds gen env m.stack →
    m.stack.length + code.length < 2 ^ 61 →
    agrees_fits (ref_eval_term neg64 env t) (m.exec code) m.stack ∧ 1 ≤ code.length
  | .Lit tok, gen, g', ty, code, env, m, h, hcode, henv, hs, hb => by
    rw [gen_term] at h
    obtain ⟨v, hv, hg⟩ := gen_lit_frame tok gen g' ty h
    rw [hg, pushed_output] at hcode
    have := List.append_cancel_left hcode
    subst this
    simp only [ref_eval_term, hv]
    exact ⟨⟨⟨_, rfl, rfl⟩, fun w hw => by cases hw; exact literal_value_fits tok ty _ hv⟩,
      by simp⟩
  | .Ident ident, gen, g', ty, code, env, m, h, hcode, henv, hs, hb => by
    rw [gen_term] at h
    split at h
    · cases h
    · rename_i name hname
      split at h
      · cases h
      · rename_i var hvar
        simp only [Except.ok.injEq, Prod.mk.injEq] at h
        rw [← h.2] at hcode
        have := List.append_cancel_left (hcode : gen.output ++ _ = gen.output ++ code)
        subst this
        simp only [ref_eval_term, hname]
        rw [exec_ident gen env m name var hvar hs (by simpa using hb)]
        exact ⟨⟨⟨_, rfl, rfl⟩, fun w hw => by cases hw; exact henv name⟩, by simp⟩
  | .Paren e, gen, g', ty, code, env, m, h, hcode, henv, hs, hb => by
    rw [gen_term] at h
    rw [ref_eval_term]
    exact gen_expr_correct e gen g' ty code env m h hcode henv hs hb
  | .Unary .Negate operand, gen, g', ty, code, env, m, h, hcode, henv, hs, hb => by
    rw [gen_term] at h
    split at h
    · cases h
    · rename_i dtype g1 h1
      obtain ⟨c1, hc1⟩ := gen_term_frame operand gen g1 dtype h1
      split at h
      · cases h
      · simp only [Except.ok.injEq, Prod.mk.injEq] at h
        have hout : g'.output = gen.output ++ (c1 ++ [.pop .rax, .neg .rax, .push (.reg .rax)]) := by
          rw [← h.2, hc1]; simp [pushed, emit, push, pop]
        have := List.append_cancel_left (hout.symm.trans hcode)
        subst this
        simp only [List.length_append, List.length_cons, List.length_nil] at hb
        have ih := gen_term_correct operand gen g1 dtype c1 env m h1 (by rw [hc1]; rfl) henv hs
          (by omega)
        refine ⟨?_, by simp⟩
        have hr : ref_eval_term neg64 env (.Unary .Negate operand) =
            (ref_eval_term neg64 env operand).bind fun v => .value (neg64 v) := by
          rw [ref_eval_term]; cases ref_eval_term neg64 env operand <;> rfl
        rw [hr]
        refine agrees_fits_bind _ c1 _ m m.stack m.stack _ ih.1 ?_
        intro v m1 _ hm1
        obtain ⟨m2, e2, s2⟩ := exec_negate_tail m1 v m.stack hm1
        rw [e2]
        exact ⟨⟨m2, rfl, s2⟩, fun w hw => by cases hw; exact fits64_wrap64 _⟩
  | .Unary .Not operand, gen, g', ty, code, env, m, h, hcode, henv, hs, hb => by
    rw [gen_term] at h
    split at h
    · cases h
    · rename_i dtype g1 h1
      obtain ⟨c1, hc1⟩ := gen_term_frame operand gen g1 dtype h1
      split at h
      · cases h
      · simp only [Except.ok.injEq, Prod.mk.injEq] at h
        have hout : g'.output = gen.output ++ (c1 ++ [.pop .rax, .cmp_imm .rax 0, .set .e .al,
            .movzx .rax .al, .push (.reg .rax)]) := by
          rw [← h.2, hc1]; simp [pushed, emit, push, pop]
        have := List.append_cancel_left (hout.symm.trans hcode)
        subst this
        simp only [List.length_append, List.length_cons, List.length_nil] at hb
        have ih := gen_term_correct operand gen g1 dtype c1 env m h1 (by rw [hc1]; rfl) henv hs
          (by omega)
        refine ⟨?_, by simp⟩
        have hr : ref_eval_term neg64 env (.Unary .Not operand) =
            (ref_eval_term neg64 env operand).bind fun v => truth (v = 0) := by
          rw [ref_eval_term]; cases ref_eval_term neg64 env operand <;> rfl
        rw [hr]
        refine agrees_fits_bind _ c1 _ m m.stack m.stack _ ih.1 ?_
        intro v m1 hv hm1
        obtain ⟨m2, e2, s2⟩ := exec_not_tail m1 v m.stack hm1 hv
        rw [e2]
        refine ⟨⟨m2, rfl, s2⟩, fun w hw => ?_⟩
        simp only [truth, EvalResult.value.injEq] at hw
        subst hw
        unfold fits64
        split_ifs <;> omega
termination_by t => sizeOf t
theorem gen_bin_expr_correct : ∀ (b : NodeBinExpr) (gen g' : Generator) (ty : DataType)
    (code : List Instr) (env : String → Int) (m : Machine),
    gen_bin_expr b gen = .ok (ty, g') → g'.output = gen.output ++ code →
    (∀ n, fits64 (env n)) → stack_holds gen env m.stack →
    m.stack.length + code.length < 2 ^ 61 →
    agrees_fits (ref_eval_bin neg64 env b) (m.exec code) m.stack ∧ 1 ≤ code.length
  | b, gen, g', ty, code, env, m, h, hcode, henv, hs, hb => by
    rw [gen_bin_expr_eq] at h
    have hb1 : sizeOf b.first < sizeOf b := by cases b <;> simp [NodeBinExpr.first] <;> omega
    have hb2 : sizeOf b.second < sizeOf b := by
      cases b <;> simp [NodeBinExpr.second] <;> omega
    split at h
    · cases h
    · rename_i t1 g1 h1
      split at h
      · cases h
      · rename_i t2 g2 h2
        obtain ⟨c1, hc1⟩ := gen_expr_frame b.first gen g1 t1 h1
        obtain ⟨c2, hc2⟩ := gen_expr_frame b.second g1 g2 t2 h2
        split at h
        · simp only [Except.ok.injEq, Prod.mk.injEq] at h
          have hout : g'.output = gen.output ++ (c1 ++ (c2 ++ b.tail_code)) := by
            rw [← h.2, hc2, hc1]; simp [pushed]
          have := List.append_cancel_left (hout.symm.trans hcode)
          subst this
          simp only [List.length_append] at hb
          have ih1 := gen_expr_correct b.first gen g1 t1 c1 env m h1 (by rw [hc1]; rfl) henv hs
            (by omega)
          refine ⟨?_, by simp only [List.length_append]; omega⟩
          rw [ref_eval_bin_eq, both_eq_bind]
          refine agrees_fits_bind _ c1 _ m m.stack m.stack _ ih1.1 ?_
          intro a m1 ha hm1
          have hs1 : stack_holds g1 env m1.stack := by
            rw [hc1, hm1]
            exact stack_holds_push hs a c1 (by rw [← hs.1]; omega)
          have ih2 := gen_expr_correct b.second g1 g2 t2 c2 env m1 h2 (by rw [hc2]; rfl) henv
            hs1 (by rw [hm1, List.length_cons]; omega)
          refine agrees_fits_bind _ c2 _ m1 m1.stack m.stack _ ih2.1 ?_
          intro c m2 hc hm2
          rw [hm1] at hm2
          exact tail_correct b m2 a c m.stack hm2 ha hc
        · cases h
termination_by b => sizeOf b
theorem gen_expr_correct : ∀ (e : NodeExpr) (gen g' : Generator) (ty : DataType)
    (code : List Instr) (env : String → Int) (m : Machine),
    gen_expr e gen = .ok (ty, g') → g'.output = gen.output ++ code →
    (∀ n, fits64 (env n)) → stack_holds gen env m.stack →
    m.stack.length + code.length < 2 ^ 61 →
    agrees_fits (ref_eval neg64 env e) (m.exec code) m.stack ∧ 1 ≤ code.length
  | .Term t, gen, g', ty, code, env, m, h, hcode, henv, hs, hb => by
    rw [gen_expr] at h
    rw [ref_eval]
    exact gen_term_correct t gen g' ty code env m h hcode henv hs hb
  | .BinExpr b, gen, g', ty, code, env, m, h, hcode, henv, hs, hb => by
    rw [gen_expr] at h
    rw [ref_eval]
    exact gen_bin_expr_correct b gen g' ty code env m h hcode henv hs hb
termination_by e => sizeOf e
end

/-! ## The generator: code, declarations and types -/

/-! ### C2 -/

/-- C2 as stated fails: for `-(0 - 9223372036854775807 - 1)` generation
succeeds, no `+ - *` result leaves the signed 64-bit range and no divisor is
0, but the emitted code ends with `-2^63` on top of the stack, while the
integer value of the expression is `2^63`. -/
theorem gen_expr_negate_min_counterexample :
    ∃ g' code, gen_expr expr_negate_min {} = .ok (.Int, g') ∧
      g'.output = ({} : Generator).output ++ code ∧
      stack_holds {} (fun _ => 0) ([] : List Int) ∧
      ref_eval (fun v => -v) (fun _ => 0) expr_negate_min = .value (2 ^ 63) ∧
      (∃ m, ({} : Machine).exec code = .running m ∧ m.stack = [-(2 ^ 63)]) ∧
      ¬agrees (ref_eval (fun v => -v) (fun _ => 0) expr_negate_min)
        (({} : Machine).exec code) [] := by
  refine ⟨_, _, rfl, rfl, ⟨rfl, fun n v h => by cases h⟩, rfl, ⟨_, rfl, rfl⟩, ?_⟩
  rintro ⟨m, hm, hs⟩
  cases hm
  revert hs
  decide

/-- C2, amended: when `gen_expr` succeeds on `e` and appends `code`, then for
every environment of signed 64-bit values and every machine whose stack
belongs to the generator state (depth `stack_size`, every bound variable in
its slot) and is short enough for the `size_t` offsets not to wrap, running
`code` jumps to `overflow_error` or `divzero_error`, or faults in `idiv` on
`-2^63 / -1`, or ends with the stack one value taller, exactly as the
reference evaluation of `e` says, in which unary minus is the two's
complement negation of the `neg` instruction. -/
theorem gen_expr_code_correct (e : NodeExpr) (gen g' : Generator) (ty : DataType)
    (code : List Instr) (env : String → Int) (m : Machine)
    (h : gen_expr e gen = .ok (ty, g')) (hcode : g'.output = gen.output ++ code)
    (henv : ∀ n, fits64 (env n)) (hs : stack_holds gen env m.stack)
    (hb : m.stack.length + code.length < 2 ^ 61) :
    agrees (ref_eval neg64 env e) (m.exec code) m.stack :=
  (gen_expr_correct e gen g' ty code env m h hcode henv hs hb).1.1

/-- Witness of C2: the code of `1 + 2 * 3` leaves 7 and the code of
`10 - 2 - 3` leaves 5 on the empty stack. -/
theorem gen_expr_code_correct_witness :
    (∃ m, ({} : Machine).exec
      [.mov_imm .rax 1, .push (.reg .rax), .mov_imm .rax 2, .push (.reg .rax),
        .mov_imm .rax 3, .push (.reg .rax), .pop .rax, .pop .rbx, .imul .rbx,
        .jo "overflow_error", .push (.reg .rax), .pop .rax, .pop .rbx, .add .rax .rbx,
        .jo "overflow_error", .push (.reg .rax)] = .running m ∧ m.stack = [7]) ∧
    (∃ m, ({} : Machine).exec
      [.mov_imm .rax 3, .push (.reg .rax), .mov_imm .rax 2, .push (.reg .rax),
        .mov_imm .rax 10, .push (.reg .rax), .pop .rax, .pop .rbx, .sub .rax .rbx,
        .jo "overflow_error", .push (.reg .rax), .pop .rax, .pop .rbx, .sub .rax .rbx,
        .jo "overflow_error", .push (.reg .rax)] = .running m ∧ m.stack = [5]) :=
  ⟨gen_expr_code_correct expr_1_plus_2_times_3 {} (pushed {} _) .Int _ (fun _ => 0) {}
      rfl rfl (fun _ => (by decide : fits64 0)) ⟨rfl, fun n v h => by cases h⟩ (by decide),
    gen_expr_code_correct expr_10_minus_2_minus_3 {} (pushed {} _) .Int _ (fun _ => 0) {}
      rfl rfl (fun _ => (by decide : fits64 0)) ⟨rfl, fun n v h => by cases h⟩ (by decide)⟩

/-! ### C3 -/

theorem gen_prog_loop_eq_gen_scope_stmts : ∀ (l : List NodeStmt) (gen g' : Generator),
    gen_prog_loop l gen = .ok (false, g') → gen_scope_stmts l gen = .ok g'
  | [], gen, g', h => by
    simp only [gen_prog_loop, Except.ok.injEq, Prod.mk.injEq, true_and] at h
    rw [gen_scope_stmts, h]
  | s :: rest, gen, g', h => by
    rw [gen_prog_loop] at h
    split_ifs at h
    · cases h
    · rw [gen_scope_stmts]
      cases hs : gen_stmt s gen with
      | error e => rw [hs] at h; cases h
      | ok g1 =>
        rw [hs] at h
        exact gen_prog_loop_eq_gen_scope_stmts rest g1 g' h

theorem gen_stmt_redeclaration {name : String} {d1 d2 : NodeStmt} (h1 : d1.declares name)
    (h2 : d2.declares name) (mid : List NodeStmt) (gen g' : Generator)
    (h : gen_scope_stmts (d1 :: mid) gen = .ok g') :
    gen_stmt d2 g' = .error .variable_already_declared := by
  rw [gen_scope_stmts] at h
  split at h
  · cases h
  · rename_i g1 hg1
    have hd := gen_stmt_declares_is_declared h1 hg1
    have hm := gen_scope_stmts_frame_extends mid g1 g' h
    exact gen_stmt_declares_of_is_declared h2 (is_declared_of_frame_extends hm hd)

/-- The redeclaration check, in general: a `let` or `const` of a name that an
earlier statement of the same statement list (a block body or the top level)
declared is fatal with the redeclaration diagnostic, whatever statements lie
between the two and whatever its initializer is; a fresh block frame has no
declared name, a declaration in a frame without an entry of the name is
never rejected by the check, and a block leaves the frame stack as it found
it.  In particular `let int x = 1; let int x = 2;` is rejected, while
`{ let int x = 1; } { let int x = 2; }` and `let int x = 1; { let int x = 2; }`
are accepted. -/
theorem redeclaration_check_frames (name : String) (d1 d2 : NodeStmt)
    (h1 : d1.declares name) (h2 : d2.declares name) :
    (∀ mid gen g', gen_scope_stmts (d1 :: mid) gen = .ok g' →
      gen_stmt d2 g' = .error .variable_already_declared) ∧
    (∀ mid gen g', gen_prog_loop (d1 :: mid) gen = .ok (false, g') →
      gen_stmt d2 g' = .error .variable_already_declared) ∧
    (∀ gen : Generator, gen.enter_scope.is_declared name = false) ∧
    (∀ gen : Generator, gen.is_declared name = false →
      gen_stmt d2 gen ≠ .error .variable_already_declared) ∧
    (∀ scope gen g', gen_scope scope gen = .ok g' → g'.scopes = gen.scopes) ∧
    gen_prog ⟨[let_int "x" "1", let_int "x" "2"]⟩ = .error .variable_already_declared ∧
    (∃ out, gen_prog ⟨[.Scope (.mk [let_int "x" "1"]), .Scope (.mk [let_int "x" "2"])]⟩ =
      .ok out) ∧
    (∃ out, gen_prog ⟨[let_int "x" "1", .Scope (.mk [let_int "x" "2"])]⟩ = .ok out) :=
  ⟨fun mid gen g' h => gen_stmt_redeclaration h1 h2 mid gen g' h,
    fun mid gen g' h =>
      gen_stmt_redeclaration h1 h2 mid gen g' (gen_prog_loop_eq_gen_scope_stmts _ _ _ h),
    fun _ => rfl,
    fun _ h => gen_stmt_declares_not_rejected h2 h,
    gen_scope_scopes,
    rfl, ⟨_, rfl⟩, ⟨_, rfl⟩⟩

/-- C3, the input on which the code departs from the claim: in
`let int x = 1; { x = 2; let int x = 3; }` the block never declared `x`, but
the assignment logged an entry named `x` in the block's frame, so
`is_declared` holds there and the `let` inside the nested block is rejected
with the redeclaration diagnostic; without the assignment the same program
is accepted. -/
theorem redeclaration_after_assignment_in_block :
    gen_prog ⟨[let_int "x" "1",
      .Scope (.mk [.Assign (ident_token "x") (int_expr "2"), let_int "x" "3"])]⟩ =
        .error .variable_already_declared ∧
    (∃ g0 g, gen_prog_loop [let_int "x" "1"] {} = .ok (false, g0) ∧
      gen_stmt (.Assign (ident_token "x") (int_expr "2")) g0.enter_scope = .ok g ∧
      g.scopes = [[{ name := "x", old_binding := some ⟨1, .Int, true⟩ }],
        [{ name := "x", old_binding := none }]] ∧
      g.is_declared "x" = true ∧
      gen_stmt (let_int "x" "3") g = .error .variable_already_declared) ∧
    (∃ out, gen_prog ⟨[let_int "x" "1", .Scope (.mk [let_int "x" "3"])]⟩ = .ok out) :=
  ⟨rfl, ⟨_, _, rfl, rfl, rfl, rfl, rfl⟩, ⟨_, rfl⟩⟩

/-! ### C4 -/

/-- C4 as stated fails where no frame exists: after the top-level block
`{ let int x = 1; x = 2; }` the name `x` is still bound (mutable, slot 1)
while `scopes` is empty; the assignment `x = 3;` then succeeds and rebinds
`x`, but the previous binding is appended to no log: `scopes` stays empty. -/
theorem gen_stmt_assign_no_frame_counterexample :
    ∃ g g', gen_prog_loop
        [.Scope (.mk [let_int "x" "1", .Assign (ident_token "x") (int_expr "2")])] {} =
          .ok (false, g) ∧
      g.globals "x" = some { stack_loc := 1, dtype := .Int, mut_ := true } ∧
      g.scopes = [] ∧
      gen_stmt (.Assign (ident_token "x") (int_expr "3")) g = .ok g' ∧
      g'.globals "x" = some { stack_loc := 3, dtype := .Int, mut_ := true } ∧
      g'.scopes = [] ∧
      ¬∃ frame rest, g'.scopes = frame :: rest ∧
        { name := "x", old_binding := some ⟨1, .Int, true⟩ : ScopeEntry } ∈ frame :=
  ⟨_, _, rfl, rfl, rfl, rfl, rfl, rfl, by rintro ⟨frame, rest, h, _⟩; cases h⟩

/-- C4, amended: the assignment `n = e;` is fatal when `n` is unbound in `globals`,
fatal when the binding of `n` is immutable (both before `e` is generated),
and fatal when `e` generates with a type other than the binding's; otherwise
it succeeds, `n` is rebound to the stack size after the push of `e` with the
same type and mutable, no other name changes, and the previous binding of
`n` is appended to the log of the innermost frame (nothing is logged when
there is no frame), with no code emitted beyond that of `e`. -/
theorem gen_stmt_assign (ident : Token) (n : String) (e : NodeExpr) (gen : Generator)
    (hn : ident.val = some n) :
    (gen.globals n = none → gen_stmt (.Assign ident e) gen = .error .assignment_undeclared) ∧
    (∀ v, gen.globals n = some v → v.mut_ = false →
      gen_stmt (.Assign ident e) gen = .error .assignment_immutable) ∧
    (∀ v ty g1, gen.globals n = some v → v.mut_ = true → gen_expr e gen = .ok (ty, g1) →
      ty ≠ v.dtype → gen_stmt (.Assign ident e) gen = .error .type_mismatch_assignment) ∧
    (∀ v g1, gen.globals n = some v → v.mut_ = true → gen_expr e gen = .ok (v.dtype, g1) →
      ∃ g', gen_stmt (.Assign ident e) gen = .ok g' ∧
        g1.stack_size = size_t_inc gen.stack_size ∧
        g'.globals n = some { stack_loc := g1.stack_size, dtype := v.dtype, mut_ := true } ∧
        (∀ m, m ≠ n → g'.globals m = gen.globals m) ∧
        g'.scopes = (match gen.scopes with
          | [] => []
          | frame :: rest => (frame ++ [{ name := n, old_binding := some v }]) :: rest) ∧
        g'.stack_size = g1.stack_size ∧ g'.output = g1.output) := by
  refine ⟨?_, ?_, ?_, ?_⟩
  · intro hg
    rw [gen_stmt, hn]; simp only [hg]
  · intro v hg hm
    rw [gen_stmt, hn]; simp only [hg, hm, if_true]
  · intro v ty g1 hg hm he hty
    rw [gen_stmt, hn]; simp only [hg, hm, he]
    simp [hty]
  · intro v g1 hg hm he
    obtain ⟨c, hc⟩ := gen_expr_frame e gen g1 _ he
    rw [gen_stmt, hn]; simp only [hg, hm, he]
    simp only [ne_eq, not_true_eq_false, if_false, Bool.true_eq_false]
    refine ⟨_, rfl, by rw [hc]; rfl, ?_, ?_, ?_, rfl, rfl⟩
    · simp [update_var, globals_set]
    · intro m hm
      simp [update_var, globals_set, hm, hc, pushed]
    · subst hc
      cases hsc : gen.scopes <;> simp [update_var, pushed, hsc]
/-- Witness of C4: `const int x = 1; x = 2;` is rejected as an assignment to
an immutable variable; after `let int x = 1; x = 2;` the name `x` is bound
to slot 2, and the code of these statements followed by the code of a
reference to `x` leaves the stack `2, 2, 1`: the reference loads the 2. -/
theorem gen_stmt_assign_witness :
    gen_stmt (.Assign (ident_token "x") (int_expr "2"))
        (declare_var (pushed {} [.mov_imm .rax 1, .push (.reg .rax)]) "x"
          { stack_loc := 1, dtype := .Int, mut_ := false }) =
      .error .assignment_immutable ∧
    gen_prog ⟨[.Const (ident_token "x") .Int (int_expr "1"),
      .Assign (ident_token "x") (int_expr "2")]⟩ = .error .assignment_immutable ∧
    (∃ g g' m, gen_prog_loop [let_int "x" "1", .Assign (ident_token "x") (int_expr "2")] {} =
        .ok (false, g) ∧
      g.globals "x" = some { stack_loc := 2, dtype := .Int, mut_ := true } ∧
      gen_term (.Ident (ident_token "x")) g = .ok (.Int, g') ∧
      ({} : Machine).exec g'.output = .running m ∧ m.stack = [2, 2, 1]) :=
  ⟨(gen_stmt_assign (ident_token "x") "x" (int_expr "2")
      (declare_var (pushed {} [.mov_imm .rax 1, .push (.reg .rax)]) "x"
        { stack_loc := 1, dtype := .Int, mut_ := false }) rfl).2.1
      { stack_loc := 1, dtype := .Int, mut_ := false } rfl rfl,
    rfl, ⟨_, _, _, rfl, rfl, rfl, rfl, rfl⟩⟩

/-! ### C5 -/

/-- C5: `const T n = e;` and `let T n = e;` are fatal whenever `e` generates
with a type other than `T`; when they succeed, `e` generated with type `T`
and `n` is bound to the stack size after the push of `e`, with type `T`,
immutable for `const` and mutable for `let`.  `let T n;` in a frame that has
no entry of `n` succeeds for every `T`: it emits `mov rax, 0` and
`push rax` and binds `n` mutable with type `T` at the new stack size. -/
theorem gen_stmt_declaration (ident : Token) (n : String) (T : DataType) (e : NodeExpr)
    (gen : Generator) (hn : ident.val = some n) :
    (∀ ty g1, gen_expr e gen = .ok (ty, g1) → ty ≠ T →
      (∃ err, gen_stmt (.Const ident T e) gen = .error err) ∧
      (∃ err, gen_stmt (.Let ident T (some e)) gen = .error err)) ∧
    (∀ g', gen_stmt (.Const ident T e) gen = .ok g' →
      ∃ g1, gen_expr e gen = .ok (T, g1) ∧ g1.stack_size = size_t_inc gen.stack_size ∧
        g'.globals n = some { stack_loc := g1.stack_size, dtype := T, mut_ := false }) ∧
    (∀ g', gen_stmt (.Let ident T (some e)) gen = .ok g' →
      ∃ g1, gen_expr e gen = .ok (T, g1) ∧ g1.stack_size = size_t_inc gen.stack_size ∧
        g'.globals n = some { stack_loc := g1.stack_size, dtype := T, mut_ := true }) ∧
    (gen.is_declared n = false →
      ∃ g', gen_stmt (.Let ident T none) gen = .ok g' ∧
        g'.output = gen.output ++ [.mov_imm_flush_left .rax 0, .push (.reg .rax)] ∧
        g'.stack_size = size_t_inc gen.stack_size ∧
        g'.globals n =
          some { stack_loc := size_t_inc gen.stack_size, dtype := T, mut_ := true }) := by
  refine ⟨?_, ?_, ?_, ?_⟩
  · intro ty g1 he hty
    simp only [gen_stmt, hn, he, hty]
    constructor <;> split_ifs <;> simp
  · intro g' h
    rw [gen_stmt, hn] at h
    simp only [] at h
    split at h
    · cases h
    · split at h
      · cases h
      · rename_i ty g1 he
        split at h
        · cases h
        · rename_i hty
          simp only [ne_eq, not_not] at hty
          subst hty
          obtain ⟨c, hc⟩ := gen_expr_frame e gen g1 _ he
          simp only [Except.ok.injEq] at h
          refine ⟨g1, he, by rw [hc]; rfl, ?_⟩
          rw [← h]
          simp [declare_var, globals_set]
  · intro g' h
    rw [gen_stmt, hn] at h
    simp only [] at h
    split at h
    · cases h
    · split at h
      · cases h
      · rename_i ty g1 he
        split at h
        · cases h
        · rename_i hty
          simp only [ne_eq, not_not] at hty
          subst hty
          obtain ⟨c, hc⟩ := gen_expr_frame e gen g1 _ he
          simp only [Except.ok.injEq] at h
          refine ⟨g1, he, by rw [hc]; rfl, ?_⟩
          rw [← h]
          simp [declare_var, globals_set]
  · intro hd
    rw [gen_stmt, hn]
    simp only [hd]
    refine ⟨_, rfl, ?_, rfl, ?_⟩
    · simp [declare_var, emit, push]
    · simp [declare_var, globals_set, emit, push]


/-- Witness of C5: `const char c = 5;` is rejected. -/
theorem gen_stmt_declaration_witness :
    (∃ err, gen_stmt (.Const (ident_token "c") .Char (int_expr "5")) {} = .error err) ∧
    gen_prog ⟨[.Const (ident_token "c") .Char (int_expr "5")]⟩ =
      .error .type_mismatch_declaration :=
  ⟨((gen_stmt_declaration (ident_token "c") "c" .Char (int_expr "5") {} rfl).1
      .Int _ rfl (by decide)).1, rfl⟩

/-! ### C6 to C10 -/

/-- C6: for an arithmetic node (`+ - * / %`) whose two operands generate
successfully from the current state with types `tl` and `tr`, `gen_bin_expr`
returns `Int` when both types are `Int` and is fatal otherwise. -/
theorem gen_bin_expr_arithmetic_types (b : NodeBinExpr) (hb : b.is_arithmetic = true)
    (gen gl gr : Generator) (tl tr : DataType)
    (hl : gen_expr b.lhs gen = .ok (tl, gl)) (hr : gen_expr b.rhs gen = .ok (tr, gr)) :
    (tl = .Int ∧ tr = .Int → ∃ g', gen_bin_expr b gen = .ok (.Int, g')) ∧
    (¬(tl = .Int ∧ tr = .Int) → ∃ err, gen_bin_expr b gen = .error err) := by
  have h := gen_bin_expr_of_operands b gen gl gr tl tr hl hr
  cases b <;> simp only [NodeBinExpr.is_arithmetic, Bool.false_eq_true] at hb <;>
    simp only [NodeBinExpr.accepts_types, NodeBinExpr.result_type, decide_eq_true_eq,
      decide_eq_false_iff_not] at h <;>
    exact ⟨h.1, fun hn => ⟨_, h.2 hn⟩⟩

/-- Witness of C6: `1 + true` is rejected. -/
theorem gen_bin_expr_arithmetic_types_witness :
    ∃ err, gen_bin_expr (.Add (.Term (.Lit ⟨.int_lit, some "1"⟩))
      (.Term (.Lit ⟨.bool_lit, some "true"⟩))) {} = .error err :=
  (gen_bin_expr_arithmetic_types (.Add (.Term (.Lit ⟨.int_lit, some "1"⟩))
      (.Term (.Lit ⟨.bool_lit, some "true"⟩))) rfl {} _ _ .Int .Bool rfl rfl).2 (by decide)

/-- C7: for operands that generate successfully with types `tl` and `tr`,
`==` and `!=` are fatal exactly when `tl` and `tr` differ, `<`, `>`, `<=`,
`>=` are fatal exactly when one of them is not `Int`, and when one of the
six operators succeeds it returns `Bool`. -/
theorem gen_bin_expr_comparison_types (b : NodeBinExpr)
    (gen gl gr : Generator) (tl tr : DataType)
    (hl : gen_expr b.lhs gen = .ok (tl, gl)) (hr : gen_expr b.rhs gen = .ok (tr, gr)) :
    (b.is_equality = true → ((∃ err, gen_bin_expr b gen = .error err) ↔ tl ≠ tr)) ∧
    (b.is_ordering = true →
      ((∃ err, gen_bin_expr b gen = .error err) ↔ (tl ≠ .Int ∨ tr ≠ .Int))) ∧
    (b.is_equality = true ∨ b.is_ordering = true →
      ∀ ty g', gen_bin_expr b gen = .ok (ty, g') → ty = .Bool) := by
  obtain ⟨h1, _, h3⟩ := gen_bin_expr_outcome b gen gl gr tl tr hl hr
  rw [h1]
  cases b <;>
    simp only [NodeBinExpr.is_equality, NodeBinExpr.is_ordering, Bool.false_eq_true,
      false_implies, true_and, and_true, false_or, or_false, true_implies, or_self,
      NodeBinExpr.accepts_types, decide_eq_false_iff_not, not_and_or, ne_eq, true_or, or_true] <;>
    exact h3

/-- Witness of C7: `'a' == 1` is fatal, its operand types being different. -/
theorem gen_bin_expr_comparison_types_witness :
    ((∃ err, gen_bin_expr (.Eq (.Term (.Lit ⟨.char_lit, some "a"⟩))
      (.Term (.Lit ⟨.int_lit, some "1"⟩))) {} = .error err) ↔ DataType.Char ≠ DataType.Int) :=
  (gen_bin_expr_comparison_types (.Eq (.Term (.Lit ⟨.char_lit, some "a"⟩))
      (.Term (.Lit ⟨.int_lit, some "1"⟩))) {} _ _ .Char .Int rfl rfl).1 rfl

/-- C8: for operands that generate successfully with types `tl` and `tr`,
`&&` succeeds exactly when each type is `Int` or `Bool` and is fatal exactly
when one is `Char`; `||` succeeds exactly when both are `Int` and is fatal
exactly when one is `Bool` or `Char`; both return `Bool` on success. -/
theorem gen_bin_expr_logical_types (lhs rhs : NodeExpr)
    (gen gl gr : Generator) (tl tr : DataType)
    (hl : gen_expr lhs gen = .ok (tl, gl)) (hr : gen_expr rhs gen = .ok (tr, gr)) :
    ((∃ g', gen_bin_expr (.And lhs rhs) gen = .ok (.Bool, g')) ↔
      ((tl = .Int ∨ tl = .Bool) ∧ (tr = .Int ∨ tr = .Bool))) ∧
    ((∃ err, gen_bin_expr (.And lhs rhs) gen = .error err) ↔ (tl = .Char ∨ tr = .Char)) ∧
    ((∃ g', gen_bin_expr (.Or lhs rhs) gen = .ok (.Bool, g')) ↔ (tl = .Int ∧ tr = .Int)) ∧
    ((∃ err, gen_bin_expr (.Or lhs rhs) gen = .error err) ↔
      (tl = .Bool ∨ tl = .Char ∨ tr = .Bool ∨ tr = .Char)) ∧
    (∀ ty g', gen_bin_expr (.And lhs rhs) gen = .ok (ty, g') → ty = .Bool) ∧
    (∀ ty g', gen_bin_expr (.Or lhs rhs) gen = .ok (ty, g') → ty = .Bool) := by
  obtain ⟨a1, a2, a3⟩ := gen_bin_expr_outcome (.And lhs rhs) gen gl gr tl tr hl hr
  obtain ⟨o1, o2, o3⟩ := gen_bin_expr_outcome (.Or lhs rhs) gen gl gr tl tr hl hr
  have a2' : (∃ g', gen_bin_expr (.And lhs rhs) gen = .ok (.Bool, g')) ↔
      (NodeBinExpr.And lhs rhs).accepts_types tl tr = true := by
    rw [← a2]
    constructor
    · rintro ⟨g', h⟩; exact ⟨_, _, h⟩
    · rintro ⟨ty, g', h⟩; have := a3 ty g' h; subst this; exact ⟨g', h⟩
  have o2' : (∃ g', gen_bin_expr (.Or lhs rhs) gen = .ok (.Bool, g')) ↔
      (NodeBinExpr.Or lhs rhs).accepts_types tl tr = true := by
    rw [← o2]
    constructor
    · rintro ⟨g', h⟩; exact ⟨_, _, h⟩
    · rintro ⟨ty, g', h⟩; have := o3 ty g' h; subst this; exact ⟨g', h⟩
  refine ⟨?_, ?_, ?_, ?_, a3, o3⟩
  · rw [a2']; simp [NodeBinExpr.accepts_types]
  · rw [a1]; cases tl <;> cases tr <;> simp [NodeBinExpr.accepts_types]
  · rw [o2']; simp [NodeBinExpr.accepts_types]
  · rw [o1]; cases tl <;> cases tr <;> simp [NodeBinExpr.accepts_types]

/-- Witness of C8: `true || false` is rejected and `true && false` is
accepted with type `Bool`. -/
theorem gen_bin_expr_logical_types_witness :
    (∃ err, gen_bin_expr (.Or (.Term (.Lit ⟨.bool_lit, some "true"⟩))
      (.Term (.Lit ⟨.bool_lit, some "false"⟩))) {} = .error err) ∧
    (∃ g', gen_bin_expr (.And (.Term (.Lit ⟨.bool_lit, some "true"⟩))
      (.Term (.Lit ⟨.bool_lit, some "false"⟩))) {} = .ok (.Bool, g')) :=
  have h := gen_bin_expr_logical_types (.Term (.Lit ⟨.bool_lit, some "true"⟩))
      (.Term (.Lit ⟨.bool_lit, some "false"⟩)) {} _ _ .Bool .Bool rfl rfl
  ⟨h.2.2.2.1.2 (Or.inl rfl), h.1.2 ⟨Or.inr rfl, Or.inr rfl⟩⟩

/-- C9: for a unary term whose operand generates successfully with type `t`,
negate returns `Int` when `t` is `Int` and is fatal when `t` is `Char` or
`Bool`; logical not returns `Bool` when `t` is `Int` or `Bool` and is fatal
when `t` is `Char`. -/
theorem gen_term_unary_types (operand : NodeTerm) (gen g1 : Generator) (t : DataType)
    (h : gen_term operand gen = .ok (t, g1)) :
    (t = .Int → ∃ g', gen_term (.Unary .Negate operand) gen = .ok (.Int, g')) ∧
    (t = .Char ∨ t = .Bool → ∃ err, gen_term (.Unary .Negate operand) gen = .error err) ∧
    (t = .Int ∨ t = .Bool → ∃ g', gen_term (.Unary .Not operand) gen = .ok (.Bool, g')) ∧
    (t = .Char → ∃ err, gen_term (.Unary .Not operand) gen = .error err) := by
  simp only [gen_term, h]
  cases t <;> simp

/-- Witness of C9: `-5` has type `Int`, and `!'a'` is rejected. -/
theorem gen_term_unary_types_witness :
    (∃ g', gen_term (.Unary .Negate (.Lit ⟨.int_lit, some "5"⟩)) {} = .ok (.Int, g')) ∧
    (∃ err, gen_term (.Unary .Not (.Lit ⟨.char_lit, some "a"⟩)) {} = .error err) :=
  ⟨(gen_term_unary_types (.Lit ⟨.int_lit, some "5"⟩) {} _ .Int rfl).1 rfl,
    (gen_term_unary_types (.Lit ⟨.char_lit, some "a"⟩) {} _ .Char rfl).2.2.2 rfl⟩

/-- C10: a reference to the identifier `n` is fatal exactly when `n` is not
bound in `globals`; otherwise it returns the type of the binding, emits the
single line `push QWORD [rsp + k]` with `k = (stack_size - stack_loc) * 8`
in `size_t` arithmetic on the stack size before the push, increments
`stack_size` and changes nothing else; when `stack_loc ≤ stack_size < 2^61`
the `size_t` operations do not wrap. -/
theorem gen_term_ident (ident : Token) (n : String) (gen : Generator)
    (hn : ident.val = some n) :
    ((∃ err, gen_term (.Ident ident) gen = .error err) ↔ gen.globals n = none) ∧
    (∀ var, gen.globals n = some var →
      ∃ g', gen_term (.Ident ident) gen = .ok (var.dtype, g') ∧
        g'.output = gen.output ++
          [.push (.qword_rsp (size_t_mul (size_t_sub gen.stack_size var.stack_loc) 8))] ∧
        g'.stack_size = size_t_inc gen.stack_size ∧
        g'.globals = gen.globals ∧ g'.scopes = gen.scopes ∧
        g'.label_count = gen.label_count ∧ g'.is_terminated = gen.is_terminated) ∧
    (∀ var, gen.globals n = some var → var.stack_loc ≤ gen.stack_size →
      gen.stack_size < 2 ^ 61 →
      size_t_mul (size_t_sub gen.stack_size var.stack_loc) 8 =
        (gen.stack_size - var.stack_loc) * 8 ∧
      size_t_inc gen.stack_size = gen.stack_size + 1) ∧
    (∀ k : Nat, (Instr.push (.qword_rsp k)).text =
      "    push " ++ ("QWORD [rsp + " ++ toString k ++ "]") ++ "\n") := by
  refine ⟨?_, ?_, ?_, fun _ => rfl⟩
  · rw [gen_term, hn]
    cases hg : gen.globals n <;> simp [hg]
  · intro var hv
    rw [gen_term, hn]
    simp only [hv]
    exact ⟨_, rfl, rfl, rfl, rfl, rfl, rfl, rfl⟩
  · intro var _ hle hlt
    simp only [size_t_mul, size_t_sub, size_t_inc, size_t_mod]
    omega

/-- Witness of C10: with `stack_size = 3` and `x` bound to slot 1 as a
`char`, the reference emits `push QWORD [rsp + 16]`, returns `Char` and
leaves `stack_size = 4`. -/
theorem gen_term_ident_witness :
    ∃ g', gen_term (.Ident ⟨.ident, some "x"⟩)
        { stack_size := 3, globals := fun k => if k = "x" then some ⟨1, .Char, true⟩ else none }
          = .ok (.Char, g') ∧
      g'.output = [] ++ [.push (.qword_rsp 16)] ∧ g'.stack_size = 4 :=
  have h := (gen_term_ident ⟨.ident, some "x"⟩ "x"
    { stack_size := 3, globals := fun k => if k = "x" then some ⟨1, .Char, true⟩ else none }
    rfl).2.1 ⟨1, .Char, true⟩ rfl
  h.elim fun g' hg => ⟨g', hg.1, hg.2.1, hg.2.2.1⟩

/-! ### Literals -/

theorem decimal_value_append (xs : List Char) (c : Char) :
    decimal_value (xs ++ [c]) = decimal_value xs * 10 + (c.toNat - 48) := by
  simp [decimal_value, List.foldl_append]

theorem digitChar_digit (k : Nat) (hk : k < 10) :
    (Nat.digitChar k).isDigit = true ∧ (Nat.digitChar k).toNat - 48 = k ∧
      (k ≠ 0 → Nat.digitChar k ≠ '0') := by
  interval_cases k <;> decide

theorem toDigitsCore_decimal : ∀ (fuel n : Nat) (ds : List Char), n < fuel →
    ∃ pre, Nat.toDigitsCore 10 fuel n ds = pre ++ ds ∧ (∀ c ∈ pre, c.isDigit = true) ∧
      decimal_value pre = n ∧ pre ≠ [] ∧ (n ≠ 0 → pre.head? ≠ some '0')
  | 0, n, ds, h => absurd h (Nat.not_lt_zero n)
  | fuel + 1, n, ds, h => by
    have hd := digitChar_digit (n % 10) (Nat.mod_lt n (by decide))
    rw [Nat.toDigitsCore]
    by_cases h0 : n / 10 = 0
    · simp only [h0, if_true]
      have hn : n % 10 = n := Nat.mod_eq_of_lt (by omega)
      refine ⟨[Nat.digitChar (n % 10)], rfl, ?_, ?_, by simp, ?_⟩
      · intro c hc
        rw [List.mem_singleton.1 hc]; exact hd.1
      · have h2 := hd.2.1
        rw [hn] at h2
        simp [decimal_value, h2, hn]
      · intro hne
        simp only [List.head?_cons, ne_eq, Option.some.injEq]
        exact hd.2.2 (by omega)
    · simp only [h0, if_false]
      obtain ⟨pre, hpre, hdig, hval, hne, hhead⟩ :=
        toDigitsCore_decimal fuel (n / 10) (Nat.digitChar (n % 10) :: ds) (by omega)
      refine ⟨pre ++ [Nat.digitChar (n % 10)], by simp [hpre], ?_, ?_, by simp, ?_⟩
      · intro c hc
        rcases List.mem_append.1 hc with hc | hc
        · exact hdig c hc
        · rw [List.mem_singleton.1 hc]; exact hd.1
      · rw [decimal_value_append, hval, hd.2.1]; omega
      · intro _
        obtain ⟨a, tl, rfl⟩ := List.exists_cons_of_ne_nil hne
        simpa using hhead h0

theorem toDigits_decimal (n : Nat) :
    (∀ c ∈ Nat.toDigits 10 n, c.isDigit = true) ∧ decimal_value (Nat.toDigits 10 n) = n ∧
      Nat.toDigits 10 n ≠ [] ∧ (n ≠ 0 → (Nat.toDigits 10 n).head? ≠ some '0') := by
  obtain ⟨pre, hpre, h⟩ := toDigitsCore_decimal (n + 1) n [] (Nat.lt_succ_self n)
  rw [List.append_nil] at hpre
  rw [Nat.toDigits, hpre]
  exact h

theorem isDigit_iff (c : Char) : c.isDigit = true ↔ 48 ≤ c.toNat ∧ c.toNat ≤ 57 := by
  unfold Char.isDigit Char.toNat
  simp only [Bool.and_eq_true, decide_eq_true_eq, ge_iff_le, UInt32.le_def, Fin.le_def]
  rfl

theorem stoll_digits (ds : List Char) (hne : ds ≠ []) (hd : ∀ c ∈ ds, c.isDigit = true) :
    stoll (String.mk ds) =
      if decimal_value ds ≤ 2 ^ 63 - 1 then .ok (decimal_value ds : Int)
      else .error .integer_literal_out_of_bounds := by
  obtain ⟨c, tl, rfl⟩ := List.exists_cons_of_ne_nil hne
  have hc := (isDigit_iff c).1 (hd c (List.mem_cons_self _ _))
  have hsp : (c = ' ' || (decide (9 ≤ c.toNat) && decide (c.toNat ≤ 13))) = false := by
    have : c ≠ ' ' := by rintro rfl; revert hc; decide
    simp [this]; omega
  have hm : c ≠ '-' := by rintro rfl; revert hc; decide
  have hp : c ≠ '+' := by rintro rfl; revert hc; decide
  have htake : (c :: tl).takeWhile Char.isDigit = c :: tl :=
    List.takeWhile_eq_self_iff.2 hd
  have hdrop : (c :: tl).dropWhile Char.isDigit = [] :=
    List.dropWhile_eq_nil_iff.2 hd
  unfold stoll
  simp only [String.toList, List.dropWhile_cons, hsp, Bool.false_eq_true, ↓reduceIte,
    List.head?_cons, Option.some.injEq, hm, hp, or_self, htake, hdrop, reduceCtorEq,
    ne_eq, not_true_eq_false]
  have hv : List.foldl (fun acc c => acc * 10 + (c.toNat - 48)) 0 (c :: tl) =
      decimal_value (c :: tl) := rfl
  rw [hv]
  by_cases h : decimal_value (c :: tl) ≤ 2 ^ 63 - 1
  · rw [if_neg (by omega), if_pos h]
  · rw [if_pos (by omega), if_neg h]


theorem gen_lit_digits (gen : Generator) (ds : List Char) (hne : ds ≠ [])
    (hd : ∀ c ∈ ds, c.isDigit = true) (hv : decimal_value ds ≤ 9223372036854775807) :
    gen_lit ⟨.int_lit, some (String.mk ds)⟩ gen =
      .ok (.Int, pushed gen [.mov_imm .rax (decimal_value ds), .push (.reg .rax)]) := by
  have hs := stoll_digits ds hne hd
  rw [if_pos (by omega)] at hs
  simp only [gen_lit, hs, emit_push_eq]

/-! ### C11 -/

/-- C11: on an integer literal whose text is a non-empty string of digits with
decimal value `v`, `gen_lit` returns `Int` and appends `mov rax, v` and
`push rax` when `v ≤ 9223372036854775807`, and is fatal (out of bounds) when
`v` is larger; the text of `mov rax, v` carries the decimal digits of `v`,
which denote `v` and do not start with `0` unless `v = 0`.  On `true` it
loads 1 and on `false` 0 and returns `Bool`.  On a character literal it
returns `Char` and loads the code of the character: the code itself for an
ASCII character, and for a byte from 128 to 255 its value as the signed
`char` of the target, the code minus 256. -/
theorem gen_lit_values (gen : Generator) :
    (∀ ds : List Char, ds ≠ [] → (∀ c ∈ ds, c.isDigit = true) →
      (decimal_value ds ≤ 9223372036854775807 →
        gen_lit ⟨.int_lit, some (String.mk ds)⟩ gen =
          .ok (.Int, pushed gen [.mov_imm .rax (decimal_value ds), .push (.reg .rax)])) ∧
      (9223372036854775807 < decimal_value ds →
        gen_lit ⟨.int_lit, some (String.mk ds)⟩ gen = .error .integer_literal_out_of_bounds)) ∧
    (∀ v : Nat,
      (Instr.mov_imm .rax v).text = "    mov rax, " ++ String.mk (Nat.toDigits 10 v) ++ "\n" ∧
      (∀ c ∈ Nat.toDigits 10 v, c.isDigit = true) ∧ decimal_value (Nat.toDigits 10 v) = v ∧
      Nat.toDigits 10 v ≠ [] ∧ (v ≠ 0 → (Nat.toDigits 10 v).head? ≠ some '0')) ∧
    (Instr.push (.reg .rax)).text = "    push rax\n" ∧
    gen_lit ⟨.bool_lit, some "true"⟩ gen =
      .ok (.Bool, pushed gen [.mov_imm .rax 1, .push (.reg .rax)]) ∧
    gen_lit ⟨.bool_lit, some "false"⟩ gen =
      .ok (.Bool, pushed gen [.mov_imm .rax 0, .push (.reg .rax)]) ∧
    (∀ c : Char, c.toNat < 128 →
      gen_lit ⟨.char_lit, some (String.singleton c)⟩ gen =
        .ok (.Char, pushed gen [.mov_imm .rax c.toNat, .push (.reg .rax)])) ∧
    (∀ c : Char, 128 ≤ c.toNat → c.toNat < 256 →
      gen_lit ⟨.char_lit, some (String.singleton c)⟩ gen =
        .ok (.Char, pushed gen [.mov_imm .rax (c.toNat - 256 : Int), .push (.reg .rax)])) := by
  refine ⟨fun ds hne hd => ?_, fun v => ⟨rfl, toDigits_decimal v⟩, rfl, ?_, ?_, ?_, ?_⟩
  · have hs := stoll_digits ds hne hd
    constructor
    · exact gen_lit_digits gen ds hne hd
    · intro h
      rw [if_neg (by omega)] at hs
      simp only [gen_lit, hs]
  · simp only [gen_lit, if_true, emit_push_eq]
  · simp only [gen_lit, emit_push_eq]; rfl
  · intro c hc
    have hv : char_value (String.singleton c) = c.toNat := by
      show (if c.toNat % 256 < 128 then ((c.toNat % 256 : Nat) : Int) else _) = _
      rw [if_pos (by omega)]; congr 1; omega
    simp only [gen_lit, hv, emit_push_eq]
  · intro c hc1 hc2
    have hv : char_value (String.singleton c) = (c.toNat - 256 : Int) := by
      show (if c.toNat % 256 < 128 then _ else ((c.toNat % 256 : Nat) : Int) - 256) = _
      rw [if_neg (by omega)]; congr 2; omega
    simp only [gen_lit, hv, emit_push_eq]

/-- Witness of C11: `007` loads 7, the largest literal `9223372036854775807`
is accepted, `9223372036854775808` is fatal, and `'a'` loads 97. -/
theorem gen_lit_values_witness :
    gen_lit ⟨.int_lit, some "007"⟩ {} =
      .ok (.Int, pushed {} [.mov_imm .rax 7, .push (.reg .rax)]) ∧
    gen_lit ⟨.int_lit, some "9223372036854775807"⟩ {} =
      .ok (.Int, pushed {} [.mov_imm .rax 9223372036854775807, .push (.reg .rax)]) ∧
    gen_lit ⟨.int_lit, some "9223372036854775808"⟩ {} = .error .integer_literal_out_of_bounds ∧
    gen_lit ⟨.char_lit, some "a"⟩ {} =
      .ok (.Char, pushed {} [.mov_imm .rax 97, .push (.reg .rax)]) :=
  ⟨((gen_lit_values {}).1 ['0', '0', '7'] (by decide) (by decide)).1 (by decide),
    ((gen_lit_values {}).1 "9223372036854775807".toList (by decide) (by decide)).1 (by decide),
    ((gen_lit_values {}).1 "9223372036854775808".toList (by decide) (by decide)).2 (by decide),
    (gen_lit_values {}).2.2.2.2.2.1 'a' (by decide)⟩

/-! ### `gen_expr` as a function of `globals` and `stack_size` -/

theorem tail_code_in_expr (b : NodeBinExpr) : ∀ i ∈ b.tail_code, i.in_expr = true := by
  cases b <;> simp [NodeBinExpr.tail_code, Instr.in_expr]

theorem pushed_pushed (gen : Generator) (c1 c2 : List Instr) :
    pushed (pushed gen c1) c2 =
      { pushed gen (c1 ++ c2) with stack_size := size_t_inc (size_t_inc gen.stack_size) } := by
  simp [pushed]

mutual
theorem gen_term_congr : ∀ (t : NodeTerm) (gen g' : Generator) (ty : DataType),
    gen_term t gen = .ok (ty, g') →
    ∃ code, g' = pushed gen code ∧ (∀ i ∈ code, i.in_expr = true) ∧
      ∀ gen2 : Generator, gen2.globals = gen.globals →
      gen2.stack_size = gen.stack_size → gen_term t gen2 = .ok (ty, pushed gen2 code)
  | .Lit tok, gen, g', ty, h => by
    rw [gen_term] at h
    obtain ⟨v, hl, hv⟩ := gen_lit_frame tok gen g' ty h
    refine ⟨_, hv, by simp [Instr.in_expr], fun gen2 _ _ => ?_⟩
    rw [gen_term, gen_lit_eq, hl]
  | .Ident ident, gen, g', ty, h => by
    rw [gen_term] at h
    split at h
    · cases h
    · rename_i name hn
      split at h
      · cases h
      · rename_i var hvar
        simp only [Except.ok.injEq, Prod.mk.injEq] at h
        refine ⟨[.push (.qword_rsp (size_t_mul (size_t_sub gen.stack_size var.stack_loc) 8))],
          by rw [← h.2]; simp [pushed, push], by simp [Instr.in_expr], fun gen2 hg hs => ?_⟩
        rw [gen_term, hn]
        simp only [hg, hvar, hs, h.1]
        simp [pushed, push]
  | .Paren e, gen, g', ty, h => by
    rw [gen_term] at h
    obtain ⟨code, hc, hi, h2⟩ := gen_expr_congr e gen g' ty h
    exact ⟨code, hc, hi, fun gen2 hg hs => by rw [gen_term]; exact h2 gen2 hg hs⟩
  | .Unary .Negate operand, gen, g', ty, h => by
    rw [gen_term] at h
    split at h
    · cases h
    · rename_i dtype g1 h1
      obtain ⟨c1, hc1, hi1, h2⟩ := gen_term_congr operand gen g1 dtype h1
      split at h
      · cases h
      · rename_i hd
        simp only [Except.ok.injEq, Prod.mk.injEq] at h
        refine ⟨c1 ++ [.pop .rax, .neg .rax, .push (.reg .rax)], ?_, ?_, fun gen2 hg hs => ?_⟩
        · rw [← h.2, hc1]
          simp [pushed, emit, push, pop, size_t_inc_dec_inc]
        · intro i hi
          rcases List.mem_append.1 hi with hi | hi
          · exact hi1 i hi
          · exact (by decide : ∀ i ∈ [Instr.pop .rax, .neg .rax, .push (.reg .rax)],
              i.in_expr = true) i hi
        · rw [gen_term, h2 gen2 hg hs]
          simp only [hd, if_false, ← h.1]
          simp [pushed, emit, push, pop, size_t_inc_dec_inc]
  | .Unary .Not operand, gen, g', ty, h => by
    rw [gen_term] at h
    split at h
    · cases h
    · rename_i dtype g1 h1
      obtain ⟨c1, hc1, hi1, h2⟩ := gen_term_congr operand gen g1 dtype h1
      split at h
      · cases h
      · rename_i hd
        simp only [Except.ok.injEq, Prod.mk.injEq] at h
        refine ⟨c1 ++ [.pop .rax, .cmp_imm .rax 0, .set .e .al, .movzx .rax .al,
          .push (.reg .rax)], ?_, ?_, fun gen2 hg hs => ?_⟩
        · rw [← h.2, hc1]
          simp [pushed, emit, push, pop, size_t_inc_dec_inc]
        · intro i hi
          rcases List.mem_append.1 hi with hi | hi
          · exact hi1 i hi
          · exact (by decide : ∀ i ∈ [Instr.pop .rax, .cmp_imm .rax 0, .set .e .al,
              .movzx .rax .al, .push (.reg .rax)], i.in_expr = true) i hi
        · rw [gen_term, h2 gen2 hg hs]
          simp only [hd, if_false, ← h.1]
          simp [pushed, emit, push, pop, size_t_inc_dec_inc]
termination_by t => sizeOf t
theorem gen_bin_expr_congr : ∀ (b : NodeBinExpr) (gen g' : Generator) (ty : DataType),
    gen_bin_expr b gen = .ok (ty, g') →
    ∃ code, g' = pushed gen code ∧ (∀ i ∈ code, i.in_expr = true) ∧
      ∀ gen2 : Generator, gen2.globals = gen.globals →
      gen2.stack_size = gen.stack_size → gen_bin_expr b gen2 = .ok (ty, pushed gen2 code)
  | b, gen, g', ty, h => by
    rw [gen_bin_expr_eq] at h
    split at h
    · cases h
    · rename_i t1 g1 h1
      split at h
      · cases h
      · rename_i t2 g2 h2
        have hb1 : sizeOf b.first < sizeOf b := by cases b <;> simp [NodeBinExpr.first] <;> omega
        have hb2 : sizeOf b.second < sizeOf b := by
          cases b <;> simp [NodeBinExpr.second] <;> omega
        obtain ⟨c1, hc1, hi1, k1⟩ := gen_expr_congr b.first gen g1 t1 h1
        obtain ⟨c2, hc2, hi2, k2⟩ := gen_expr_congr b.second g1 g2 t2 h2
        split at h
        · rename_i ha
          simp only [Except.ok.injEq, Prod.mk.injEq] at h
          refine ⟨c1 ++ c2 ++ b.tail_code, ?_, ?_, fun gen2 hg hs => ?_⟩
          · rw [← h.2, hc2, hc1]
            simp [pushed, size_t_inc_dec_dec_inc_inc]
          · intro i hi
            rcases List.mem_append.1 hi with hi | hi
            · rcases List.mem_append.1 hi with hi | hi
              · exact hi1 i hi
              · exact hi2 i hi
            · exact tail_code_in_expr b i hi
          · rw [gen_bin_expr_eq, k1 gen2 hg hs]
            simp only []
            rw [k2 (pushed gen2 c1) (by rw [hc1]; exact hg)
              (by rw [hc1, pushed_stack_size, pushed_stack_size, hs])]
            simp only [ha, if_true, ← h.1]
            simp [pushed, size_t_inc_dec_dec_inc_inc]
        · cases h
termination_by b => sizeOf b
theorem gen_expr_congr : ∀ (e : NodeExpr) (gen g' : Generator) (ty : DataType),
    gen_expr e gen = .ok (ty, g') →
    ∃ code, g' = pushed gen code ∧ (∀ i ∈ code, i.in_expr = true) ∧
      ∀ gen2 : Generator, gen2.globals = gen.globals →
      gen2.stack_size = gen.stack_size → gen_expr e gen2 = .ok (ty, pushed gen2 code)
  | .Term t, gen, g', ty, h => by
    rw [gen_expr] at h
    obtain ⟨code, hc, hi, h2⟩ := gen_term_congr t gen g' ty h
    exact ⟨code, hc, hi, fun gen2 hg hs => by rw [gen_expr]; exact h2 gen2 hg hs⟩
  | .BinExpr b, gen, g', ty, h => by
    rw [gen_expr] at h
    obtain ⟨code, hc, hi, h2⟩ := gen_bin_expr_congr b gen g' ty h
    exact ⟨code, hc, hi, fun gen2 hg hs => by rw [gen_expr]; exact h2 gen2 hg hs⟩
termination_by e => sizeOf e
end

/-! ### The exit sequence -/

theorem gen_exit_eq (gen : Generator) :
    gen.gen_exit = { gen with
      output := gen.output ++ exit_sequence
      stack_size := size_t_dec gen.stack_size
      is_terminated := true } := by
  simp [gen_exit, exit_sequence, emit, pop]

theorem run_exit_sequence (p : Process) (v : Int) (st : List Int)
    (hst : p.machine.stack = v :: st) :
    (∃ p1, p.run (exit_sequence.take 6) = .running p1 ∧ p1.machine.stack = v :: st ∧
      p1.written = p.written ++ [10]) ∧
    ∃ p2, p.run exit_sequence = .exited v p2 ∧ p2.machine.stack = st ∧
      p2.machine.rax = 60 ∧ p2.machine.rdi = v ∧ p2.written = p.written ++ [10] := by
  obtain ⟨⟨rax, rbx, rdx, rdi, rsi, zf, sf, of, stack⟩, bb, rb, w⟩ := p
  simp only at hst
  subst hst
  constructor
  · exact ⟨_, rfl, rfl, rfl⟩
  · exact ⟨_, rfl, rfl, rfl, rfl, rfl⟩

/-! ### Scope frames: what leaving a frame restores -/

theorem restore_entry_other (G : String → Option Var) (en : ScopeEntry) (x : String)
    (h : en.name ≠ x) : restore_entry G en x = G x := by
  unfold restore_entry
  cases en.old_binding <;> simp [globals_set, globals_erase, Ne.symm h]

theorem restore_entry_same (G : String → Option Var) (en : ScopeEntry) :
    restore_entry G en en.name = en.old_binding := by
  unfold restore_entry
  cases h : en.old_binding <;> simp [globals_set, globals_erase]

theorem restore_entry_congr (G G' : String → Option Var) (en : ScopeEntry) (x : String)
    (h : G x = G' x) : restore_entry G en x = restore_entry G' en x := by
  by_cases hn : en.name = x
  · rw [← hn, restore_entry_same, restore_entry_same]
  · rw [restore_entry_other _ _ _ hn, restore_entry_other _ _ _ hn, h]

theorem restored_congr (x : String) : ∀ (frame : List ScopeEntry) (G G' : String → Option Var),
    G x = G' x → restored frame G x = restored frame G' x
  | [], G, G', h => h
  | en :: frame, G, G', h => by
    unfold restored
    rw [List.foldl_cons, List.foldl_cons]
    exact restored_congr x frame _ _ (restore_entry_congr G G' en x h)

theorem restored_append (frame extra : List ScopeEntry) (G : String → Option Var) (x : String) :
    restored (frame ++ extra) G x = restored extra (frame.foldl restore_entry G) x := by
  unfold restored
  rw [List.foldl_append]

theorem restored_no_entry (x : String) : ∀ (frame : List ScopeEntry) (G : String → Option Var),
    (∀ en ∈ frame, en.name ≠ x) → restored frame G x = G x
  | [], G, _ => rfl
  | en :: frame, G, h => by
    unfold restored
    rw [List.foldl_cons]
    have := restored_no_entry x frame (restore_entry G en) (fun e he => h e (List.mem_cons_of_mem _ he))
    unfold restored at this
    rw [this, restore_entry_other _ _ _ (h en (List.mem_cons_self _ _))]

theorem is_declared_false_iff (gen : Generator) (x : String) :
    gen.is_declared x = false ↔ ∀ en ∈ top_frame gen.scopes, en.name ≠ x := by
  unfold is_declared top_frame
  cases gen.scopes with
  | nil => simp
  | cons f rest => simp [List.any_eq_false]

theorem keeps_refl (x : String) (gen : Generator) : keeps x gen gen := ⟨rfl, fun _ => rfl⟩

theorem keeps_of_eq (x : String) {gen g' : Generator} (hs : g'.scopes = gen.scopes)
    (hg : g'.globals x = gen.globals x) : keeps x gen g' :=
  ⟨by rw [hs]; exact restored_congr x _ _ _ hg, fun _ => hg⟩

theorem keeps_trans (x : String) {gen g1 g' : Generator} (h1 : keeps x gen g1)
    (h2 : keeps x g1 g') (hf : frame_extends gen.scopes g1.scopes) : keeps x gen g' :=
  ⟨h2.1.trans h1.1, fun hd =>
    (h2.2 (is_declared_of_frame_extends hf hd)).trans (h1.2 hd)⟩


theorem keeps_congr_left (x : String) {gen g1 g' : Generator} (hs : g1.scopes = gen.scopes)
    (hg : g1.globals = gen.globals) (h : keeps x g1 g') : keeps x gen g' := by
  unfold keeps is_declared at *
  rw [hs, hg] at h
  exact h

theorem top_frame_declare_var (gen : Generator) (name : String) (var : Var) :
    top_frame (gen.declare_var name var).scopes =
      top_frame gen.scopes ++ [{ name := name, old_binding := gen.globals name }] := by
  unfold declare_var top_frame
  cases gen.scopes <;> rfl

theorem keeps_declare_var (x : String) (gen : Generator) (name : String) (var : Var)
    (hnd : gen.is_declared name = false) : keeps x gen (gen.declare_var name var) := by
  unfold keeps
  rw [top_frame_declare_var, restored_append]
  by_cases hn : name = x
  · subst hn
    refine ⟨?_, fun hd => by rw [hnd] at hd; cases hd⟩
    rw [restored_no_entry name _ _ ((is_declared_false_iff gen name).1 hnd)]
    exact restore_entry_same _ ⟨name, gen.globals name⟩
  · have hg : (gen.declare_var name var).globals x = gen.globals x := by
      simp [declare_var, globals_set, Ne.symm hn]
    refine ⟨?_, fun _ => hg⟩
    show restore_entry _ ⟨name, gen.globals name⟩ x = _
    rw [restore_entry_other _ _ _ hn]
    exact restored_congr x _ _ _ hg

theorem keeps_update_var (x : String) (gen : Generator) (name : String) (old_var new_var : Var)
    (hn : name ≠ x) : keeps x gen (gen.update_var name old_var new_var) := by
  have hg : (gen.update_var name old_var new_var).globals x = gen.globals x := by
    simp [update_var, globals_set, Ne.symm hn]
  refine ⟨?_, fun _ => hg⟩
  cases hs : gen.scopes with
  | nil =>
    have : (gen.update_var name old_var new_var).scopes = [] := by simp [update_var, hs]
    rw [this]
    exact hg
  | cons f rest =>
    have : (gen.update_var name old_var new_var).scopes =
        (f ++ [{ name := name, old_binding := some old_var }]) :: rest := by
      simp [update_var, hs]
    rw [this]
    show restored (f ++ _) _ x = restored f _ x
    rw [restored_append]
    show restore_entry _ ⟨name, some old_var⟩ x = _
    rw [restore_entry_other _ _ _ hn]
    exact restored_congr x _ _ _ hg

theorem keeps_of_gen_expr (x : String) {e : NodeExpr} {gen g1 g' : Generator} {ty : DataType}
    (h : gen_expr e gen = .ok (ty, g1)) (hk : keeps x g1 g') : keeps x gen g' := by
  obtain ⟨c, hc⟩ := gen_expr_frame e gen g1 ty h
  exact keeps_congr_left x (by rw [hc]; rfl) (by rw [hc]; rfl) hk

theorem gen_expr_globals {e : NodeExpr} {gen g1 : Generator} {ty : DataType}
    (h : gen_expr e gen = .ok (ty, g1)) : g1.globals = gen.globals := by
  obtain ⟨c, hc⟩ := gen_expr_frame e gen g1 ty h
  rw [hc]; rfl


theorem is_declared_of_scopes {gen g1 : Generator} (hs : g1.scopes = gen.scopes) (x : String) :
    g1.is_declared x = gen.is_declared x := by
  unfold is_declared; rw [hs]

mutual
theorem gen_stmt_keeps (x : String) : ∀ (s : NodeStmt) (gen g' : Generator),
    gen_stmt s gen = .ok g' → s.assigns x = false → keeps x gen g'
  | .Exit expr, gen, g', h, _ => by
    rw [gen_stmt] at h
    split at h
    · cases h
    · rename_i ty g1 h1
      simp only [Except.ok.injEq] at h
      rw [← h]
      exact keeps_of_gen_expr x h1 (keeps_of_eq x rfl rfl)
  | .Print expr, gen, g', h, _ => by
    rw [gen_stmt] at h
    split at h
    · cases h
    · rename_i ty g1 h1
      cases ty <;> simp only [Except.ok.injEq] at h <;> rw [← h] <;>
        exact keeps_of_gen_expr x h1 (keeps_of_eq x rfl rfl)
  | .If expr scope cont, gen, g', h, hna => by
    rw [gen_stmt] at h
    rw [NodeStmt.assigns, Bool.or_eq_false_iff] at hna
    split at h
    · cases h
    · rename_i ty g1 h1
      simp only [] at h
      split at h
      · cases h
      · rename_i g2 h2
        have e2 := gen_scope_scopes scope _ g2 h2
        have k2 := gen_scope_keeps x scope _ g2 h2 hna.1
        have e3 := gen_stmt_if_cont_scopes cont _ g2 g' h
        have k3 := gen_stmt_if_cont_keeps x cont _ g2 g' h hna.2
        exact keeps_of_gen_expr x h1 (keeps_of_eq x (by rw [e3, e2]; rfl) (by rw [k3, k2]; rfl))
  | .Const ident dtype expr, gen, g', h, _ => by
    rw [gen_stmt] at h
    split at h
    · cases h
    · rename_i name hn
      split at h
      · cases h
      · rename_i hnd
        split at h
        · cases h
        · rename_i ty g1 h1
          split at h
          · cases h
          · simp only [Except.ok.injEq] at h
            rw [← h]
            refine keeps_of_gen_expr x h1 (keeps_declare_var x g1 name _ ?_)
            rw [is_declared_of_scopes (gen_expr_scopes h1)]
            simpa using hnd
  | .Let ident dtype expr, gen, g', h, _ => by
    rw [gen_stmt] at h
    split at h
    · cases h
    · rename_i name hn
      split at h
      · cases h
      · rename_i hnd
        split at h
        · simp only [Except.ok.injEq] at h
          rw [← h]
          refine @keeps_congr_left x gen
            ((gen.emit (.mov_imm_flush_left .rax 0)).push (.reg .rax)) _
            rfl rfl (keeps_declare_var x _ name _ ?_)
          show gen.is_declared name = false
          simpa using hnd
        · split at h
          · cases h
          · rename_i ty g1 h1
            split at h
            · cases h
            · simp only [Except.ok.injEq] at h
              rw [← h]
              refine keeps_of_gen_expr x h1 (keeps_declare_var x g1 name _ ?_)
              rw [is_declared_of_scopes (gen_expr_scopes h1)]
              simpa using hnd
  | .Assign ident expr, gen, g', h, hna => by
    rw [gen_stmt] at h
    rw [NodeStmt.assigns, decide_eq_false_iff_not] at hna
    split at h
    · cases h
    · rename_i name hn
      have hne : name ≠ x := fun hx => hna (by rw [hn, hx])
      split at h
      · cases h
      · split at h
        · cases h
        · split at h
          · cases h
          · rename_i ty g1 h1
            split at h
            · cases h
            · simp only [Except.ok.injEq] at h
              rw [← h]
              exact keeps_of_gen_expr x h1 (keeps_update_var x g1 name _ _ hne)
  | .Scope scope, gen, g', h, hna => by
    rw [gen_stmt] at h
    rw [NodeStmt.assigns] at hna
    exact keeps_of_eq x (gen_scope_scopes scope gen g' h) (gen_scope_keeps x scope gen g' h hna)
theorem gen_stmt_if_cont_keeps (x : String) : ∀ (c : Option NodeStmtIfCont) (label : String)
    (gen g' : Generator), gen_stmt_if_cont c label gen = .ok g' →
    NodeStmtIfCont.assigns_opt x c = false → g'.globals x = gen.globals x
  | some cont, label, gen, g', h, hna => by
    rw [gen_stmt_if_cont] at h
    rw [NodeStmtIfCont.assigns_opt] at hna
    split at h
    · cases h
    · rename_i g1 h1
      simp only [Except.ok.injEq] at h
      rw [← h]
      exact (gen_if_cont_keeps x cont _ _ g1 h1 hna :)
  | none, label, gen, g', h, _ => by
    rw [gen_stmt_if_cont] at h
    simp only [Except.ok.injEq] at h
    rw [← h]; rfl
theorem gen_scope_keeps (x : String) : ∀ (sc : NodeStmtScope) (gen g' : Generator),
    gen_scope sc gen = .ok g' → sc.assigns x = false → g'.globals x = gen.globals x
  | .mk stmts, gen, g', h, hna => by
    rw [gen_scope] at h
    rw [NodeStmtScope.assigns] at hna
    split at h
    · cases h
    · rename_i g1 h1
      have hk := (gen_scope_stmts_keeps x stmts _ g1 h1 hna).1
      obtain ⟨extra, he⟩ := gen_scope_stmts_frame_extends stmts _ g1 h1
      unfold exit_scope at h
      rw [he] at h hk
      simp only [Except.ok.injEq] at h
      rw [← h]
      exact hk
theorem gen_scope_stmts_keeps (x : String) : ∀ (l : List NodeStmt) (gen g' : Generator),
    gen_scope_stmts l gen = .ok g' → NodeStmt.assigns_list x l = false → keeps x gen g'
  | [], gen, g', h, _ => by
    rw [gen_scope_stmts] at h
    simp only [Except.ok.injEq] at h
    rw [← h]; exact keeps_refl x gen
  | s :: rest, gen, g', h, hna => by
    rw [gen_scope_stmts] at h
    rw [NodeStmt.assigns_list, Bool.or_eq_false_iff] at hna
    split at h
    · cases h
    · rename_i g1 h1
      exact keeps_trans x (gen_stmt_keeps x s gen g1 h1 hna.1)
        (gen_scope_stmts_keeps x rest g1 g' h hna.2) (gen_stmt_frame_extends s gen g1 h1)
theorem gen_if_cont_keeps (x : String) : ∀ (c : NodeStmtIfCont) (end_label : String)
    (gen g' : Generator), gen_if_cont c end_label gen = .ok g' →
    c.assigns x = false → g'.globals x = gen.globals x
  | .Elif expr scope cont, end_label, gen, g', h, hna => by
    rw [gen_if_cont] at h
    rw [NodeStmtIfCont.assigns, Bool.or_eq_false_iff] at hna
    split at h
    · cases h
    · rename_i ty g1 h1
      simp only [] at h
      split at h
      · cases h
      · rename_i g2 h2
        have k2 := gen_scope_keeps x scope _ g2 h2 hna.1
        have k3 := gen_elif_cont_keeps x cont _ _ _ g' h hna.2
        rw [k3]; simp only [emit]; rw [k2]
        simp only [create_label, pop, emit]
        rw [gen_expr_globals h1]
  | .Else scope, end_label, gen, g', h, hna => by
    rw [gen_if_cont] at h
    rw [NodeStmtIfCont.assigns] at hna
    exact gen_scope_keeps x scope gen g' h hna
theorem gen_elif_cont_keeps (x : String) : ∀ (c : Option NodeStmtIfCont)
    (label end_label : String) (gen g' : Generator),
    gen_elif_cont c label end_label gen = .ok g' →
    NodeStmtIfCont.assigns_opt x c = false → g'.globals x = gen.globals x
  | some cont, label, end_label, gen, g', h, hna => by
    rw [gen_elif_cont] at h
    rw [NodeStmtIfCont.assigns_opt] at hna
    exact (gen_if_cont_keeps x cont _ _ g' h hna :)
  | none, label, end_label, gen, g', h, _ => by
    rw [gen_elif_cont] at h
    simp only [Except.ok.injEq] at h
    rw [← h]
end


theorem gen_scope_stmts_append : ∀ (a b : List NodeStmt) (gen : Generator),
    gen_scope_stmts (a ++ b) gen =
      match gen_scope_stmts a gen with
      | .error err => .error err
      | .ok g => gen_scope_stmts b g
  | [], b, gen => by simp [gen_scope_stmts]
  | s :: a, b, gen => by
    rw [List.cons_append, gen_scope_stmts, gen_scope_stmts]
    cases gen_stmt s gen with
    | error err => rfl
    | ok g1 => exact gen_scope_stmts_append a b g1

theorem assigns_list_append (x : String) : ∀ (a b : List NodeStmt),
    NodeStmt.assigns_list x (a ++ b) = (NodeStmt.assigns_list x a || NodeStmt.assigns_list x b)
  | [], b => by simp [NodeStmt.assigns_list]
  | s :: a, b => by
    rw [List.cons_append, NodeStmt.assigns_list, NodeStmt.assigns_list,
      assigns_list_append x a b, Bool.or_assoc]

theorem declare_var_globals (gen : Generator) (name : String) (var : Var) :
    (gen.declare_var name var).globals name = some var := by
  simp [declare_var, globals_set]

theorem gen_stmt_declares_binding {d : NodeStmt} {x : String} (hd : d.declares x)
    {gen g' : Generator} (h : gen_stmt d gen = .ok g') :
    ∃ inner, g'.globals x = some inner ∧ inner.stack_loc = g'.stack_size := by
  cases d <;> simp only [NodeStmt.declares] at hd
  · rw [gen_stmt, hd] at h
    simp only [] at h
    split at h
    · cases h
    · split at h
      · cases h
      · split at h
        · cases h
        · simp only [Except.ok.injEq] at h
          rw [← h]
          exact ⟨_, declare_var_globals _ _ _, rfl⟩
  · rw [gen_stmt, hd] at h
    simp only [] at h
    split at h
    · cases h
    · split at h
      · simp only [Except.ok.injEq] at h
        rw [← h]
        exact ⟨_, declare_var_globals _ _ _, rfl⟩
      · split at h
        · cases h
        · split at h
          · cases h
          · simp only [Except.ok.injEq] at h
            rw [← h]
            exact ⟨_, declare_var_globals _ _ _, rfl⟩

/-- Shadowing in general: when a block that contains no assignment to `x` at
any depth declares `x` and generates successfully, the binding of `x` after
the block is the one before it; the declaration binds `x` to the slot just
pushed, and after any further statements of the block `x` still has that
binding. -/
theorem gen_scope_shadowing (x : String) (pre post : List NodeStmt) (d : NodeStmt)
    (hd : d.declares x) (gen g' : Generator)
    (h : gen_scope (.mk (pre ++ d :: post)) gen = .ok g')
    (hna : NodeStmt.assigns_list x (pre ++ d :: post) = false) :
    g'.globals x = gen.globals x ∧
    ∃ g_pre g_d inner, gen_scope_stmts pre gen.enter_scope = .ok g_pre ∧
      gen_stmt d g_pre = .ok g_d ∧ g_d.globals x = some inner ∧
      inner.stack_loc = g_d.stack_size ∧
      ∀ mid rest g_mid, post = mid ++ rest → gen_scope_stmts mid g_d = .ok g_mid →
        g_mid.globals x = some inner := by
  refine ⟨gen_scope_keeps x _ gen g' h (by rw [NodeStmtScope.assigns]; exact hna), ?_⟩
  rw [gen_scope] at h
  split at h
  · cases h
  · rename_i g1 h1
    rw [gen_scope_stmts_append] at h1
    cases hpre : gen_scope_stmts pre gen.enter_scope with
    | error err => rw [hpre] at h1; cases h1
    | ok g_pre =>
      rw [hpre] at h1
      simp only [gen_scope_stmts] at h1
      cases hgd : gen_stmt d g_pre with
      | error err => rw [hgd] at h1; cases h1
      | ok g_d =>
        obtain ⟨inner, hin, hloc⟩ := gen_stmt_declares_binding hd hgd
        refine ⟨g_pre, g_d, inner, rfl, hgd, hin, hloc, ?_⟩
        intro mid rest g_mid hpost hmid
        rw [assigns_list_append, Bool.or_eq_false_iff, NodeStmt.assigns_list,
          Bool.or_eq_false_iff, hpost, assigns_list_append, Bool.or_eq_false_iff] at hna
        have hk := gen_scope_stmts_keeps x mid g_d g_mid hmid hna.2.2.1
        rw [hk.2 (gen_stmt_declares_is_declared hd hgd), hin]

/-- A block without any assignment leaves the symbol table as it found it. -/
theorem gen_scope_restores_without_assignments (sc : NodeStmtScope) (gen g' : Generator)
    (h : gen_scope sc gen = .ok g') (hna : ∀ x, sc.assigns x = false) :
    g'.globals = gen.globals :=
  funext fun x => gen_scope_keeps x sc gen g' h (hna x)

theorem globals_set_restore (G : String → Option Var) (x : String) (var new_var : Var)
    (hx : G x = some var) : globals_set (globals_set G x new_var) x var = G := by
  funext k
  simp only [globals_set]
  split_ifs with h
  · rw [h, hx]
  · rfl

/-! ### C12 -/

/-- C12, the input on which the code departs from the claim: in
`let int x = 1; { { x = 5; x = 6; } let int x = 2; } print x;` the outer
block declares `x` and logs no assignment in its own frame, but the nested
block leaves `x` bound to slot 2, the slot holding 5, because `exit_scope`
applies its two entries oldest first.  The declaration logs that binding as
the one to restore, so after the outer block `x` is bound to slot 2 instead of
slot 1, and `print x` loads 5.  The program of the claim,
`let int x = 1; { let int x = 2; print x; } print x;`, loads the slot holding
2 and then the slot holding 1. -/
theorem shadowing_after_nested_assignments :
    (∃ g0 g1, gen_prog_loop [let_int "x" "1"] {} = .ok (false, g0) ∧
      g0.globals "x" = some { stack_loc := 1, dtype := .Int, mut_ := true } ∧
      gen_stmt (.Scope (.mk [.Scope (.mk [assign_int "x" "5", assign_int "x" "6"]),
        let_int "x" "2"])) g0 = .ok g1 ∧
      g1.globals "x" = some { stack_loc := 2, dtype := .Int, mut_ := true }) ∧
    gen_prog ⟨[let_int "x" "1",
      .Scope (.mk [.Scope (.mk [assign_int "x" "5", assign_int "x" "6"]), let_int "x" "2"]),
      print_ident "x"]⟩ =
      .ok (prologue ++
        [.mov_imm .rax 1, .push (.reg .rax), .mov_imm .rax 5, .push (.reg .rax),
          .mov_imm .rax 6, .push (.reg .rax), .mov_imm .rax 2, .push (.reg .rax),
          .push (.qword_rsp 16), .pop .rdi, .call "print_int"] ++ exit_sequence) ∧
    (∃ m, ({} : Machine).exec (prologue ++
        [.mov_imm .rax 1, .push (.reg .rax), .mov_imm .rax 5, .push (.reg .rax),
          .mov_imm .rax 6, .push (.reg .rax), .mov_imm .rax 2, .push (.reg .rax),
          .push (.qword_rsp 16), .pop .rdi]) = .running m ∧
      m.rdi = 5 ∧ m.stack = [2, 6, 5, 1]) ∧
    gen_prog ⟨[let_int "x" "1", .Scope (.mk [let_int "x" "2", print_ident "x"]),
      print_ident "x"]⟩ =
      .ok (prologue ++
        [.mov_imm .rax 1, .push (.reg .rax), .mov_imm .rax 2, .push (.reg .rax),
          .push (.qword_rsp 0), .pop .rdi, .call "print_int",
          .push (.qword_rsp 8), .pop .rdi, .call "print_int"] ++ exit_sequence) :=
  ⟨⟨_, _, rfl, rfl, rfl, rfl⟩, rfl, ⟨_, rfl, rfl, rfl⟩, rfl⟩

/-! ### C13 -/

/-- C13: when `x` has the mutable binding `var` and `e` generates with the
type of `var`, the block `{ x = e; }` generates successfully and leaves
exactly the state reached by generating `e`: the symbol table is the one
before the block.  A following `print x` emits `push QWORD [rsp + k]` with
`k` computed from `var.stack_loc`, then `pop rdi` and the call; at run time,
on a stack that belongs to the state before the block, this push loads the
value that `x` had before the block, above the value of `e`. -/
theorem gen_scope_assign_rollback (x : String) (e : NodeExpr) (gen g1 : Generator) (var : Var)
    (hx : gen.globals x = some var) (hm : var.mut_ = true)
    (he : gen_expr e gen = .ok (var.dtype, g1)) :
    gen_stmt (.Scope (.mk [.Assign (ident_token x) e])) gen = .ok g1 ∧
    g1.globals = gen.globals ∧
    (∃ g2, gen_stmt (.Print (.Term (.Ident (ident_token x)))) g1 = .ok g2 ∧
      g2.output = g1.output ++
        [.push (.qword_rsp (size_t_mul (size_t_sub g1.stack_size var.stack_loc) 8)), .pop .rdi,
          .call (if var.dtype = .Char then "print_char" else "print_int")]) ∧
    (∀ (code : List Instr) (env : String → Int) (m m1 : Machine),
      g1.output = gen.output ++ code → (∀ n, fits64 (env n)) → stack_holds gen env m.stack →
      m.stack.length + code.length + 1 < 2 ^ 61 → m.exec code = .running m1 →
      ∃ v, m1.stack = v :: m.stack ∧
        m1.exec [.push (.qword_rsp (size_t_mul (size_t_sub g1.stack_size var.stack_loc) 8))] =
          .running { m1 with stack := env x :: v :: m.stack }) := by
  obtain ⟨c, hc, _, hcong⟩ := gen_expr_congr e gen g1 var.dtype he
  have hg1 : g1.globals = gen.globals := by rw [hc]; rfl
  refine ⟨?_, hg1, ?_, ?_⟩
  · have h2 := hcong gen.enter_scope rfl rfl
    rw [gen_stmt, gen_scope, gen_scope_stmts, gen_stmt]
    simp only [ident_token]
    have hx2 : gen.enter_scope.globals x = some var := hx
    simp only [hx2, hm, h2, gen_scope_stmts]
    simp only [Bool.true_eq_false, if_false, ne_eq, not_true_eq_false]
    rw [hc]
    simp only [exit_scope, update_var, pushed, enter_scope, List.nil_append, List.foldl_cons,
      List.foldl_nil, restore_entry, globals_set_restore _ _ _ _ hx]
  · rw [gen_stmt, gen_expr, gen_term]
    simp only [ident_token, hg1, hx]
    cases var.dtype <;> exact ⟨_, rfl, by simp [pop, push, emit]⟩
  · intro code env m m1 hcode henv hs hb hrun
    obtain ⟨⟨hag, _⟩, hlen1⟩ :=
      gen_expr_correct e gen g1 var.dtype code env m he hcode henv hs (by omega)
    rw [hrun] at hag
    cases hr : ref_eval neg64 env e with
    | value v =>
      rw [hr] at hag
      obtain ⟨m', hm', hst⟩ := hag
      cases hm'
      refine ⟨v, hst, ?_⟩
      have hlen : m.stack.length = gen.stack_size := hs.1
      have hs1 : stack_holds g1 env m1.stack := by
        rw [hc, hst]
        exact stack_holds_push hs v c (by rw [← hlen]; omega)
      have := exec_ident g1 env m1 x var (by rw [hg1]; exact hx) hs1
        (by rw [hst, List.length_cons]; omega)
      rw [this, hst]
    | overflow => rw [hr] at hag; obtain ⟨m', hm'⟩ := hag; cases hm'
    | divzero => rw [hr] at hag; obtain ⟨m', hm'⟩ := hag; cases hm'
    | excluded => rw [hr] at hag; cases hag

/-- Witness of C13: after `let int x = 1;` the block `{ x = 2; }` leaves the
state reached by pushing 2, and in `let int x = 1; { x = 2; } print x;` the
print loads `[rsp + 8]`, the slot holding 1. -/
theorem gen_scope_assign_rollback_witness :
    gen_stmt (.Scope (.mk [.Assign (ident_token "x") (int_expr "2")]))
        (declare_var (pushed {} [.mov_imm .rax 1, .push (.reg .rax)]) "x"
          { stack_loc := 1, dtype := .Int, mut_ := true }) =
      .ok (pushed (declare_var (pushed {} [.mov_imm .rax 1, .push (.reg .rax)]) "x"
          { stack_loc := 1, dtype := .Int, mut_ := true })
        [.mov_imm .rax 2, .push (.reg .rax)]) ∧
    gen_prog ⟨[let_int "x" "1", .Scope (.mk [assign_int "x" "2"]), print_ident "x"]⟩ =
      .ok (prologue ++
        [.mov_imm .rax 1, .push (.reg .rax), .mov_imm .rax 2, .push (.reg .rax),
          .push (.qword_rsp 8), .pop .rdi, .call "print_int"] ++ exit_sequence) ∧
    (∃ m, ({} : Machine).exec (prologue ++
        [.mov_imm .rax 1, .push (.reg .rax), .mov_imm .rax 2, .push (.reg .rax),
          .push (.qword_rsp 8), .pop .rdi]) = .running m ∧ m.rdi = 1) :=
  ⟨(gen_scope_assign_rollback "x" (int_expr "2")
      (declare_var (pushed {} [.mov_imm .rax 1, .push (.reg .rax)]) "x"
        { stack_loc := 1, dtype := .Int, mut_ := true }) _
      { stack_loc := 1, dtype := .Int, mut_ := true } rfl rfl rfl).1,
    rfl, ⟨_, rfl, rfl⟩⟩

/-! ### C14 -/

/-- C14, the input on which the code departs from the claim: in
`let int x = 1; { x = 2; x = 3; } print x;` the frame logs the binding to
slot 1 and then the binding to slot 2, and `exit_scope` applies them in the
order of logging.  After the block `x` is bound to slot 2, not to slot 1 as
before the block, and `print x` loads 2. -/
theorem scope_exit_replays_log_forwards :
    (∃ g0 g1, gen_prog_loop [let_int "x" "1"] {} = .ok (false, g0) ∧
      g0.globals "x" = some { stack_loc := 1, dtype := .Int, mut_ := true } ∧
      gen_stmt (.Scope (.mk [assign_int "x" "2", assign_int "x" "3"])) g0 = .ok g1 ∧
      g1.globals "x" = some { stack_loc := 2, dtype := .Int, mut_ := true }) ∧
    gen_prog ⟨[let_int "x" "1", .Scope (.mk [assign_int "x" "2", assign_int "x" "3"]),
      print_ident "x"]⟩ =
      .ok (prologue ++
        [.mov_imm .rax 1, .push (.reg .rax), .mov_imm .rax 2, .push (.reg .rax),
          .mov_imm .rax 3, .push (.reg .rax),
          .push (.qword_rsp 8), .pop .rdi, .call "print_int"] ++ exit_sequence) ∧
    (∃ m, ({} : Machine).exec (prologue ++
        [.mov_imm .rax 1, .push (.reg .rax), .mov_imm .rax 2, .push (.reg .rax),
          .mov_imm .rax 3, .push (.reg .rax), .push (.qword_rsp 8), .pop .rdi]) = .running m ∧
      m.rdi = 2 ∧ m.stack = [3, 2, 1]) :=
  ⟨⟨_, _, rfl, rfl, rfl, rfl⟩, rfl, ⟨_, rfl, rfl, rfl⟩⟩

/-! ### C15 -/

theorem gen_prog_loop_append : ∀ (P R : List NodeStmt) (gen : Generator),
    gen_prog_loop (P ++ R) gen =
      match gen_prog_loop P gen with
      | .error err => .error err
      | .ok (true, g) => .ok (true, g)
      | .ok (false, g) => gen_prog_loop R g
  | [], R, gen => by simp [gen_prog_loop]
  | s :: P, R, gen => by
    rw [List.cons_append, gen_prog_loop, gen_prog_loop]
    split_ifs
    · rfl
    · cases gen_stmt s gen with
      | error err => rfl
      | ok g1 => exact gen_prog_loop_append P R g1

theorem gen_prog_loop_exit_terminated (e : NodeExpr) : ∀ (P : List NodeStmt)
    (gen g : Generator) (b : Bool),
    gen_prog_loop (P ++ [.Exit e]) gen = .ok (b, g) → g.is_terminated = true
  | [], gen, g, b, h => by
    rw [List.nil_append, gen_prog_loop] at h
    split_ifs at h with ht
    · cases h; exact ht
    · rw [gen_stmt] at h
      cases he : gen_expr e gen with
      | error err => rw [he] at h; cases h
      | ok r =>
        rw [he] at h
        simp only [gen_prog_loop, Except.ok.injEq, Prod.mk.injEq] at h
        rw [← h.2]; rfl
  | s :: P, gen, g, b, h => by
    rw [List.cons_append, gen_prog_loop] at h
    split_ifs at h with ht
    · cases h; exact ht
    · cases hs : gen_stmt s gen with
      | error err => rw [hs] at h; cases h
      | ok g1 =>
        rw [hs] at h
        exact gen_prog_loop_exit_terminated e P g1 g b h

theorem gen_prog_loop_after_exit (P Q : List NodeStmt) (e : NodeExpr) (gen : Generator)
    (hQ : Q ≠ []) :
    gen_prog_loop (P ++ [.Exit e] ++ Q) gen =
      match gen_prog_loop (P ++ [.Exit e]) gen with
      | .error err => .error err
      | .ok (_, g) => .ok (true, g) := by
  rw [gen_prog_loop_append]
  cases h : gen_prog_loop (P ++ [.Exit e]) gen with
  | error err => rfl
  | ok r =>
    obtain ⟨b, g⟩ := r
    have ht := gen_prog_loop_exit_terminated e P gen g b h
    cases b
    · obtain ⟨q, Q, rfl⟩ := List.exists_cons_of_ne_nil hQ
      simp only [gen_prog_loop, ht, if_true]
    · rfl

/-- C15: for all statement lists `P`, expressions `e` and non-empty statement
lists `Q` and `Q'`, `gen_prog` gives the same result on `P ++ [exit e] ++ Q`
and on `P ++ [exit e] ++ Q'`.  That result is the state which the loop
reaches on `P ++ [exit e]` alone (or its error): no statement of `Q` is
generated or checked. -/
theorem gen_prog_after_exit (P Q Q' : List NodeStmt) (e : NodeExpr)
    (hQ : Q ≠ []) (hQ' : Q' ≠ []) :
    gen_prog ⟨P ++ [.Exit e] ++ Q⟩ = gen_prog ⟨P ++ [.Exit e] ++ Q'⟩ ∧
    ∀ gen : Generator, gen_prog_run ⟨P ++ [.Exit e] ++ Q⟩ gen =
      match gen_prog_loop (P ++ [.Exit e]) { gen with output := gen.output ++ prologue } with
      | .error err => .error err
      | .ok (_, g) => .ok g := by
  have key : ∀ (R : List NodeStmt) (gen : Generator), R ≠ [] →
      gen_prog_run ⟨P ++ [.Exit e] ++ R⟩ gen =
        match gen_prog_loop (P ++ [.Exit e]) { gen with output := gen.output ++ prologue } with
        | .error err => .error err
        | .ok (_, g) => .ok g := by
    intro R gen hR
    have hp : (gen.emit (.extern_ "print_int") |>.emit (.extern_ "print_string")
        |>.emit (.extern_ "print_char") |>.emit (.extern_ "overflow_error")
        |>.emit (.extern_ "divzero_error") |>.emit (.global_ "_start")
        |>.emit (.label "_start")) = { gen with output := gen.output ++ prologue } := by
      simp [emit, prologue]
    rw [gen_prog_run, hp]
    simp only []
    rw [gen_prog_loop_after_exit P R e _ hR]
    cases gen_prog_loop (P ++ [.Exit e]) { gen with output := gen.output ++ prologue } with
    | error err => rfl
    | ok r => rfl
  refine ⟨?_, fun gen => key Q gen hQ⟩
  rw [gen_prog, gen_prog, key Q {} hQ, key Q' {} hQ']

/-- Witness of C15: after `let int x = 1; exit 0;` the statement `print y;`
with an undeclared `y`, fatal on its own, and the redeclaration
`let int z = 2; let int z = 3;` give the same output, which ends with the
exit sequence of `exit 0;`. -/
theorem gen_prog_after_exit_witness :
    gen_prog ⟨[let_int "x" "1"] ++ [.Exit (int_expr "0")] ++ [print_ident "y"]⟩ =
      gen_prog ⟨[let_int "x" "1"] ++ [.Exit (int_expr "0")] ++ [let_int "z" "2", let_int "z" "3"]⟩ ∧
    gen_prog ⟨[let_int "x" "1"] ++ [.Exit (int_expr "0")] ++ [print_ident "y"]⟩ =
      .ok (prologue ++ [.mov_imm .rax 1, .push (.reg .rax), .mov_imm .rax 0, .push (.reg .rax)] ++
        exit_sequence) ∧
    gen_prog ⟨[print_ident "y"]⟩ = .error .variable_not_declared :=
  ⟨(gen_prog_after_exit [let_int "x" "1"] [print_ident "y"] [let_int "z" "2", let_int "z" "3"]
      (int_expr "0") (by simp) (by simp)).1, rfl, rfl⟩

/-! ### C16 -/

/-- C16, the input on which the code departs from the claim:
`let int x = 7;` has no exit statement and generates successfully.  Its
output ends with the exit sequence, whose `pop rdi` takes the top of the
run-time stack: on every process the `exit` system call receives 7, the
value of `x`, not 0.  For the empty program the sequence pops the word on top
of the stack at entry, and `stack_size` wraps from 0 to `2^64 - 1`. -/
theorem implicit_exit_pops_last_variable :
    gen_prog ⟨[let_int "x" "7"]⟩ =
      .ok (prologue ++ [.mov_imm .rax 7, .push (.reg .rax)] ++ exit_sequence) ∧
    (∀ p : Process, ∃ p2,
      p.run (prologue ++ [.mov_imm .rax 7, .push (.reg .rax)] ++ exit_sequence) = .exited 7 p2 ∧
      p2.machine.rax = 60 ∧ p2.machine.rdi = 7) ∧
    gen_prog ⟨[]⟩ = .ok (prologue ++ exit_sequence) ∧
    (∀ (p : Process) (v : Int) (st : List Int), p.machine.stack = v :: st →
      ∃ p2, p.run (prologue ++ exit_sequence) = .exited v p2) ∧
    (∃ g, gen_prog_run ⟨[]⟩ {} = .ok g ∧ g.stack_size = 2 ^ 64 - 1) := by
  refine ⟨rfl, fun p => ⟨_, rfl, rfl, rfl⟩, rfl, ?_, ⟨_, rfl, rfl⟩⟩
  intro p v st hst
  obtain ⟨p2, h2, _⟩ := (run_exit_sequence p v st hst).2
  exact ⟨p2, h2⟩

/-! ### C17 -/

/-- C17, the input on which the code departs from the claim: for `exit 42;`
the loop of `gen_prog` ends without another test of `is_terminated` and
`gen_exit` runs a second time: the output holds two exit sequences (two
lines `mov rax, 60`), and `stack_size` wraps below 0 to `2^64 - 1`.  With a
statement after the exit, as in `exit 42; print 1;`, the output holds one. -/
theorem exit_as_last_statement_emits_two_exit_sequences :
    gen_prog ⟨[.Exit (int_expr "42")]⟩ =
      .ok (prologue ++ [.mov_imm .rax 42, .push (.reg .rax)] ++ exit_sequence ++ exit_sequence) ∧
    List.count (Instr.mov_imm .rax 60)
      (prologue ++ [.mov_imm .rax 42, .push (.reg .rax)] ++ exit_sequence ++ exit_sequence) = 2 ∧
    (∃ g, gen_prog_run ⟨[.Exit (int_expr "42")]⟩ {} = .ok g ∧ g.stack_size = 2 ^ 64 - 1) ∧
    gen_prog ⟨[.Exit (int_expr "42"), .Print (int_expr "1")]⟩ =
      .ok (prologue ++ [.mov_imm .rax 42, .push (.reg .rax)] ++ exit_sequence) ∧
    List.count (Instr.mov_imm .rax 60)
      (prologue ++ [.mov_imm .rax 42, .push (.reg .rax)] ++ exit_sequence) = 1 :=
  ⟨rfl, by decide, ⟨_, rfl, rfl⟩, rfl, by decide⟩

/-! ### C18 -/

/-- C18: for an integer literal with digits `ds` of value `n ≤ 2^63 - 1`, the
statement `exit n;` generates successfully and appends eleven lines: the load
of `n`, its push, the six lines that write one newline byte with the `write`
system call, then `mov rax, 60`, `pop rdi` and `syscall`.  On every process,
the first eight lines end with `n` on top of the otherwise unchanged stack
and the byte 10 written; the whole sequence leaves through the `exit` system
call with `rax = 60` and `rdi = n`, the stack as it was before the push. -/
theorem gen_stmt_exit_literal (ds : List Char) (gen : Generator) (hne : ds ≠ [])
    (hd : ∀ c ∈ ds, c.isDigit = true) (hv : decimal_value ds ≤ 9223372036854775807) :
    (∃ g', gen_stmt (.Exit (.Term (.Lit ⟨.int_lit, some (String.mk ds)⟩))) gen = .ok g' ∧
      g'.output = gen.output ++
        [.mov_imm .rax (decimal_value ds), .push (.reg .rax),
          .mov_imm .rax 1, .mov_imm .rdi 1, .lea_rsi_rsp_minus_1, .mov_byte_rsp_minus_1 10,
          .mov_imm .rdx 1, .syscall,
          .mov_imm .rax 60, .pop .rdi, .syscall] ∧
      g'.is_terminated = true) ∧
    ∀ p : Process,
      (∃ p1, p.run [.mov_imm .rax (decimal_value ds), .push (.reg .rax),
          .mov_imm .rax 1, .mov_imm .rdi 1, .lea_rsi_rsp_minus_1, .mov_byte_rsp_minus_1 10,
          .mov_imm .rdx 1, .syscall] = .running p1 ∧
        p1.machine.stack = (decimal_value ds : Int) :: p.machine.stack ∧
        p1.written = p.written ++ [10]) ∧
      (∃ p2, p.run [.mov_imm .rax (decimal_value ds), .push (.reg .rax),
          .mov_imm .rax 1, .mov_imm .rdi 1, .lea_rsi_rsp_minus_1, .mov_byte_rsp_minus_1 10,
          .mov_imm .rdx 1, .syscall,
          .mov_imm .rax 60, .pop .rdi, .syscall] = .exited (decimal_value ds) p2 ∧
        p2.machine.rax = 60 ∧ p2.machine.rdi = decimal_value ds ∧
        p2.machine.stack = p.machine.stack ∧ p2.written = p.written ++ [10]) := by
  constructor
  · have hl := gen_lit_digits gen ds hne hd hv
    rw [gen_stmt, gen_expr, gen_term, hl]
    exact ⟨_, rfl, by simp [gen_exit, emit, pop, pushed], rfl⟩
  · intro p
    exact ⟨⟨_, rfl, rfl, rfl⟩, ⟨_, rfl, rfl, rfl, rfl, rfl⟩⟩

/-- Witness of C18: `exit 42;` on the fresh generator and the initial
process: the exit system call receives 42. -/
theorem gen_stmt_exit_literal_witness :
    (∃ g', gen_stmt (.Exit (int_expr "42")) {} = .ok g' ∧
      g'.output = [] ++
        [.mov_imm .rax 42, .push (.reg .rax),
          .mov_imm .rax 1, .mov_imm .rdi 1, .lea_rsi_rsp_minus_1, .mov_byte_rsp_minus_1 10,
          .mov_imm .rdx 1, .syscall,
          .mov_imm .rax 60, .pop .rdi, .syscall] ∧
      g'.is_terminated = true) ∧
    (∃ p2, ({} : Process).run
        [.mov_imm .rax 42, .push (.reg .rax),
          .mov_imm .rax 1, .mov_imm .rdi 1, .lea_rsi_rsp_minus_1, .mov_byte_rsp_minus_1 10,
          .mov_imm .rdx 1, .syscall,
          .mov_imm .rax 60, .pop .rdi, .syscall] = .exited 42 p2 ∧
      p2.machine.rax = 60 ∧ p2.machine.rdi = 42 ∧
      p2.machine.stack = [] ∧ p2.written = [] ++ [10]) :=
  ⟨(gen_stmt_exit_literal ['4', '2'] {} (by decide) (by decide) (by decide)).1,
    ((gen_stmt_exit_literal ['4', '2'] {} (by decide) (by decide) (by decide)).2 {}).2⟩

/-! ### C19 -/

theorem size_t_dec_inc (s : Nat) (h : s < size_t_mod) : size_t_dec (size_t_inc s) = s := by
  simp only [size_t_inc, size_t_dec, size_t_mod] at *; omega

/-- C19: when `e` generates with type `ty` from a state whose `stack_size` is
a `size_t` value, `print e;` generates successfully.  Its output is the code
of `e`, which contains no `call`, followed by `pop rdi` and one `call`: to
`print_char` when `ty` is `Char`, to `print_int` when it is `Int` or `Bool`.
`stack_size`, `globals` and `scopes` are as before the statement. -/
theorem gen_stmt_print (e : NodeExpr) (gen g1 : Generator) (ty : DataType)
    (he : gen_expr e gen = .ok (ty, g1)) (hs : gen.stack_size < size_t_mod) :
    ∃ code g', g1.output = gen.output ++ code ∧ (∀ i ∈ code, ∀ t, i ≠ .call t) ∧
      gen_stmt (.Print e) gen = .ok g' ∧
      g'.output = gen.output ++ code ++
        [.pop .rdi, .call (if ty = .Char then "print_char" else "print_int")] ∧
      g'.stack_size = gen.stack_size ∧ g'.globals = gen.globals ∧ g'.scopes = gen.scopes := by
  obtain ⟨code, hc, hi, _⟩ := gen_expr_congr e gen g1 ty he
  have hcall : ∀ i ∈ code, ∀ t, i ≠ .call t := by
    intro i hmem t ht
    have := hi i hmem
    rw [ht] at this
    cases this
  have hout : g1.output = gen.output ++ code := by rw [hc]; rfl
  have hsz : size_t_dec g1.stack_size = gen.stack_size := by
    rw [hc]; exact size_t_dec_inc _ hs
  have hg : g1.globals = gen.globals := by rw [hc]; rfl
  have hsc : g1.scopes = gen.scopes := by rw [hc]; rfl
  rw [gen_stmt, he]
  cases ty <;>
    exact ⟨code, _, hout, hcall, rfl, by simp [pop, emit, hout], hsz, hg, hsc⟩

/-- Witness of C19: `print 'a';` emits the load and push of 97, `pop rdi` and
`call print_char`, and leaves `stack_size` 0. -/
theorem gen_stmt_print_witness :
    ∃ code g', (pushed {} [.mov_imm .rax 97, .push (.reg .rax)]).output = [] ++ code ∧
      (∀ i ∈ code, ∀ t, i ≠ .call t) ∧
      gen_stmt (.Print (.Term (.Lit ⟨.char_lit, some "a"⟩))) {} = .ok g' ∧
      g'.output = [] ++ code ++ [.pop .rdi, .call "print_char"] ∧
      g'.stack_size = 0 ∧ g'.globals = ({} : Generator).globals ∧ g'.scopes = [] :=
  gen_stmt_print (.Term (.Lit ⟨.char_lit, some "a"⟩)) {} _ .Char rfl (by decide)

/-! ### C20 -/

theorem gen_bin_expr_code (b : NodeBinExpr) (gen g' : Generator) (ty : DataType)
    (h : gen_bin_expr b gen = .ok (ty, g')) :
    ∃ t1 t2 c1 c2, gen_expr b.first gen = .ok (t1, pushed gen c1) ∧
      gen_expr b.second (pushed gen c1) = .ok (t2, pushed (pushed gen c1) c2) ∧
      b.accepts t1 t2 = true ∧ ty = b.result_type ∧
      g'.output = gen.output ++ c1 ++ c2 ++ b.tail_code := by
  rw [gen_bin_expr_eq] at h
  split at h
  · cases h
  · rename_i t1 g1 h1
    split at h
    · cases h
    · rename_i t2 g2 h2
      obtain ⟨c1, hc1, _⟩ := gen_expr_congr b.first gen g1 t1 h1
      obtain ⟨c2, hc2, _⟩ := gen_expr_congr b.second g1 g2 t2 h2
      split at h
      · rename_i ha
        simp only [Except.ok.injEq, Prod.mk.injEq] at h
        subst hc1
        subst hc2
        exact ⟨t1, t2, c1, c2, h1, h2, ha, h.1.symm, by rw [← h.2]; simp [pushed]⟩
      · cases h

/-- C20: a successfully generated `+`, `*` or `-` node emits, after the code
of its two operands, `pop rax`, `pop rbx`, the `add`, `imul` or `sub` line,
then `jo overflow_error` and only then `push rax`.  A `/` or `%` node emits
the code of the right operand, the code of the left operand, then `pop rax`,
`pop rbx`, `cmp rbx, 0`, `je divzero_error`, `cqo`, `idiv rbx` and `push rax`
(for `/`) or `push rdx` (for `%`).  The two pops put the value pushed last in
`rax` and the one below it, for `/` and `%` the right operand, in `rbx`; when
that is 0 the code jumps to `divzero_error` before `idiv`, and otherwise,
the quotient being representable, it pushes the truncated quotient for `/`
and the remainder for `%`. -/
theorem gen_bin_expr_guards (lhs rhs : NodeExpr) (gen g' : Generator) (ty : DataType) :
    (gen_bin_expr (.Add lhs rhs) gen = .ok (ty, g') →
      ∃ c_l c_r, gen_expr lhs gen = .ok (.Int, pushed gen c_l) ∧
        gen_expr rhs (pushed gen c_l) = .ok (.Int, pushed (pushed gen c_l) c_r) ∧
        g'.output = gen.output ++ c_l ++ c_r ++
          [.pop .rax, .pop .rbx, .add .rax .rbx, .jo "overflow_error", .push (.reg .rax)]) ∧
    (gen_bin_expr (.Mul lhs rhs) gen = .ok (ty, g') →
      ∃ c_l c_r, gen_expr lhs gen = .ok (.Int, pushed gen c_l) ∧
        gen_expr rhs (pushed gen c_l) = .ok (.Int, pushed (pushed gen c_l) c_r) ∧
        g'.output = gen.output ++ c_l ++ c_r ++
          [.pop .rax, .pop .rbx, .imul .rbx, .jo "overflow_error", .push (.reg .rax)]) ∧
    (gen_bin_expr (.Sub lhs rhs) gen = .ok (ty, g') →
      ∃ c_r c_l, gen_expr rhs gen = .ok (.Int, pushed gen c_r) ∧
        gen_expr lhs (pushed gen c_r) = .ok (.Int, pushed (pushed gen c_r) c_l) ∧
        g'.output = gen.output ++ c_r ++ c_l ++
          [.pop .rax, .pop .rbx, .sub .rax .rbx, .jo "overflow_error", .push (.reg .rax)]) ∧
    (gen_bin_expr (.Div lhs rhs) gen = .ok (ty, g') →
      ∃ c_r c_l, gen_expr rhs gen = .ok (.Int, pushed gen c_r) ∧
        gen_expr lhs (pushed gen c_r) = .ok (.Int, pushed (pushed gen c_r) c_l) ∧
        g'.output = gen.output ++ c_r ++ c_l ++
          [.pop .rax, .pop .rbx, .cmp_imm .rbx 0, .je "divzero_error", .cqo, .idiv .rbx,
            .push (.reg .rax)]) ∧
    (gen_bin_expr (.Mod lhs rhs) gen = .ok (ty, g') →
      ∃ c_r c_l, gen_expr rhs gen = .ok (.Int, pushed gen c_r) ∧
        gen_expr lhs (pushed gen c_r) = .ok (.Int, pushed (pushed gen c_r) c_l) ∧
        g'.output = gen.output ++ c_r ++ c_l ++
          [.pop .rax, .pop .rbx, .cmp_imm .rbx 0, .je "divzero_error", .cqo, .idiv .rbx,
            .push (.reg .rdx)]) ∧
    (∀ (m : Machine) (l r : Int) (st : List Int), m.stack = l :: r :: st →
      ∃ m1, m.exec [.pop .rax, .pop .rbx] = .running m1 ∧ m1.rax = l ∧ m1.rbx = r ∧
        m1.stack = st) ∧
    (∀ (m : Machine) (l : Int) (st : List Int), m.stack = l :: 0 :: st →
      (∃ m1, m.exec [.pop .rax, .pop .rbx, .cmp_imm .rbx 0, .je "divzero_error", .cqo,
        .idiv .rbx, .push (.reg .rax)] = .jumped "divzero_error" m1) ∧
      (∃ m1, m.exec [.pop .rax, .pop .rbx, .cmp_imm .rbx 0, .je "divzero_error", .cqo,
        .idiv .rbx, .push (.reg .rdx)] = .jumped "divzero_error" m1)) ∧
    (∀ (m : Machine) (l r : Int) (st : List Int), m.stack = l :: r :: st → fits64 l →
      fits64 r → r ≠ 0 → fits64 (l.tdiv r) →
      (∃ m1, m.exec [.pop .rax, .pop .rbx, .cmp_imm .rbx 0, .je "divzero_error", .cqo,
        .idiv .rbx, .push (.reg .rax)] = .running m1 ∧ m1.stack = l.tdiv r :: st) ∧
      (∃ m1, m.exec [.pop .rax, .pop .rbx, .cmp_imm .rbx 0, .je "divzero_error", .cqo,
        .idiv .rbx, .push (.reg .rdx)] = .running m1 ∧ m1.stack = l.tmod r :: st)) ∧
    (Instr.jo "overflow_error").text = "    jo overflow_error\n" ∧
    (Instr.cmp_imm .rbx 0).text = "    cmp rbx, 0\n" ∧
    (Instr.je "divzero_error").text = "    je divzero_error\n" ∧
    Instr.cqo.text = "    cqo\n" ∧ (Instr.idiv .rbx).text = "    idiv rbx\n" := by
  have key : ∀ b : NodeBinExpr, b.is_arithmetic = true →
      gen_bin_expr b gen = .ok (ty, g') →
      ∃ c1 c2, gen_expr b.first gen = .ok (.Int, pushed gen c1) ∧
        gen_expr b.second (pushed gen c1) = .ok (.Int, pushed (pushed gen c1) c2) ∧
        g'.output = gen.output ++ c1 ++ c2 ++ b.tail_code := by
    intro b hb h
    obtain ⟨t1, t2, c1, c2, h1, h2, ha, _, hout⟩ := gen_bin_expr_code b gen g' ty h
    have ht : t1 = .Int ∧ t2 = .Int := by
      cases b <;> simp [NodeBinExpr.is_arithmetic] at hb <;>
        simpa [NodeBinExpr.accepts] using ha
    rw [ht.1] at h1
    rw [ht.2] at h2
    exact ⟨c1, c2, h1, h2, hout⟩
  refine ⟨key (.Add lhs rhs) rfl, key (.Mul lhs rhs) rfl, key (.Sub lhs rhs) rfl,
    key (.Div lhs rhs) rfl, key (.Mod lhs rhs) rfl, ?_, ?_, ?_, rfl, rfl, rfl, rfl, rfl⟩
  · intro m l r st hm
    obtain ⟨rax, rbx, rdx, rdi, rsi, zf, sf, of, stack⟩ := m
    simp only at hm
    subst hm
    exact ⟨_, rfl, rfl, rfl, rfl⟩
  · intro m l st hm
    exact ⟨exec_div_tail_zero true m l st hm, exec_div_tail_zero false m l st hm⟩
  · intro m l r st hm hl hr h0 hq
    exact ⟨exec_div_tail_value true m r l st hm hr hl h0 hq,
      exec_div_tail_value false m r l st hm hr hl h0 hq⟩

/-- Witness of C20: `5 / 0` generates the code of `0`, the code of `5` and the
guarded division. -/
theorem gen_bin_expr_guards_witness :
    ∃ c_r c_l, gen_expr (int_expr "0") {} = .ok (.Int, pushed {} c_r) ∧
      gen_expr (int_expr "5") (pushed {} c_r) = .ok (.Int, pushed (pushed {} c_r) c_l) ∧
      (pushed {} [.mov_imm .rax 0, .push (.reg .rax), .mov_imm .rax 5, .push (.reg .rax),
        .pop .rax, .pop .rbx, .cmp_imm .rbx 0, .je "divzero_error", .cqo, .idiv .rbx,
        .push (.reg .rax)]).output = ({} : Generator).output ++ c_r ++ c_l ++
          [.pop .rax, .pop .rbx, .cmp_imm .rbx 0, .je "divzero_error", .cqo, .idiv .rbx,
            .push (.reg .rax)] :=
  (gen_bin_expr_guards (int_expr "5") (int_expr "0") {} _ .Int).2.2.2.1 rfl

/-! ### C21 -/

theorem tokenise_step_slash (src : List Char) (index : Nat) (tokens : List Token)
    (h1 : src[index + 1]? ≠ some '/') (h2 : src[index + 1]? ≠ some '*') :
    tokenise_step src index tokens '/' = .ok (index, tokens) := by
  unfold tokenise_step
  rw [if_neg (by decide), if_neg (by decide), if_neg (by decide), if_neg (by decide),
    if_pos rfl, if_neg h1, if_neg h2]

/-- At a `/` that opens no comment the loop makes no progress: the iteration
leaves the index and the tokens as they were, so no amount of fuel lets the
loop finish. -/
theorem tokenise_loop_slash (src : List Char) (index : Nat) (tokens : List Token)
    (h0 : src[index]? = some '/') (h1 : src[index + 1]? ≠ some '/')
    (h2 : src[index + 1]? ≠ some '*') :
    ∀ fuel, tokenise_loop src fuel index tokens = .error .out_of_fuel
  | 0 => rfl
  | fuel + 1 => by
    rw [tokenise_loop, h0]
    simp only [tokenise_step_slash src index tokens h1 h2]
    exact tokenise_loop_slash src index tokens h0 h1 h2 fuel

/-- C21, the input on which the code departs from the claim: on the source
text `print 5 / 0;` the loop of `tokenise` reaches the `/` at index 8 with the
tokens print and int_lit "5"; the iteration there returns the same index and
the same tokens (no character is consumed, no div token is added), so the loop
repeats it and `tokenise` returns for no amount of fuel.  The same text with
`*` in place of `/` is tokenised in 9 steps.  Had the div token been produced,
the five tokens print, int_lit "5", div, int_lit "0", semi would parse, and
`gen_prog` would emit the division with its guard `cmp rbx, 0`,
`je divzero_error`. -/
theorem tokenise_division_never_returns :
    (∀ fuel, tokenise "print 5 / 0;" fuel = .error .out_of_fuel) ∧
    (∀ fuel, tokenise_loop "print 5 / 0;".toList fuel 8
      [⟨.print, none⟩, ⟨.int_lit, some "5"⟩] = .error .out_of_fuel) ∧
    tokenise_step "print 5 / 0;".toList 8 [⟨.print, none⟩, ⟨.int_lit, some "5"⟩] '/' =
      .ok (8, [⟨.print, none⟩, ⟨.int_lit, some "5"⟩]) ∧
    tokenise "print 5 * 0;" 9 = .ok [⟨.print, none⟩, ⟨.int_lit, some "5"⟩, ⟨.mul, none⟩,
      ⟨.int_lit, some "0"⟩, ⟨.semi, none⟩] ∧
    parse [⟨.print, none⟩, ⟨.int_lit, some "5"⟩, ⟨.div, none⟩, ⟨.int_lit, some "0"⟩,
      ⟨.semi, none⟩] 6 = .ok ⟨[.Print (.BinExpr (.Div (int_expr "5") (int_expr "0")))]⟩ ∧
    gen_prog ⟨[.Print (.BinExpr (.Div (int_expr "5") (int_expr "0")))]⟩ =
      .ok (prologue ++
        [.mov_imm .rax 0, .push (.reg .rax), .mov_imm .rax 5, .push (.reg .rax),
          .pop .rax, .pop .rbx, .cmp_imm .rbx 0, .je "divzero_error", .cqo, .idiv .rbx,
          .push (.reg .rax), .pop .rdi, .call "print_int"] ++ exit_sequence) := by
  have hloop := tokenise_loop_slash "print 5 / 0;".toList 8
    [⟨.print, none⟩, ⟨.int_lit, some "5"⟩] rfl (by decide) (by decide)
  refine ⟨?_, hloop, rfl, rfl, rfl, rfl⟩
  intro fuel
  match fuel with
  | 0 => rfl
  | 1 => rfl
  | 2 => rfl
  | 3 => rfl
  | fuel + 4 =>
    have h4 : tokenise "print 5 / 0;" (fuel + 4) =
        tokenise_loop "print 5 / 0;".toList fuel 8 [⟨.print, none⟩, ⟨.int_lit, some "5"⟩] := rfl
    rw [h4]
    exact hloop fuel

/-! ### The parsers: more budget does not change a result -/

theorem parse_mono (tokens : List Token) : ∀ n : Nat,
    (∀ a i, parse_term tokens n a i ≠ .error .out_of_fuel →
      parse_term tokens (n + 1) a i = parse_term tokens n a i) ∧
    (∀ m a i, parse_expr tokens n m a i ≠ .error .out_of_fuel →
      parse_expr tokens (n + 1) m a i = parse_expr tokens n m a i) ∧
    (∀ m l i, parse_expr_loop tokens n m l i ≠ .error .out_of_fuel →
      parse_expr_loop tokens (n + 1) m l i = parse_expr_loop tokens n m l i)
  | 0 => ⟨fun a i h => absurd (by rw [parse_term]) h, fun m a i h => absurd (by rw [parse_expr]) h,
      fun m l i h => absurd (by rw [parse_expr_loop]) h⟩
  | n + 1 => by
    obtain ⟨iht, ihe, ihl⟩ := parse_mono tokens n
    refine ⟨?_, ?_, ?_⟩
    · intro a i hr
      rw [parse_term] at hr
      rw [parse_term, parse_term]
      cases h1 : try_consume tokens i .int_lit with
      | some p => rfl
      | none =>
      cases h2 : try_consume tokens i .char_lit with
      | some p => rfl
      | none =>
      cases h3 : try_consume tokens i .bool_lit with
      | some p => rfl
      | none =>
      simp only [h1, h2, h3] at hr ⊢
      cases h4 : try_consume tokens i .sub with
      | some p =>
        simp only [h4] at hr ⊢
        cases a with
        | false => rfl
        | true =>
          simp only [Bool.true_eq_false, if_false] at hr ⊢
          have hx := iht false p.2 (fun hx => hr (by rw [hx]))
          rw [hx]
      | none =>
      simp only [h4] at hr ⊢
      cases h5 : try_consume tokens i .not_ with
      | some p =>
        simp only [h5] at hr ⊢
        cases a with
        | false => rfl
        | true =>
          simp only [Bool.true_eq_false, if_false] at hr ⊢
          have hx := iht false p.2 (fun hx => hr (by rw [hx]))
          rw [hx]
      | none =>
      simp only [h5] at hr ⊢
      cases h6 : try_consume tokens i .ident with
      | some p => rfl
      | none =>
      simp only [h6] at hr ⊢
      cases h7 : try_consume tokens i .open_paren with
      | some p =>
        simp only [h7] at hr ⊢
        have hx := ihe 0 true p.2 (fun hx => hr (by rw [hx]))
        rw [hx]
      | none => rfl
    · intro m a i hr
      rw [parse_expr] at hr
      rw [parse_expr, parse_expr]
      have hx := iht a i (fun hx => hr (by rw [hx]))
      rw [hx]
      cases h1 : parse_term tokens n a i with
      | error e => rfl
      | ok p =>
        obtain ⟨o, j⟩ := p
        cases o with
        | none => rfl
        | some t =>
          simp only [h1] at hr ⊢
          have hy := ihl m (.Term t) j (fun hy => hr (by rw [hy]))
          rw [hy]
    · intro m l i hr
      rw [parse_expr_loop] at hr
      rw [parse_expr_loop, parse_expr_loop]
      cases h1 : peek tokens i with
      | none => rfl
      | some t =>
        simp only [h1] at hr ⊢
        split_ifs with hp
        · rfl
        · simp only [hp, if_false] at hr
          have hx := ihe (get_precedence t.type + 1) false (i + 1) (fun hx => hr (by rw [hx]))
          rw [hx]
          cases h2 : parse_expr tokens n (get_precedence t.type + 1) false (i + 1) with
          | error e => rfl
          | ok p =>
            obtain ⟨o, j⟩ := p
            cases o with
            | none => rfl
            | some e =>
              simp only [h2] at hr ⊢
              cases h3 : make_bin_expr t.type l e with
              | none => rfl
              | some b =>
                simp only [h3] at hr ⊢
                exact ihl m (.BinExpr b) j hr

theorem parse_expr_step {tokens : List Token} {n : Nat} {m : Int} {a : Bool} {i : Nat}
    {r : Except ParseError (Option NodeExpr × Nat)} (h : parse_expr tokens n m a i = r)
    (hr : r ≠ .error .out_of_fuel) : parse_expr tokens (n + 1) m a i = r :=
  ((parse_mono tokens n).2.1 m a i (h ▸ hr)).trans h

theorem step_of {α : Type} {x y r : Except ParseError α}
    (ih : x ≠ .error .out_of_fuel → y = x) (h : x = r) (hr : r ≠ .error .out_of_fuel) :
    y = r :=
  (ih (h ▸ hr)).trans h

theorem step_err {α β : Type} {x y : Except ParseError α} {e : ParseError}
    (ih : x ≠ .error .out_of_fuel → y = x) (h : x = .error e)
    (hr : (.error e : Except ParseError β) ≠ .error .out_of_fuel) : y = .error e :=
  (ih (h ▸ fun h2 => hr (by cases h2; rfl))).trans h

theorem parse_expr_err {β : Type} {tokens : List Token} {n : Nat} {m : Int} {a : Bool} {i : Nat}
    {e : ParseError} (h : parse_expr tokens n m a i = .error e)
    (hr : (.error e : Except ParseError β) ≠ .error .out_of_fuel) :
    parse_expr tokens (n + 1) m a i = .error e :=
  step_err ((parse_mono tokens n).2.1 m a i) h hr

theorem parse_stmt_mono (tokens : List Token) : ∀ n : Nat,
    (∀ i, parse_scope tokens n i ≠ .error .out_of_fuel →
      parse_scope tokens (n + 1) i = parse_scope tokens n i) ∧
    (∀ l i, parse_scope_loop tokens n l i ≠ .error .out_of_fuel →
      parse_scope_loop tokens (n + 1) l i = parse_scope_loop tokens n l i) ∧
    (∀ i, parse_if_cont tokens n i ≠ .error .out_of_fuel →
      parse_if_cont tokens (n + 1) i = parse_if_cont tokens n i) ∧
    (∀ i, parse_stmt tokens n i ≠ .error .out_of_fuel →
      parse_stmt tokens (n + 1) i = parse_stmt tokens n i)
  | 0 => ⟨fun i h => absurd (by rw [parse_scope]) h,
      fun l i h => absurd (by rw [parse_scope_loop]) h,
      fun i h => absurd (by rw [parse_if_cont]) h, fun i h => absurd (by rw [parse_stmt]) h⟩
  | n + 1 => by
    obtain ⟨ihs, ihl, ihc, iht⟩ := parse_stmt_mono tokens n
    refine ⟨?_, ?_, ?_, ?_⟩
    · intro i hr
      rw [parse_scope] at hr
      rw [parse_scope, parse_scope]
      cases h1 : try_consume tokens i .open_curly with
      | none => rfl
      | some p =>
        simp only [h1] at hr ⊢
        cases h2 : parse_scope_loop tokens n [] p.2 with
        | error e => simp only [h2] at hr; rw [step_err (ihl _ _) h2 hr]
        | ok q => rw [step_of (ihl _ _) h2 (by simp)]
    · intro l i hr
      rw [parse_scope_loop] at hr
      rw [parse_scope_loop, parse_scope_loop]
      cases h1 : peek tokens i with
      | none => rfl
      | some t =>
        simp only [h1] at hr ⊢
        split_ifs with hc
        · rfl
        · simp only [hc, if_false] at hr
          cases h2 : parse_stmt tokens n i with
          | error e => simp only [h2] at hr; rw [step_err (iht _) h2 hr]
          | ok q =>
            rw [step_of (iht _) h2 (by simp)]
            obtain ⟨o, j⟩ := q
            cases o with
            | none => rfl
            | some s =>
              simp only [h2] at hr ⊢
              exact ihl _ _ hr
    · intro i hr
      rw [parse_if_cont] at hr
      rw [parse_if_cont, parse_if_cont]
      cases h1 : try_consume tokens i .elif with
      | some p =>
        simp only [h1] at hr ⊢
        cases h2 : try_consume tokens p.2 .open_paren with
        | none => rfl
        | some p2 =>
          simp only [h2] at hr ⊢
          cases h3 : parse_expr tokens n 0 true p2.2 with
          | error e => simp only [h3] at hr; rw [parse_expr_err h3 hr]
          | ok q =>
            rw [parse_expr_step h3 (by simp)]
            obtain ⟨o, j⟩ := q
            cases o with
            | none => rfl
            | some e =>
              simp only [h3] at hr ⊢
              cases h4 : try_consume tokens j .close_paren with
              | none => rfl
              | some p4 =>
                simp only [h4] at hr ⊢
                cases h5 : parse_scope tokens n p4.2 with
                | error e => simp only [h5] at hr; rw [step_err (ihs _) h5 hr]
                | ok q =>
                  rw [step_of (ihs _) h5 (by simp)]
                  obtain ⟨o, k⟩ := q
                  cases o with
                  | none => rfl
                  | some sc =>
                    simp only [h5] at hr ⊢
                    cases h6 : parse_if_cont tokens n k with
                    | error e => simp only [h6] at hr; rw [step_err (ihc _) h6 hr]
                    | ok q => rw [step_of (ihc _) h6 (by simp)]
      | none =>
        simp only [h1] at hr ⊢
        cases h2 : try_consume tokens i .else_ with
        | none => rfl
        | some p =>
          simp only [h2] at hr ⊢
          cases h5 : parse_scope tokens n p.2 with
          | error e => simp only [h5] at hr; rw [step_err (ihs _) h5 hr]
          | ok q => rw [step_of (ihs _) h5 (by simp)]
    · intro i hr
      rw [parse_stmt] at hr
      rw [parse_stmt, parse_stmt]
      cases h1 : peek tokens i with
      | none => rfl
      | some t =>
        simp only [h1] at hr ⊢
        by_cases c1 : t.type = .exit
        · rw [if_pos c1] at hr
          rw [if_pos c1, if_pos c1]
          cases h3 : parse_expr tokens n 0 true (i + 1) with
          | error e => simp only [h3] at hr; rw [parse_expr_err h3 hr]
          | ok q => rw [parse_expr_step h3 (by simp)]
        rw [if_neg c1] at hr
        rw [if_neg c1, if_neg c1]
        by_cases c2 : t.type = .print
        · rw [if_pos c2] at hr
          rw [if_pos c2, if_pos c2]
          cases h3 : parse_expr tokens n 0 true (i + 1) with
          | error e => simp only [h3] at hr; rw [parse_expr_err h3 hr]
          | ok q => rw [parse_expr_step h3 (by simp)]
        rw [if_neg c2] at hr
        rw [if_neg c2, if_neg c2]
        by_cases c3 : t.type = .cnst
        · rw [if_pos c3] at hr
          rw [if_pos c3, if_pos c3]
          cases p1 : peek tokens (i + 1) with
          | none => rfl
          | some ty =>
            simp only [p1] at hr ⊢
            cases p2 : type_mapping ty.type with
            | none => rfl
            | some dt =>
              simp only [p2] at hr ⊢
              cases p3 : peek tokens (i + 2) with
              | none => rfl
              | some id =>
                simp only [p3] at hr ⊢
                split_ifs at hr ⊢ with d1
                · rfl
                · cases p4 : peek tokens (i + 3) with
                  | none => rfl
                  | some asg =>
                    simp only [p4] at hr ⊢
                    split_ifs at hr ⊢ with d2
                    · rfl
                    · cases h3 : parse_expr tokens n 0 true (i + 4) with
                      | error e => simp only [h3] at hr; rw [parse_expr_err h3 hr]
                      | ok q => rw [parse_expr_step h3 (by simp)]
        rw [if_neg c3] at hr
        rw [if_neg c3, if_neg c3]
        by_cases c4 : t.type = .let_
        · rw [if_pos c4] at hr
          rw [if_pos c4, if_pos c4]
          cases p1 : peek tokens (i + 1) with
          | none => rfl
          | some ty =>
            simp only [p1] at hr ⊢
            cases p2 : type_mapping ty.type with
            | none => rfl
            | some dt =>
              simp only [p2] at hr ⊢
              cases p3 : peek tokens (i + 2) with
              | none => rfl
              | some id =>
                simp only [p3] at hr ⊢
                split_ifs at hr ⊢ with d1
                · rfl
                · cases p4 : try_consume tokens (i + 3) .assign with
                  | none => rfl
                  | some p =>
                    simp only [p4] at hr ⊢
                    cases h3 : parse_expr tokens n 0 true p.2 with
                    | error e => simp only [h3] at hr; rw [parse_expr_err h3 hr]
                    | ok q => rw [parse_expr_step h3 (by simp)]
        rw [if_neg c4] at hr
        rw [if_neg c4, if_neg c4]
        by_cases c5 : t.type = .ident
        · rw [if_pos c5] at hr
          rw [if_pos c5, if_pos c5]
          cases p1 : peek tokens (i + 1) with
          | none => rfl
          | some asg =>
            simp only [p1] at hr ⊢
            split_ifs at hr ⊢ with d2
            · rfl
            · cases h3 : parse_expr tokens n 0 true (i + 2) with
              | error e => simp only [h3] at hr; rw [parse_expr_err h3 hr]
              | ok q => rw [parse_expr_step h3 (by simp)]
        rw [if_neg c5] at hr
        rw [if_neg c5, if_neg c5]
        by_cases c6 : t.type = .open_curly
        · rw [if_pos c6] at hr
          rw [if_pos c6, if_pos c6]
          cases h5 : parse_scope tokens n i with
          | error e => simp only [h5] at hr; rw [step_err (ihs _) h5 hr]
          | ok q => rw [step_of (ihs _) h5 (by simp)]
        rw [if_neg c6] at hr
        rw [if_neg c6, if_neg c6]
        by_cases c7 : t.type = .if_
        · rw [if_pos c7] at hr
          rw [if_pos c7, if_pos c7]
          cases h2 : try_consume tokens (i + 1) .open_paren with
          | none => rfl
          | some p2 =>
            simp only [h2] at hr ⊢
            cases h3 : parse_expr tokens n 0 true p2.2 with
            | error e => simp only [h3] at hr; rw [parse_expr_err h3 hr]
            | ok q =>
              rw [parse_expr_step h3 (by simp)]
              obtain ⟨o, j⟩ := q
              cases o with
              | none => rfl
              | some e =>
                simp only [h3] at hr ⊢
                cases h4 : try_consume tokens j .close_paren with
                | none => rfl
                | some p4 =>
                  simp only [h4] at hr ⊢
                  cases h5 : parse_scope tokens n p4.2 with
                  | error e => simp only [h5] at hr; rw [step_err (ihs _) h5 hr]
                  | ok q =>
                    rw [step_of (ihs _) h5 (by simp)]
                    obtain ⟨o, k⟩ := q
                    cases o with
                    | none => rfl
                    | some sc =>
                      simp only [h5] at hr ⊢
                      cases h6 : parse_if_cont tokens n k with
                      | error e => simp only [h6] at hr; rw [step_err (ihc _) h6 hr]
                      | ok q => rw [step_of (ihc _) h6 (by simp)]
        rw [if_neg c7] at hr
        rw [if_neg c7, if_neg c7]

theorem returns_of_mono {α : Type} {f : Nat → Except ParseError α}
    (hm : ∀ n, f n ≠ .error .out_of_fuel → f (n + 1) = f n) {n : Nat}
    {r : Except ParseError α} (h : f n = r) (hr : r ≠ .error .out_of_fuel) : returns f r := by
  refine ⟨n, fun fuel hle => ?_⟩
  induction hle with
  | refl => exact h
  | step _ ih => exact (hm _ (ih ▸ hr)).trans ih

theorem returns_unique {α : Type} {f : Nat → α} {r1 r2 : α} (h1 : returns f r1)
    (h2 : returns f r2) : r1 = r2 := by
  obtain ⟨a, ha⟩ := h1
  obtain ⟨b, hb⟩ := h2
  rw [← ha (max a b) (le_max_left a b), ← hb (max a b) (le_max_right a b)]

theorem parse_term_returns {tokens : List Token} {n : Nat} {a : Bool} {i : Nat}
    {v : Option NodeTerm × Nat} (h : parse_term tokens n a i = .ok v) :
    returns (fun fuel => parse_term tokens fuel a i) (.ok v) :=
  returns_of_mono (fun n => (parse_mono tokens n).1 a i) h (fun h2 => nomatch h2)

theorem parse_expr_returns {tokens : List Token} {n : Nat} {m : Int} {a : Bool} {i : Nat}
    {v : Option NodeExpr × Nat} (h : parse_expr tokens n m a i = .ok v) :
    returns (fun fuel => parse_expr tokens fuel m a i) (.ok v) :=
  returns_of_mono (fun n => (parse_mono tokens n).2.1 m a i) h (fun h2 => nomatch h2)

theorem parse_expr_returns_error {tokens : List Token} {n : Nat} {m : Int} {a : Bool} {i : Nat}
    {e : ParseError} (h : parse_expr tokens n m a i = .error e) (he : e ≠ .out_of_fuel) :
    returns (fun fuel => parse_expr tokens fuel m a i) (.error e) :=
  returns_of_mono (fun n => (parse_mono tokens n).2.1 m a i) h
    (fun h2 => he (by cases h2; rfl))

theorem parse_scope_returns {tokens : List Token} {n : Nat} {i : Nat}
    {v : Option NodeStmtScope × Nat} (h : parse_scope tokens n i = .ok v) :
    returns (fun fuel => parse_scope tokens fuel i) (.ok v) :=
  returns_of_mono (fun n => (parse_stmt_mono tokens n).1 i) h (fun h2 => nomatch h2)

theorem parse_if_cont_returns {tokens : List Token} {n : Nat} {i : Nat}
    {v : Option NodeStmtIfCont × Nat} (h : parse_if_cont tokens n i = .ok v) :
    returns (fun fuel => parse_if_cont tokens fuel i) (.ok v) :=
  returns_of_mono (fun n => (parse_stmt_mono tokens n).2.2.1 i) h (fun h2 => nomatch h2)

theorem parse_stmt_returns {tokens : List Token} {n : Nat} {i : Nat}
    {v : Option NodeStmt × Nat} (h : parse_stmt tokens n i = .ok v) :
    returns (fun fuel => parse_stmt tokens fuel i) (.ok v) :=
  returns_of_mono (fun n => (parse_stmt_mono tokens n).2.2.2 i) h (fun h2 => nomatch h2)

theorem kind_at_eq {tokens : List Token} {index : Nat} {type : TokenType}
    (h : kind_at tokens index = some type) : ∃ t, tokens[index]? = some t ∧ t.type = type := by
  unfold kind_at peek at h
  cases ht : tokens[index]? with
  | none => simp [ht] at h
  | some t => exact ⟨t, rfl, by simpa [ht] using h⟩

theorem try_consume_of_kind {tokens : List Token} {index : Nat} {type : TokenType}
    (h : kind_at tokens index = some type) :
    ∃ t, try_consume tokens index type = some (t, index + 1) := by
  obtain ⟨t, ht, hty⟩ := kind_at_eq h
  exact ⟨t, by simp [try_consume, peek, ht, hty]⟩

theorem try_consume_of_not_kind {tokens : List Token} {index : Nat} {type : TokenType}
    (h : kind_at tokens index ≠ some type) : try_consume tokens index type = none := by
  unfold kind_at peek at h
  unfold try_consume peek
  cases ht : tokens[index]? with
  | none => rfl
  | some t =>
    have : t.type ≠ type := fun h2 => h (by simp [ht, h2])
    simp [this]

/-! ### C22 -/

/-- C22: let the token at `index` be `-` or `!`.  If the next token is again
`-` or `!`, `parse_term` is fatal (`Expected term but got minus`), whether or
not a unary operator is allowed at `index`.  If the next token is a literal or
an identifier, `parse_term` with unary operators allowed returns the `Unary`
term with the operator `Negate` for `-` and `Not` for `!` and that literal or
identifier as operand, two tokens further.  If the next tokens are `(`, an
expression parsed as `e` up to `j`, and `)`, it returns the `Unary` term with
operand `Paren e`, past the `)`. -/
theorem parse_term_unary (tokens : List Token) (index : Nat) (op : Token)
    (h1 : tokens[index]? = some op) (hop : op.type = .sub ∨ op.type = .not_) :
    (∀ t, tokens[index + 1]? = some t → (t.type = .sub ∨ t.type = .not_) →
      ∀ fuel allow_unary,
        parse_term tokens (fuel + 2) allow_unary index = .error .expected_term_but_got_minus) ∧
    (∀ t, tokens[index + 1]? = some t → is_term_token t →
      ∀ fuel, parse_term tokens (fuel + 2) true index =
        .ok (some (.Unary (unary_op op.type) (if t.type = .ident then .Ident t else .Lit t)),
          index + 2)) ∧
    (∀ e j, kind_at tokens (index + 1) = some .open_paren →
      returns (fun fuel => parse_expr tokens fuel 0 true (index + 2)) (.ok (some e, j)) →
      kind_at tokens j = some .close_paren →
      returns (fun fuel => parse_term tokens fuel true index)
        (.ok (some (.Unary (unary_op op.type) (.Paren e)), j + 1))) := by
  rcases op with ⟨ty, v⟩
  simp only at hop
  refine ⟨?_, ?_, ?_⟩
  · intro t h2 ht fuel allow_unary
    rcases t with ⟨ty2, v2⟩
    simp only at ht
    cases allow_unary <;> rcases hop with rfl | rfl <;> rcases ht with rfl | rfl <;>
      simp [parse_term, try_consume, peek, h1, h2]
  · intro t h2 ht fuel
    have h3 := parse_term_of_term_token tokens fuel false (index + 1) t h2 ht
    rcases hop with rfl | rfl <;>
      simp [parse_term, try_consume, peek, h1, unary_op] at h3 ⊢ <;> simp [h3]
  · intro e j hp he hc
    obtain ⟨f0, hf⟩ := he
    obtain ⟨tp, htp, htpt⟩ := kind_at_eq hp
    obtain ⟨tc, htc, htct⟩ := kind_at_eq hc
    rcases tp with ⟨typ, vp⟩
    simp only at htpt
    subst htpt
    refine ⟨f0 + 2, fun fuel hle => ?_⟩
    obtain ⟨f, rfl⟩ : ∃ f, fuel = f + 2 := ⟨fuel - 2, by omega⟩
    have h4 : parse_term tokens (f + 1) false (index + 1) = .ok (some (.Paren e), j + 1) := by
      simp [parse_term, try_consume, peek, htp, hf f (by omega), htc, htct]
    rcases hop with rfl | rfl <;>
      simp [parse_term, try_consume, peek, h1, unary_op] at h4 ⊢ <;> simp [h4]

theorem parse_term_unary_witness :
    parse_term [⟨.sub, none⟩, ⟨.sub, none⟩, ⟨.ident, some "x"⟩, ⟨.semi, none⟩] 2 true 0 =
      .error .expected_term_but_got_minus ∧
    parse_term [⟨.not_, none⟩, ⟨.not_, none⟩, ⟨.ident, some "x"⟩, ⟨.semi, none⟩] 2 true 0 =
      .error .expected_term_but_got_minus ∧
    parse_term [⟨.sub, none⟩, ⟨.not_, none⟩, ⟨.ident, some "x"⟩, ⟨.semi, none⟩] 2 true 0 =
      .error .expected_term_but_got_minus ∧
    parse_term [⟨.not_, none⟩, ⟨.sub, none⟩, ⟨.ident, some "x"⟩, ⟨.semi, none⟩] 2 true 0 =
      .error .expected_term_but_got_minus ∧
    parse_term [⟨.sub, none⟩, ⟨.int_lit, some "5"⟩, ⟨.semi, none⟩] 2 true 0 =
      .ok (some (.Unary .Negate (.Lit ⟨.int_lit, some "5"⟩)), 2) ∧
    parse_term [⟨.not_, none⟩, ⟨.ident, some "b"⟩, ⟨.semi, none⟩] 2 true 0 =
      .ok (some (.Unary .Not (.Ident ⟨.ident, some "b"⟩)), 2) ∧
    returns (fun fuel => parse_term [⟨.sub, none⟩, ⟨.open_paren, none⟩, ⟨.int_lit, some "1"⟩,
        ⟨.plus, none⟩, ⟨.int_lit, some "2"⟩, ⟨.close_paren, none⟩, ⟨.semi, none⟩] fuel true 0)
      (.ok (some (.Unary .Negate (.Paren (.BinExpr (.Add (int_expr "1") (int_expr "2"))))), 6)) :=
  ⟨(parse_term_unary [⟨.sub, none⟩, ⟨.sub, none⟩, ⟨.ident, some "x"⟩, ⟨.semi, none⟩] 0
      ⟨.sub, none⟩ rfl (Or.inl rfl)).1 ⟨.sub, none⟩ rfl (Or.inl rfl) 0 true,
    (parse_term_unary [⟨.not_, none⟩, ⟨.not_, none⟩, ⟨.ident, some "x"⟩, ⟨.semi, none⟩] 0
      ⟨.not_, none⟩ rfl (Or.inr rfl)).1 ⟨.not_, none⟩ rfl (Or.inr rfl) 0 true,
    (parse_term_unary [⟨.sub, none⟩, ⟨.not_, none⟩, ⟨.ident, some "x"⟩, ⟨.semi, none⟩] 0
      ⟨.sub, none⟩ rfl (Or.inl rfl)).1 ⟨.not_, none⟩ rfl (Or.inr rfl) 0 true,
    (parse_term_unary [⟨.not_, none⟩, ⟨.sub, none⟩, ⟨.ident, some "x"⟩, ⟨.semi, none⟩] 0
      ⟨.not_, none⟩ rfl (Or.inr rfl)).1 ⟨.sub, none⟩ rfl (Or.inl rfl) 0 true,
    (parse_term_unary [⟨.sub, none⟩, ⟨.int_lit, some "5"⟩, ⟨.semi, none⟩] 0
      ⟨.sub, none⟩ rfl (Or.inl rfl)).2.1 ⟨.int_lit, some "5"⟩ rfl (by decide) 0,
    (parse_term_unary [⟨.not_, none⟩, ⟨.ident, some "b"⟩, ⟨.semi, none⟩] 0
      ⟨.not_, none⟩ rfl (Or.inr rfl)).2.1 ⟨.ident, some "b"⟩ rfl (by decide) 0,
    (parse_term_unary [⟨.sub, none⟩, ⟨.open_paren, none⟩, ⟨.int_lit, some "1"⟩,
        ⟨.plus, none⟩, ⟨.int_lit, some "2"⟩, ⟨.close_paren, none⟩, ⟨.semi, none⟩] 0
      ⟨.sub, none⟩ rfl (Or.inl rfl)).2.2 (.BinExpr (.Add (int_expr "1") (int_expr "2"))) 5 rfl
      (@parse_expr_returns _ 8 0 true 2 _ rfl) rfl⟩

/-! ### The statement parser: its branches -/

theorem returns_succ {α β : Type} {f : Nat → α} {g : Nat → β} {r : α} {s : β}
    (h : returns f r) (hg : ∀ fuel, f fuel = r → g (fuel + 1) = s) : returns g s := by
  obtain ⟨f0, hf⟩ := h
  refine ⟨f0 + 1, fun fuel hle => ?_⟩
  obtain ⟨n, rfl⟩ : ∃ n, fuel = n + 1 := ⟨fuel - 1, by omega⟩
  exact hg n (hf n (by omega))

theorem returns_succ3 {α β γ δ : Type} {f1 : Nat → α} {f2 : Nat → β} {f3 : Nat → γ}
    {g : Nat → δ} {r1 : α} {r2 : β} {r3 : γ} {s : δ}
    (h1 : returns f1 r1) (h2 : returns f2 r2) (h3 : returns f3 r3)
    (hg : ∀ fuel, f1 fuel = r1 → f2 fuel = r2 → f3 fuel = r3 → g (fuel + 1) = s) :
    returns g s := by
  obtain ⟨a, ha⟩ := h1
  obtain ⟨b, hb⟩ := h2
  obtain ⟨c, hc⟩ := h3
  refine ⟨a + b + c + 1, fun fuel hle => ?_⟩
  obtain ⟨n, rfl⟩ : ∃ n, fuel = n + 1 := ⟨fuel - 1, by omega⟩
  exact hg n (ha n (by omega)) (hb n (by omega)) (hc n (by omega))

theorem returns_const {α : Type} {f : Nat → α} {r : α} (h : ∀ fuel, f (fuel + 1) = r) :
    returns f r :=
  ⟨1, fun fuel hle => by
    obtain ⟨n, rfl⟩ : ∃ n, fuel = n + 1 := ⟨fuel - 1, by omega⟩
    exact h n⟩

/-- The common end of the statement forms: a branch of `parse_stmt` that
parses an expression at `start`, then requires `;`. -/
theorem ends_with_semi_of_branch (tokens : List Token) (index start : Nat)
    (node : NodeExpr → NodeStmt) (missing nothing : ParseError)
    (h : ∀ fuel, parse_stmt tokens (fuel + 1) index =
      match parse_expr tokens fuel 0 true start with
      | .error e => .error e
      | .ok (none, _) => .error nothing
      | .ok (some node_expr, j) =>
        match try_consume tokens j .semi with
        | none => .error missing
        | some (_, k) => .ok (some (node node_expr), k)) :
    ends_with_semi tokens index start node missing := by
  refine ⟨fun e j he => ⟨fun hs => ?_, fun hs => ?_⟩, fun err he => ?_⟩
  · obtain ⟨t, ht⟩ := try_consume_of_kind hs
    exact returns_succ he (fun fuel hf => by rw [h, hf]; simp only [ht])
  · have ht := try_consume_of_not_kind hs
    exact returns_succ he (fun fuel hf => by rw [h, hf]; simp only [ht])
  · exact returns_succ he (fun fuel hf => by rw [h, hf])

theorem parse_scope_ends_with_curly {tokens : List Token} {fuel index : Nat}
    {sc : Option NodeStmtScope} {k : Nat} (h : parse_scope tokens fuel index = .ok (sc, k)) :
    ∃ j, k = j + 1 ∧ kind_at tokens j = some .close_curly := by
  cases fuel with
  | zero => rw [parse_scope] at h; cases h
  | succ fuel =>
    rw [parse_scope] at h
    split at h
    · cases h
    · split at h
      · cases h
      · rename_i stmts j hl
        cases hc : try_consume tokens j .close_curly with
        | none => simp [hc] at h
        | some p =>
          simp only [hc, Except.ok.injEq, Prod.mk.injEq] at h
          unfold try_consume at hc
          cases hp : peek tokens j with
          | none => simp [hp] at hc
          | some t =>
            simp only [hp] at hc
            split_ifs at hc with ht
            cases hc
            exact ⟨j, h.2.symm, by simp [kind_at, hp, ht]⟩

theorem parse_stmt_exit_branch {tokens : List Token} {index : Nat}
    (h : kind_at tokens index = some .exit) (fuel : Nat) :
    parse_stmt tokens (fuel + 1) index =
      match parse_expr tokens fuel 0 true (index + 1) with
      | .error e => .error e
      | .ok (none, _) => .error .expected_expression
      | .ok (some node_expr, j) =>
        match try_consume tokens j .semi with
        | none => .error .expected_semi
        | some (_, k) => .ok (some (.Exit node_expr), k) := by
  obtain ⟨t, ht, hty⟩ := kind_at_eq h
  rw [parse_stmt]
  simp only [peek, ht]
  rw [if_pos hty]

theorem parse_stmt_print_branch {tokens : List Token} {index : Nat}
    (h : kind_at tokens index = some .print) (fuel : Nat) :
    parse_stmt tokens (fuel + 1) index =
      match parse_expr tokens fuel 0 true (index + 1) with
      | .error e => .error e
      | .ok (none, _) => .error .expected_expression
      | .ok (some node_expr, j) =>
        match try_consume tokens j .semi with
        | none => .error .expected_semi
        | some (_, k) => .ok (some (.Print node_expr), k) := by
  obtain ⟨t, ht, hty⟩ := kind_at_eq h
  rw [parse_stmt]
  simp only [peek, ht]
  rw [if_neg (by rw [hty]; decide), if_pos hty]

/-- The `const` and `let` branches up to the identifier: the statement starts
with `const` or `let`, a type token of the table and an identifier. -/
theorem parse_stmt_const_branch {tokens : List Token} {index : Nat} {ty id : Token}
    {dt : DataType} (h : kind_at tokens index = some .cnst)
    (h1 : tokens[index + 1]? = some ty) (h2 : type_mapping ty.type = some dt)
    (h3 : tokens[index + 2]? = some id) (h4 : id.type = .ident) (fuel : Nat) :
    parse_stmt tokens (fuel + 1) index =
      match peek tokens (index + 3) with
      | none => .error .expected_assign_after_identifier
      | some assign =>
        if assign.type ≠ .assign then .error .expected_assign_after_identifier
        else
          match parse_expr tokens fuel 0 true (index + 4) with
          | .error e => .error e
          | .ok (none, _) => .error .expected_expression
          | .ok (some node_expr, j) =>
            match try_consume tokens j .semi with
            | none => .error .expected_semi
            | some (_, k) => .ok (some (.Const id dt node_expr), k) := by
  obtain ⟨t, ht, hty⟩ := kind_at_eq h
  rw [parse_stmt]
  simp only [peek, ht]
  rw [if_neg (by rw [hty]; decide), if_neg (by rw [hty]; decide), if_pos hty]
  simp only [h1, h2, h3]
  rw [if_neg (not_not.mpr h4)]

theorem parse_stmt_let_branch {tokens : List Token} {index : Nat} {ty id : Token}
    {dt : DataType} (h : kind_at tokens index = some .let_)
    (h1 : tokens[index + 1]? = some ty) (h2 : type_mapping ty.type = some dt)
    (h3 : tokens[index + 2]? = some id) (h4 : id.type = .ident) (fuel : Nat) :
    parse_stmt tokens (fuel + 1) index =
      match try_consume tokens (index + 3) .assign with
      | some (_, i) =>
        match parse_expr tokens fuel 0 true i with
        | .error e => .error e
        | .ok (none, _) => .error .expected_expression_after_assign
        | .ok (some node_expr, j) =>
          match try_consume tokens j .semi with
          | none => .error .expected_semi_after_let
          | some (_, k) => .ok (some (.Let id dt (some node_expr)), k)
      | none =>
        match try_consume tokens (index + 3) .semi with
        | none => .error .expected_semi_after_let
        | some (_, k) => .ok (some (.Let id dt none), k) := by
  obtain ⟨t, ht, hty⟩ := kind_at_eq h
  rw [parse_stmt]
  simp only [peek, ht]
  rw [if_neg (by rw [hty]; decide), if_neg (by rw [hty]; decide),
    if_neg (by rw [hty]; decide), if_pos hty]
  simp only [h1, h2, h3]
  rw [if_neg (not_not.mpr h4)]

theorem parse_stmt_assign_branch {tokens : List Token} {index : Nat} {id : Token}
    (h : tokens[index]? = some id) (hty : id.type = .ident) (fuel : Nat) :
    parse_stmt tokens (fuel + 1) index =
      match peek tokens (index + 1) with
      | none => .error .expected_assign_after_identifier
      | some assign =>
        if assign.type ≠ .assign then .error .expected_assign_after_identifier
        else
          match parse_expr tokens fuel 0 true (index + 2) with
          | .error e => .error e
          | .ok (none, _) => .error .expected_expression
          | .ok (some node_expr, j) =>
            match try_consume tokens j .semi with
            | none => .error .expected_semi
            | some (_, k) => .ok (some (.Assign id node_expr), k) := by
  rw [parse_stmt]
  simp only [peek, h]
  rw [if_neg (by rw [hty]; decide), if_neg (by rw [hty]; decide),
    if_neg (by rw [hty]; decide), if_neg (by rw [hty]; decide), if_pos hty]

theorem parse_stmt_scope_branch {tokens : List Token} {index : Nat}
    (h : kind_at tokens index = some .open_curly) (fuel : Nat) :
    parse_stmt tokens (fuel + 1) index =
      match parse_scope tokens fuel index with
      | .error e => .error e
      | .ok (none, _) => .error .expected_scope
      | .ok (some node_scope, k) => .ok (some (.Scope node_scope), k) := by
  obtain ⟨t, ht, hty⟩ := kind_at_eq h
  rw [parse_stmt]
  simp only [peek, ht]
  rw [if_neg (by rw [hty]; decide), if_neg (by rw [hty]; decide),
    if_neg (by rw [hty]; decide), if_neg (by rw [hty]; decide),
    if_neg (by rw [hty]; decide), if_pos hty]

theorem parse_stmt_if_branch {tokens : List Token} {index : Nat}
    (h : kind_at tokens index = some .if_) (fuel : Nat) :
    parse_stmt tokens (fuel + 1) index =
      match try_consume tokens (index + 1) .open_paren with
      | none => .error .expected_open_paren
      | some (_, i) =>
        match parse_expr tokens fuel 0 true i with
        | .error e => .error e
        | .ok (none, _) => .error .expected_expression
        | .ok (some node_expr, j) =>
          match try_consume tokens j .close_paren with
          | none => .error .expected_close_paren_after_condition
          | some (_, j) =>
            match parse_scope tokens fuel j with
            | .error e => .error e
            | .ok (none, _) => .error .expected_scope
            | .ok (some node_scope, k) =>
              match parse_if_cont tokens fuel k with
              | .error e => .error e
              | .ok (cont, k) => .ok (some (.If node_expr node_scope cont), k) := by
  obtain ⟨t, ht, hty⟩ := kind_at_eq h
  rw [parse_stmt]
  simp only [peek, ht]
  rw [if_neg (by rw [hty]; decide), if_neg (by rw [hty]; decide),
    if_neg (by rw [hty]; decide), if_neg (by rw [hty]; decide),
    if_neg (by rw [hty]; decide), if_neg (by rw [hty]; decide), if_pos hty]

/-- The `if` statement: condition in parentheses, body, continuation. -/
theorem parse_stmt_if_returns {tokens : List Token} {index : Nat} {e : NodeExpr} {j : Nat}
    {sc : NodeStmtScope} {k : Nat} {cont : Option NodeStmtIfCont} {stop : Nat}
    (h : kind_at tokens index = some .if_)
    (h2 : kind_at tokens (index + 1) = some .open_paren)
    (h3 : returns (fun fuel => parse_expr tokens fuel 0 true (index + 2)) (.ok (some e, j)))
    (h4 : kind_at tokens j = some .close_paren)
    (h5 : returns (fun fuel => parse_scope tokens fuel (j + 1)) (.ok (some sc, k)))
    (h6 : returns (fun fuel => parse_if_cont tokens fuel k) (.ok (cont, stop))) :
    returns (fun fuel => parse_stmt tokens fuel index) (.ok (some (.If e sc cont), stop)) := by
  obtain ⟨t2, ht2⟩ := try_consume_of_kind h2
  obtain ⟨t4, ht4⟩ := try_consume_of_kind h4
  exact returns_succ3 h3 h5 h6 (fun fuel g3 g5 g6 => by
    rw [parse_stmt_if_branch h]
    simp only [ht2, g3, ht4, g5, g6])

/-! ### C23 -/

/-- C23: the statement forms `exit e`, `print e`, `const T x = e`,
`let T x = e` and `x = e` end with a semicolon: once the expression is parsed
up to `j`, `parse_stmt` returns the node of the form and the index `j + 1`
when the token at `j` is `;`, and is fatal when the token at `j` is another
token or absent (and when the expression parser is fatal, as it is when the
tokens end inside the expression).  `let T x` without initializer returns the
node and `index + 4` when the token after the identifier is `;` and is fatal
otherwise.  A scope block is returned as parsed by `parse_scope`, ending just
after its `}`, and an `if` statement as its condition, body and continuation,
ending where `parse_if_cont` ends: neither looks for a `;`. -/
theorem parse_stmt_semicolon (tokens : List Token) (index : Nat) :
    (kind_at tokens index = some .exit →
      ends_with_semi tokens index (index + 1) .Exit .expected_semi) ∧
    (kind_at tokens index = some .print →
      ends_with_semi tokens index (index + 1) .Print .expected_semi) ∧
    (∀ ty id dt, tokens[index + 1]? = some ty → type_mapping ty.type = some dt →
      tokens[index + 2]? = some id → id.type = .ident →
      (kind_at tokens index = some .cnst → kind_at tokens (index + 3) = some .assign →
        ends_with_semi tokens index (index + 4) (.Const id dt) .expected_semi) ∧
      (kind_at tokens index = some .let_ → kind_at tokens (index + 3) = some .assign →
        ends_with_semi tokens index (index + 4) (fun e => .Let id dt (some e))
          .expected_semi_after_let) ∧
      (kind_at tokens index = some .let_ → kind_at tokens (index + 3) = some .semi →
        ∀ fuel, parse_stmt tokens (fuel + 1) index = .ok (some (.Let id dt none), index + 4)) ∧
      (kind_at tokens index = some .let_ → kind_at tokens (index + 3) ≠ some .assign →
        kind_at tokens (index + 3) ≠ some .semi →
        ∀ fuel, parse_stmt tokens (fuel + 1) index = .error .expected_semi_after_let)) ∧
    (∀ id, tokens[index]? = some id → id.type = .ident →
      kind_at tokens (index + 1) = some .assign →
      ends_with_semi tokens index (index + 2) (.Assign id) .expected_semi) ∧
    (kind_at tokens index = some .open_curly → ∀ sc k,
      returns (fun fuel => parse_scope tokens fuel index) (.ok (some sc, k)) →
      returns (fun fuel => parse_stmt tokens fuel index) (.ok (some (.Scope sc), k)) ∧
      ∃ j, k = j + 1 ∧ kind_at tokens j = some .close_curly) ∧
    (kind_at tokens index = some .if_ → kind_at tokens (index + 1) = some .open_paren →
      ∀ e j sc k cont stop,
      returns (fun fuel => parse_expr tokens fuel 0 true (index + 2)) (.ok (some e, j)) →
      kind_at tokens j = some .close_paren →
      returns (fun fuel => parse_scope tokens fuel (j + 1)) (.ok (some sc, k)) →
      returns (fun fuel => parse_if_cont tokens fuel k) (.ok (cont, stop)) →
      returns (fun fuel => parse_stmt tokens fuel index) (.ok (some (.If e sc cont), stop))) := by
  refine ⟨fun h => ?_, fun h => ?_, fun ty id dt h1 h2 h3 h4 => ⟨fun h ha => ?_, fun h ha => ?_,
    fun h hs fuel => ?_, fun h ha hs fuel => ?_⟩, fun id h hty ha => ?_, fun h sc k hsc => ⟨?_, ?_⟩,
    fun h h2 e j sc k cont stop h3 h4 h5 h6 => parse_stmt_if_returns h h2 h3 h4 h5 h6⟩
  · exact ends_with_semi_of_branch tokens index (index + 1) .Exit .expected_semi
      .expected_expression (parse_stmt_exit_branch h)
  · exact ends_with_semi_of_branch tokens index (index + 1) .Print .expected_semi
      .expected_expression (parse_stmt_print_branch h)
  · obtain ⟨a, hat, haty⟩ := kind_at_eq ha
    refine ends_with_semi_of_branch tokens index (index + 4) (.Const id dt) .expected_semi
      .expected_expression (fun fuel => ?_)
    rw [parse_stmt_const_branch h h1 h2 h3 h4]
    simp only [peek, hat]
    rw [if_neg (not_not.mpr haty)]
  · obtain ⟨a, hat⟩ := try_consume_of_kind ha
    refine ends_with_semi_of_branch tokens index (index + 4) (fun e => .Let id dt (some e))
      .expected_semi_after_let .expected_expression_after_assign (fun fuel => ?_)
    rw [parse_stmt_let_branch h h1 h2 h3 h4]
    simp only [hat]
  · obtain ⟨s, hst⟩ := try_consume_of_kind hs
    rw [parse_stmt_let_branch h h1 h2 h3 h4,
      try_consume_of_not_kind (fun hc => by rw [hs] at hc; cases hc)]
    simp only [hst]
  · rw [parse_stmt_let_branch h h1 h2 h3 h4, try_consume_of_not_kind ha]
    simp only [try_consume_of_not_kind hs]
  · obtain ⟨a, hat, haty⟩ := kind_at_eq ha
    refine ends_with_semi_of_branch tokens index (index + 2) (.Assign id) .expected_semi
      .expected_expression (fun fuel => ?_)
    rw [parse_stmt_assign_branch h hty]
    simp only [peek, hat]
    rw [if_neg (not_not.mpr haty)]
  · exact returns_succ hsc (fun fuel hf => by rw [parse_stmt_scope_branch h, hf])
  · obtain ⟨f0, hf⟩ := hsc
    exact parse_scope_ends_with_curly (hf f0 le_rfl)

theorem parse_stmt_semicolon_witness :
    returns (fun fuel => parse_stmt [⟨.exit, none⟩, ⟨.int_lit, some "5"⟩, ⟨.semi, none⟩] fuel 0)
      (.ok (some (.Exit (int_expr "5")), 3)) ∧
    returns (fun fuel => parse_stmt [⟨.exit, none⟩, ⟨.int_lit, some "5"⟩, ⟨.close_curly, none⟩]
      fuel 0) (.error .expected_semi) ∧
    returns (fun fuel => parse_stmt [⟨.print, none⟩, ⟨.int_lit, some "5"⟩] fuel 0)
      (.error .expected_semi) ∧
    returns (fun fuel => parse_stmt [⟨.cnst, none⟩, ⟨.int_, none⟩, ⟨.ident, some "c"⟩,
      ⟨.assign, none⟩, ⟨.int_lit, some "1"⟩, ⟨.semi, none⟩] fuel 0)
      (.ok (some (.Const ⟨.ident, some "c"⟩ .Int (int_expr "1")), 6)) ∧
    returns (fun fuel => parse_stmt [⟨.let_, none⟩, ⟨.int_, none⟩, ⟨.ident, some "x"⟩,
      ⟨.assign, none⟩, ⟨.int_lit, some "2"⟩, ⟨.print, none⟩] fuel 0)
      (.error .expected_semi_after_let) ∧
    parse_stmt [⟨.let_, none⟩, ⟨.int_, none⟩, ⟨.ident, some "y"⟩, ⟨.semi, none⟩] 1 0 =
      .ok (some (.Let ⟨.ident, some "y"⟩ .Int none), 4) ∧
    parse_stmt [⟨.let_, none⟩, ⟨.int_, none⟩, ⟨.ident, some "y"⟩, ⟨.print, none⟩] 1 0 =
      .error .expected_semi_after_let ∧
    returns (fun fuel => parse_stmt [⟨.ident, some "x"⟩, ⟨.assign, none⟩,
      ⟨.int_lit, some "3"⟩, ⟨.semi, none⟩] fuel 0)
      (.ok (some (.Assign ⟨.ident, some "x"⟩ (int_expr "3")), 4)) ∧
    returns (fun fuel => parse_stmt [⟨.open_curly, none⟩, ⟨.print, none⟩,
      ⟨.int_lit, some "5"⟩, ⟨.semi, none⟩, ⟨.close_curly, none⟩, ⟨.semi, none⟩] fuel 0)
      (.ok (some (.Scope (.mk [.Print (int_expr "5")])), 5)) ∧
    returns (fun fuel => parse_stmt [⟨.if_, none⟩, ⟨.open_paren, none⟩, ⟨.int_lit, some "1"⟩,
      ⟨.close_paren, none⟩, ⟨.open_curly, none⟩, ⟨.close_curly, none⟩, ⟨.semi, none⟩] fuel 0)
      (.ok (some (.If (int_expr "1") (.mk []) none), 6)) :=
  ⟨(((parse_stmt_semicolon [⟨.exit, none⟩, ⟨.int_lit, some "5"⟩, ⟨.semi, none⟩] 0).1 rfl).1
      (int_expr "5") 2 (@parse_expr_returns _ 4 0 true 1 _ rfl)).1 rfl,
    (((parse_stmt_semicolon [⟨.exit, none⟩, ⟨.int_lit, some "5"⟩, ⟨.close_curly, none⟩] 0).1
      rfl).1 (int_expr "5") 2 (@parse_expr_returns _ 4 0 true 1 _ rfl)).2 (by decide),
    ((parse_stmt_semicolon [⟨.print, none⟩, ⟨.int_lit, some "5"⟩] 0).2.1 rfl).2 .expected_semi
      (@parse_expr_returns_error _ 4 0 true 1 _ rfl (by decide)),
    ((((parse_stmt_semicolon [⟨.cnst, none⟩, ⟨.int_, none⟩, ⟨.ident, some "c"⟩,
      ⟨.assign, none⟩, ⟨.int_lit, some "1"⟩, ⟨.semi, none⟩] 0).2.2.1 ⟨.int_, none⟩
      ⟨.ident, some "c"⟩ .Int rfl rfl rfl rfl).1 rfl rfl).1
      (int_expr "1") 5 (@parse_expr_returns _ 4 0 true 4 _ rfl)).1 rfl,
    ((((parse_stmt_semicolon [⟨.let_, none⟩, ⟨.int_, none⟩, ⟨.ident, some "x"⟩,
      ⟨.assign, none⟩, ⟨.int_lit, some "2"⟩, ⟨.print, none⟩] 0).2.2.1 ⟨.int_, none⟩
      ⟨.ident, some "x"⟩ .Int rfl rfl rfl rfl).2.1 rfl rfl).1
      (int_expr "2") 5 (@parse_expr_returns _ 4 0 true 4 _ rfl)).2 (by decide),
    ((parse_stmt_semicolon [⟨.let_, none⟩, ⟨.int_, none⟩, ⟨.ident, some "y"⟩, ⟨.semi, none⟩]
      0).2.2.1 ⟨.int_, none⟩ ⟨.ident, some "y"⟩ .Int rfl rfl rfl rfl).2.2.1 rfl rfl 0,
    ((parse_stmt_semicolon [⟨.let_, none⟩, ⟨.int_, none⟩, ⟨.ident, some "y"⟩, ⟨.print, none⟩]
      0).2.2.1 ⟨.int_, none⟩ ⟨.ident, some "y"⟩ .Int rfl rfl rfl rfl).2.2.2 rfl
      (by decide) (by decide) 0,
    (((parse_stmt_semicolon [⟨.ident, some "x"⟩, ⟨.assign, none⟩, ⟨.int_lit, some "3"⟩,
      ⟨.semi, none⟩] 0).2.2.2.1 ⟨.ident, some "x"⟩ rfl rfl rfl).1
      (int_expr "3") 3 (@parse_expr_returns _ 4 0 true 2 _ rfl)).1 rfl,
    ((parse_stmt_semicolon [⟨.open_curly, none⟩, ⟨.print, none⟩, ⟨.int_lit, some "5"⟩,
      ⟨.semi, none⟩, ⟨.close_curly, none⟩, ⟨.semi, none⟩] 0).2.2.2.2.1 rfl
      (.mk [.Print (int_expr "5")]) 5 (@parse_scope_returns _ 8 0 _ rfl)).1,
    (parse_stmt_semicolon [⟨.if_, none⟩, ⟨.open_paren, none⟩, ⟨.int_lit, some "1"⟩,
      ⟨.close_paren, none⟩, ⟨.open_curly, none⟩, ⟨.close_curly, none⟩, ⟨.semi, none⟩]
      0).2.2.2.2.2 rfl rfl (int_expr "1") 3 (.mk []) 6 none 6
      (@parse_expr_returns _ 4 0 true 2 _ rfl) rfl (@parse_scope_returns _ 4 4 _ rfl)
      (@parse_if_cont_returns _ 4 6 _ rfl)⟩

/-! ### C24 -/

/-- C24: the table maps the type tokens `int`, `char`, `bool` to `Int`,
`Char`, `Bool` and no other token kind; after `const` or `let`, a token of
another kind in the type position is fatal (`Expected valid type`), and so is
the absence of a token there.  With a type token mapped to `dt` and an
identifier `x`: `const T x` followed by anything but `=`, in particular by
`;`, is fatal; `const T x = e ;` gives `Const x dt e`; `let T x ;` gives
`Let x dt` with no initializer; `let T x = e ;` gives `Let x dt` with the
initializer `e`, where `e` is what `parse_expr` returns after the `=`. -/
theorem parse_stmt_declarations (tokens : List Token) (index : Nat)
    (hd : kind_at tokens index = some .cnst ∨ kind_at tokens index = some .let_) :
    (type_mapping .int_ = some .Int ∧ type_mapping .char_ = some .Char ∧
      type_mapping .bool_ = some .Bool ∧
      ∀ type, type ≠ .int_ → type ≠ .char_ → type ≠ .bool_ → type_mapping type = none) ∧
    (∀ ty, tokens[index + 1]? = some ty → type_mapping ty.type = none →
      ∀ fuel, parse_stmt tokens (fuel + 1) index = .error .expected_valid_type) ∧
    (tokens[index + 1]? = none →
      ∀ fuel, parse_stmt tokens (fuel + 1) index = .error .expected_type) ∧
    (∀ ty id dt, tokens[index + 1]? = some ty → type_mapping ty.type = some dt →
      tokens[index + 2]? = some id → id.type = .ident →
      (kind_at tokens index = some .cnst → kind_at tokens (index + 3) ≠ some .assign →
        ∀ fuel, parse_stmt tokens (fuel + 1) index = .error .expected_assign_after_identifier) ∧
      (kind_at tokens index = some .cnst → kind_at tokens (index + 3) = some .assign →
        ∀ e j, returns (fun fuel => parse_expr tokens fuel 0 true (index + 4)) (.ok (some e, j)) →
        kind_at tokens j = some .semi →
        returns (fun fuel => parse_stmt tokens fuel index)
          (.ok (some (.Const id dt e), j + 1))) ∧
      (kind_at tokens index = some .let_ → kind_at tokens (index + 3) = some .semi →
        ∀ fuel, parse_stmt tokens (fuel + 1) index = .ok (some (.Let id dt none), index + 4)) ∧
      (kind_at tokens index = some .let_ → kind_at tokens (index + 3) = some .assign →
        ∀ e j, returns (fun fuel => parse_expr tokens fuel 0 true (index + 4)) (.ok (some e, j)) →
        kind_at tokens j = some .semi →
        returns (fun fuel => parse_stmt tokens fuel index)
          (.ok (some (.Let id dt (some e)), j + 1)))) := by
  refine ⟨⟨rfl, rfl, rfl, fun type h1 h2 h3 => by cases type <;> first | rfl | contradiction⟩,
    fun ty h1 h2 fuel => ?_, fun h1 fuel => ?_, fun ty id dt h1 h2 h3 h4 =>
      ⟨fun h ha fuel => ?_, fun h ha e j he hs => ?_, fun h hs fuel => ?_,
        fun h ha e j he hs => ?_⟩⟩
  · rcases hd with h | h <;> obtain ⟨t, ht, hty⟩ := kind_at_eq h <;> rw [parse_stmt] <;>
      simp [peek, ht, hty, h1, h2]
  · rcases hd with h | h <;> obtain ⟨t, ht, hty⟩ := kind_at_eq h <;> rw [parse_stmt] <;>
      simp [peek, ht, hty, h1]
  · rw [parse_stmt_const_branch h h1 h2 h3 h4]
    cases hp : peek tokens (index + 3) with
    | none => rfl
    | some a =>
      have : a.type ≠ .assign := fun hc => ha (by simp [kind_at, hp, hc])
      simp only [this, ne_eq, not_false_eq_true, if_true]
  · obtain ⟨a, hat, haty⟩ := kind_at_eq ha
    obtain ⟨s, hst⟩ := try_consume_of_kind hs
    exact returns_succ he (fun fuel hf => by
      rw [parse_stmt_const_branch h h1 h2 h3 h4]
      simp only [peek, hat]
      rw [if_neg (not_not.mpr haty), hf]
      simp only [hst])
  · obtain ⟨s, hst⟩ := try_consume_of_kind hs
    rw [parse_stmt_let_branch h h1 h2 h3 h4,
      try_consume_of_not_kind (fun hc => by rw [hs] at hc; cases hc)]
    simp only [hst]
  · obtain ⟨a, hat⟩ := try_consume_of_kind ha
    obtain ⟨s, hst⟩ := try_consume_of_kind hs
    exact returns_succ he (fun fuel hf => by
      rw [parse_stmt_let_branch h h1 h2 h3 h4]
      simp only [hat, hf, hst])

theorem parse_stmt_declarations_witness :
    parse_stmt [⟨.cnst, none⟩, ⟨.int_, none⟩, ⟨.ident, some "x"⟩, ⟨.semi, none⟩] 1 0 =
      .error .expected_assign_after_identifier ∧
    parse_stmt [⟨.cnst, none⟩, ⟨.char_, none⟩, ⟨.ident, some "x"⟩, ⟨.semi, none⟩] 1 0 =
      .error .expected_assign_after_identifier ∧
    parse_stmt [⟨.cnst, none⟩, ⟨.bool_, none⟩, ⟨.ident, some "x"⟩, ⟨.semi, none⟩] 1 0 =
      .error .expected_assign_after_identifier ∧
    parse_stmt [⟨.let_, none⟩, ⟨.char_, none⟩, ⟨.ident, some "x"⟩, ⟨.semi, none⟩] 1 0 =
      .ok (some (.Let ⟨.ident, some "x"⟩ .Char none), 4) ∧
    returns (fun fuel => parse_stmt [⟨.let_, none⟩, ⟨.bool_, none⟩, ⟨.ident, some "b"⟩,
      ⟨.assign, none⟩, ⟨.bool_lit, some "true"⟩, ⟨.semi, none⟩] fuel 0)
      (.ok (some (.Let ⟨.ident, some "b"⟩ .Bool (some (bool_expr "true"))), 6)) ∧
    returns (fun fuel => parse_stmt [⟨.cnst, none⟩, ⟨.int_, none⟩, ⟨.ident, some "c"⟩,
      ⟨.assign, none⟩, ⟨.int_lit, some "1"⟩, ⟨.plus, none⟩, ⟨.int_lit, some "2"⟩,
      ⟨.semi, none⟩] fuel 0)
      (.ok (some (.Const ⟨.ident, some "c"⟩ .Int
        (.BinExpr (.Add (int_expr "1") (int_expr "2")))), 8)) ∧
    parse_stmt [⟨.let_, none⟩, ⟨.ident, some "x"⟩, ⟨.semi, none⟩] 1 0 =
      .error .expected_valid_type ∧
    parse_stmt [⟨.cnst, none⟩, ⟨.int_lit, some "5"⟩, ⟨.ident, some "x"⟩] 1 0 =
      .error .expected_valid_type :=
  ⟨((parse_stmt_declarations [⟨.cnst, none⟩, ⟨.int_, none⟩, ⟨.ident, some "x"⟩, ⟨.semi, none⟩]
      0 (Or.inl rfl)).2.2.2 ⟨.int_, none⟩ ⟨.ident, some "x"⟩ .Int rfl rfl rfl rfl).1 rfl
      (by decide) 0,
    ((parse_stmt_declarations [⟨.cnst, none⟩, ⟨.char_, none⟩, ⟨.ident, some "x"⟩, ⟨.semi, none⟩]
      0 (Or.inl rfl)).2.2.2 ⟨.char_, none⟩ ⟨.ident, some "x"⟩ .Char rfl rfl rfl rfl).1 rfl
      (by decide) 0,
    ((parse_stmt_declarations [⟨.cnst, none⟩, ⟨.bool_, none⟩, ⟨.ident, some "x"⟩, ⟨.semi, none⟩]
      0 (Or.inl rfl)).2.2.2 ⟨.bool_, none⟩ ⟨.ident, some "x"⟩ .Bool rfl rfl rfl rfl).1 rfl
      (by decide) 0,
    ((parse_stmt_declarations [⟨.let_, none⟩, ⟨.char_, none⟩, ⟨.ident, some "x"⟩, ⟨.semi, none⟩]
      0 (Or.inr rfl)).2.2.2 ⟨.char_, none⟩ ⟨.ident, some "x"⟩ .Char rfl rfl rfl rfl).2.2.1 rfl
      rfl 0,
    ((parse_stmt_declarations [⟨.let_, none⟩, ⟨.bool_, none⟩, ⟨.ident, some "b"⟩,
      ⟨.assign, none⟩, ⟨.bool_lit, some "true"⟩, ⟨.semi, none⟩] 0 (Or.inr rfl)).2.2.2
      ⟨.bool_, none⟩ ⟨.ident, some "b"⟩ .Bool rfl rfl rfl rfl).2.2.2 rfl rfl
      (bool_expr "true") 5 (@parse_expr_returns _ 4 0 true 4 _ rfl) rfl,
    ((parse_stmt_declarations [⟨.cnst, none⟩, ⟨.int_, none⟩, ⟨.ident, some "c"⟩,
      ⟨.assign, none⟩, ⟨.int_lit, some "1"⟩, ⟨.plus, none⟩, ⟨.int_lit, some "2"⟩,
      ⟨.semi, none⟩] 0 (Or.inl rfl)).2.2.2
      ⟨.int_, none⟩ ⟨.ident, some "c"⟩ .Int rfl rfl rfl rfl).2.1 rfl rfl
      (.BinExpr (.Add (int_expr "1") (int_expr "2"))) 7
      (@parse_expr_returns _ 8 0 true 4 _ rfl) rfl,
    (parse_stmt_declarations [⟨.let_, none⟩, ⟨.ident, some "x"⟩, ⟨.semi, none⟩] 0
      (Or.inr rfl)).2.1 ⟨.ident, some "x"⟩ rfl rfl 0,
    (parse_stmt_declarations [⟨.cnst, none⟩, ⟨.int_lit, some "5"⟩, ⟨.ident, some "x"⟩] 0
      (Or.inl rfl)).2.1 ⟨.int_lit, some "5"⟩ rfl rfl 0⟩

/-! ### C25 -/

theorem parse_if_cont_of_tail {tokens : List Token} {index : Nat}
    {elifs : List (NodeExpr × NodeStmtScope)} {els : Option NodeStmtScope} {stop : Nat}
    (h : if_tail tokens index elifs els stop) :
    returns (fun fuel => parse_if_cont tokens fuel index) (.ok (if_chain elifs els, stop)) := by
  induction h with
  | done index h1 h2 =>
    refine returns_const (fun fuel => ?_)
    rw [parse_if_cont, try_consume_of_not_kind h1]
    simp only [try_consume_of_not_kind h2, if_chain]
  | else_clause index sc stop h1 h2 =>
    obtain ⟨t, ht⟩ := try_consume_of_kind h1
    refine returns_succ h2 (fun fuel hf => ?_)
    rw [parse_if_cont, try_consume_of_not_kind (fun hc => by rw [h1] at hc; cases hc)]
    simp only [ht, hf, if_chain]
  | elif_clause index e j sc k rest els stop h1 h2 h3 h4 h5 _ ih =>
    obtain ⟨t1, ht1⟩ := try_consume_of_kind h1
    obtain ⟨t2, ht2⟩ := try_consume_of_kind h2
    obtain ⟨t4, ht4⟩ := try_consume_of_kind h4
    refine returns_succ3 h3 h5 ih (fun fuel g3 g5 g6 => ?_)
    rw [parse_if_cont]
    simp only [ht1, ht2, g3, ht4, g5, g6, if_chain]

theorem if_chain_clauses (elifs : List (NodeExpr × NodeStmtScope)) (els : Option NodeStmtScope) :
    ((if_chain elifs els).map NodeStmtIfCont.clauses).getD [] = elifs ∧
    (if_chain elifs els).bind NodeStmtIfCont.else_body = els := by
  induction elifs with
  | nil => cases els <;> exact ⟨rfl, rfl⟩
  | cons p rest ih =>
    obtain ⟨e, sc⟩ := p
    cases hc : if_chain rest els with
    | none =>
      rw [hc] at ih
      simp only [if_chain, hc, Option.map_some', Option.getD_some, Option.some_bind,
        NodeStmtIfCont.clauses, NodeStmtIfCont.else_body]
      simp only [Option.map_none', Option.getD_none, Option.none_bind] at ih
      exact ⟨by rw [← ih.1], ih.2⟩
    | some c =>
      rw [hc] at ih
      simp only [if_chain, hc, Option.map_some', Option.getD_some, Option.some_bind,
        NodeStmtIfCont.clauses, NodeStmtIfCont.else_body]
      simp only [Option.map_some', Option.getD_some, Option.some_bind] at ih
      exact ⟨by rw [ih.1], ih.2⟩

theorem parse_stmt_no_statement {tokens : List Token} {index : Nat}
    (h : kind_at tokens index = some .elif ∨ kind_at tokens index = some .else_) (fuel : Nat) :
    parse_stmt tokens (fuel + 1) index = .ok (none, index) := by
  rcases h with h | h <;> obtain ⟨t, ht, hty⟩ := kind_at_eq h <;> rw [parse_stmt] <;>
    simp [peek, ht, hty]

/-- C25: let the tokens at `index` be `if ( e ) { ... }`, with condition `e`
and body `sc`, followed by a well-formed tail of `elif` clauses `elifs` and an
optional `else` body `els` that ends at `stop`.  Then `parse_stmt` returns the
node `If e sc cont` and the index `stop`, where the `Elif` nodes of `cont`,
from the outermost inwards, hold exactly the conditions and bodies of `elifs`
in source order, and the chain ends in `Else els` when the `else` clause is
present and in an absent continuation otherwise.  When the `else` clause is
present, the statement ends right after its block also if an `elif` token
follows: that token is left unread, and `parse_stmt` finds no statement at
it. -/
theorem parse_stmt_if_chain (tokens : List Token) (index : Nat) (e : NodeExpr) (j : Nat)
    (sc : NodeStmtScope) (k : Nat) (elifs : List (NodeExpr × NodeStmtScope))
    (els : Option NodeStmtScope) (stop : Nat)
    (h1 : kind_at tokens index = some .if_)
    (h2 : kind_at tokens (index + 1) = some .open_paren)
    (h3 : returns (fun fuel => parse_expr tokens fuel 0 true (index + 2)) (.ok (some e, j)))
    (h4 : kind_at tokens j = some .close_paren)
    (h5 : returns (fun fuel => parse_scope tokens fuel (j + 1)) (.ok (some sc, k)))
    (h6 : if_tail tokens k elifs els stop) :
    ∃ cont, returns (fun fuel => parse_stmt tokens fuel index) (.ok (some (.If e sc cont), stop)) ∧
      cont = if_chain elifs els ∧
      (cont.map NodeStmtIfCont.clauses).getD [] = elifs ∧
      cont.bind NodeStmtIfCont.else_body = els ∧
      (cont = none ↔ elifs = [] ∧ els = none) ∧
      (els.isSome → kind_at tokens stop = some .elif →
        returns (fun fuel => parse_stmt tokens fuel stop) (.ok (none, stop))) := by
  refine ⟨if_chain elifs els, parse_stmt_if_returns h1 h2 h3 h4 h5 (parse_if_cont_of_tail h6),
    rfl, (if_chain_clauses elifs els).1, (if_chain_clauses elifs els).2, ?_, fun _ he =>
      returns_const (parse_stmt_no_statement (Or.inl he))⟩
  cases elifs with
  | nil => cases els <;> simp [if_chain]
  | cons p rest => simp [if_chain]

theorem parse_stmt_if_chain_witness :
    returns (fun fuel => parse_stmt [⟨.if_, none⟩, ⟨.open_paren, none⟩,
      ⟨.int_lit, some "1"⟩, ⟨.close_paren, none⟩, ⟨.open_curly, none⟩, ⟨.close_curly, none⟩,
      ⟨.elif, none⟩, ⟨.open_paren, none⟩, ⟨.int_lit, some "2"⟩, ⟨.close_paren, none⟩,
      ⟨.open_curly, none⟩, ⟨.close_curly, none⟩,
      ⟨.elif, none⟩, ⟨.open_paren, none⟩, ⟨.int_lit, some "3"⟩, ⟨.close_paren, none⟩,
      ⟨.open_curly, none⟩, ⟨.close_curly, none⟩,
      ⟨.else_, none⟩, ⟨.open_curly, none⟩, ⟨.close_curly, none⟩, ⟨.semi, none⟩] fuel 0)
      (.ok (some (.If (int_expr "1") (.mk [])
        (some (.Elif (int_expr "2") (.mk [])
          (some (.Elif (int_expr "3") (.mk []) (some (.Else (.mk [])))))))), 21)) ∧
    (returns (fun fuel => parse_stmt [⟨.if_, none⟩, ⟨.open_paren, none⟩,
      ⟨.int_lit, some "1"⟩, ⟨.close_paren, none⟩, ⟨.open_curly, none⟩, ⟨.close_curly, none⟩,
      ⟨.else_, none⟩, ⟨.open_curly, none⟩, ⟨.close_curly, none⟩,
      ⟨.elif, none⟩, ⟨.open_paren, none⟩, ⟨.int_lit, some "2"⟩, ⟨.close_paren, none⟩,
      ⟨.open_curly, none⟩, ⟨.close_curly, none⟩] fuel 0)
      (.ok (some (.If (int_expr "1") (.mk []) (some (.Else (.mk [])))), 9)) ∧
    returns (fun fuel => parse_stmt [⟨.if_, none⟩, ⟨.open_paren, none⟩,
      ⟨.int_lit, some "1"⟩, ⟨.close_paren, none⟩, ⟨.open_curly, none⟩, ⟨.close_curly, none⟩,
      ⟨.else_, none⟩, ⟨.open_curly, none⟩, ⟨.close_curly, none⟩,
      ⟨.elif, none⟩, ⟨.open_paren, none⟩, ⟨.int_lit, some "2"⟩, ⟨.close_paren, none⟩,
      ⟨.open_curly, none⟩, ⟨.close_curly, none⟩] fuel 9) (.ok (none, 9)) ∧
    parse [⟨.if_, none⟩, ⟨.open_paren, none⟩,
      ⟨.int_lit, some "1"⟩, ⟨.close_paren, none⟩, ⟨.open_curly, none⟩, ⟨.close_curly, none⟩,
      ⟨.else_, none⟩, ⟨.open_curly, none⟩, ⟨.close_curly, none⟩,
      ⟨.elif, none⟩, ⟨.open_paren, none⟩, ⟨.int_lit, some "2"⟩, ⟨.close_paren, none⟩,
      ⟨.open_curly, none⟩, ⟨.close_curly, none⟩] 8 = .error .expected_statement) ∧
    returns (fun fuel => parse_stmt [⟨.if_, none⟩, ⟨.open_paren, none⟩,
      ⟨.int_lit, some "1"⟩, ⟨.close_paren, none⟩, ⟨.open_curly, none⟩, ⟨.close_curly, none⟩,
      ⟨.print, none⟩, ⟨.int_lit, some "5"⟩, ⟨.semi, none⟩] fuel 0)
      (.ok (some (.If (int_expr "1") (.mk []) none), 6)) := by
  refine ⟨?_, ⟨?_, ?_, rfl⟩, ?_⟩
  · obtain ⟨cont, hr, hc, _⟩ := parse_stmt_if_chain [⟨.if_, none⟩, ⟨.open_paren, none⟩,
      ⟨.int_lit, some "1"⟩, ⟨.close_paren, none⟩, ⟨.open_curly, none⟩, ⟨.close_curly, none⟩,
      ⟨.elif, none⟩, ⟨.open_paren, none⟩, ⟨.int_lit, some "2"⟩, ⟨.close_paren, none⟩,
      ⟨.open_curly, none⟩, ⟨.close_curly, none⟩,
      ⟨.elif, none⟩, ⟨.open_paren, none⟩, ⟨.int_lit, some "3"⟩, ⟨.close_paren, none⟩,
      ⟨.open_curly, none⟩, ⟨.close_curly, none⟩,
      ⟨.else_, none⟩, ⟨.open_curly, none⟩, ⟨.close_curly, none⟩, ⟨.semi, none⟩] 0 (int_expr "1") 3 (.mk []) 6
      [(int_expr "2", .mk []), (int_expr "3", .mk [])] (some (.mk [])) 21 rfl rfl
      (@parse_expr_returns _ 4 0 true 2 _ rfl) rfl (@parse_scope_returns _ 4 4 _ rfl)
      (.elif_clause 6 (int_expr "2") 9 (.mk []) 12 [(int_expr "3", .mk [])] (some (.mk [])) 21
        rfl rfl (@parse_expr_returns _ 4 0 true 8 _ rfl) rfl (@parse_scope_returns _ 4 10 _ rfl)
        (.elif_clause 12 (int_expr "3") 15 (.mk []) 18 [] (some (.mk [])) 21
          rfl rfl (@parse_expr_returns _ 4 0 true 14 _ rfl) rfl
          (@parse_scope_returns _ 4 16 _ rfl)
          (.else_clause 18 (.mk []) 21 rfl (@parse_scope_returns _ 4 19 _ rfl))))
    subst hc
    exact hr
  · obtain ⟨cont, hr, hc, _⟩ := parse_stmt_if_chain [⟨.if_, none⟩, ⟨.open_paren, none⟩,
      ⟨.int_lit, some "1"⟩, ⟨.close_paren, none⟩, ⟨.open_curly, none⟩, ⟨.close_curly, none⟩,
      ⟨.else_, none⟩, ⟨.open_curly, none⟩, ⟨.close_curly, none⟩,
      ⟨.elif, none⟩, ⟨.open_paren, none⟩, ⟨.int_lit, some "2"⟩, ⟨.close_paren, none⟩,
      ⟨.open_curly, none⟩, ⟨.close_curly, none⟩] 0 (int_expr "1") 3 (.mk []) 6
      [] (some (.mk [])) 9 rfl rfl
      (@parse_expr_returns _ 4 0 true 2 _ rfl) rfl (@parse_scope_returns _ 4 4 _ rfl)
      (.else_clause 6 (.mk []) 9 rfl (@parse_scope_returns _ 4 7 _ rfl))
    subst hc
    exact hr
  · obtain ⟨cont, _, _, _, _, _, hn⟩ := parse_stmt_if_chain [⟨.if_, none⟩, ⟨.open_paren, none⟩,
      ⟨.int_lit, some "1"⟩, ⟨.close_paren, none⟩, ⟨.open_curly, none⟩, ⟨.close_curly, none⟩,
      ⟨.else_, none⟩, ⟨.open_curly, none⟩, ⟨.close_curly, none⟩,
      ⟨.elif, none⟩, ⟨.open_paren, none⟩, ⟨.int_lit, some "2"⟩, ⟨.close_paren, none⟩,
      ⟨.open_curly, none⟩, ⟨.close_curly, none⟩] 0 (int_expr "1") 3 (.mk []) 6
      [] (some (.mk [])) 9 rfl rfl
      (@parse_expr_returns _ 4 0 true 2 _ rfl) rfl (@parse_scope_returns _ 4 4 _ rfl)
      (.else_clause 6 (.mk []) 9 rfl (@parse_scope_returns _ 4 7 _ rfl))
    exact hn rfl rfl
  · obtain ⟨cont, hr, hc, _⟩ := parse_stmt_if_chain [⟨.if_, none⟩, ⟨.open_paren, none⟩,
      ⟨.int_lit, some "1"⟩, ⟨.close_paren, none⟩, ⟨.open_curly, none⟩, ⟨.close_curly, none⟩,
      ⟨.print, none⟩, ⟨.int_lit, some "5"⟩, ⟨.semi, none⟩] 0 (int_expr "1") 3 (.mk []) 6
      [] none 6 rfl rfl
      (@parse_expr_returns _ 4 0 true 2 _ rfl) rfl (@parse_scope_returns _ 4 4 _ rfl)
      (.done 6 (by decide) (by decide))
    subst hc
    exact hr

/-! ### C26 -/

theorem repr_injective {a b : Nat} (h : Nat.repr a = Nat.repr b) : a = b := by
  have h1 : Nat.toDigits 10 a = Nat.toDigits 10 b := by
    have := congrArg String.data h
    simpa [Nat.repr, List.asString] using this
  rw [← (toDigits_decimal a).2.1, ← (toDigits_decimal b).2.1, h1]

theorem label_name_injective {a b : Nat}
    (h : "label" ++ toString a = "label" ++ toString b) : a = b := by
  have h1 := congrArg String.data h
  rw [String.data_append, String.data_append] at h1
  have h2 := List.append_cancel_left h1
  exact repr_injective (String.ext h2)

theorem mint_eq : ∀ (n : Nat) (gen : Generator),
    (mint n gen).1 = (List.range n).map (fun i => "label" ++ toString (gen.label_count + i)) ∧
    (mint n gen).2 = { gen with label_count := gen.label_count + n }
  | 0, gen => ⟨rfl, rfl⟩
  | n + 1, gen => by
    obtain ⟨h1, h2⟩ := mint_eq n gen.create_label.2
    rw [mint]
    constructor
    · rw [h1, List.range_succ_eq_map, List.map_cons, List.map_map]
      simp only [create_label, Nat.add_zero, List.cons.injEq, true_and]
      apply List.map_congr_left
      intro i _
      simp only [Function.comp, Nat.succ_eq_add_one]
      congr 2
      omega
    · rw [h2]
      simp only [create_label]
      congr 1
      omega


theorem gen_expr_label_count {e : NodeExpr} {gen g1 : Generator} {ty : DataType}
    (h : gen_expr e gen = .ok (ty, g1)) : g1.label_count = gen.label_count := by
  obtain ⟨c, hc⟩ := gen_expr_frame e gen g1 ty h
  rw [hc]; rfl

mutual
theorem gen_stmt_labels : ∀ (s : NodeStmt) (gen g' : Generator),
    gen_stmt s gen = .ok g' → g'.label_count = gen.label_count + s.labels
  | .Exit expr, gen, g', h => by
    rw [gen_stmt] at h
    split at h
    · cases h
    · rename_i ty g1 h1
      simp only [Except.ok.injEq] at h
      rw [← h, gen_exit_eq, NodeStmt.labels]
      exact (gen_expr_label_count h1 : g1.label_count = gen.label_count)
  | .Print expr, gen, g', h => by
    rw [gen_stmt] at h
    split at h
    · cases h
    · rename_i ty g1 h1
      cases ty <;> simp only [Except.ok.injEq] at h <;> rw [← h, NodeStmt.labels] <;>
        exact (gen_expr_label_count h1 : g1.label_count = gen.label_count)
  | .If expr scope cont, gen, g', h => by
    rw [gen_stmt] at h
    split at h
    · cases h
    · rename_i ty g1 h1
      simp only [] at h
      split at h
      · cases h
      · rename_i g2 h2
        have k1 := gen_expr_label_count h1
        have k2 := gen_scope_labels scope _ g2 h2
        have k3 := gen_stmt_if_cont_labels cont _ g2 g' h
        rw [NodeStmt.labels, k3, k2]
        simp only [emit, create_label, pop, k1]
        omega
  | .Const ident dtype expr, gen, g', h => by
    rw [gen_stmt] at h
    split at h
    · cases h
    · split at h
      · cases h
      · split at h
        · cases h
        · rename_i ty g1 h1
          split at h
          · cases h
          · simp only [Except.ok.injEq] at h
            rw [← h, NodeStmt.labels]
            exact (gen_expr_label_count h1 : g1.label_count = gen.label_count)
  | .Let ident dtype expr, gen, g', h => by
    rw [gen_stmt] at h
    split at h
    · cases h
    · split at h
      · cases h
      · split at h
        · simp only [Except.ok.injEq] at h
          rw [← h, NodeStmt.labels]; rfl
        · split at h
          · cases h
          · rename_i ty g1 h1
            split at h
            · cases h
            · simp only [Except.ok.injEq] at h
              rw [← h, NodeStmt.labels]
              exact (gen_expr_label_count h1 : g1.label_count = gen.label_count)
  | .Assign ident expr, gen, g', h => by
    rw [gen_stmt] at h
    split at h
    · cases h
    · split at h
      · cases h
      · split at h
        · cases h
        · split at h
          · cases h
          · rename_i ty g1 h1
            split at h
            · cases h
            · simp only [Except.ok.injEq] at h
              rw [← h, NodeStmt.labels]
              exact (gen_expr_label_count h1 : g1.label_count = gen.label_count)
  | .Scope scope, gen, g', h => by
    rw [gen_stmt] at h
    rw [NodeStmt.labels]
    exact gen_scope_labels scope gen g' h
theorem gen_stmt_if_cont_labels : ∀ (c : Option NodeStmtIfCont) (label : String)
    (gen g' : Generator), gen_stmt_if_cont c label gen = .ok g' →
    g'.label_count = gen.label_count + (if c.isSome then 1 else 0) +
      NodeStmtIfCont.labels_opt c
  | some cont, label, gen, g', h => by
    rw [gen_stmt_if_cont] at h
    rw [NodeStmtIfCont.labels_opt]
    split at h
    · cases h
    · rename_i g1 h1
      simp only [Except.ok.injEq] at h
      have k1 := gen_if_cont_labels cont _ _ g1 h1
      rw [← h]
      simp only [emit, create_label] at k1 ⊢
      rw [k1]; simp
  | none, label, gen, g', h => by
    rw [gen_stmt_if_cont] at h
    simp only [Except.ok.injEq] at h
    rw [← h]; rfl
theorem gen_scope_labels : ∀ (sc : NodeStmtScope) (gen g' : Generator),
    gen_scope sc gen = .ok g' → g'.label_count = gen.label_count + sc.labels
  | .mk stmts, gen, g', h => by
    rw [gen_scope] at h
    rw [NodeStmtScope.labels]
    split at h
    · cases h
    · rename_i g1 h1
      have k1 := gen_scope_stmts_labels stmts _ g1 h1
      unfold exit_scope at h
      split at h
      · cases h
      · simp only [Except.ok.injEq] at h
        rw [← h]
        exact k1
theorem gen_scope_stmts_labels : ∀ (l : List NodeStmt) (gen g' : Generator),
    gen_scope_stmts l gen = .ok g' → g'.label_count = gen.label_count + NodeStmt.labels_list l
  | [], gen, g', h => by
    rw [gen_scope_stmts] at h
    simp only [Except.ok.injEq] at h
    rw [← h]; rfl
  | s :: rest, gen, g', h => by
    rw [gen_scope_stmts] at h
    rw [NodeStmt.labels_list]
    split at h
    · cases h
    · rename_i g1 h1
      rw [gen_scope_stmts_labels rest g1 g' h, gen_stmt_labels s gen g1 h1, Nat.add_assoc]
theorem gen_if_cont_labels : ∀ (c : NodeStmtIfCont) (end_label : String)
    (gen g' : Generator), gen_if_cont c end_label gen = .ok g' →
    g'.label_count = gen.label_count + c.labels
  | .Elif expr scope cont, end_label, gen, g', h => by
    rw [gen_if_cont] at h
    rw [NodeStmtIfCont.labels]
    split at h
    · cases h
    · rename_i ty g1 h1
      simp only [] at h
      split at h
      · cases h
      · rename_i g2 h2
        have k1 := gen_expr_label_count h1
        have k2 := gen_scope_labels scope _ g2 h2
        have k3 := gen_elif_cont_labels cont _ _ _ g' h
        rw [k3]
        simp only [emit]
        rw [k2]
        simp only [emit, create_label, pop, k1]
        omega
  | .Else scope, end_label, gen, g', h => by
    rw [gen_if_cont] at h
    rw [NodeStmtIfCont.labels]
    exact gen_scope_labels scope gen g' h
theorem gen_elif_cont_labels : ∀ (c : Option NodeStmtIfCont) (label end_label : String)
    (gen g' : Generator), gen_elif_cont c label end_label gen = .ok g' →
    g'.label_count = gen.label_count + NodeStmtIfCont.labels_opt c
  | some cont, label, end_label, gen, g', h => by
    rw [gen_elif_cont] at h
    rw [NodeStmtIfCont.labels_opt]
    exact (gen_if_cont_labels cont _ _ g' h :)
  | none, label, end_label, gen, g', h => by
    rw [gen_elif_cont] at h
    simp only [Except.ok.injEq] at h
    rw [← h]; rfl
end

/-- C26: `gen_prog` is a function of the program: equal programs give equal
output.  The counter of a fresh generator is 0; `create_label` returns
`label` followed by the decimal counter and adds one to the counter; `n`
successive calls on a fresh generator return `label0`, ..., `label(n-1)`,
which are pairwise distinct, as the names of different counters always are.
No other operation of the generator changes the counter: expressions leave
it as it is, and a statement adds to it exactly the number of its calls of
`create_label`. -/
theorem create_label_deterministic_counter :
    (∀ p q : NodeProg, p = q → gen_prog p = gen_prog q) ∧
    ({} : Generator).label_count = 0 ∧
    (∀ gen : Generator, gen.create_label =
      ("label" ++ toString gen.label_count, { gen with label_count := gen.label_count + 1 })) ∧
    (∀ n : Nat, (mint n {}).1 = (List.range n).map (fun i => "label" ++ toString i) ∧
      (mint n {}).1.Nodup ∧ (mint n {}).2.label_count = n) ∧
    (∀ a b : Nat, "label" ++ toString a = "label" ++ toString b → a = b) ∧
    (∀ (gen : Generator) (i : Instr) (o : Operand) (r : Reg) (name : String) (v w : Var),
      (gen.emit i).label_count = gen.label_count ∧ (gen.push o).label_count = gen.label_count ∧
      (gen.pop r).label_count = gen.label_count ∧
      gen.enter_scope.label_count = gen.label_count ∧
      (gen.declare_var name v).label_count = gen.label_count ∧
      (gen.update_var name v w).label_count = gen.label_count ∧
      gen.gen_exit.label_count = gen.label_count ∧
      ∀ g', gen.exit_scope = .ok g' → g'.label_count = gen.label_count) ∧
    (∀ (e : NodeExpr) (gen g' : Generator) (ty : DataType),
      gen_expr e gen = .ok (ty, g') → g'.label_count = gen.label_count) ∧
    (∀ (s : NodeStmt) (gen g' : Generator),
      gen_stmt s gen = .ok g' → g'.label_count = gen.label_count + s.labels) := by
  refine ⟨fun p q h => by rw [h], rfl, fun _ => rfl, fun n => ?_, fun a b h => label_name_injective h,
    fun gen i o r name v w => ⟨rfl, rfl, rfl, rfl, rfl, rfl, rfl, ?_⟩,
    fun e gen g' ty h => gen_expr_label_count h, gen_stmt_labels⟩
  · have h := mint_eq n {}
    have h1 : (mint n {}).1 = (List.range n).map (fun i => "label" ++ toString i) := by
      rw [h.1]
      apply List.map_congr_left
      intro i _
      show "label" ++ toString (0 + i) = _
      rw [Nat.zero_add]
    refine ⟨h1, ?_, by rw [h.2]; exact Nat.zero_add n⟩
    rw [h1]
    exact (List.nodup_range n).map (fun a b hab => label_name_injective hab)
  · intro g' h
    unfold exit_scope at h
    split at h
    · cases h
    · simp only [Except.ok.injEq] at h
      rw [← h]

/-- Witness of C26: three calls on a fresh generator mint `label0`, `label1`
and `label2`, and generating `if (1) { } elif (2) { }` moves the counter from 0
to 3. -/
theorem create_label_deterministic_counter_witness :
    (mint 3 {}).1 = ["label0", "label1", "label2"] ∧
    (∃ g', gen_stmt (.If (int_expr "1") (.mk [])
        (some (.Elif (int_expr "2") (.mk []) none))) {} = .ok g' ∧
      g'.label_count = 0 + (NodeStmt.If (int_expr "1") (.mk [])
        (some (.Elif (int_expr "2") (.mk []) none))).labels ∧
      g'.label_count = 3) :=
  ⟨(create_label_deterministic_counter.2.2.2.1 3).1,
    ⟨_, rfl, create_label_deterministic_counter.2.2.2.2.2.2.2
      (.If (int_expr "1") (.mk []) (some (.Elif (int_expr "2") (.mk []) none))) {} _ rfl,
      rfl⟩⟩

/-! ### C27 -/

theorem pushes_append (a b : List Instr) : pushes (a ++ b) = pushes a + pushes b := by
  simp [pushes, List.countP_append]

theorem pops_append (a b : List Instr) : pops (a ++ b) = pops a + pops b := by
  simp [pops, List.countP_append]

theorem dips_append {a b : List Instr} {da db d : Nat} (ha : dips a da) (hb : dips b db)
    (h1 : da ≤ d) (h2 : pops a + db ≤ pushes a + d) : dips (a ++ b) d := by
  intro k
  rw [List.take_append_eq_append_take, pushes_append, pops_append]
  have h3 := hb (k - a.length)
  by_cases hk : k ≤ a.length
  · have : k - a.length = 0 := by omega
    rw [this, List.take_zero]
    have := ha k
    simp only [pushes, pops, List.countP_nil] at *
    omega
  · rw [List.take_of_length_le (by omega)]
    omega

theorem one_up_bin {c1 c2 t : List Instr} (h1 : one_up c1) (h2 : one_up c2)
    (ht : pops t = pushes t + 1) (hd : dips t 2) : one_up (c1 ++ c2 ++ t) := by
  obtain ⟨a1, a2⟩ := h1
  obtain ⟨b1, b2⟩ := h2
  have h12 : dips (c1 ++ c2) 0 := dips_append a2 b2 (Nat.le_refl 0) (by omega)
  refine ⟨by rw [pushes_append, pushes_append, pops_append, pops_append]; omega, ?_⟩
  exact dips_append h12 hd (Nat.le_refl 0)
    (by rw [pushes_append, pops_append]; omega)

theorem one_up_unary {c1 t : List Instr} (h1 : one_up c1)
    (ht : pops t = pushes t) (hd : dips t 1) : one_up (c1 ++ t) := by
  obtain ⟨a1, a2⟩ := h1
  refine ⟨by rw [pushes_append, pops_append]; omega, ?_⟩
  exact dips_append a2 hd (Nat.le_refl 0) (by omega)

theorem dips_of_prefixes (t : List Instr) (d : Nat)
    (h : ∀ k, k ≤ t.length → pops (t.take k) ≤ pushes (t.take k) + d) : dips t d := by
  intro k
  by_cases hk : k ≤ t.length
  · exact h k hk
  · rw [List.take_of_length_le (by omega)]
    have := h t.length (Nat.le_refl _)
    rwa [List.take_length] at this

theorem tail_code_balance (b : NodeBinExpr) :
    pops b.tail_code = pushes b.tail_code + 1 ∧ dips b.tail_code 2 := by
  refine ⟨by cases b <;> rfl, dips_of_prefixes _ _ ?_⟩
  intro k hk
  cases b <;> simp only [NodeBinExpr.tail_code, List.length_cons, List.length_nil] at hk ⊢ <;>
    interval_cases k <;> decide


theorem one_up_single (i : Instr) (o : Operand) (h : pushes [i] = 0 ∧ pops [i] = 0) :
    one_up [i, .push o] := by
  refine ⟨?_, dips_of_prefixes _ _ ?_⟩
  · have := pushes_append [i] [.push o]
    have := pops_append [i] [.push o]
    simp only [List.singleton_append] at *
    have h1 : pushes [Instr.push o] = 1 := rfl
    have h2 : pops [Instr.push o] = 0 := rfl
    omega
  · intro k hk
    simp only [List.length_cons, List.length_nil] at hk
    have e1 : pops [i] = 0 := h.2
    have e2 : pops [i, Instr.push o] = 0 := by
      have := pops_append [i] [.push o]
      simp only [List.singleton_append] at this
      rw [this, e1]; rfl
    interval_cases k
    · simp [pops, pushes]
    · simp only [List.take_succ_cons, List.take_zero]; omega
    · simp only [List.take_succ_cons, List.take_zero]; omega

theorem negate_tail_balance :
    pops [Instr.pop .rax, .neg .rax, .push (.reg .rax)] =
      pushes [Instr.pop .rax, .neg .rax, .push (.reg .rax)] ∧
    dips [Instr.pop .rax, .neg .rax, .push (.reg .rax)] 1 := by
  refine ⟨rfl, dips_of_prefixes _ _ ?_⟩
  intro k hk
  simp only [List.length_cons, List.length_nil] at hk
  interval_cases k <;> decide

theorem not_tail_balance :
    pops [Instr.pop .rax, .cmp_imm .rax 0, .set .e .al, .movzx .rax .al, .push (.reg .rax)] =
      pushes [Instr.pop .rax, .cmp_imm .rax 0, .set .e .al, .movzx .rax .al,
        .push (.reg .rax)] ∧
    dips [Instr.pop .rax, .cmp_imm .rax 0, .set .e .al, .movzx .rax .al, .push (.reg .rax)] 1 := by
  refine ⟨rfl, dips_of_prefixes _ _ ?_⟩
  intro k hk
  simp only [List.length_cons, List.length_nil] at hk
  interval_cases k <;> decide

mutual
theorem gen_term_one_up : ∀ (t : NodeTerm) (gen g' : Generator) (ty : DataType),
    gen_term t gen = .ok (ty, g') → ∃ code, g' = pushed gen code ∧ one_up code
  | .Lit tok, gen, g', ty, h => by
    rw [gen_term] at h
    obtain ⟨v, _, hv⟩ := gen_lit_frame tok gen g' ty h
    exact ⟨_, hv, one_up_single _ _ ⟨rfl, rfl⟩⟩
  | .Ident ident, gen, g', ty, h => by
    rw [gen_term] at h
    split at h
    · cases h
    · split at h
      · cases h
      · rename_i var hvar
        simp only [Except.ok.injEq, Prod.mk.injEq] at h
        refine ⟨[.push (.qword_rsp (size_t_mul (size_t_sub gen.stack_size var.stack_loc) 8))],
          by rw [← h.2]; simp [pushed, push], rfl, dips_of_prefixes _ _ ?_⟩
        intro k hk
        simp only [List.length_cons, List.length_nil] at hk
        interval_cases k <;> simp [pops, pushes]
  | .Paren e, gen, g', ty, h => by
    rw [gen_term] at h
    exact gen_expr_one_up e gen g' ty h
  | .Unary .Negate operand, gen, g', ty, h => by
    rw [gen_term] at h
    split at h
    · cases h
    · rename_i dtype g1 h1
      obtain ⟨c1, hc1, hu⟩ := gen_term_one_up operand gen g1 dtype h1
      split at h
      · cases h
      · simp only [Except.ok.injEq, Prod.mk.injEq] at h
        refine ⟨c1 ++ [.pop .rax, .neg .rax, .push (.reg .rax)], ?_,
          one_up_unary hu negate_tail_balance.1 negate_tail_balance.2⟩
        rw [← h.2, hc1]
        simp [pushed, emit, push, pop, size_t_inc_dec_inc]
  | .Unary .Not operand, gen, g', ty, h => by
    rw [gen_term] at h
    split at h
    · cases h
    · rename_i dtype g1 h1
      obtain ⟨c1, hc1, hu⟩ := gen_term_one_up operand gen g1 dtype h1
      split at h
      · cases h
      · simp only [Except.ok.injEq, Prod.mk.injEq] at h
        refine ⟨c1 ++ [.pop .rax, .cmp_imm .rax 0, .set .e .al, .movzx .rax .al,
          .push (.reg .rax)], ?_, one_up_unary hu not_tail_balance.1 not_tail_balance.2⟩
        rw [← h.2, hc1]
        simp [pushed, emit, push, pop, size_t_inc_dec_inc]
termination_by t => sizeOf t
theorem gen_bin_expr_one_up : ∀ (b : NodeBinExpr) (gen g' : Generator) (ty : DataType),
    gen_bin_expr b gen = .ok (ty, g') → ∃ code, g' = pushed gen code ∧ one_up code
  | b, gen, g', ty, h => by
    rw [gen_bin_expr_eq] at h
    split at h
    · cases h
    · rename_i t1 g1 h1
      split at h
      · cases h
      · rename_i t2 g2 h2
        have hb1 : sizeOf b.first < sizeOf b := by cases b <;> simp [NodeBinExpr.first] <;> omega
        have hb2 : sizeOf b.second < sizeOf b := by
          cases b <;> simp [NodeBinExpr.second] <;> omega
        obtain ⟨c1, hc1, u1⟩ := gen_expr_one_up b.first gen g1 t1 h1
        obtain ⟨c2, hc2, u2⟩ := gen_expr_one_up b.second g1 g2 t2 h2
        split at h
        · simp only [Except.ok.injEq, Prod.mk.injEq] at h
          refine ⟨c1 ++ c2 ++ b.tail_code, ?_,
            one_up_bin u1 u2 (tail_code_balance b).1 (tail_code_balance b).2⟩
          rw [← h.2, hc2, hc1]
          simp [pushed, size_t_inc_dec_dec_inc_inc]
        · cases h
termination_by b => sizeOf b
theorem gen_expr_one_up : ∀ (e : NodeExpr) (gen g' : Generator) (ty : DataType),
    gen_expr e gen = .ok (ty, g') → ∃ code, g' = pushed gen code ∧ one_up code
  | .Term t, gen, g', ty, h => by
    rw [gen_expr] at h
    exact gen_term_one_up t gen g' ty h
  | .BinExpr b, gen, g', ty, h => by
    rw [gen_expr] at h
    exact gen_bin_expr_one_up b gen g' ty h
termination_by e => sizeOf e
end

/-- C27: when `gen_expr` succeeds it appends code to the output and leaves
`stack_size` one larger, in `size_t` arithmetic and, below `2^64 - 1`, as a
number.  The appended code has exactly one more `push` than `pop`, and no
prefix of it has more `pop` than `push`: as each `push` and `pop` line is
written together with `stack_size++` and `stack_size--`, the counter never
falls below its value at the start of the call.  `globals`, the scope
frames, the label counter and the terminated flag are unchanged. -/
theorem gen_expr_stack_effect (e : NodeExpr) (gen g' : Generator) (ty : DataType)
    (h : gen_expr e gen = .ok (ty, g')) :
    ∃ code, g'.output = gen.output ++ code ∧
      g'.stack_size = size_t_inc gen.stack_size ∧
      (gen.stack_size + 1 < 2 ^ 64 → g'.stack_size = gen.stack_size + 1) ∧
      pushes code = pops code + 1 ∧
      (∀ k, pops (code.take k) ≤ pushes (code.take k)) ∧
      g'.globals = gen.globals ∧ g'.scopes = gen.scopes ∧
      g'.label_count = gen.label_count ∧ g'.is_terminated = gen.is_terminated := by
  obtain ⟨code, hc, hu⟩ := gen_expr_one_up e gen g' ty h
  subst hc
  refine ⟨code, rfl, rfl, ?_, hu.1, hu.2, rfl, rfl, rfl, rfl⟩
  intro hb
  show size_t_inc gen.stack_size = _
  simp only [size_t_inc, size_t_mod]; omega

/-- Witness of C27: the sixteen lines of `1 + 2 * 3` have six `push` and five
`pop`. -/
theorem gen_expr_stack_effect_witness :
    ∃ code, (pushed {} [.mov_imm .rax 1, .push (.reg .rax), .mov_imm .rax 2,
        .push (.reg .rax), .mov_imm .rax 3, .push (.reg .rax), .pop .rax, .pop .rbx,
        .imul .rbx, .jo "overflow_error", .push (.reg .rax), .pop .rax, .pop .rbx,
        .add .rax .rbx, .jo "overflow_error", .push (.reg .rax)]).output =
        ({} : Generator).output ++ code ∧
      pushes code = pops code + 1 ∧ (∀ k, pops (code.take k) ≤ pushes (code.take k)) :=
  (gen_expr_stack_effect expr_1_plus_2_times_3 {} _ .Int rfl).elim
    fun code hc => ⟨code, hc.1, hc.2.2.2.1, hc.2.2.2.2.1⟩

/-! ### C28 -/

theorem grows_refl (gen : Generator) : grows gen gen 0 :=
  fun h => ⟨h, (Nat.mod_eq_of_lt h).symm⟩

theorem grows_of_eq {gen g' : Generator} (h : g'.stack_size = gen.stack_size) :
    grows gen g' 0 := fun hs => ⟨h ▸ hs, by rw [h]; exact (Nat.mod_eq_of_lt hs).symm⟩

theorem grows_trans {gen g1 g' : Generator} {n m : Nat} (h1 : grows gen g1 n)
    (h2 : grows g1 g' m) : grows gen g' (n + m) := by
  intro hs
  obtain ⟨a1, a2⟩ := h1 hs
  obtain ⟨b1, b2⟩ := h2 a1
  refine ⟨b1, ?_⟩
  rw [b2, a2, ← Nat.add_assoc, Nat.mod_add_mod]

theorem grows_congr {gen g' : Generator} {n m : Nat} (h : grows gen g' n) (hnm : n = m) :
    grows gen g' m := hnm ▸ h

theorem grows_gen_expr {e : NodeExpr} {gen g1 : Generator} {ty : DataType}
    (h : gen_expr e gen = .ok (ty, g1)) : grows gen g1 1 := by
  obtain ⟨c, hc⟩ := gen_expr_frame e gen g1 ty h
  intro _
  rw [hc]
  show size_t_inc gen.stack_size < size_t_mod ∧ size_t_inc gen.stack_size = _
  unfold size_t_inc
  exact ⟨Nat.mod_lt _ (by decide), rfl⟩

theorem grows_expr_pop {e : NodeExpr} {gen g1 g' : Generator} {ty : DataType}
    (h : gen_expr e gen = .ok (ty, g1)) (hp : g'.stack_size = size_t_dec g1.stack_size) :
    grows gen g' 0 := by
  obtain ⟨c, hc⟩ := gen_expr_frame e gen g1 ty h
  intro hs
  rw [hp, hc]
  simp only [pushed]
  rw [size_t_dec_inc _ hs]
  exact ⟨hs, (Nat.mod_eq_of_lt hs).symm⟩


mutual
theorem gen_stmt_grows : ∀ (s : NodeStmt) (gen g' : Generator),
    gen_stmt s gen = .ok g' → grows gen g' s.slots
  | .Exit expr, gen, g', h => by
    rw [gen_stmt] at h
    split at h
    · cases h
    · rename_i ty g1 h1
      simp only [Except.ok.injEq] at h
      exact grows_expr_pop h1 (by rw [← h, gen_exit_eq])
  | .Print expr, gen, g', h => by
    rw [gen_stmt] at h
    split at h
    · cases h
    · rename_i ty g1 h1
      cases ty <;> simp only [Except.ok.injEq] at h <;>
        exact grows_expr_pop h1 (by rw [← h]; rfl)
  | .If expr scope cont, gen, g', h => by
    rw [gen_stmt] at h
    split at h
    · cases h
    · rename_i ty g1 h1
      simp only [] at h
      split at h
      · cases h
      · rename_i g2 h2
        have k1 : grows gen (((g1.pop .rax).create_label.2.emit (.test .rax .rax)).emit
            (.jz (g1.pop .rax).create_label.1)) 0 := grows_expr_pop h1 rfl
        have k2 := gen_scope_grows scope _ g2 h2
        have k3 := gen_stmt_if_cont_grows cont _ g2 g' h
        exact grows_congr (grows_trans (grows_trans k1 k2) k3) (by rw [NodeStmt.slots]; omega)
  | .Const ident dtype expr, gen, g', h => by
    rw [gen_stmt] at h
    split at h
    · cases h
    · split at h
      · cases h
      · split at h
        · cases h
        · rename_i ty g1 h1
          split at h
          · cases h
          · simp only [Except.ok.injEq] at h
            have k1 := grows_gen_expr h1
            have k2 : grows g1 g' 0 := grows_of_eq (by rw [← h]; rfl)
            exact grows_trans k1 k2
  | .Let ident dtype expr, gen, g', h => by
    rw [gen_stmt] at h
    split at h
    · cases h
    · split at h
      · cases h
      · split at h
        · simp only [Except.ok.injEq] at h
          intro hs
          rw [← h]
          show size_t_inc gen.stack_size < size_t_mod ∧ size_t_inc gen.stack_size = _
          unfold size_t_inc
          exact ⟨Nat.mod_lt _ (by decide), rfl⟩
        · split at h
          · cases h
          · rename_i ty g1 h1
            split at h
            · cases h
            · simp only [Except.ok.injEq] at h
              have k1 := grows_gen_expr h1
              have k2 : grows g1 g' 0 := grows_of_eq (by rw [← h]; rfl)
              exact grows_trans k1 k2
  | .Assign ident expr, gen, g', h => by
    rw [gen_stmt] at h
    split at h
    · cases h
    · split at h
      · cases h
      · split at h
        · cases h
        · split at h
          · cases h
          · rename_i ty g1 h1
            split at h
            · cases h
            · simp only [Except.ok.injEq] at h
              have k1 := grows_gen_expr h1
              have k2 : grows g1 g' 0 := grows_of_eq (by rw [← h]; rfl)
              exact grows_trans k1 k2
  | .Scope scope, gen, g', h => by
    rw [gen_stmt] at h
    rw [NodeStmt.slots]
    exact gen_scope_grows scope gen g' h
theorem gen_stmt_if_cont_grows : ∀ (c : Option NodeStmtIfCont) (label : String)
    (gen g' : Generator), gen_stmt_if_cont c label gen = .ok g' →
    grows gen g' (NodeStmtIfCont.slots_opt c)
  | some cont, label, gen, g', h => by
    rw [gen_stmt_if_cont] at h
    rw [NodeStmtIfCont.slots_opt]
    split at h
    · cases h
    · rename_i g1 h1
      simp only [Except.ok.injEq] at h
      have k1 := gen_if_cont_grows cont _ _ g1 h1
      have k2 : grows g1 g' 0 := grows_of_eq (by rw [← h]; rfl)
      intro hs
      exact grows_trans k1 k2 hs
  | none, label, gen, g', h => by
    rw [gen_stmt_if_cont] at h
    simp only [Except.ok.injEq] at h
    exact grows_of_eq (by rw [← h]; rfl)
theorem gen_scope_grows : ∀ (sc : NodeStmtScope) (gen g' : Generator),
    gen_scope sc gen = .ok g' → grows gen g' sc.slots
  | .mk stmts, gen, g', h => by
    rw [gen_scope] at h
    rw [NodeStmtScope.slots]
    split at h
    · cases h
    · rename_i g1 h1
      have k1 := gen_scope_stmts_grows stmts _ g1 h1
      have k2 : grows g1 g' 0 := by
        unfold exit_scope at h
        split at h
        · cases h
        · simp only [Except.ok.injEq] at h
          exact grows_of_eq (by rw [← h])
      intro hs
      exact grows_trans k1 k2 hs
theorem gen_scope_stmts_grows : ∀ (l : List NodeStmt) (gen g' : Generator),
    gen_scope_stmts l gen = .ok g' → grows gen g' (NodeStmt.slots_list l)
  | [], gen, g', h => by
    rw [gen_scope_stmts] at h
    simp only [Except.ok.injEq] at h
    rw [← h]; exact grows_refl gen
  | s :: rest, gen, g', h => by
    rw [gen_scope_stmts] at h
    rw [NodeStmt.slots_list]
    split at h
    · cases h
    · rename_i g1 h1
      exact grows_trans (gen_stmt_grows s gen g1 h1) (gen_scope_stmts_grows rest g1 g' h)
theorem gen_if_cont_grows : ∀ (c : NodeStmtIfCont) (end_label : String)
    (gen g' : Generator), gen_if_cont c end_label gen = .ok g' → grows gen g' c.slots
  | .Elif expr scope cont, end_label, gen, g', h => by
    rw [gen_if_cont] at h
    rw [NodeStmtIfCont.slots]
    split at h
    · cases h
    · rename_i ty g1 h1
      simp only [] at h
      split at h
      · cases h
      · rename_i g2 h2
        have k1 : grows gen (((g1.pop .rax).create_label.2.emit (.test .rax .rax)).emit
            (.jz (g1.pop .rax).create_label.1)) 0 := grows_expr_pop h1 rfl
        have k2 := gen_scope_grows scope _ g2 h2
        have k2' : grows g2 (g2.emit (.jmp end_label)) 0 := grows_of_eq rfl
        have k3 := gen_elif_cont_grows cont _ _ _ g' h
        exact grows_congr (grows_trans (grows_trans (grows_trans k1 k2) k2') k3) (by omega)
  | .Else scope, end_label, gen, g', h => by
    rw [gen_if_cont] at h
    rw [NodeStmtIfCont.slots]
    exact gen_scope_grows scope gen g' h
theorem gen_elif_cont_grows : ∀ (c : Option NodeStmtIfCont) (label end_label : String)
    (gen g' : Generator), gen_elif_cont c label end_label gen = .ok g' →
    grows gen g' (NodeStmtIfCont.slots_opt c)
  | some cont, label, end_label, gen, g', h => by
    rw [gen_elif_cont] at h
    rw [NodeStmtIfCont.slots_opt]
    have k1 : grows gen (gen.emit (.label label)) 0 := grows_of_eq rfl
    have k2 := gen_if_cont_grows cont _ _ g' h
    intro hs
    have := grows_trans k1 k2 hs
    rwa [Nat.zero_add] at this
  | none, label, end_label, gen, g', h => by
    rw [gen_elif_cont] at h
    simp only [Except.ok.injEq] at h
    rw [← h]; exact grows_refl gen
end


/-- C28 as stated fails: after `let int x = 1;` the assignment `x = 2;`
raises `stack_size` from 1 to 2, and the block `{ let int y = 2; }` and the
statement `if (false) { let int y = 2; }` each raise it from 0 to 1. -/
theorem gen_stmt_stack_size_counterexample :
    (∃ g0 g1, gen_prog_loop [let_int "x" "1"] {} = .ok (false, g0) ∧ g0.stack_size = 1 ∧
      gen_stmt (assign_int "x" "2") g0 = .ok g1 ∧ g1.stack_size = 2) ∧
    (∃ g, gen_stmt (.Scope (.mk [let_int "y" "2"])) {} = .ok g ∧ g.stack_size = 1) ∧
    (∃ g, gen_stmt (.If (bool_expr "false") (.mk [let_int "y" "2"]) none) {} = .ok g ∧
      g.stack_size = 1) :=
  ⟨⟨_, _, rfl, rfl, rfl, rfl⟩, ⟨_, rfl, rfl⟩, ⟨_, rfl, rfl⟩⟩

/-- C28, amended: a statement that generates successfully leaves `stack_size`
larger by its number of slots (no wrap below `2^64`): 0 for `exit` and
`print`, 1 for `const`, `let` and an assignment, and for a block or an `if`
statement the sum over the statements of its bodies, so that these leave
`stack_size` unchanged exactly when their bodies allocate nothing. -/
theorem gen_stmt_stack_size (s : NodeStmt) (gen g' : Generator)
    (h : gen_stmt s gen = .ok g') (hb : gen.stack_size + s.slots < 2 ^ 64) :
    g'.stack_size = gen.stack_size + s.slots ∧
    (∀ e, (NodeStmt.Exit e).slots = 0 ∧ (NodeStmt.Print e).slots = 0) ∧
    (∀ ident dtype e oe, (NodeStmt.Const ident dtype e).slots = 1 ∧
      (NodeStmt.Let ident dtype oe).slots = 1 ∧ (NodeStmt.Assign ident e).slots = 1) ∧
    (∀ stmts, (NodeStmt.Scope (.mk stmts)).slots = (stmts.map NodeStmt.slots).sum) ∧
    (∀ e stmts, (NodeStmt.If e (.mk stmts) none).slots = (stmts.map NodeStmt.slots).sum) ∧
    (∀ e stmts stmts2, (NodeStmt.If e (.mk stmts) (some (.Else (.mk stmts2)))).slots =
      (stmts.map NodeStmt.slots).sum + (stmts2.map NodeStmt.slots).sum) ∧
    (∀ e stmts e2 stmts2 cont,
      (NodeStmt.If e (.mk stmts) (some (.Elif e2 (.mk stmts2) cont))).slots =
        (stmts.map NodeStmt.slots).sum +
          (NodeStmt.If e2 (.mk stmts2) cont).slots) := by
  have hl : ∀ stmts : List NodeStmt,
      NodeStmt.slots_list stmts = (stmts.map NodeStmt.slots).sum := by
    intro stmts
    induction stmts with
    | nil => rw [NodeStmt.slots_list]; rfl
    | cons a l ih => rw [NodeStmt.slots_list, ih, List.map_cons, List.sum_cons]
  refine ⟨?_, fun e => ⟨by rw [NodeStmt.slots], by rw [NodeStmt.slots]⟩,
    fun ident dtype e oe => ⟨by rw [NodeStmt.slots], by rw [NodeStmt.slots],
      by rw [NodeStmt.slots]⟩, ?_, ?_, ?_, ?_⟩
  · have hs : gen.stack_size < size_t_mod := by
      simp only [size_t_mod]; omega
    obtain ⟨_, h2⟩ := gen_stmt_grows s gen g' h hs
    rw [h2]
    exact Nat.mod_eq_of_lt hb
  · intro stmts
    rw [NodeStmt.slots, NodeStmtScope.slots, hl]
  · intro e stmts
    rw [NodeStmt.slots, NodeStmtScope.slots, NodeStmtIfCont.slots_opt, hl, Nat.add_zero]
  · intro e stmts stmts2
    rw [NodeStmt.slots, NodeStmtScope.slots, NodeStmtIfCont.slots_opt, NodeStmtIfCont.slots,
      NodeStmtScope.slots, hl, hl]
  · intro e stmts e2 stmts2 cont
    rw [NodeStmt.slots, NodeStmtScope.slots, NodeStmtIfCont.slots_opt, NodeStmtIfCont.slots,
      NodeStmtScope.slots, hl, NodeStmt.slots, NodeStmtScope.slots]

/-- Witness of C28: the block `{ let int y = 2; print 3; }` on the fresh
generator leaves `stack_size` 1. -/
theorem gen_stmt_stack_size_witness :
    ∃ g', gen_stmt (.Scope (.mk [let_int "y" "2", .Print (int_expr "3")])) {} = .ok g' ∧
      g'.stack_size =
        0 + (NodeStmt.Scope (.mk [let_int "y" "2", .Print (int_expr "3")])).slots ∧
      g'.stack_size = 1 :=
  ⟨_, rfl, (gen_stmt_stack_size (.Scope (.mk [let_int "y" "2", .Print (int_expr "3")]))
    {} _ rfl (by decide)).1, rfl⟩

/-! ### C29 -/

/-- C29, the input on which the code departs from the claim: for
`let int x = 1; if (false) { let int y = 2; } print x;` the generator counts
the push of `y` although the body is jumped over, so `stack_size` is 2 where
`print x` is generated and the emitted line is `push QWORD [rsp + 8]`.  At
run time the `jz` is taken with one value pushed: on a stack that held `a` on
top at entry, the path through `label0` reads `a`, the word above the slot of
`x`, and passes it to `print_int` instead of 1. -/
theorem stack_size_ahead_after_untaken_branch :
    gen_prog ⟨[let_int "x" "1", .If (bool_expr "false") (.mk [let_int "y" "2"]) none,
      print_ident "x"]⟩ =
      .ok (prologue ++
        [.mov_imm .rax 1, .push (.reg .rax),
          .mov_imm .rax 0, .push (.reg .rax), .pop .rax, .test .rax .rax, .jz "label0",
          .mov_imm .rax 2, .push (.reg .rax),
          .label "label0",
          .push (.qword_rsp 8), .pop .rdi, .call "print_int"] ++ exit_sequence) ∧
    (∃ g, gen_prog_loop [let_int "x" "1",
        .If (bool_expr "false") (.mk [let_int "y" "2"]) none] {} = .ok (false, g) ∧
      g.stack_size = 2 ∧ g.globals "x" = some { stack_loc := 1, dtype := .Int, mut_ := true }) ∧
    (∀ (m : Machine) (a : Int) (st : List Int), m.stack = a :: st →
      ∃ m1, m.exec (prologue ++
          [.mov_imm .rax 1, .push (.reg .rax),
            .mov_imm .rax 0, .push (.reg .rax), .pop .rax, .test .rax .rax, .jz "label0"]) =
          .jumped "label0" m1 ∧
        m1.stack = 1 :: a :: st ∧
        ∃ m2, m1.exec [.label "label0", .push (.qword_rsp 8), .pop .rdi] = .running m2 ∧
          m2.rdi = a) := by
  refine ⟨rfl, ⟨_, rfl, rfl, rfl⟩, ?_⟩
  intro m a st hm
  obtain ⟨rax, rbx, rdx, rdi, rsi, zf, sf, of, stack⟩ := m
  simp only at hm
  subst hm
  refine ⟨_, rfl, rfl, ?_⟩
  simp [Machine.exec, Machine.step, Machine.set, Machine.get, Machine.set_flags]

/-! ### C30 -/

/-- C30, the input on which the code departs from the claim: for
`if (1) { } elif (2) { }` the output names `label2` as the target of the `jz`
of the `elif`, and no line `label2:` is in the output; `label0` and `label1`
are defined after their jumps. -/
theorem elif_without_continuation_jumps_to_undefined_label :
    gen_prog ⟨[.If (int_expr "1") (.mk []) (some (.Elif (int_expr "2") (.mk []) none))]⟩ =
      .ok (prologue ++
        [.mov_imm .rax 1, .push (.reg .rax), .pop .rax, .test .rax .rax, .jz "label0",
          .jmp "label1",
          .label "label0",
          .mov_imm .rax 2, .push (.reg .rax), .pop .rax, .test .rax .rax, .jz "label2",
          .jmp "label1",
          .label "label1"] ++ exit_sequence) ∧
    Instr.jz "label2" ∈ (prologue ++
        [.mov_imm .rax 1, .push (.reg .rax), .pop .rax, .test .rax .rax, .jz "label0",
          .jmp "label1",
          .label "label0",
          .mov_imm .rax 2, .push (.reg .rax), .pop .rax, .test .rax .rax, .jz "label2",
          .jmp "label1",
          .label "label1"] ++ exit_sequence) ∧
    Instr.label "label2" ∉ (prologue ++
        [.mov_imm .rax 1, .push (.reg .rax), .pop .rax, .test .rax .rax, .jz "label0",
          .jmp "label1",
          .label "label0",
          .mov_imm .rax 2, .push (.reg .rax), .pop .rax, .test .rax .rax, .jz "label2",
          .jmp "label1",
          .label "label1"] ++ exit_sequence) :=
  ⟨rfl, by decide, by decide⟩

/-! ### C31 -/

theorem exec_pop_rax_rbx (m : Machine) (l r : Int) (st : List Int) (hm : m.stack = l :: r :: st) :
    ∃ m1, m.exec [.pop .rax, .pop .rbx] = .running m1 ∧ m1.rax = l ∧ m1.rbx = r ∧
      m1.stack = st := by
  obtain ⟨rax, rbx, rdx, rdi, rsi, zf, sf, of, stack⟩ := m
  simp only at hm
  subst hm
  exact ⟨_, rfl, rfl, rfl, rfl⟩

/-- C31: let `b` be `lhs - rhs`, `lhs / rhs` or `lhs % rhs` and let
`gen_bin_expr` succeed on it.  The output is extended by the code of `rhs`,
then the code of `lhs`, then the lines of the operator, which begin with
`pop rax`, `pop rbx`.  On a machine whose stack belongs to the generator
state, when `rhs` has the value `vr` and `lhs` the value `vl`: the code of
`rhs` pushes `vr`, the code of `lhs` pushes `vl` on top of it, the two pops
leave `vl` in `rax` and `vr` in `rbx`, and the whole code pushes `vl - vr`
for `-` (when that is a signed 64-bit value), the truncated quotient of `vl`
by `vr` for `/` and the remainder of `vl` by `vr` for `%` (when `vr` is not
0 and the quotient is a signed 64-bit value). -/
theorem gen_bin_expr_right_operand_first (b : NodeBinExpr) (lhs rhs : NodeExpr)
    (gen g' : Generator) (ty : DataType) (env : String → Int) (m : Machine) (vl vr : Int)
    (hb : b = .Sub lhs rhs ∨ b = .Div lhs rhs ∨ b = .Mod lhs rhs)
    (h : gen_bin_expr b gen = .ok (ty, g'))
    (henv : ∀ n, fits64 (env n)) (hs : stack_holds gen env m.stack)
    (hlen : m.stack.length + g'.output.length < 2 ^ 61)
    (hr : ref_eval neg64 env rhs = .value vr) (hl : ref_eval neg64 env lhs = .value vl) :
    ∃ c_r c_l,
      gen_expr rhs gen = .ok (.Int, pushed gen c_r) ∧
      gen_expr lhs (pushed gen c_r) = .ok (.Int, pushed (pushed gen c_r) c_l) ∧
      g'.output = gen.output ++ c_r ++ c_l ++ b.tail_code ∧
      b.tail_code.take 2 = [.pop .rax, .pop .rbx] ∧
      (∃ m1, m.exec c_r = .running m1 ∧ m1.stack = vr :: m.stack) ∧
      (∃ m2, m.exec (c_r ++ c_l) = .running m2 ∧ m2.stack = vl :: vr :: m.stack) ∧
      (∃ m3, m.exec (c_r ++ c_l ++ [.pop .rax, .pop .rbx]) = .running m3 ∧
        m3.rax = vl ∧ m3.rbx = vr ∧ m3.stack = m.stack) ∧
      (b = .Sub lhs rhs → fits64 (vl - vr) →
        ∃ m4, m.exec (c_r ++ c_l ++ b.tail_code) = .running m4 ∧
          m4.stack = (vl - vr) :: m.stack) ∧
      (b = .Div lhs rhs → vr ≠ 0 → fits64 (vl.tdiv vr) →
        ∃ m4, m.exec (c_r ++ c_l ++ b.tail_code) = .running m4 ∧
          m4.stack = vl.tdiv vr :: m.stack) ∧
      (b = .Mod lhs rhs → vr ≠ 0 → fits64 (vl.tdiv vr) →
        ∃ m4, m.exec (c_r ++ c_l ++ b.tail_code) = .running m4 ∧
          m4.stack = vl.tmod vr :: m.stack) := by
  obtain ⟨t1, t2, c1, c2, h1, h2, ha, _, hout⟩ := gen_bin_expr_code b gen g' ty h
  have hfs : b.first = rhs ∧ b.second = lhs ∧ t1 = .Int ∧ t2 = .Int ∧
      b.tail_code.take 2 = [.pop .rax, .pop .rbx] := by
    rcases hb with rfl | rfl | rfl <;>
      simpa [NodeBinExpr.first, NodeBinExpr.second, NodeBinExpr.tail_code,
        NodeBinExpr.accepts] using ha
  obtain ⟨hf, hsnd, ht1, ht2, htail⟩ := hfs
  rw [hf, ht1] at h1
  rw [hsnd, ht2] at h2
  have hlen2 : m.stack.length + (c1.length + c2.length + b.tail_code.length) < 2 ^ 61 := by
    rw [hout] at hlen
    simp only [List.length_append] at hlen
    omega
  have ih0 := gen_expr_correct rhs gen _ .Int c1 env m h1 rfl henv hs (by omega)
  have hc1 : 1 ≤ c1.length := ih0.2
  have ih1 := ih0.1
  rw [hr] at ih1
  obtain ⟨⟨m1, hm1, hst1⟩, hfit1⟩ := ih1
  have hvr : fits64 vr := hfit1 vr rfl
  have hs1 : stack_holds (pushed gen c1) env m1.stack := by
    rw [hst1]
    exact stack_holds_push hs vr c1 (by rw [← hs.1]; omega)
  have ih2 := (gen_expr_correct lhs (pushed gen c1) _ .Int c2 env m1 h2 rfl henv hs1
    (by rw [hst1, List.length_cons]; omega)).1
  rw [hl] at ih2
  obtain ⟨⟨m2, hm2, hst2⟩, hfit2⟩ := ih2
  have hvl : fits64 vl := hfit2 vl rfl
  rw [hst1] at hst2
  have h12 : m.exec (c1 ++ c2) = .running m2 := by
    rw [exec_append, hm1]
    exact hm2
  have hrun : ∀ code, m.exec (c1 ++ c2 ++ code) = m2.exec code := by
    intro code
    rw [exec_append, h12]
  have htc := tail_correct b m2 vr vl m.stack hst2 hvr hvl
  refine ⟨c1, c2, h1, h2, hout, htail, ⟨m1, hm1, hst1⟩, ⟨m2, h12, hst2⟩, ?_, ?_, ?_, ?_⟩
  · rw [hrun]
    exact exec_pop_rax_rbx m2 vl vr m.stack hst2
  · intro hb1 hfit
    rw [hrun]
    subst hb1
    have := htc.1
    simpa [NodeBinExpr.apply, checked, hfit, agrees] using this
  · intro hb1 h0 hfit
    rw [hrun]
    subst hb1
    have := htc.1
    have hne : ¬(vl = -(2 ^ 63) ∧ vr = -1) := by
      rintro ⟨rfl, rfl⟩
      exact absurd hfit (by decide)
    have hd : divided Int.tdiv vl vr = .value (vl.tdiv vr) := by
      unfold divided
      rw [if_neg h0, if_neg hne]
    rw [show (NodeBinExpr.Div lhs rhs).apply vr vl = divided Int.tdiv vl vr from rfl, hd] at this
    exact this
  · intro hb1 h0 hfit
    rw [hrun]
    subst hb1
    have := htc.1
    have hne : ¬(vl = -(2 ^ 63) ∧ vr = -1) := by
      rintro ⟨rfl, rfl⟩
      exact absurd hfit (by decide)
    have hd : divided Int.tmod vl vr = .value (vl.tmod vr) := by
      unfold divided
      rw [if_neg h0, if_neg hne]
    rw [show (NodeBinExpr.Mod lhs rhs).apply vr vl = divided Int.tmod vl vr from rfl, hd] at this
    exact this

/-- Witness of C31: in the code of `10 - 3`, `10 / 3` and `10 % 3` the
literal 3 is loaded first; the pops leave 10 in `rax` and 3 in `rbx`, and the
results are 7, 3 and 1. -/
theorem gen_bin_expr_right_operand_first_witness :
    (∃ m3, ({} : Machine).exec [.mov_imm .rax 3, .push (.reg .rax), .mov_imm .rax 10,
        .push (.reg .rax), .pop .rax, .pop .rbx] = .running m3 ∧
      m3.rax = 10 ∧ m3.rbx = 3 ∧ m3.stack = []) ∧
    (∃ m4, ({} : Machine).exec [.mov_imm .rax 3, .push (.reg .rax), .mov_imm .rax 10,
        .push (.reg .rax), .pop .rax, .pop .rbx, .sub .rax .rbx, .jo "overflow_error",
        .push (.reg .rax)] = .running m4 ∧ m4.stack = [7]) ∧
    (∃ m4, ({} : Machine).exec [.mov_imm .rax 3, .push (.reg .rax), .mov_imm .rax 10,
        .push (.reg .rax), .pop .rax, .pop .rbx, .cmp_imm .rbx 0, .je "divzero_error", .cqo,
        .idiv .rbx, .push (.reg .rax)] = .running m4 ∧ m4.stack = [3]) ∧
    (∃ m4, ({} : Machine).exec [.mov_imm .rax 3, .push (.reg .rax), .mov_imm .rax 10,
        .push (.reg .rax), .pop .rax, .pop .rbx, .cmp_imm .rbx 0, .je "divzero_error", .cqo,
        .idiv .rbx, .push (.reg .rdx)] = .running m4 ∧ m4.stack = [1]) := by
  have hsub := gen_bin_expr_right_operand_first (.Sub (int_expr "10") (int_expr "3"))
    (int_expr "10") (int_expr "3") {} (pushed {} _) .Int (fun _ => 0) {} 10 3 (Or.inl rfl) rfl
    (fun _ => (by decide : fits64 0)) ⟨rfl, fun n v h => by cases h⟩ (by decide) rfl rfl
  have hdiv := gen_bin_expr_right_operand_first (.Div (int_expr "10") (int_expr "3"))
    (int_expr "10") (int_expr "3") {} (pushed {} _) .Int (fun _ => 0) {} 10 3
    (Or.inr (Or.inl rfl)) rfl
    (fun _ => (by decide : fits64 0)) ⟨rfl, fun n v h => by cases h⟩ (by decide) rfl rfl
  have hmod := gen_bin_expr_right_operand_first (.Mod (int_expr "10") (int_expr "3"))
    (int_expr "10") (int_expr "3") {} (pushed {} _) .Int (fun _ => 0) {} 10 3
    (Or.inr (Or.inr rfl)) rfl
    (fun _ => (by decide : fits64 0)) ⟨rfl, fun n v h => by cases h⟩ (by decide) rfl rfl
  have code_eq : ∀ (gen : Generator) (v : Int) (text : String) (c : List Instr),
      gen_expr (int_expr text) gen = .ok (.Int, pushed gen [.mov_imm .rax v, .push (.reg .rax)]) →
      gen_expr (int_expr text) gen = .ok (.Int, pushed gen c) →
      c = [.mov_imm .rax v, .push (.reg .rax)] := by
    intro gen v text c h1 h2
    rw [h1] at h2
    simp only [Except.ok.injEq, Prod.mk.injEq, true_and] at h2
    have := congrArg Generator.output h2
    simp only [pushed, List.append_cancel_left_eq] at this
    exact this.symm
  obtain ⟨c_r, c_l, h1, h2, -, -, -, -, h3, h4, -, -⟩ := hsub
  obtain ⟨d_r, d_l, k1, k2, -, -, -, -, -, -, k5, -⟩ := hdiv
  obtain ⟨e_r, e_l, l1, l2, -, -, -, -, -, -, -, l6⟩ := hmod
  have a1 := code_eq {} 3 "3" c_r rfl h1
  subst a1
  have a2 := code_eq (pushed {} [.mov_imm .rax 3, .push (.reg .rax)]) 10 "10" c_l rfl h2
  subst a2
  have b1 := code_eq {} 3 "3" d_r rfl k1
  subst b1
  have b2 := code_eq (pushed {} [.mov_imm .rax 3, .push (.reg .rax)]) 10 "10" d_l rfl k2
  subst b2
  have c1 := code_eq {} 3 "3" e_r rfl l1
  subst c1
  have c2 := code_eq (pushed {} [.mov_imm .rax 3, .push (.reg .rax)]) 10 "10" e_l rfl l2
  subst c2
  exact ⟨h3, h4 rfl (by decide), k5 rfl (by decide) (by decide), l6 rfl (by decide) (by decide)⟩

/-! ### C32 -/

theorem last_entry_append_single (frame : List ScopeEntry) (en : ScopeEntry) (n : String) :
    last_entry (frame ++ [en]) n = if en.name = n then some en else last_entry frame n := by
  unfold last_entry
  rw [List.reverse_append, List.reverse_singleton, List.singleton_append, List.find?_cons]
  by_cases h : en.name = n <;> simp [h]

theorem last_entry_none_iff (frame : List ScopeEntry) (n : String) :
    last_entry frame n = none ↔ ∀ en ∈ frame, en.name ≠ n := by
  unfold last_entry
  simp [List.find?_eq_none]

/-- Replaying a log oldest entry first leaves each name with the old binding
of its last entry, and every name without an entry as it was. -/
theorem foldl_restore_entry (G : String → Option Var) (n : String) :
    ∀ frame : List ScopeEntry, frame.foldl restore_entry G n =
      match last_entry frame n with
      | some en => en.old_binding
      | none => G n := by
  intro frame
  induction frame using List.reverseRecOn with
  | nil => rfl
  | append_singleton frame en ih =>
    rw [List.foldl_append, List.foldl_cons, List.foldl_nil, last_entry_append_single]
    by_cases h : en.name = n
    · rw [if_pos h, ← h]
      exact restore_entry_same _ en
    · rw [if_neg h, restore_entry_other _ en n h]
      exact ih

/-- C32: `exit_scope` on a generator whose frames are `frame :: rest` pops
`frame` and replays it from the oldest to the newest entry.  After it every
name with an entry in the log is bound to the old binding of its last entry,
unbound when that entry has none; every name without an entry keeps its
binding; the frame stack is `rest`, one shorter; nothing else changes. -/
theorem exit_scope_replays_oldest_first (gen : Generator) (frame : List ScopeEntry)
    (rest : List (List ScopeEntry)) (hsc : gen.scopes = frame :: rest) :
    ∃ g', gen.exit_scope = .ok g' ∧
      g'.globals = frame.foldl restore_entry gen.globals ∧
      (∀ n en, last_entry frame n = some en → g'.globals n = en.old_binding) ∧
      (∀ n, (∀ en ∈ frame, en.name ≠ n) → g'.globals n = gen.globals n) ∧
      (∀ n, last_entry frame n = none ↔ ∀ en ∈ frame, en.name ≠ n) ∧
      (∀ (older : List ScopeEntry) (en : ScopeEntry) (n : String),
        last_entry (older ++ [en]) n = if en.name = n then some en else last_entry older n) ∧
      g'.scopes = rest ∧ g'.scopes.length + 1 = gen.scopes.length ∧
      g'.output = gen.output ∧ g'.stack_size = gen.stack_size ∧
      g'.label_count = gen.label_count ∧ g'.is_terminated = gen.is_terminated := by
  refine ⟨{ gen with globals := frame.foldl restore_entry gen.globals, scopes := rest },
    by rw [exit_scope, hsc], rfl, ?_, ?_, last_entry_none_iff frame, last_entry_append_single,
    rfl, by rw [hsc]; rfl, rfl, rfl, rfl, rfl⟩
  · intro n en h
    show frame.foldl restore_entry gen.globals n = _
    rw [foldl_restore_entry, h]
  · intro n h
    show frame.foldl restore_entry gen.globals n = _
    rw [foldl_restore_entry, (last_entry_none_iff frame n).mpr h]

/-- Witness of C32.  In `let int x = 1; { x = 2; x = 3; }` the frame of the
block logs the binding of `x` to slot 1 and then the binding to slot 2; the
replay ends with the second, so after the block `x` is bound to slot 2, the
slot of the literal 2, and `print x` would load `[rsp + 8]` under a stack of
three.  `{ let int x = 1; x = 2; } print x;` generates: the entry of the
declaration unbinds `x`, the entry of the assignment binds it again to
slot 1. -/
theorem exit_scope_replays_oldest_first_witness :
    (∃ g g', gen_scope_stmts [assign_int "x" "2", assign_int "x" "3"]
        (Generator.enter_scope
          { output := [.mov_imm .rax 1, .push (.reg .rax)], stack_size := 1,
            globals := globals_set (fun _ => none) "x" ⟨1, .Int, true⟩,
            scopes := [[⟨"x", none⟩]] }) = .ok g ∧
      g.scopes = [[⟨"x", some ⟨1, .Int, true⟩⟩, ⟨"x", some ⟨2, .Int, true⟩⟩], [⟨"x", none⟩]] ∧
      g.globals "x" = some ⟨3, .Int, true⟩ ∧
      g.exit_scope = .ok g' ∧ g'.globals "x" = some ⟨2, .Int, true⟩ ∧
      g'.scopes = [[⟨"x", none⟩]] ∧ g'.stack_size = 3 ∧
      g'.output = [.mov_imm .rax 1, .push (.reg .rax), .mov_imm .rax 2, .push (.reg .rax),
        .mov_imm .rax 3, .push (.reg .rax)]) ∧
    gen_prog ⟨[let_int "x" "1", .Scope (.mk [assign_int "x" "2", assign_int "x" "3"]),
        print_ident "x"]⟩ =
      .ok (prologue ++ [.mov_imm .rax 1, .push (.reg .rax), .mov_imm .rax 2, .push (.reg .rax),
        .mov_imm .rax 3, .push (.reg .rax), .push (.qword_rsp 8), .pop .rdi,
        .call "print_int"] ++ exit_sequence) ∧
    gen_prog ⟨[.Scope (.mk [let_int "x" "1", assign_int "x" "2"]), print_ident "x"]⟩ =
      .ok (prologue ++ [.mov_imm .rax 1, .push (.reg .rax), .mov_imm .rax 2, .push (.reg .rax),
        .push (.qword_rsp 8), .pop .rdi, .call "print_int"] ++ exit_sequence) := by
  refine ⟨?_, rfl, rfl⟩
  obtain ⟨g', h1, -, h3, -⟩ := exit_scope_replays_oldest_first
    { output := [.mov_imm .rax 1, .push (.reg .rax), .mov_imm .rax 2, .push (.reg .rax),
        .mov_imm .rax 3, .push (.reg .rax)], stack_size := 3,
      globals := globals_set (globals_set (globals_set (fun _ => none) "x" ⟨1, .Int, true⟩)
        "x" ⟨2, .Int, true⟩) "x" ⟨3, .Int, true⟩,
      scopes := [[⟨"x", some ⟨1, .Int, true⟩⟩, ⟨"x", some ⟨2, .Int, true⟩⟩], [⟨"x", none⟩]] }
    [⟨"x", some ⟨1, .Int, true⟩⟩, ⟨"x", some ⟨2, .Int, true⟩⟩] [[⟨"x", none⟩]] rfl
  have h4 := h3 "x" ⟨"x", some ⟨2, .Int, true⟩⟩ (by decide)
  exact ⟨_, g', rfl, rfl, rfl, h1, h4, by cases h1; rfl, by cases h1; rfl, by cases h1; rfl⟩

/-! ### C33 -/

theorem is_declared_iff (gen : Generator) (n : String) :
    gen.is_declared n = true ↔
      ∃ frame rest, gen.scopes = frame :: rest ∧ ∃ en ∈ frame, en.name = n := by
  unfold is_declared
  cases hsc : gen.scopes with
  | nil => simp
  | cons frame rest => simp

theorem is_declared_update_var (gen : Generator) (n : String) (old_var new_var : Var)
    (h : gen.scopes ≠ []) : (gen.update_var n old_var new_var).is_declared n = true := by
  unfold is_declared update_var
  cases hsc : gen.scopes with
  | nil => exact absurd hsc h
  | cons frame rest => simp

/-- C33: `is_declared n` holds exactly when there is a frame and the log of
the innermost frame has an entry named `n`.  Both `declare_var` and, when a
frame exists, `update_var` log such an entry.  So after a successful
assignment `n = e;` in a generator with a frame, `is_declared n` holds and
every `let` and every `const` of `n` is rejected with the redeclaration
diagnostic, whether or not `n` was declared in that frame. -/
theorem is_declared_counts_assignments (gen : Generator) (n : String) :
    (gen.is_declared n = true ↔
      ∃ frame rest, gen.scopes = frame :: rest ∧ ∃ en ∈ frame, en.name = n) ∧
    (∀ var, (gen.declare_var n var).is_declared n = true) ∧
    (∀ old_var new_var, gen.scopes ≠ [] →
      (gen.update_var n old_var new_var).is_declared n = true) ∧
    (∀ ident e g', ident.val = some n → gen.scopes ≠ [] →
      gen_stmt (.Assign ident e) gen = .ok g' →
      g'.is_declared n = true ∧
      (∀ T init, gen_stmt (.Let ident T init) g' = .error .variable_already_declared) ∧
      (∀ T init, gen_stmt (.Const ident T init) g' = .error .variable_already_declared)) := by
  refine ⟨is_declared_iff gen n, is_declared_declare_var gen n, is_declared_update_var gen n,
    ?_⟩
  intro ident e g' hn hsc h
  have hd : g'.is_declared n = true := by
    rw [gen_stmt, hn] at h
    simp only at h
    split at h
    · cases h
    · rename_i v hv
      split_ifs at h with hm
      split at h
      · cases h
      · rename_i ty g1 he
        split_ifs at h with hty
        simp only [Except.ok.injEq] at h
        obtain ⟨code, hc⟩ := gen_expr_frame e gen g1 ty he
        rw [← h]
        exact is_declared_update_var g1 n _ _ (by rw [hc]; exact hsc)
  refine ⟨hd, fun T init => ?_, fun T init => ?_⟩
  · rw [gen_stmt, hn]
    simp only [hd, if_true]
  · rw [gen_stmt, hn]
    simp only [hd, if_true]

/-- Witness of C33: in `let int x = 1; { x = 2; let int x = 3; }` the block
only assigns `x` before the `let`; the assignment logs an entry of `x` in the
frame of the block, and the `let` is rejected.  Without the assignment the
program generates. -/
theorem is_declared_counts_assignments_witness :
    (∃ g', gen_stmt (assign_int "x" "2")
        (Generator.enter_scope
          { output := [.mov_imm .rax 1, .push (.reg .rax)], stack_size := 1,
            globals := globals_set (fun _ => none) "x" ⟨1, .Int, true⟩,
            scopes := [[⟨"x", none⟩]] }) = .ok g' ∧
      g'.scopes = [[⟨"x", some ⟨1, .Int, true⟩⟩], [⟨"x", none⟩]] ∧
      g'.is_declared "x" = true ∧
      gen_stmt (let_int "x" "3") g' = .error .variable_already_declared) ∧
    gen_prog ⟨[let_int "x" "1", .Scope (.mk [assign_int "x" "2", let_int "x" "3"])]⟩ =
      .error .variable_already_declared ∧
    gen_prog ⟨[let_int "x" "1", .Scope (.mk [let_int "x" "3"])]⟩ =
      .ok (prologue ++ [.mov_imm .rax 1, .push (.reg .rax), .mov_imm .rax 3,
        .push (.reg .rax)] ++ exit_sequence) := by
  refine ⟨⟨_, rfl, rfl, ?_⟩, rfl, rfl⟩
  have h := (is_declared_counts_assignments
    (Generator.enter_scope
      { output := [.mov_imm .rax 1, .push (.reg .rax)], stack_size := 1,
        globals := globals_set (fun _ => none) "x" ⟨1, .Int, true⟩,
        scopes := [[⟨"x", none⟩]] }) "x").2.2.2 (ident_token "x") (int_expr "2") _ rfl
    (by simp [enter_scope]) rfl
  exact ⟨h.1, h.2.1 .Int (some (int_expr "3"))⟩

/-! ### C34 -/

theorem ends_terminated_of_eq {gen g' : Generator}
    (h : g'.is_terminated = gen.is_terminated) : ends_terminated false gen g' :=
  ⟨fun h1 => by rw [h]; exact h1, fun h2 => by cases h2⟩

theorem ends_terminated_trans {f1 f2 : Bool} {g1 g2 g3 : Generator}
    (h1 : ends_terminated f1 g1 g2) (h2 : ends_terminated f2 g2 g3) :
    ends_terminated (f1 || f2) g1 g3 := by
  refine ⟨fun h => h2.1 (h1.1 h), fun h => ?_⟩
  cases f1 with
  | true => exact h2.1 (h1.2 rfl)
  | false => exact h2.2 (by simpa using h)

theorem gen_expr_is_terminated {e : NodeExpr} {gen g1 : Generator} {ty : DataType}
    (h : gen_expr e gen = .ok (ty, g1)) : g1.is_terminated = gen.is_terminated := by
  obtain ⟨c, hc⟩ := gen_expr_frame e gen g1 ty h
  rw [hc]; rfl

mutual
theorem gen_stmt_terminated : ∀ (s : NodeStmt) (gen g' : Generator),
    gen_stmt s gen = .ok g' → ends_terminated s.has_exit gen g'
  | .Exit expr, gen, g', h => by
    rw [gen_stmt] at h
    split at h
    · cases h
    · rename_i ty g1 h1
      simp only [Except.ok.injEq] at h
      rw [← h]
      exact ⟨fun _ => rfl, fun _ => rfl⟩
  | .Print expr, gen, g', h => by
    rw [gen_stmt] at h
    split at h
    · cases h
    · rename_i ty g1 h1
      rw [NodeStmt.has_exit]
      cases ty <;> simp only [Except.ok.injEq] at h <;> rw [← h] <;>
        exact ends_terminated_of_eq (gen_expr_is_terminated h1 : g1.is_terminated = gen.is_terminated)
  | .If expr scope cont, gen, g', h => by
    rw [gen_stmt] at h
    split at h
    · cases h
    · rename_i ty g1 h1
      simp only [] at h
      split at h
      · cases h
      · rename_i g2 h2
        have k1 := gen_expr_is_terminated h1
        have k2 := gen_scope_terminated scope _ g2 h2
        have k3 := gen_stmt_if_cont_terminated cont _ g2 g' h
        rw [NodeStmt.has_exit]
        have k0 : ends_terminated false gen
            (((g1.pop .rax).create_label.2.emit (.test .rax .rax)).emit
              (.jz (g1.pop .rax).create_label.1)) := ends_terminated_of_eq k1
        simpa using ends_terminated_trans k0 (ends_terminated_trans k2 k3)
  | .Const ident dtype expr, gen, g', h => by
    rw [gen_stmt] at h
    split at h
    · cases h
    · split at h
      · cases h
      · split at h
        · cases h
        · rename_i ty g1 h1
          split at h
          · cases h
          · simp only [Except.ok.injEq] at h
            rw [← h, NodeStmt.has_exit]
            exact ends_terminated_of_eq (gen_expr_is_terminated h1 : g1.is_terminated = gen.is_terminated)
  | .Let ident dtype expr, gen, g', h => by
    rw [gen_stmt] at h
    split at h
    · cases h
    · split at h
      · cases h
      · split at h
        · simp only [Except.ok.injEq] at h
          rw [← h, NodeStmt.has_exit]
          exact ends_terminated_of_eq rfl
        · split at h
          · cases h
          · rename_i ty g1 h1
            split at h
            · cases h
            · simp only [Except.ok.injEq] at h
              rw [← h, NodeStmt.has_exit]
              exact ends_terminated_of_eq (gen_expr_is_terminated h1 : g1.is_terminated = gen.is_terminated)
  | .Assign ident expr, gen, g', h => by
    rw [gen_stmt] at h
    split at h
    · cases h
    · split at h
      · cases h
      · split at h
        · cases h
        · split at h
          · cases h
          · rename_i ty g1 h1
            split at h
            · cases h
            · simp only [Except.ok.injEq] at h
              rw [← h, NodeStmt.has_exit]
              exact ends_terminated_of_eq (gen_expr_is_terminated h1 : g1.is_terminated = gen.is_terminated)
  | .Scope scope, gen, g', h => by
    rw [gen_stmt] at h
    rw [NodeStmt.has_exit]
    exact gen_scope_terminated scope gen g' h
theorem gen_stmt_if_cont_terminated : ∀ (c : Option NodeStmtIfCont) (label : String)
    (gen g' : Generator), gen_stmt_if_cont c label gen = .ok g' →
    ends_terminated (NodeStmtIfCont.has_exit_opt c) gen g'
  | some cont, label, gen, g', h => by
    rw [gen_stmt_if_cont] at h
    rw [NodeStmtIfCont.has_exit_opt]
    split at h
    · cases h
    · rename_i g1 h1
      simp only [Except.ok.injEq] at h
      have k1 := gen_if_cont_terminated cont _ _ g1 h1
      rw [← h]
      exact ⟨fun h0 => k1.1 h0, fun h0 => k1.2 h0⟩
  | none, label, gen, g', h => by
    rw [gen_stmt_if_cont] at h
    simp only [Except.ok.injEq] at h
    rw [← h]
    exact ends_terminated_of_eq rfl
theorem gen_scope_terminated : ∀ (sc : NodeStmtScope) (gen g' : Generator),
    gen_scope sc gen = .ok g' → ends_terminated sc.has_exit gen g'
  | .mk stmts, gen, g', h => by
    rw [gen_scope] at h
    rw [NodeStmtScope.has_exit]
    split at h
    · cases h
    · rename_i g1 h1
      have k1 := gen_scope_stmts_terminated stmts _ g1 h1
      unfold exit_scope at h
      split at h
      · cases h
      · simp only [Except.ok.injEq] at h
        rw [← h]
        exact ⟨fun h0 => k1.1 h0, fun h0 => k1.2 h0⟩
theorem gen_scope_stmts_terminated : ∀ (l : List NodeStmt) (gen g' : Generator),
    gen_scope_stmts l gen = .ok g' → ends_terminated (NodeStmt.has_exit_list l) gen g'
  | [], gen, g', h => by
    rw [gen_scope_stmts] at h
    simp only [Except.ok.injEq] at h
    rw [← h]
    exact ends_terminated_of_eq rfl
  | s :: rest, gen, g', h => by
    rw [gen_scope_stmts] at h
    rw [NodeStmt.has_exit_list]
    split at h
    · cases h
    · rename_i g1 h1
      exact ends_terminated_trans (gen_stmt_terminated s gen g1 h1)
        (gen_scope_stmts_terminated rest g1 g' h)
theorem gen_if_cont_terminated : ∀ (c : NodeStmtIfCont) (end_label : String)
    (gen g' : Generator), gen_if_cont c end_label gen = .ok g' →
    ends_terminated c.has_exit gen g'
  | .Elif expr scope cont, end_label, gen, g', h => by
    rw [gen_if_cont] at h
    rw [NodeStmtIfCont.has_exit]
    split at h
    · cases h
    · rename_i ty g1 h1
      simp only [] at h
      split at h
      · cases h
      · rename_i g2 h2
        have k1 := gen_expr_is_terminated h1
        have k2 := gen_scope_terminated scope _ g2 h2
        have k3 := gen_elif_cont_terminated cont _ _ _ g' h
        have k0 : ends_terminated false gen
            (((g1.pop .rax).create_label.2.emit (.test .rax .rax)).emit
              (.jz (g1.pop .rax).create_label.1)) := ends_terminated_of_eq k1
        have k4 : ends_terminated scope.has_exit
            (((g1.pop .rax).create_label.2.emit (.test .rax .rax)).emit
              (.jz (g1.pop .rax).create_label.1)) (g2.emit (.jmp end_label)) :=
          ⟨fun h0 => k2.1 h0, fun h0 => k2.2 h0⟩
        simpa using ends_terminated_trans k0 (ends_terminated_trans k4 k3)
  | .Else scope, end_label, gen, g', h => by
    rw [gen_if_cont] at h
    rw [NodeStmtIfCont.has_exit]
    exact gen_scope_terminated scope gen g' h
theorem gen_elif_cont_terminated : ∀ (c : Option NodeStmtIfCont) (label end_label : String)
    (gen g' : Generator), gen_elif_cont c label end_label gen = .ok g' →
    ends_terminated (NodeStmtIfCont.has_exit_opt c) gen g'
  | some cont, label, end_label, gen, g', h => by
    rw [gen_elif_cont] at h
    rw [NodeStmtIfCont.has_exit_opt]
    have k := gen_if_cont_terminated cont _ _ g' h
    exact ⟨fun h0 => k.1 h0, fun h0 => k.2 h0⟩
  | none, label, end_label, gen, g', h => by
    rw [gen_elif_cont] at h
    simp only [Except.ok.injEq] at h
    rw [← h]
    exact ends_terminated_of_eq rfl
end

theorem has_exit_list_append (P Q : List NodeStmt) :
    NodeStmt.has_exit_list (P ++ Q) = (NodeStmt.has_exit_list P || NodeStmt.has_exit_list Q) := by
  induction P with
  | nil => simp [NodeStmt.has_exit_list]
  | cons s P ih => simp [NodeStmt.has_exit_list, ih, Bool.or_assoc]

/-- After a top-level statement that contains an `exit`, the loop of
`gen_prog` generates none of the statements that follow: it returns the state
reached right after that statement, through the early `return`. -/
theorem gen_prog_loop_after_nested_exit (P Q : List NodeStmt) (s : NodeStmt) (gen : Generator)
    (hs : s.has_exit = true) (hQ : Q ≠ []) :
    gen_prog_loop (P ++ [s] ++ Q) gen =
      match gen_prog_loop (P ++ [s]) gen with
      | .error err => .error err
      | .ok (_, g) => .ok (true, g) := by
  rw [gen_prog_loop_append]
  cases h : gen_prog_loop (P ++ [s]) gen with
  | error err => rfl
  | ok r =>
    obtain ⟨b, g⟩ := r
    cases b with
    | true => rfl
    | false =>
      have k := gen_scope_stmts_terminated _ gen g (gen_prog_loop_eq_gen_scope_stmts _ gen g h)
      have ht : g.is_terminated = true :=
        k.2 (by rw [has_exit_list_append]; simp [NodeStmt.has_exit_list, hs])
      obtain ⟨q, Q, rfl⟩ := List.exists_cons_of_ne_nil hQ
      simp only [gen_prog_loop, ht, if_true]

/-- C34, the input on which the code departs from the claim: the program
`if (false) { exit 1; }` consists of one top-level statement with a nested
`exit`.  Generating it sets the terminated flag, but the loop of `gen_prog`
tests the flag only before a statement; no statement follows, the loop ends,
and `gen_exit` runs once more: the output ends with the label of the `if`
followed by an implicit exit sequence.  With a statement after the `if`, as
in `if (false) { exit 1; } print 5;`, the output ends with the label and has
no call of `print_int`; inside a block the statements after an `exit` are
still generated. -/
theorem nested_exit_in_last_statement_gets_implicit_exit :
    gen_prog ⟨[.If (bool_expr "false") (.mk [.Exit (int_expr "1")]) none]⟩ =
      .ok (prologue ++
        [.mov_imm .rax 0, .push (.reg .rax), .pop .rax, .test .rax .rax, .jz "label0",
          .mov_imm .rax 1, .push (.reg .rax)] ++ exit_sequence ++ [.label "label0"] ++
        exit_sequence) ∧
    (∃ g, gen_prog_loop [.If (bool_expr "false") (.mk [.Exit (int_expr "1")]) none]
        { output := prologue } = .ok (false, g) ∧ g.is_terminated = true ∧
      g.output = prologue ++
        [.mov_imm .rax 0, .push (.reg .rax), .pop .rax, .test .rax .rax, .jz "label0",
          .mov_imm .rax 1, .push (.reg .rax)] ++ exit_sequence ++ [.label "label0"]) ∧
    (NodeStmt.If (bool_expr "false") (.mk [.Exit (int_expr "1")]) none).has_exit = true ∧
    gen_prog ⟨[.If (bool_expr "false") (.mk [.Exit (int_expr "1")]) none,
        .Print (int_expr "5")]⟩ =
      .ok (prologue ++
        [.mov_imm .rax 0, .push (.reg .rax), .pop .rax, .test .rax .rax, .jz "label0",
          .mov_imm .rax 1, .push (.reg .rax)] ++ exit_sequence ++ [.label "label0"]) ∧
    Instr.call "print_int" ∉ (prologue ++
        [.mov_imm .rax 0, .push (.reg .rax), .pop .rax, .test .rax .rax, .jz "label0",
          .mov_imm .rax 1, .push (.reg .rax)] ++ exit_sequence ++ [.label "label0"]) ∧
    gen_prog ⟨[.Scope (.mk [.Exit (int_expr "1"), .Print (int_expr "5")]),
        .Print (int_expr "6")]⟩ =
      .ok (prologue ++ [.mov_imm .rax 1, .push (.reg .rax)] ++ exit_sequence ++
        [.mov_imm .rax 5, .push (.reg .rax), .pop .rdi, .call "print_int"]) :=
  ⟨rfl, ⟨_, rfl, rfl, rfl⟩, rfl, rfl, by decide, rfl⟩

/-! ### C35 -/

theorem parse_term_unary_of_term_token (tokens : List Token) (fuel : Nat) (index : Nat)
    (u t : Token) (hu : tokens[index]? = some u) (hut : u.type = .sub ∨ u.type = .not_)
    (ht : tokens[index + 1]? = some t) (htt : is_term_token t) :
    parse_term tokens (fuel + 2) true index =
      .ok (some (.Unary (unary_op u.type) (if t.type = .ident then .Ident t else .Lit t)),
        index + 2) := by
  have h3 := parse_term_of_term_token tokens fuel false (index + 1) t ht htt
  rcases u with ⟨ty, v⟩
  simp only at hut
  rcases hut with rfl | rfl <;>
    simp [parse_term, try_consume, peek, hu, unary_op] at h3 ⊢ <;> simp [h3]

theorem parse_term_rejects_unary (tokens : List Token) (fuel : Nat) (index : Nat)
    (u : Token) (hu : tokens[index]? = some u) (hut : u.type = .sub ∨ u.type = .not_) :
    parse_term tokens (fuel + 1) false index = .error .expected_term_but_got_minus := by
  rcases u with ⟨ty, v⟩
  simp only at hut
  rcases hut with rfl | rfl <;> simp [parse_term, try_consume, peek, hu]

/-- C35: the loop of `parse_expr` parses the right operand of an operator
with unary operators not allowed.  With an operator at `index` that the loop
takes: if the next token is `-` or `!`, the loop is fatal (`Expected term but
got minus`); if the next tokens are `( - t )` or `( ! t )` for a literal or
identifier `t`, followed by a token that ends the expression, the loop
returns the binary node whose right operand is the `Paren` term holding the
`Unary` term.  At the start of an expression, `- t1 op t2` (or `! t1 op t2`)
followed by a token that is no operator parses to the binary node of `op`
whose left operand is the `Unary` term of `t1` and whose right operand is
`t2`. -/
theorem parse_expr_right_operand_no_unary (tokens : List Token) (index : Nat) :
    (∀ op u, tokens[index]? = some op → tokens[index + 1]? = some u →
      (u.type = .sub ∨ u.type = .not_) →
      ∀ fuel min_prec lhs, min_prec ≤ get_precedence op.type →
        parse_expr_loop tokens (fuel + 3) min_prec lhs index =
          .error .expected_term_but_got_minus) ∧
    (∀ op u t nxt, tokens[index]? = some op → 0 ≤ get_precedence op.type →
      kind_at tokens (index + 1) = some .open_paren →
      tokens[index + 2]? = some u → (u.type = .sub ∨ u.type = .not_) →
      tokens[index + 3]? = some t → is_term_token t →
      kind_at tokens (index + 4) = some .close_paren →
      tokens[index + 5]? = some nxt →
      ∀ fuel min_prec lhs, min_prec ≤ get_precedence op.type →
        get_precedence nxt.type < min_prec →
        parse_expr_loop tokens (fuel + 6) min_prec lhs index =
          .ok (binary_node op.type lhs (.Term (.Paren (.Term (.Unary (unary_op u.type)
            (if t.type = .ident then .Ident t else .Lit t))))), index + 5)) ∧
    (∀ u t1 op t2 nxt, tokens[index]? = some u → (u.type = .sub ∨ u.type = .not_) →
      tokens[index + 1]? = some t1 → is_term_token t1 →
      tokens[index + 2]? = some op → 0 ≤ get_precedence op.type →
      tokens[index + 3]? = some t2 → is_term_token t2 →
      tokens[index + 4]? = some nxt → get_precedence nxt.type < 0 →
      ∀ fuel, parse_expr tokens (fuel + 4) 0 true index =
        .ok (some (binary_node op.type
          (.Term (.Unary (unary_op u.type) (if t1.type = .ident then .Ident t1 else .Lit t1)))
          (term_of_token t2)), index + 4)) := by
  refine ⟨?_, ?_, ?_⟩
  · intro op u hop hu hut fuel min_prec lhs hge
    have ht := parse_term_rejects_unary tokens fuel (index + 1) u hu hut
    rw [parse_expr_loop]
    simp only [peek, hop, if_neg (not_lt.mpr hge)]
    rw [parse_expr, ht]
  · intro op u t nxt hop hprec hp hu hut ht htt hc hn fuel min_prec lhs hge hlow
    obtain ⟨tp, htp⟩ := try_consume_of_kind hp
    obtain ⟨tc, htc⟩ := try_consume_of_kind hc
    obtain ⟨cp, hcp, hcpt⟩ := kind_at_eq hc
    obtain ⟨pp, hpp, hppt⟩ := kind_at_eq hp
    have hA := parse_term_unary_of_term_token tokens fuel (index + 2) u t hu hut ht htt
    have hB : parse_expr tokens (fuel + 3) 0 true (index + 2) =
        .ok (some (.Term (.Unary (unary_op u.type)
          (if t.type = .ident then .Ident t else .Lit t))), index + 4) := by
      rw [parse_expr, hA]
      simp only []
      rw [parse_expr_loop_stop tokens (fuel + 1) 0 _ (index + 4) cp hcp (by rw [hcpt]; decide)]
    have hC : parse_term tokens (fuel + 4) false (index + 1) =
        .ok (some (.Paren (.Term (.Unary (unary_op u.type)
          (if t.type = .ident then .Ident t else .Lit t)))), index + 5) := by
      rw [parse_term]
      rw [try_consume_of_not_kind (by rw [hp]; decide),
        try_consume_of_not_kind (by rw [hp]; decide),
        try_consume_of_not_kind (by rw [hp]; decide),
        try_consume_of_not_kind (by rw [hp]; decide),
        try_consume_of_not_kind (by rw [hp]; decide),
        try_consume_of_not_kind (by rw [hp]; decide)]
      simp only [htp, hB, htc]
    have hD : parse_expr tokens (fuel + 5) (get_precedence op.type + 1) false (index + 1) =
        .ok (some (.Term (.Paren (.Term (.Unary (unary_op u.type)
          (if t.type = .ident then .Ident t else .Lit t))))), index + 5) := by
      rw [parse_expr, hC]
      simp only []
      rw [parse_expr_loop_stop tokens (fuel + 3) _ _ (index + 5) nxt hn (by omega)]
    rw [parse_expr_loop_step tokens (fuel + 5) min_prec lhs _ index (index + 5) op hop hge hprec
      hD]
    exact parse_expr_loop_stop tokens (fuel + 4) min_prec _ (index + 5) nxt hn hlow
  · intro u t1 op t2 nxt hu hut ht1 htt1 hop hprec ht2 htt2 hn hlow fuel
    have hA := parse_term_unary_of_term_token tokens (fuel + 1) index u t1 hu hut ht1 htt1
    have hR : parse_expr tokens (fuel + 2) (get_precedence op.type + 1) false (index + 3) =
        .ok (some (term_of_token t2), index + 4) := by
      rw [parse_expr_of_term tokens fuel _ false (index + 3) t2 ht2 htt2,
        parse_expr_loop_stop tokens fuel _ _ (index + 4) nxt hn (by omega)]
    rw [parse_expr, hA]
    simp only []
    rw [parse_expr_loop_step tokens (fuel + 2) 0 _ _ (index + 2) (index + 4) op hop hprec hprec
      hR, parse_expr_loop_stop tokens (fuel + 1) 0 _ (index + 4) nxt hn hlow]

/-- Witness of C35: `1 + -2 ;` and `a && !b ;` are rejected, `1 + (-2) ;`
gives `1 + (Paren (-2))`, and `-1 + 2 ;` gives `(-1) + 2`. -/
theorem parse_expr_right_operand_no_unary_witness :
    (parse_expr_loop [⟨.int_lit, some "1"⟩, ⟨.plus, none⟩, ⟨.sub, none⟩, ⟨.int_lit, some "2"⟩,
        ⟨.semi, none⟩] 3 0 (int_expr "1") 1 = .error .expected_term_but_got_minus ∧
      parse_expr [⟨.int_lit, some "1"⟩, ⟨.plus, none⟩, ⟨.sub, none⟩, ⟨.int_lit, some "2"⟩,
        ⟨.semi, none⟩] 4 0 true 0 = .error .expected_term_but_got_minus) ∧
    (parse_expr_loop [⟨.ident, some "a"⟩, ⟨.and_, none⟩, ⟨.not_, none⟩, ⟨.ident, some "b"⟩,
        ⟨.semi, none⟩] 3 0 (.Term (.Ident ⟨.ident, some "a"⟩)) 1 =
          .error .expected_term_but_got_minus ∧
      parse_expr [⟨.ident, some "a"⟩, ⟨.and_, none⟩, ⟨.not_, none⟩, ⟨.ident, some "b"⟩,
        ⟨.semi, none⟩] 4 0 true 0 = .error .expected_term_but_got_minus) ∧
    (parse_expr_loop [⟨.int_lit, some "1"⟩, ⟨.plus, none⟩, ⟨.open_paren, none⟩, ⟨.sub, none⟩,
        ⟨.int_lit, some "2"⟩, ⟨.close_paren, none⟩, ⟨.semi, none⟩] 6 0 (int_expr "1") 1 =
          .ok (.BinExpr (.Add (int_expr "1")
            (.Term (.Paren (.Term (.Unary .Negate (.Lit ⟨.int_lit, some "2"⟩)))))), 6) ∧
      parse_expr [⟨.int_lit, some "1"⟩, ⟨.plus, none⟩, ⟨.open_paren, none⟩, ⟨.sub, none⟩,
        ⟨.int_lit, some "2"⟩, ⟨.close_paren, none⟩, ⟨.semi, none⟩] 7 0 true 0 =
          .ok (some (.BinExpr (.Add (int_expr "1")
            (.Term (.Paren (.Term (.Unary .Negate (.Lit ⟨.int_lit, some "2"⟩))))))), 6)) ∧
    parse_expr [⟨.sub, none⟩, ⟨.int_lit, some "1"⟩, ⟨.plus, none⟩, ⟨.int_lit, some "2"⟩,
        ⟨.semi, none⟩] 4 0 true 0 =
      .ok (some (.BinExpr (.Add (.Term (.Unary .Negate (.Lit ⟨.int_lit, some "1"⟩)))
        (int_expr "2"))), 4) :=
  ⟨⟨(parse_expr_right_operand_no_unary [⟨.int_lit, some "1"⟩, ⟨.plus, none⟩, ⟨.sub, none⟩,
        ⟨.int_lit, some "2"⟩, ⟨.semi, none⟩] 1).1 ⟨.plus, none⟩ ⟨.sub, none⟩ rfl rfl
        (Or.inl rfl) 0 0 (int_expr "1") (by decide), rfl⟩,
    ⟨(parse_expr_right_operand_no_unary [⟨.ident, some "a"⟩, ⟨.and_, none⟩, ⟨.not_, none⟩,
        ⟨.ident, some "b"⟩, ⟨.semi, none⟩] 1).1 ⟨.and_, none⟩ ⟨.not_, none⟩ rfl rfl
        (Or.inr rfl) 0 0 (.Term (.Ident ⟨.ident, some "a"⟩)) (by decide), rfl⟩,
    ⟨(parse_expr_right_operand_no_unary [⟨.int_lit, some "1"⟩, ⟨.plus, none⟩,
        ⟨.open_paren, none⟩, ⟨.sub, none⟩, ⟨.int_lit, some "2"⟩, ⟨.close_paren, none⟩,
        ⟨.semi, none⟩] 1).2.1 ⟨.plus, none⟩ ⟨.sub, none⟩ ⟨.int_lit, some "2"⟩ ⟨.semi, none⟩
        rfl (by decide) rfl rfl (Or.inl rfl) rfl (by decide) rfl rfl 0 0 (int_expr "1")
        (by decide) (by decide), rfl⟩,
    (parse_expr_right_operand_no_unary [⟨.sub, none⟩, ⟨.int_lit, some "1"⟩, ⟨.plus, none⟩,
        ⟨.int_lit, some "2"⟩, ⟨.semi, none⟩] 0).2.2 ⟨.sub, none⟩ ⟨.int_lit, some "1"⟩
        ⟨.plus, none⟩ ⟨.int_lit, some "2"⟩ ⟨.semi, none⟩ rfl (Or.inl rfl) rfl (by decide) rfl
        (by decide) rfl (by decide) rfl (by decide) 0⟩

/-! ### C36 -/

theorem stack_delta_sum (code : List Instr) :
    (code.map Instr.stack_delta).sum = (pushes code : Int) - pops code := by
  induction code with
  | nil => rfl
  | cons i rest ih =>
    have hp := pushes_append [i] rest
    have hq := pops_append [i] rest
    rw [List.singleton_append] at hp hq
    rw [List.map_cons, List.sum_cons, ih, hp, hq]
    cases i <;> simp [Instr.stack_delta, pushes, pops] <;> omega

theorem offsets_in_stack_append (c1 c2 : List Instr) : ∀ depth : Int,
    offsets_in_stack depth (c1 ++ c2) =
      (offsets_in_stack depth c1 &&
        offsets_in_stack (depth + pushes c1 - pops c1) c2) := by
  induction c1 with
  | nil => intro depth; simp [offsets_in_stack, pushes, pops]
  | cons i rest ih =>
    intro depth
    have hp := pushes_append [i] rest
    have hq := pops_append [i] rest
    rw [List.singleton_append] at hp hq
    rw [List.cons_append, offsets_in_stack, offsets_in_stack, ih, Bool.and_assoc]
    congr 2
    have : depth + i.stack_delta + (pushes rest : Int) - pops rest =
        depth + (pushes (i :: rest) : Int) - pops (i :: rest) := by
      rw [hp, hq]
      cases i <;> simp [Instr.stack_delta, pushes, pops] <;> omega
    rw [this]

theorem offsets_in_stack_no_ref : ∀ (code : List Instr) (depth : Int),
    (∀ i ∈ code, i.no_ref = true) → offsets_in_stack depth code = true
  | [], _, _ => rfl
  | i :: rest, depth, h => by
    rw [offsets_in_stack, offsets_in_stack_no_ref rest _ (fun j hj => h j (List.mem_cons_of_mem _ hj)),
      Bool.and_true]
    have hi := h i (List.mem_cons_self _ _)
    cases i with
    | push o => cases o with
      | reg r => rfl
      | qword_rsp k => simp [Instr.no_ref] at hi
    | _ => rfl

theorem tail_code_no_ref (b : NodeBinExpr) : ∀ i ∈ b.tail_code, i.no_ref = true := by
  cases b <;> simp only [NodeBinExpr.tail_code] <;> decide

theorem pushed_code_unique {gen : Generator} {c1 c2 : List Instr}
    (h : pushed gen c1 = pushed gen c2) : c1 = c2 := by
  have := congrArg Generator.output h
  simpa [pushed] using this

theorem size_t_offset_exact {s loc : Nat} (h1 : 1 ≤ loc) (h2 : loc ≤ s) (hs : s < 2 ^ 61) :
    size_t_mul (size_t_sub s loc) 8 = (s - loc) * 8 ∧
      (size_t_mul (size_t_sub s loc) 8) % 8 = 0 ∧
      (size_t_mul (size_t_sub s loc) 8) / 8 < s := by
  have e1 : size_t_sub s loc = s - loc := by
    unfold size_t_sub size_t_mod
    rw [Nat.mod_eq_of_lt (by omega : loc < 2 ^ 64)]
    have : s + 2 ^ 64 - loc = (s - loc) + 2 ^ 64 := by omega
    rw [this, Nat.add_mod_right, Nat.mod_eq_of_lt (by omega)]
  have e2 : size_t_mul (s - loc) 8 = (s - loc) * 8 := by
    unfold size_t_mul size_t_mod
    exact Nat.mod_eq_of_lt (by omega)
  rw [e1, e2]
  refine ⟨rfl, by omega, by omega⟩

theorem size_t_inc_exact {s : Nat} (hs : s + 1 < 2 ^ 61) : size_t_inc s = s + 1 := by
  unfold size_t_inc size_t_mod
  exact Nat.mod_eq_of_lt (by omega)


theorem one_up_code {e : NodeExpr} {gen : Generator} {ty : DataType} {code : List Instr}
    (h : gen_expr e gen = .ok (ty, pushed gen code)) : pushes code = pops code + 1 := by
  obtain ⟨c, hc, hu⟩ := gen_expr_one_up e gen _ ty h
  rw [pushed_code_unique hc]
  exact hu.1

theorem one_up_code_term {t : NodeTerm} {gen : Generator} {ty : DataType} {code : List Instr}
    (h : gen_term t gen = .ok (ty, pushed gen code)) : pushes code = pops code + 1 := by
  obtain ⟨c, hc, hu⟩ := gen_term_one_up t gen _ ty h
  rw [pushed_code_unique hc]
  exact hu.1

mutual
theorem gen_term_offsets : ∀ (t : NodeTerm) (gen g' : Generator) (ty : DataType),
    gen_term t gen = .ok (ty, g') → ∃ code, g' = pushed gen code ∧
      ((∀ name var, gen.globals name = some var →
          1 ≤ var.stack_loc ∧ var.stack_loc ≤ gen.stack_size) →
        gen.stack_size + pushes code < 2 ^ 61 →
        offsets_in_stack gen.stack_size code = true)
  | .Lit tok, gen, g', ty, h => by
    rw [gen_term] at h
    obtain ⟨v, _, hv⟩ := gen_lit_frame tok gen g' ty h
    refine ⟨_, hv, fun _ _ => offsets_in_stack_no_ref _ _ ?_⟩
    intro i hi
    simp only [List.mem_cons, List.mem_singleton, List.not_mem_nil, or_false] at hi
    rcases hi with rfl | rfl <;> rfl
  | .Ident ident, gen, g', ty, h => by
    rw [gen_term] at h
    split at h
    · cases h
    · split at h
      · cases h
      · rename_i name hname var hvar
        simp only [Except.ok.injEq, Prod.mk.injEq] at h
        refine ⟨[.push (.qword_rsp (size_t_mul (size_t_sub gen.stack_size var.stack_loc) 8))],
          by rw [← h.2]; simp [pushed, push], fun hP hb => ?_⟩
        have hp : pushes [Instr.push (.qword_rsp
            (size_t_mul (size_t_sub gen.stack_size var.stack_loc) 8))] = 1 := rfl
        rw [hp] at hb
        obtain ⟨h1, h2⟩ := hP _ var hvar
        obtain ⟨-, e2, e3⟩ := size_t_offset_exact h1 h2 (by omega : gen.stack_size < 2 ^ 61)
        simp only [offsets_in_stack, Instr.offset_in_stack, Bool.and_true, Bool.and_eq_true,
          decide_eq_true_eq]
        exact ⟨e2, by exact_mod_cast e3⟩
  | .Paren e, gen, g', ty, h => by
    rw [gen_term] at h
    exact gen_expr_offsets e gen g' ty h
  | .Unary .Negate operand, gen, g', ty, h => by
    rw [gen_term] at h
    split at h
    · cases h
    · rename_i dtype g1 h1
      obtain ⟨c1, hc1, ih⟩ := gen_term_offsets operand gen g1 dtype h1
      split at h
      · cases h
      · simp only [Except.ok.injEq, Prod.mk.injEq] at h
        refine ⟨c1 ++ [.pop .rax, .neg .rax, .push (.reg .rax)], ?_, fun hP hb => ?_⟩
        · rw [← h.2, hc1]
          simp [pushed, emit, push, pop, size_t_inc_dec_inc]
        · rw [pushes_append] at hb
          rw [offsets_in_stack_append, ih hP (by omega), Bool.true_and]
          exact offsets_in_stack_no_ref _ _ (by decide)
  | .Unary .Not operand, gen, g', ty, h => by
    rw [gen_term] at h
    split at h
    · cases h
    · rename_i dtype g1 h1
      obtain ⟨c1, hc1, ih⟩ := gen_term_offsets operand gen g1 dtype h1
      split at h
      · cases h
      · simp only [Except.ok.injEq, Prod.mk.injEq] at h
        refine ⟨c1 ++ [.pop .rax, .cmp_imm .rax 0, .set .e .al, .movzx .rax .al,
          .push (.reg .rax)], ?_, fun hP hb => ?_⟩
        · rw [← h.2, hc1]
          simp [pushed, emit, push, pop, size_t_inc_dec_inc]
        · rw [pushes_append] at hb
          rw [offsets_in_stack_append, ih hP (by omega), Bool.true_and]
          exact offsets_in_stack_no_ref _ _ (by decide)
termination_by t => sizeOf t
theorem gen_bin_expr_offsets : ∀ (b : NodeBinExpr) (gen g' : Generator) (ty : DataType),
    gen_bin_expr b gen = .ok (ty, g') → ∃ code, g' = pushed gen code ∧
      ((∀ name var, gen.globals name = some var →
          1 ≤ var.stack_loc ∧ var.stack_loc ≤ gen.stack_size) →
        gen.stack_size + pushes code < 2 ^ 61 →
        offsets_in_stack gen.stack_size code = true)
  | b, gen, g', ty, h => by
    rw [gen_bin_expr_eq] at h
    split at h
    · cases h
    · rename_i t1 g1 h1
      split at h
      · cases h
      · rename_i t2 g2 h2
        have hb1 : sizeOf b.first < sizeOf b := by cases b <;> simp [NodeBinExpr.first] <;> omega
        have hb2 : sizeOf b.second < sizeOf b := by
          cases b <;> simp [NodeBinExpr.second] <;> omega
        obtain ⟨c1, hc1, ih1⟩ := gen_expr_offsets b.first gen g1 t1 h1
        obtain ⟨c2, hc2, ih2⟩ := gen_expr_offsets b.second g1 g2 t2 h2
        split at h
        · simp only [Except.ok.injEq, Prod.mk.injEq] at h
          refine ⟨c1 ++ c2 ++ b.tail_code, ?_, fun hP hb => ?_⟩
          · rw [← h.2, hc2, hc1]
            simp [pushed, size_t_inc_dec_dec_inc_inc]
          · rw [hc1] at h1
            have hu1 := one_up_code h1
            rw [pushes_append, pushes_append] at hb
            have hs1 : g1.stack_size = gen.stack_size + 1 := by
              rw [hc1]
              exact size_t_inc_exact (by omega)
            have hP1 : ∀ name var, g1.globals name = some var →
                1 ≤ var.stack_loc ∧ var.stack_loc ≤ g1.stack_size := by
              intro name var hv
              rw [hc1] at hv
              have := hP name var hv
              omega
            have k2 := ih2 hP1 (by omega)
            rw [offsets_in_stack_append, offsets_in_stack_append, ih1 hP (by omega),
              Bool.true_and]
            have e1 : (gen.stack_size : Int) + pushes c1 - pops c1 = (g1.stack_size : Int) := by
              rw [hs1, hu1]
              push_cast
              omega
            rw [e1, k2, Bool.true_and]
            exact offsets_in_stack_no_ref _ _ (tail_code_no_ref b)
        · cases h
termination_by b => sizeOf b
theorem gen_expr_offsets : ∀ (e : NodeExpr) (gen g' : Generator) (ty : DataType),
    gen_expr e gen = .ok (ty, g') → ∃ code, g' = pushed gen code ∧
      ((∀ name var, gen.globals name = some var →
          1 ≤ var.stack_loc ∧ var.stack_loc ≤ gen.stack_size) →
        gen.stack_size + pushes code < 2 ^ 61 →
        offsets_in_stack gen.stack_size code = true)
  | .Term t, gen, g', ty, h => by
    rw [gen_expr] at h
    exact gen_term_offsets t gen g' ty h
  | .BinExpr b, gen, g', ty, h => by
    rw [gen_expr] at h
    exact gen_bin_expr_offsets b gen g' ty h
termination_by e => sizeOf e
end

theorem bindings_in_stack_mono {gen g' : Generator} (h : bindings_in_stack gen)
    (hg : g'.globals = gen.globals) (hsc : g'.scopes = gen.scopes)
    (hs : gen.stack_size ≤ g'.stack_size) : bindings_in_stack g' := by
  refine ⟨fun name var hv => ?_, fun frame hf entry he old ho => ?_⟩
  · rw [hg] at hv
    have := h.1 name var hv
    omega
  · rw [hsc] at hf
    have := h.2 frame hf entry he old ho
    omega

theorem bindings_in_stack_enter_scope {gen : Generator} (h : bindings_in_stack gen) :
    bindings_in_stack gen.enter_scope := by
  refine ⟨h.1, fun frame hf entry he old ho => ?_⟩
  simp only [enter_scope, List.mem_cons] at hf
  rcases hf with rfl | hf
  · cases he
  · exact h.2 frame hf entry he old ho

theorem foldl_restore_entry_in_stack (size : Nat) : ∀ (frame : List ScopeEntry)
    (G : String → Option Var),
    (∀ name var, G name = some var → 1 ≤ var.stack_loc ∧ var.stack_loc ≤ size) →
    (∀ entry ∈ frame, ∀ old, entry.old_binding = some old →
      1 ≤ old.stack_loc ∧ old.stack_loc ≤ size) →
    ∀ name var, frame.foldl restore_entry G name = some var →
      1 ≤ var.stack_loc ∧ var.stack_loc ≤ size
  | [], G, hG, _ => hG
  | en :: frame, G, hG, hf => by
    rw [List.foldl_cons]
    refine foldl_restore_entry_in_stack size frame _ ?_
      (fun entry he => hf entry (List.mem_cons_of_mem _ he))
    intro name var hv
    by_cases hn : en.name = name
    · subst hn
      rw [restore_entry_same] at hv
      exact hf en (List.mem_cons_self _ _) var hv
    · rw [restore_entry_other _ _ _ hn] at hv
      exact hG name var hv

theorem bindings_in_stack_exit_scope {gen g' : Generator} (h : bindings_in_stack gen)
    (he : gen.exit_scope = .ok g') : bindings_in_stack g' := by
  unfold exit_scope at he
  split at he
  · cases he
  · rename_i frame rest hsc
    simp only [Except.ok.injEq] at he
    rw [← he]
    refine ⟨?_, fun fr hf entry hen old ho => ?_⟩
    · exact foldl_restore_entry_in_stack gen.stack_size frame gen.globals h.1
        (fun entry hen old ho => h.2 frame (by rw [hsc]; exact List.mem_cons_self _ _)
          entry hen old ho)
    · exact h.2 fr (by rw [hsc]; exact List.mem_cons_of_mem _ hf) entry hen old ho

theorem bindings_in_stack_declare_var {gen : Generator} (h : bindings_in_stack gen)
    (hs : 1 ≤ gen.stack_size) (name : String) (dtype : DataType) (mut_ : Bool) :
    bindings_in_stack (gen.declare_var name ⟨gen.stack_size, dtype, mut_⟩) := by
  refine ⟨fun n var hv => ?_, fun frame hf entry he old ho => ?_⟩
  · simp only [declare_var, globals_set] at hv
    split_ifs at hv with hn
    · simp only [Option.some.injEq] at hv
      rw [← hv]
      exact ⟨hs, Nat.le_refl _⟩
    · exact h.1 n var hv
  · have hnew : ∀ old, gen.globals name = some old →
        1 ≤ old.stack_loc ∧ old.stack_loc ≤ gen.stack_size := fun old ho => h.1 name old ho
    simp only [declare_var] at hf ⊢
    cases hsc : gen.scopes with
    | nil =>
      rw [hsc] at hf
      simp only [List.mem_singleton] at hf
      subst hf
      simp only [List.mem_singleton] at he
      subst he
      exact hnew old ho
    | cons fr rest =>
      rw [hsc] at hf
      simp only [List.mem_cons] at hf
      rcases hf with rfl | hf
      · simp only [List.mem_append, List.mem_singleton] at he
        rcases he with he | rfl
        · exact h.2 fr (by rw [hsc]; exact List.mem_cons_self _ _) entry he old ho
        · exact hnew old ho
      · exact h.2 frame (by rw [hsc]; exact List.mem_cons_of_mem _ hf) entry he old ho

theorem bindings_in_stack_update_var {gen : Generator} (h : bindings_in_stack gen)
    (hs : 1 ≤ gen.stack_size) (name : String) (old_var : Var)
    (hold : 1 ≤ old_var.stack_loc ∧ old_var.stack_loc ≤ gen.stack_size)
    (dtype : DataType) (mut_ : Bool) :
    bindings_in_stack (gen.update_var name old_var ⟨gen.stack_size, dtype, mut_⟩) := by
  refine ⟨fun n var hv => ?_, fun frame hf entry he old ho => ?_⟩
  · simp only [update_var, globals_set] at hv
    split_ifs at hv with hn
    · simp only [Option.some.injEq] at hv
      rw [← hv]
      exact ⟨hs, Nat.le_refl _⟩
    · exact h.1 n var hv
  · simp only [update_var] at hf ⊢
    cases hsc : gen.scopes with
    | nil =>
      rw [hsc] at hf
      cases hf
    | cons fr rest =>
      rw [hsc] at hf
      simp only [List.mem_cons] at hf
      rcases hf with rfl | hf
      · simp only [List.mem_append, List.mem_singleton] at he
        rcases he with he | rfl
        · exact h.2 fr (by rw [hsc]; exact List.mem_cons_self _ _) entry he old ho
        · simp only [Option.some.injEq] at ho
          rw [← ho]
          exact hold
      · exact h.2 frame (by rw [hsc]; exact List.mem_cons_of_mem _ hf) entry he old ho

theorem tracks_refl (gen : Generator) : tracks gen gen :=
  ⟨[], (List.append_nil _).symm, fun h _ => ⟨h, Nat.le_refl _, rfl, rfl⟩⟩

theorem tracks_trans {g1 g2 g3 : Generator} (h12 : tracks g1 g2) (h23 : tracks g2 g3) :
    tracks g1 g3 := by
  obtain ⟨c1, o1, k1⟩ := h12
  obtain ⟨c2, o2, k2⟩ := h23
  refine ⟨c1 ++ c2, by rw [o2, o1, List.append_assoc], fun hinv hb => ?_⟩
  rw [pushes_append] at hb
  obtain ⟨i2, a1, a2, a3⟩ := k1 hinv (by omega)
  obtain ⟨i3, b1, b2, b3⟩ := k2 i2 (by omega)
  refine ⟨i3, by omega, by rw [pushes_append, pops_append]; omega, ?_⟩
  rw [offsets_in_stack_append, a3, Bool.true_and]
  have e : (g1.stack_size : Int) + pushes c1 - pops c1 = (g2.stack_size : Int) := by omega
  rw [e]
  exact b3

/-- Lines that are neither `push` nor `pop`, written without any other change
of the stack size or the bindings. -/
theorem tracks_emits {gen g' : Generator} (code : List Instr)
    (ho : g'.output = gen.output ++ code) (hs : g'.stack_size = gen.stack_size)
    (hg : g'.globals = gen.globals) (hsc : g'.scopes = gen.scopes)
    (hp : pushes code = 0) (hq : pops code = 0) (hr : ∀ i ∈ code, i.no_ref = true) :
    tracks gen g' :=
  ⟨code, ho, fun hinv _ => ⟨bindings_in_stack_mono hinv hg hsc (by omega), by omega,
    by omega, offsets_in_stack_no_ref _ _ hr⟩⟩

/-- A change of the bindings alone. -/
theorem tracks_same_stack {gen g' : Generator} (ho : g'.output = gen.output)
    (hs : g'.stack_size = gen.stack_size)
    (hinv : bindings_in_stack gen → bindings_in_stack g') : tracks gen g' :=
  ⟨[], by rw [ho, List.append_nil], fun h _ => ⟨hinv h, by omega, by
    show g'.stack_size + 0 = gen.stack_size + 0
    omega, rfl⟩⟩

/-- Code that pushes one value, as that of an expression. -/
theorem tracks_pushed {gen : Generator} (code : List Instr)
    (hu : pushes code = pops code + 1)
    (hoff : (∀ name var, gen.globals name = some var →
        1 ≤ var.stack_loc ∧ var.stack_loc ≤ gen.stack_size) →
      gen.stack_size + pushes code < 2 ^ 61 → offsets_in_stack gen.stack_size code = true) :
    tracks gen (pushed gen code) ∧
    (gen.stack_size + pushes code < 2 ^ 61 → (pushed gen code).stack_size = gen.stack_size + 1) := by
  have hs : gen.stack_size + pushes code < 2 ^ 61 →
      (pushed gen code).stack_size = gen.stack_size + 1 :=
    fun hb => size_t_inc_exact (by omega)
  refine ⟨⟨code, rfl, fun hinv hb => ?_⟩, hs⟩
  have h1 := hs hb
  exact ⟨bindings_in_stack_mono hinv rfl rfl (by omega), by omega, by omega, hoff hinv.1 hb⟩

theorem tracks_expr {e : NodeExpr} {gen g1 : Generator} {ty : DataType}
    (h : gen_expr e gen = .ok (ty, g1)) :
    ∃ code, g1 = pushed gen code ∧ 1 ≤ pushes code ∧ tracks gen g1 ∧
      (gen.stack_size + pushes code < 2 ^ 61 → g1.stack_size = gen.stack_size + 1) := by
  obtain ⟨code, hc, hoff⟩ := gen_expr_offsets e gen g1 ty h
  subst hc
  have hu := one_up_code h
  obtain ⟨t1, t2⟩ := tracks_pushed code hu hoff
  exact ⟨code, rfl, by omega, t1, t2⟩

/-- An expression followed by lines with one `pop` and no `push`. -/
theorem tracks_expr_pop {e : NodeExpr} {gen g1 g' : Generator} {ty : DataType}
    (h : gen_expr e gen = .ok (ty, g1)) (tail : List Instr)
    (ho : g'.output = g1.output ++ tail) (hs : g'.stack_size = size_t_dec g1.stack_size)
    (hg : g'.globals = g1.globals) (hsc : g'.scopes = g1.scopes)
    (hp : pushes tail = 0) (hq : pops tail = 1) (hr : ∀ i ∈ tail, i.no_ref = true) :
    tracks gen g' := by
  obtain ⟨code, hc, hu, ⟨c1, o1, k1⟩, hs1⟩ := tracks_expr h
  have hcc : c1 = code := by
    rw [hc] at o1
    simpa [pushed] using o1.symm
  subst hcc
  refine ⟨c1 ++ tail, by rw [ho, o1, List.append_assoc], fun hinv hb => ?_⟩
  rw [pushes_append, hp] at hb
  obtain ⟨i2, a1, a2, a3⟩ := k1 hinv (by omega)
  have e1 := hs1 (by omega)
  have e2 : g'.stack_size = gen.stack_size := by
    rw [hs, e1]
    unfold size_t_dec size_t_mod
    have : gen.stack_size + 1 + 2 ^ 64 - 1 = gen.stack_size + 2 ^ 64 := by omega
    rw [this, Nat.add_mod_right, Nat.mod_eq_of_lt (by omega)]
  refine ⟨?_, by omega, by rw [pushes_append, pops_append]; omega, ?_⟩
  · refine bindings_in_stack_mono hinv (by rw [hg, hc]; rfl) (by rw [hsc, hc]; rfl) (by omega)
  · rw [offsets_in_stack_append, a3, Bool.true_and]
    exact offsets_in_stack_no_ref _ _ hr

/-- An expression followed by a change of the bindings that keeps them in
the stack, such as binding a name to the slot just pushed. -/
theorem tracks_expr_bind {e : NodeExpr} {gen g1 g' : Generator} {ty : DataType}
    (h : gen_expr e gen = .ok (ty, g1)) (ho : g'.output = g1.output)
    (hs : g'.stack_size = g1.stack_size)
    (hinv : bindings_in_stack gen → bindings_in_stack g1 → 1 ≤ g1.stack_size →
      g1.stack_size = gen.stack_size + 1 → bindings_in_stack g') :
    tracks gen g' := by
  obtain ⟨code, hc, hu, ⟨c1, o1, k1⟩, hs1⟩ := tracks_expr h
  have hcc : c1 = code := by
    rw [hc] at o1
    simpa [pushed] using o1.symm
  subst hcc
  refine ⟨c1, by rw [ho, o1], fun hi hb => ?_⟩
  obtain ⟨i2, a1, a2, a3⟩ := k1 hi hb
  have e1 := hs1 hb
  exact ⟨hinv hi i2 (by omega) e1, by omega, by omega, a3⟩

theorem tracks_let_none (gen : Generator) (name : String) (dtype : DataType) :
    tracks gen (((gen.emit (.mov_imm_flush_left .rax 0)).push (.reg .rax)).declare_var name
      ⟨((gen.emit (.mov_imm_flush_left .rax 0)).push (.reg .rax)).stack_size, dtype, true⟩) := by
  have e : (gen.emit (.mov_imm_flush_left .rax 0)).push (.reg .rax) =
      pushed gen [.mov_imm_flush_left .rax 0, .push (.reg .rax)] := emit_push_eq _ _ _
  rw [e]
  refine ⟨[.mov_imm_flush_left .rax 0, .push (.reg .rax)], rfl, fun hinv hb => ?_⟩
  have hp : pushes [Instr.mov_imm_flush_left .rax 0, .push (.reg .rax)] = 1 := rfl
  have hq : pops [Instr.mov_imm_flush_left .rax 0, .push (.reg .rax)] = 0 := rfl
  rw [hp] at hb
  have hs : (pushed gen [.mov_imm_flush_left .rax 0, .push (.reg .rax)]).stack_size =
      gen.stack_size + 1 := size_t_inc_exact (by omega)
  have i1 : bindings_in_stack (pushed gen [.mov_imm_flush_left .rax 0, .push (.reg .rax)]) :=
    bindings_in_stack_mono hinv rfl rfl (by omega)
  refine ⟨bindings_in_stack_declare_var i1 (by omega) name dtype true, ?_, ?_,
    offsets_in_stack_no_ref _ _ (by decide)⟩
  · show gen.stack_size ≤
      (pushed gen [.mov_imm_flush_left .rax 0, .push (.reg .rax)]).stack_size
    omega
  · show (pushed gen [.mov_imm_flush_left .rax 0, .push (.reg .rax)]).stack_size + _ = _
    omega

mutual
theorem gen_stmt_tracks : ∀ (s : NodeStmt) (gen g' : Generator),
    gen_stmt s gen = .ok g' → tracks gen g'
  | .Exit expr, gen, g', h => by
    rw [gen_stmt] at h
    split at h
    · cases h
    · rename_i ty g1 h1
      simp only [Except.ok.injEq] at h
      rw [← h]
      exact tracks_expr_pop h1 exit_sequence (by rw [gen_exit_eq]) (by rw [gen_exit_eq])
        (by rw [gen_exit_eq]) (by rw [gen_exit_eq]) (by decide) (by decide) (by decide)
  | .Print expr, gen, g', h => by
    rw [gen_stmt] at h
    split at h
    · cases h
    · rename_i ty g1 h1
      cases ty <;> simp only [Except.ok.injEq] at h <;> rw [← h]
      · exact tracks_expr_pop h1 [.pop .rdi, .call "print_int"] (by simp [emit, pop]) rfl rfl
          rfl (by decide) (by decide) (by decide)
      · exact tracks_expr_pop h1 [.pop .rdi, .call "print_char"] (by simp [emit, pop]) rfl rfl
          rfl (by decide) (by decide) (by decide)
      · exact tracks_expr_pop h1 [.pop .rdi, .call "print_int"] (by simp [emit, pop]) rfl rfl
          rfl (by decide) (by decide) (by decide)
  | .If expr scope cont, gen, g', h => by
    rw [gen_stmt] at h
    split at h
    · cases h
    · rename_i ty g1 h1
      simp only [] at h
      split at h
      · cases h
      · rename_i g2 h2
        have k1 : tracks gen (((g1.pop .rax).create_label.2.emit (.test .rax .rax)).emit
            (.jz (g1.pop .rax).create_label.1)) :=
          tracks_expr_pop h1 [.pop .rax, .test .rax .rax, .jz (g1.pop .rax).create_label.1]
            (by simp [emit, pop, create_label]) rfl rfl rfl rfl rfl (by
              intro i hi
              simp only [List.mem_cons, List.mem_singleton, List.not_mem_nil, or_false] at hi
              rcases hi with rfl | rfl | rfl <;> rfl)
        have k2 := gen_scope_tracks scope _ g2 h2
        have k3 := gen_stmt_if_cont_tracks cont _ g2 g' h
        exact tracks_trans k1 (tracks_trans k2 k3)
  | .Const ident dtype expr, gen, g', h => by
    rw [gen_stmt] at h
    split at h
    · cases h
    · split at h
      · cases h
      · split at h
        · cases h
        · rename_i ty g1 h1
          split at h
          · cases h
          · simp only [Except.ok.injEq] at h
            rw [← h]
            exact tracks_expr_bind h1 rfl rfl
              (fun _ i2 hs _ => bindings_in_stack_declare_var i2 hs _ dtype false)
  | .Let ident dtype expr, gen, g', h => by
    rw [gen_stmt] at h
    split at h
    · cases h
    · split at h
      · cases h
      · split at h
        · simp only [Except.ok.injEq] at h
          rw [← h]
          exact tracks_let_none gen _ dtype
        · split at h
          · cases h
          · rename_i ty g1 h1
            split at h
            · cases h
            · simp only [Except.ok.injEq] at h
              rw [← h]
              exact tracks_expr_bind h1 rfl rfl
                (fun _ i2 hs _ => bindings_in_stack_declare_var i2 hs _ dtype true)
  | .Assign ident expr, gen, g', h => by
    rw [gen_stmt] at h
    split at h
    · cases h
    · split at h
      · cases h
      · rename_i name hname existing hex
        split at h
        · cases h
        · split at h
          · cases h
          · rename_i ty g1 h1
            split at h
            · cases h
            · simp only [Except.ok.injEq] at h
              rw [← h]
              refine tracks_expr_bind h1 rfl rfl (fun i1 i2 hs hs1 => ?_)
              have := i1.1 _ existing hex
              exact bindings_in_stack_update_var i2 hs _ existing ⟨this.1, by omega⟩ ty true
  | .Scope scope, gen, g', h => by
    rw [gen_stmt] at h
    exact gen_scope_tracks scope gen g' h
theorem gen_stmt_if_cont_tracks : ∀ (c : Option NodeStmtIfCont) (label : String)
    (gen g' : Generator), gen_stmt_if_cont c label gen = .ok g' → tracks gen g'
  | some cont, label, gen, g', h => by
    rw [gen_stmt_if_cont] at h
    split at h
    · cases h
    · rename_i g1 h1
      simp only [Except.ok.injEq] at h
      have k0 : tracks gen ((gen.create_label.2.emit (.jmp gen.create_label.1)).emit
          (.label label)) :=
        tracks_emits [.jmp gen.create_label.1, .label label] (by simp [emit, create_label])
          rfl rfl rfl rfl rfl (by
            intro i hi
            simp only [List.mem_cons, List.mem_singleton, List.not_mem_nil, or_false] at hi
            rcases hi with rfl | rfl <;> rfl)
      have k1 := gen_if_cont_tracks cont _ _ g1 h1
      have k2 : tracks g1 (g1.emit (.label gen.create_label.1)) :=
        tracks_emits [.label gen.create_label.1] rfl rfl rfl rfl rfl rfl (by
          intro i hi
          simp only [List.mem_singleton] at hi
          subst hi
          rfl)
      rw [← h]
      exact tracks_trans k0 (tracks_trans k1 k2)
  | none, label, gen, g', h => by
    rw [gen_stmt_if_cont] at h
    simp only [Except.ok.injEq] at h
    rw [← h]
    exact tracks_emits [.label label] rfl rfl rfl rfl rfl rfl (by
      intro i hi
      simp only [List.mem_singleton] at hi
      subst hi
      rfl)
theorem gen_scope_tracks : ∀ (sc : NodeStmtScope) (gen g' : Generator),
    gen_scope sc gen = .ok g' → tracks gen g'
  | .mk stmts, gen, g', h => by
    rw [gen_scope] at h
    split at h
    · cases h
    · rename_i g1 h1
      have k0 : tracks gen gen.enter_scope :=
        tracks_same_stack rfl rfl bindings_in_stack_enter_scope
      have k1 := gen_scope_stmts_tracks stmts _ g1 h1
      have k2 : tracks g1 g' := by
        have hx := h
        unfold exit_scope at hx
        split at hx
        · cases hx
        · simp only [Except.ok.injEq] at hx
          exact tracks_same_stack (by rw [← hx]) (by rw [← hx])
            (fun hi => bindings_in_stack_exit_scope hi h)
      exact tracks_trans k0 (tracks_trans k1 k2)
theorem gen_scope_stmts_tracks : ∀ (l : List NodeStmt) (gen g' : Generator),
    gen_scope_stmts l gen = .ok g' → tracks gen g'
  | [], gen, g', h => by
    rw [gen_scope_stmts] at h
    simp only [Except.ok.injEq] at h
    rw [← h]
    exact tracks_refl gen
  | s :: rest, gen, g', h => by
    rw [gen_scope_stmts] at h
    split at h
    · cases h
    · rename_i g1 h1
      exact tracks_trans (gen_stmt_tracks s gen g1 h1) (gen_scope_stmts_tracks rest g1 g' h)
theorem gen_if_cont_tracks : ∀ (c : NodeStmtIfCont) (end_label : String)
    (gen g' : Generator), gen_if_cont c end_label gen = .ok g' → tracks gen g'
  | .Elif expr scope cont, end_label, gen, g', h => by
    rw [gen_if_cont] at h
    split at h
    · cases h
    · rename_i ty g1 h1
      simp only [] at h
      split at h
      · cases h
      · rename_i g2 h2
        have k1 : tracks gen (((g1.pop .rax).create_label.2.emit (.test .rax .rax)).emit
            (.jz (g1.pop .rax).create_label.1)) :=
          tracks_expr_pop h1 [.pop .rax, .test .rax .rax, .jz (g1.pop .rax).create_label.1]
            (by simp [emit, pop, create_label]) rfl rfl rfl rfl rfl (by
              intro i hi
              simp only [List.mem_cons, List.mem_singleton, List.not_mem_nil, or_false] at hi
              rcases hi with rfl | rfl | rfl <;> rfl)
        have k2 := gen_scope_tracks scope _ g2 h2
        have k3 : tracks g2 (g2.emit (.jmp end_label)) :=
          tracks_emits [.jmp end_label] rfl rfl rfl rfl rfl rfl (by
            intro i hi
            simp only [List.mem_singleton] at hi
            subst hi
            rfl)
        have k4 := gen_elif_cont_tracks cont _ _ _ g' h
        exact tracks_trans k1 (tracks_trans k2 (tracks_trans k3 k4))
  | .Else scope, end_label, gen, g', h => by
    rw [gen_if_cont] at h
    exact gen_scope_tracks scope gen g' h
theorem gen_elif_cont_tracks : ∀ (c : Option NodeStmtIfCont) (label end_label : String)
    (gen g' : Generator), gen_elif_cont c label end_label gen = .ok g' → tracks gen g'
  | some cont, label, end_label, gen, g', h => by
    rw [gen_elif_cont] at h
    have k0 : tracks gen (gen.emit (.label label)) :=
      tracks_emits [.label label] rfl rfl rfl rfl rfl rfl (by
        intro i hi
        simp only [List.mem_singleton] at hi
        subst hi
        rfl)
    exact tracks_trans k0 (gen_if_cont_tracks cont _ _ g' h)
  | none, label, end_label, gen, g', h => by
    rw [gen_elif_cont] at h
    simp only [Except.ok.injEq] at h
    rw [← h]
    exact tracks_refl gen
end

theorem gen_prog_loop_tracks : ∀ (l : List NodeStmt) (gen g' : Generator) (b : Bool),
    gen_prog_loop l gen = .ok (b, g') → tracks gen g'
  | [], gen, g', b, h => by
    simp only [gen_prog_loop, Except.ok.injEq, Prod.mk.injEq] at h
    rw [← h.2]
    exact tracks_refl gen
  | s :: rest, gen, g', b, h => by
    rw [gen_prog_loop] at h
    split_ifs at h
    · simp only [Except.ok.injEq, Prod.mk.injEq] at h
      rw [← h.2]
      exact tracks_refl gen
    · cases hs : gen_stmt s gen with
      | error e => rw [hs] at h; cases h
      | ok g1 =>
        rw [hs] at h
        exact tracks_trans (gen_stmt_tracks s gen g1 hs) (gen_prog_loop_tracks rest g1 g' b h)

theorem tracks_code {gen g' : Generator} (h : tracks gen g') (code : List Instr)
    (ho : g'.output = gen.output ++ code) (hinv : bindings_in_stack gen)
    (hb : gen.stack_size + pushes code < 2 ^ 61) :
    bindings_in_stack g' ∧ gen.stack_size ≤ g'.stack_size ∧
      g'.stack_size + pops code = gen.stack_size + pushes code ∧
      offsets_in_stack gen.stack_size code = true := by
  obtain ⟨c, o, k⟩ := h
  have : c = code := List.append_cancel_left (o.symm.trans ho)
  subst this
  exact k hinv hb

/-- C36: the bindings of a fresh generator are in the stack (there are none),
and every statement and every expression, generated from a state whose
bindings are in the stack, ends in such a state, provided the stack size at
the start plus the number of `push` lines written stays below `2^61`: the
stack size never falls below a bound `stack_loc`, neither between statements
nor inside a block or an expression.  So at a reference to a bound identifier
in such a state `stack_loc ≤ stack_size`, the `size_t` subtraction and the
multiplication by 8 are exact, and the emitted line is
`push QWORD [rsp + (stack_size - stack_loc) * 8]`.  In the code of every
statement and expression, and in the whole output of `gen_prog`, every
`push QWORD [rsp + k]` has `k` a multiple of 8 with `k / 8` less than the
stack size at which the line was written. -/
theorem bindings_stay_in_stack :
    bindings_in_stack {} ∧
    (∀ s gen g' code, gen_stmt s gen = .ok g' → g'.output = gen.output ++ code →
      bindings_in_stack gen → gen.stack_size + pushes code < 2 ^ 61 →
      bindings_in_stack g' ∧ gen.stack_size ≤ g'.stack_size ∧
        offsets_in_stack gen.stack_size code = true) ∧
    (∀ e gen g' ty code, gen_expr e gen = .ok (ty, g') → g'.output = gen.output ++ code →
      bindings_in_stack gen → gen.stack_size + pushes code < 2 ^ 61 →
      bindings_in_stack g' ∧ g'.stack_size = gen.stack_size + 1 ∧
        offsets_in_stack gen.stack_size code = true) ∧
    (∀ ident name var gen, ident.val = some name → gen.globals name = some var →
      bindings_in_stack gen → gen.stack_size < 2 ^ 61 →
      1 ≤ var.stack_loc ∧ var.stack_loc ≤ gen.stack_size ∧
        size_t_sub gen.stack_size var.stack_loc = gen.stack_size - var.stack_loc ∧
        size_t_mul (gen.stack_size - var.stack_loc) 8 = (gen.stack_size - var.stack_loc) * 8 ∧
        gen_term (.Ident ident) gen =
          .ok (var.dtype, gen.push (.qword_rsp ((gen.stack_size - var.stack_loc) * 8)))) ∧
    (∀ stmts b g, gen_prog_loop stmts { output := prologue } = .ok (b, g) →
      pushes g.output < 2 ^ 61 →
      bindings_in_stack g ∧ offsets_in_stack 0 g.output = true) ∧
    (∀ prog out, gen_prog prog = .ok out → pushes out < 2 ^ 61 →
      offsets_in_stack 0 out = true) := by
  have h0 : ∀ out : List Instr, bindings_in_stack { output := out } :=
    fun out => ⟨fun name var h => (by cases h), fun frame hf => (by cases hf)⟩
  have hloop : ∀ stmts b g, gen_prog_loop stmts { output := prologue } = .ok (b, g) →
      pushes g.output < 2 ^ 61 →
      bindings_in_stack g ∧ offsets_in_stack 0 g.output = true := by
    intro stmts b g h hb
    obtain ⟨code, o, k⟩ := gen_prog_loop_tracks stmts _ g b h
    have o2 : g.output = prologue ++ code := o
    rw [o2, pushes_append] at hb
    obtain ⟨i1, -, -, a3⟩ := k (h0 prologue) (by
      show 0 + pushes code < 2 ^ 61
      omega)
    refine ⟨i1, ?_⟩
    rw [o2, offsets_in_stack_append, offsets_in_stack_no_ref prologue 0 (by decide),
      Bool.true_and]
    exact a3
  refine ⟨h0 [], ?_, ?_, ?_, hloop, ?_⟩
  · intro s gen g' code h ho hinv hb
    obtain ⟨a, b, -, c⟩ := tracks_code (gen_stmt_tracks s gen g' h) code ho hinv hb
    exact ⟨a, b, c⟩
  · intro e gen g' ty code h ho hinv hb
    obtain ⟨c, hc, -, ht, hs⟩ := tracks_expr h
    have : c = code := by
      rw [hc] at ho
      exact List.append_cancel_left ho
    subst this
    obtain ⟨a, -, -, d⟩ := tracks_code ht c (by rw [hc]; rfl) hinv hb
    exact ⟨a, hs hb, d⟩
  · intro ident name var gen hn hv hinv hb
    obtain ⟨h1, h2⟩ := hinv.1 name var hv
    have e1 : size_t_sub gen.stack_size var.stack_loc = gen.stack_size - var.stack_loc := by
      unfold size_t_sub size_t_mod
      rw [Nat.mod_eq_of_lt (by omega : var.stack_loc < 2 ^ 64)]
      have : gen.stack_size + 2 ^ 64 - var.stack_loc =
          (gen.stack_size - var.stack_loc) + 2 ^ 64 := by omega
      rw [this, Nat.add_mod_right, Nat.mod_eq_of_lt (by omega)]
    have e2 : size_t_mul (gen.stack_size - var.stack_loc) 8 =
        (gen.stack_size - var.stack_loc) * 8 := by
      unfold size_t_mul size_t_mod
      exact Nat.mod_eq_of_lt (by omega)
    refine ⟨h1, h2, e1, e2, ?_⟩
    rw [gen_term, hn]
    simp only [hv, e1, e2]
  · intro prog out h hb
    unfold gen_prog gen_prog_run at h
    have hp : ((((((({} : Generator).emit (.extern_ "print_int")).emit
        (.extern_ "print_string")).emit (.extern_ "print_char")).emit
        (.extern_ "overflow_error")).emit (.extern_ "divzero_error")).emit
        (.global_ "_start")).emit (.label "_start") = { output := prologue } := rfl
    simp only [hp] at h
    cases hl : gen_prog_loop prog.stmts { output := prologue } with
    | error e => rw [hl] at h; cases h
    | ok r =>
      obtain ⟨b, g⟩ := r
      rw [hl] at h
      cases b with
      | true =>
        simp only [Except.ok.injEq] at h
        rw [← h] at hb ⊢
        exact (hloop _ _ g hl hb).2
      | false =>
        simp only [Except.ok.injEq] at h
        rw [gen_exit_eq] at h
        simp only at h
        rw [← h, pushes_append] at hb
        rw [← h, offsets_in_stack_append, (hloop _ _ g hl (by omega)).2, Bool.true_and]
        exact offsets_in_stack_no_ref _ _ (by decide)

/-- Witness of C36: in the output of
`let int x = 1; { let int y = 2; print x; } if (x) { x = 3; } print x;`
the references to `x` are `[rsp + 8]` under a stack of two, `[rsp + 8]` under
a stack of two and `[rsp + 16]` under a stack of three. -/
theorem bindings_stay_in_stack_witness :
    gen_prog ⟨[let_int "x" "1", .Scope (.mk [let_int "y" "2", print_ident "x"]),
        .If (.Term (.Ident (ident_token "x"))) (.mk [assign_int "x" "3"]) none,
        print_ident "x"]⟩ =
      .ok (prologue ++ [.mov_imm .rax 1, .push (.reg .rax), .mov_imm .rax 2,
        .push (.reg .rax), .push (.qword_rsp 8), .pop .rdi, .call "print_int",
        .push (.qword_rsp 8), .pop .rax, .test .rax .rax, .jz "label0",
        .mov_imm .rax 3, .push (.reg .rax), .label "label0",
        .push (.qword_rsp 16), .pop .rdi, .call "print_int"] ++ exit_sequence) ∧
    offsets_in_stack 0 (prologue ++ [.mov_imm .rax 1, .push (.reg .rax), .mov_imm .rax 2,
        .push (.reg .rax), .push (.qword_rsp 8), .pop .rdi, .call "print_int",
        .push (.qword_rsp 8), .pop .rax, .test .rax .rax, .jz "label0",
        .mov_imm .rax 3, .push (.reg .rax), .label "label0",
        .push (.qword_rsp 16), .pop .rdi, .call "print_int"] ++ exit_sequence) = true :=
  ⟨rfl, bindings_stay_in_stack.2.2.2.2.2 ⟨[let_int "x" "1",
      .Scope (.mk [let_int "y" "2", print_ident "x"]),
      .If (.Term (.Ident (ident_token "x"))) (.mk [assign_int "x" "3"]) none,
      print_ident "x"]⟩ _ rfl (by decide)⟩

/-! ### C37 -/

theorem peek_some_lt {tokens : List Token} {index : Nat} {t : Token}
    (h : peek tokens index = some t) : index < tokens.length := by
  unfold peek at h
  by_contra hc
  rw [List.getElem?_eq_none (by omega)] at h
  cases h

theorem try_consume_some {tokens : List Token} {index : Nat} {type : TokenType}
    {p : Token × Nat} (h : try_consume tokens index type = some p) :
    p.2 = index + 1 ∧ index < tokens.length := by
  unfold try_consume at h
  cases hp : peek tokens index with
  | none => rw [hp] at h; cases h
  | some t =>
    rw [hp] at h
    simp only at h
    split_ifs at h
    simp only [Option.some.injEq] at h
    rw [← h]
    exact ⟨rfl, peek_some_lt hp⟩

/-- The expression parser moves forwards and stays inside the tokens: a call
that returns a term or an expression has consumed at least one token, every
token it consumed exists, and an expression is only returned in front of an
existing token. -/
theorem parse_progress (tokens : List Token) : ∀ n : Nat,
    (∀ a i o j, parse_term tokens n a i = .ok (o, j) →
      i ≤ j ∧ (o.isSome = true → i < j ∧ j ≤ tokens.length) ∧
        (i ≤ tokens.length → j ≤ tokens.length)) ∧
    (∀ m a i o j, parse_expr tokens n m a i = .ok (o, j) →
      i ≤ j ∧ (o.isSome = true → i < j ∧ j < tokens.length) ∧
        (i ≤ tokens.length → j ≤ tokens.length)) ∧
    (∀ m l i e j, parse_expr_loop tokens n m l i = .ok (e, j) →
      i ≤ j ∧ j < tokens.length)
  | 0 => ⟨fun a i o j h => (by rw [parse_term] at h; cases h),
      fun m a i o j h => (by rw [parse_expr] at h; cases h),
      fun m l i e j h => (by rw [parse_expr_loop] at h; cases h)⟩
  | n + 1 => by
    obtain ⟨iht, ihe, ihl⟩ := parse_progress tokens n
    refine ⟨?_, ?_, ?_⟩
    · intro a i o j h
      rw [parse_term] at h
      have lit : ∀ (p : Token × Nat) (ty : TokenType) (x : NodeTerm),
          try_consume tokens i ty = some p →
          (Except.ok (some x, p.2) : Except ParseError (Option NodeTerm × Nat)) = .ok (o, j) →
          i ≤ j ∧ (o.isSome = true → i < j ∧ j ≤ tokens.length) ∧
            (i ≤ tokens.length → j ≤ tokens.length) := by
        intro p ty x hp hx
        obtain ⟨e1, e2⟩ := try_consume_some hp
        simp only [Except.ok.injEq, Prod.mk.injEq] at hx
        obtain ⟨-, rfl⟩ := hx
        omega
      cases h1 : try_consume tokens i .int_lit with
      | some p => rw [h1] at h; exact lit p _ _ h1 h
      | none =>
      cases h2 : try_consume tokens i .char_lit with
      | some p => rw [h1, h2] at h; exact lit p _ _ h2 h
      | none =>
      cases h3 : try_consume tokens i .bool_lit with
      | some p => rw [h1, h2, h3] at h; exact lit p _ _ h3 h
      | none =>
      simp only [h1, h2, h3] at h
      have unary : ∀ (p : Token × Nat) (ty : TokenType) (op : UnaryOp),
          try_consume tokens i ty = some p →
          (if a = false then Except.error ParseError.expected_term_but_got_minus
            else
              match parse_term tokens n false p.2 with
              | .error e => .error e
              | .ok (none, _) => .error .expected_term_after_unary
              | .ok (some operand, j) => .ok (some (.Unary op operand), j)) = .ok (o, j) →
          i ≤ j ∧ (o.isSome = true → i < j ∧ j ≤ tokens.length) ∧
            (i ≤ tokens.length → j ≤ tokens.length) := by
        intro p ty op hp hx
        obtain ⟨e1, e2⟩ := try_consume_some hp
        split_ifs at hx
        cases hq : parse_term tokens n false p.2 with
        | error e => rw [hq] at hx; cases hx
        | ok q =>
          obtain ⟨oo, jj⟩ := q
          rw [hq] at hx
          cases oo with
          | none => cases hx
          | some operand =>
            simp only [Except.ok.injEq, Prod.mk.injEq] at hx
            obtain ⟨-, rfl⟩ := hx
            have := (iht false p.2 _ _ hq).2.1 rfl
            omega
      cases h4 : try_consume tokens i .sub with
      | some p => rw [h4] at h; exact unary p _ _ h4 h
      | none =>
      simp only [h4] at h
      cases h5 : try_consume tokens i .not_ with
      | some p => rw [h5] at h; exact unary p _ _ h5 h
      | none =>
      simp only [h5] at h
      cases h6 : try_consume tokens i .ident with
      | some p => rw [h6] at h; exact lit p _ _ h6 h
      | none =>
      simp only [h6] at h
      cases h7 : try_consume tokens i .open_paren with
      | some p =>
        obtain ⟨e1, e2⟩ := try_consume_some h7
        simp only [h7] at h
        cases hq : parse_expr tokens n 0 true p.2 with
        | error e => rw [hq] at h; cases h
        | ok q =>
          obtain ⟨oo, jj⟩ := q
          rw [hq] at h
          have k := ihe 0 true p.2 _ _ hq
          cases oo with
          | none =>
            simp only [Except.ok.injEq, Prod.mk.injEq] at h
            obtain ⟨rfl, rfl⟩ := h
            refine ⟨by omega, fun hc => (by cases hc), fun _ => k.2.2 (by omega)⟩
          | some node =>
            simp only at h
            cases h8 : try_consume tokens jj .close_paren with
            | none => rw [h8] at h; cases h
            | some p2 =>
              obtain ⟨f1, f2⟩ := try_consume_some h8
              rw [h8] at h
              simp only [Except.ok.injEq, Prod.mk.injEq] at h
              obtain ⟨-, rfl⟩ := h
              omega
      | none =>
        simp only [h7, Except.ok.injEq, Prod.mk.injEq] at h
        obtain ⟨rfl, rfl⟩ := h
        exact ⟨Nat.le_refl _, fun hc => (by cases hc), fun hc => hc⟩
    · intro m a i o j h
      rw [parse_expr] at h
      cases hq : parse_term tokens n a i with
      | error e => rw [hq] at h; cases h
      | ok q =>
        obtain ⟨oo, jj⟩ := q
        rw [hq] at h
        have k := iht a i _ _ hq
        cases oo with
        | none =>
          simp only [Except.ok.injEq, Prod.mk.injEq] at h
          obtain ⟨rfl, rfl⟩ := h
          exact ⟨k.1, fun hc => (by cases hc), k.2.2⟩
        | some t =>
          simp only at h
          cases hl : parse_expr_loop tokens n m (.Term t) jj with
          | error e => rw [hl] at h; cases h
          | ok r =>
            obtain ⟨e2, j2⟩ := r
            rw [hl] at h
            simp only [Except.ok.injEq, Prod.mk.injEq] at h
            obtain ⟨-, rfl⟩ := h
            have k1 := k.2.1 rfl
            have k2 := ihl m _ jj _ _ hl
            omega
    · intro m l i e j h
      rw [parse_expr_loop] at h
      cases hp : peek tokens i with
      | none => rw [hp] at h; cases h
      | some t =>
        have hlt := peek_some_lt hp
        simp only [hp] at h
        split_ifs at h with hc
        · simp only [Except.ok.injEq, Prod.mk.injEq] at h
          obtain ⟨-, rfl⟩ := h
          omega
        · cases hq : parse_expr tokens n (get_precedence t.type + 1) false (i + 1) with
          | error e => rw [hq] at h; cases h
          | ok q =>
            obtain ⟨oo, jj⟩ := q
            rw [hq] at h
            cases oo with
            | none => cases h
            | some rhs =>
              simp only at h
              have k := (ihe _ false (i + 1) _ _ hq).2.1 rfl
              cases hb : make_bin_expr t.type l rhs with
              | none => rw [hb] at h; cases h
              | some b =>
                rw [hb] at h
                have k2 := ihl m _ jj _ _ h
                omega

theorem error_ne_of {α β : Type} {x : Except ParseError α} {e : ParseError}
    (hx : x = .error e) (h : x ≠ .error .out_of_fuel) :
    (Except.error e : Except ParseError β) ≠ .error .out_of_fuel := by
  intro hc
  cases hc
  exact h hx

/-- The expression parser returns whenever its budget is at least twice the
number of remaining tokens plus two. -/
theorem parse_terminates (tokens : List Token) : ∀ n : Nat,
    (∀ a i, 2 * (tokens.length - i) + 1 ≤ n →
      parse_term tokens n a i ≠ .error .out_of_fuel) ∧
    (∀ m a i, 2 * (tokens.length - i) + 2 ≤ n →
      parse_expr tokens n m a i ≠ .error .out_of_fuel) ∧
    (∀ m l i, 2 * (tokens.length - i) + 1 ≤ n →
      parse_expr_loop tokens n m l i ≠ .error .out_of_fuel)
  | 0 => ⟨fun a i h => (by omega), fun m a i h => (by omega), fun m l i h => (by omega)⟩
  | n + 1 => by
    obtain ⟨iht, ihe, ihl⟩ := parse_terminates tokens n
    obtain ⟨pt, pe, pl⟩ := parse_progress tokens n
    refine ⟨?_, ?_, ?_⟩
    · intro a i hb
      rw [parse_term]
      have unary : ∀ (p : Token × Nat) (ty : TokenType) (op : UnaryOp),
          try_consume tokens i ty = some p →
          (if a = false then Except.error ParseError.expected_term_but_got_minus
            else
              match parse_term tokens n false p.2 with
              | .error e => .error e
              | .ok (none, _) => .error .expected_term_after_unary
              | .ok (some operand, j) => .ok (some (.Unary op operand), j)) ≠
            (.error .out_of_fuel : Except ParseError (Option NodeTerm × Nat)) := by
        intro p ty op hp
        obtain ⟨e1, e2⟩ := try_consume_some hp
        split_ifs
        · intro hc; cases hc
        · have k := iht false p.2 (by omega)
          cases hq : parse_term tokens n false p.2 with
          | error e => exact error_ne_of hq k
          | ok q =>
            obtain ⟨oo, jj⟩ := q
            cases oo with
            | none => intro hc; cases hc
            | some operand => intro hc; cases hc
      cases h1 : try_consume tokens i .int_lit with
      | some p => intro hc; cases hc
      | none =>
      cases h2 : try_consume tokens i .char_lit with
      | some p => intro hc; cases hc
      | none =>
      cases h3 : try_consume tokens i .bool_lit with
      | some p => intro hc; cases hc
      | none =>
      simp only []
      cases h4 : try_consume tokens i .sub with
      | some p => exact unary p _ _ h4
      | none =>
      simp only []
      cases h5 : try_consume tokens i .not_ with
      | some p => exact unary p _ _ h5
      | none =>
      simp only []
      cases h6 : try_consume tokens i .ident with
      | some p => intro hc; cases hc
      | none =>
      simp only []
      cases h7 : try_consume tokens i .open_paren with
      | some p =>
        obtain ⟨e1, e2⟩ := try_consume_some h7
        simp only []
        have k := ihe 0 true p.2 (by omega)
        cases hq : parse_expr tokens n 0 true p.2 with
        | error e => exact error_ne_of hq k
        | ok q =>
          obtain ⟨oo, jj⟩ := q
          cases oo with
          | none => intro hc; cases hc
          | some node =>
            simp only []
            cases h8 : try_consume tokens jj .close_paren with
            | none => intro hc; cases hc
            | some p2 => intro hc; cases hc
      | none => intro hc; cases hc
    · intro m a i hb
      rw [parse_expr]
      have k := iht a i (by omega)
      cases hq : parse_term tokens n a i with
      | error e => exact error_ne_of hq k
      | ok q =>
        obtain ⟨oo, jj⟩ := q
        cases oo with
        | none => intro hc; cases hc
        | some t =>
          simp only []
          have hp := (pt a i _ _ hq).2.1 rfl
          have k2 := ihl m (.Term t) jj (by omega)
          cases hl : parse_expr_loop tokens n m (.Term t) jj with
          | error e => exact error_ne_of hl k2
          | ok r => intro hc; cases hc
    · intro m l i hb
      rw [parse_expr_loop]
      cases hp : peek tokens i with
      | none => intro hc; cases hc
      | some t =>
        have hlt := peek_some_lt hp
        simp only []
        split_ifs with hc
        · intro hc; cases hc
        · have k := ihe (get_precedence t.type + 1) false (i + 1) (by omega)
          cases hq : parse_expr tokens n (get_precedence t.type + 1) false (i + 1) with
          | error e => exact error_ne_of hq k
          | ok q =>
            obtain ⟨oo, jj⟩ := q
            cases oo with
            | none => intro hc; cases hc
            | some rhs =>
              simp only []
              have hpr := (pe _ false (i + 1) _ _ hq).2.1 rfl
              cases hb2 : make_bin_expr t.type l rhs with
              | none => intro hc; cases hc
              | some b => exact ihl m _ jj (by omega)

/-- The statement parser moves forwards and stays inside the tokens: started
at an index within the tokens it returns an index within the tokens, not
smaller than the start, and larger when it returns a node. -/
theorem parse_stmt_progress (tokens : List Token) : ∀ n : Nat,
    (∀ i o j, i ≤ tokens.length → parse_scope tokens n i = .ok (o, j) →
      i < j ∧ j ≤ tokens.length) ∧
    (∀ l i l2 j, i ≤ tokens.length → parse_scope_loop tokens n l i = .ok (l2, j) →
      i ≤ j ∧ j ≤ tokens.length) ∧
    (∀ i o j, i ≤ tokens.length → parse_if_cont tokens n i = .ok (o, j) →
      i ≤ j ∧ j ≤ tokens.length ∧ (o.isSome = true → i < j)) ∧
    (∀ i o j, i ≤ tokens.length → parse_stmt tokens n i = .ok (o, j) →
      i ≤ j ∧ j ≤ tokens.length ∧ (o.isSome = true → i < j))
  | 0 => ⟨fun i o j _ h => (by rw [parse_scope] at h; cases h),
      fun l i l2 j _ h => (by rw [parse_scope_loop] at h; cases h),
      fun i o j _ h => (by rw [parse_if_cont] at h; cases h),
      fun i o j _ h => (by rw [parse_stmt] at h; cases h)⟩
  | n + 1 => by
    obtain ⟨ihs, ihl, ihc, iht⟩ := parse_stmt_progress tokens n
    obtain ⟨-, pe, -⟩ := parse_progress tokens n
    refine ⟨?_, ?_, ?_, ?_⟩
    · intro i o j hi h
      rw [parse_scope] at h
      cases h1 : try_consume tokens i .open_curly with
      | none => rw [h1] at h; cases h
      | some p =>
        obtain ⟨e1, e2⟩ := try_consume_some h1
        simp only [h1] at h
        cases h2 : parse_scope_loop tokens n [] p.2 with
        | error e => rw [h2] at h; cases h
        | ok q =>
          obtain ⟨stmts, jj⟩ := q
          have k := ihl [] p.2 _ _ (by omega) h2
          simp only [h2] at h
          cases h3 : try_consume tokens jj .close_curly with
          | none => rw [h3] at h; cases h
          | some p3 =>
            obtain ⟨f1, f2⟩ := try_consume_some h3
            simp only [h3, Except.ok.injEq, Prod.mk.injEq] at h
            obtain ⟨-, rfl⟩ := h
            omega
    · intro l i l2 j hi h
      rw [parse_scope_loop] at h
      cases h1 : peek tokens i with
      | none =>
        simp only [h1, Except.ok.injEq, Prod.mk.injEq] at h
        obtain ⟨-, rfl⟩ := h
        omega
      | some t =>
        simp only [h1] at h
        split_ifs at h with hc
        · simp only [Except.ok.injEq, Prod.mk.injEq] at h
          obtain ⟨-, rfl⟩ := h
          omega
        · cases h2 : parse_stmt tokens n i with
          | error e => rw [h2] at h; cases h
          | ok q =>
            obtain ⟨oo, jj⟩ := q
            have k := iht i _ _ hi h2
            rw [h2] at h
            cases oo with
            | none => cases h
            | some s =>
              simp only at h
              have k2 := ihl _ jj _ _ k.2.1 h
              omega
    · intro i o j hi h
      rw [parse_if_cont] at h
      cases h1 : try_consume tokens i .elif with
      | some p =>
        obtain ⟨e1, e2⟩ := try_consume_some h1
        simp only [h1] at h
        cases h2 : try_consume tokens p.2 .open_paren with
        | none => rw [h2] at h; cases h
        | some p2 =>
          obtain ⟨f1, f2⟩ := try_consume_some h2
          simp only [h2] at h
          cases h3 : parse_expr tokens n 0 true p2.2 with
          | error e => rw [h3] at h; cases h
          | ok q =>
            obtain ⟨oo, jj⟩ := q
            rw [h3] at h
            cases oo with
            | none => cases h
            | some e =>
              have k3 := (pe 0 true p2.2 _ _ h3).2.1 rfl
              simp only at h
              cases h4 : try_consume tokens jj .close_paren with
              | none => rw [h4] at h; cases h
              | some p4 =>
                obtain ⟨g1, g2⟩ := try_consume_some h4
                simp only [h4] at h
                cases h5 : parse_scope tokens n p4.2 with
                | error e => rw [h5] at h; cases h
                | ok q5 =>
                  obtain ⟨o5, k5⟩ := q5
                  have r5 := ihs p4.2 _ _ (by omega) h5
                  rw [h5] at h
                  cases o5 with
                  | none => cases h
                  | some sc =>
                    simp only at h
                    cases h6 : parse_if_cont tokens n k5 with
                    | error e => rw [h6] at h; cases h
                    | ok q6 =>
                      obtain ⟨o6, k6⟩ := q6
                      have r6 := ihc k5 _ _ r5.2 h6
                      simp only [h6, Except.ok.injEq, Prod.mk.injEq] at h
                      obtain ⟨-, rfl⟩ := h
                      exact ⟨by omega, by omega, fun _ => by omega⟩
      | none =>
        simp only [h1] at h
        cases h2 : try_consume tokens i .else_ with
        | none =>
          simp only [h2, Except.ok.injEq, Prod.mk.injEq] at h
          obtain ⟨rfl, rfl⟩ := h
          exact ⟨Nat.le_refl _, hi, fun hc => (by cases hc)⟩
        | some p =>
          obtain ⟨e1, e2⟩ := try_consume_some h2
          simp only [h2] at h
          cases h5 : parse_scope tokens n p.2 with
          | error e => rw [h5] at h; cases h
          | ok q5 =>
            obtain ⟨o5, k5⟩ := q5
            have r5 := ihs p.2 _ _ (by omega) h5
            rw [h5] at h
            cases o5 with
            | none => cases h
            | some sc =>
              simp only [Except.ok.injEq, Prod.mk.injEq] at h
              obtain ⟨-, rfl⟩ := h
              exact ⟨by omega, by omega, fun _ => by omega⟩
    · intro i o j hi h
      rw [parse_stmt] at h
      cases h1 : peek tokens i with
      | none =>
        simp only [h1, Except.ok.injEq, Prod.mk.injEq] at h
        obtain ⟨rfl, rfl⟩ := h
        exact ⟨Nat.le_refl _, hi, fun hc => (by cases hc)⟩
      | some t =>
        have hlt := peek_some_lt h1
        simp only [h1] at h
        have tail : ∀ (start : Nat) (mk : NodeExpr → NodeStmt) (x y : ParseError), i < start →
            (match parse_expr tokens n 0 true start with
              | .error e => .error e
              | .ok (none, _) => .error x
              | .ok (some node_expr, j) =>
                match try_consume tokens j .semi with
                | none => .error y
                | some (_, k) => .ok (some (mk node_expr), k)) =
              (.ok (o, j) : Except ParseError (Option NodeStmt × Nat)) →
            i ≤ j ∧ j ≤ tokens.length ∧ (o.isSome = true → i < j) := by
          intro start mk x y hs hx
          cases h3 : parse_expr tokens n 0 true start with
          | error e => rw [h3] at hx; cases hx
          | ok q =>
            obtain ⟨oo, jj⟩ := q
            rw [h3] at hx
            cases oo with
            | none => cases hx
            | some e =>
              have k3 := (pe 0 true start _ _ h3).2.1 rfl
              simp only at hx
              cases h4 : try_consume tokens jj .semi with
              | none => rw [h4] at hx; cases hx
              | some p4 =>
                obtain ⟨g1, g2⟩ := try_consume_some h4
                simp only [h4, Except.ok.injEq, Prod.mk.injEq] at hx
                obtain ⟨-, rfl⟩ := hx
                exact ⟨by omega, by omega, fun _ => by omega⟩
        by_cases c1 : t.type = .exit
        · rw [if_pos c1] at h
          exact tail (i + 1) _ _ _ (by omega) h
        rw [if_neg c1] at h
        by_cases c2 : t.type = .print
        · rw [if_pos c2] at h
          exact tail (i + 1) _ _ _ (by omega) h
        rw [if_neg c2] at h
        by_cases c3 : t.type = .cnst
        · rw [if_pos c3] at h
          cases p1 : peek tokens (i + 1) with
          | none => rw [p1] at h; cases h
          | some ty =>
            simp only [p1] at h
            cases p2 : type_mapping ty.type with
            | none => rw [p2] at h; cases h
            | some dt =>
              simp only [p2] at h
              cases p3 : peek tokens (i + 2) with
              | none => rw [p3] at h; cases h
              | some id =>
                simp only [p3] at h
                split_ifs at h with d1
                cases p4 : peek tokens (i + 3) with
                | none => rw [p4] at h; cases h
                | some asg =>
                  simp only [p4] at h
                  split_ifs at h with d2
                  exact tail (i + 4) _ _ _ (by omega) h
        rw [if_neg c3] at h
        by_cases c4 : t.type = .let_
        · rw [if_pos c4] at h
          cases p1 : peek tokens (i + 1) with
          | none => rw [p1] at h; cases h
          | some ty =>
            simp only [p1] at h
            cases p2 : type_mapping ty.type with
            | none => rw [p2] at h; cases h
            | some dt =>
              simp only [p2] at h
              cases p3 : peek tokens (i + 2) with
              | none => rw [p3] at h; cases h
              | some id =>
                simp only [p3] at h
                split_ifs at h with d1
                cases p4 : try_consume tokens (i + 3) .assign with
                | some p =>
                  obtain ⟨e1, e2⟩ := try_consume_some p4
                  simp only [p4] at h
                  exact tail p.2 _ _ _ (by omega) h
                | none =>
                  simp only [p4] at h
                  cases p5 : try_consume tokens (i + 3) .semi with
                  | none => rw [p5] at h; cases h
                  | some p =>
                    obtain ⟨e1, e2⟩ := try_consume_some p5
                    simp only [p5, Except.ok.injEq, Prod.mk.injEq] at h
                    obtain ⟨-, rfl⟩ := h
                    exact ⟨by omega, by omega, fun _ => by omega⟩
        rw [if_neg c4] at h
        by_cases c5 : t.type = .ident
        · rw [if_pos c5] at h
          cases p1 : peek tokens (i + 1) with
          | none => rw [p1] at h; cases h
          | some asg =>
            simp only [p1] at h
            split_ifs at h with d2
            exact tail (i + 2) _ _ _ (by omega) h
        rw [if_neg c5] at h
        by_cases c6 : t.type = .open_curly
        · rw [if_pos c6] at h
          cases h5 : parse_scope tokens n i with
          | error e => rw [h5] at h; cases h
          | ok q5 =>
            obtain ⟨o5, k5⟩ := q5
            have r5 := ihs i _ _ hi h5
            rw [h5] at h
            cases o5 with
            | none => cases h
            | some sc =>
              simp only [Except.ok.injEq, Prod.mk.injEq] at h
              obtain ⟨-, rfl⟩ := h
              exact ⟨by omega, by omega, fun _ => by omega⟩
        rw [if_neg c6] at h
        by_cases c7 : t.type = .if_
        · rw [if_pos c7] at h
          cases h2 : try_consume tokens (i + 1) .open_paren with
          | none => rw [h2] at h; cases h
          | some p2 =>
            obtain ⟨f1, f2⟩ := try_consume_some h2
            simp only [h2] at h
            cases h3 : parse_expr tokens n 0 true p2.2 with
            | error e => rw [h3] at h; cases h
            | ok q =>
              obtain ⟨oo, jj⟩ := q
              rw [h3] at h
              cases oo with
              | none => cases h
              | some e =>
                have k3 := (pe 0 true p2.2 _ _ h3).2.1 rfl
                simp only at h
                cases h4 : try_consume tokens jj .close_paren with
                | none => rw [h4] at h; cases h
                | some p4 =>
                  obtain ⟨g1, g2⟩ := try_consume_some h4
                  simp only [h4] at h
                  cases h5 : parse_scope tokens n p4.2 with
                  | error e => rw [h5] at h; cases h
                  | ok q5 =>
                    obtain ⟨o5, k5⟩ := q5
                    have r5 := ihs p4.2 _ _ (by omega) h5
                    rw [h5] at h
                    cases o5 with
                    | none => cases h
                    | some sc =>
                      simp only at h
                      cases h6 : parse_if_cont tokens n k5 with
                      | error e => rw [h6] at h; cases h
                      | ok q6 =>
                        obtain ⟨o6, k6⟩ := q6
                        have r6 := ihc k5 _ _ r5.2 h6
                        simp only [h6, Except.ok.injEq, Prod.mk.injEq] at h
                        obtain ⟨-, rfl⟩ := h
                        exact ⟨by omega, by omega, fun _ => by omega⟩
        rw [if_neg c7] at h
        simp only [Except.ok.injEq, Prod.mk.injEq] at h
        obtain ⟨rfl, rfl⟩ := h
        exact ⟨Nat.le_refl _, hi, fun hc => (by cases hc)⟩

/-- The statement parser returns whenever its budget is at least three times
the number of remaining tokens plus three. -/
theorem parse_stmt_terminates (tokens : List Token) : ∀ n : Nat,
    (∀ i, 3 * (tokens.length - i) + 1 ≤ n →
      parse_scope tokens n i ≠ .error .out_of_fuel) ∧
    (∀ l i, 3 * (tokens.length - i) + 3 ≤ n →
      parse_scope_loop tokens n l i ≠ .error .out_of_fuel) ∧
    (∀ i, 3 * (tokens.length - i) + 2 ≤ n →
      parse_if_cont tokens n i ≠ .error .out_of_fuel) ∧
    (∀ i, 3 * (tokens.length - i) + 2 ≤ n →
      parse_stmt tokens n i ≠ .error .out_of_fuel)
  | 0 => ⟨fun i h => (by omega), fun l i h => (by omega), fun i h => (by omega),
      fun i h => (by omega)⟩
  | n + 1 => by
    obtain ⟨ihs, ihl, ihc, iht⟩ := parse_stmt_terminates tokens n
    obtain ⟨ps, pl, pc, pt⟩ := parse_stmt_progress tokens n
    obtain ⟨-, pe, -⟩ := parse_progress tokens n
    obtain ⟨-, te, -⟩ := parse_terminates tokens n
    have cond : ∀ (i start : Nat) (mk : NodeExpr → NodeStmtScope → Option NodeStmtIfCont →
        Option NodeStmtIfCont) (x y z : ParseError),
        x ≠ .out_of_fuel → y ≠ .out_of_fuel → z ≠ .out_of_fuel →
        i + 2 ≤ start → start ≤ tokens.length → 3 * (tokens.length - i) + 2 ≤ n + 1 →
        (match parse_expr tokens n 0 true start with
          | .error e => .error e
          | .ok (none, _) => .error x
          | .ok (some node_expr, j) =>
            match try_consume tokens j .close_paren with
            | none => .error y
            | some (_, j) =>
              match parse_scope tokens n j with
              | .error e => .error e
              | .ok (none, _) => .error z
              | .ok (some node_scope, k) =>
                match parse_if_cont tokens n k with
                | .error e => .error e
                | .ok (cont, k) => .ok (mk node_expr node_scope cont, k)) ≠
          (.error .out_of_fuel : Except ParseError (Option NodeStmtIfCont × Nat)) := by
      intro i start mk x y z hx hy hz hs hle hb
      have k3 := te 0 true start (by omega)
      cases h3 : parse_expr tokens n 0 true start with
      | error e => exact error_ne_of h3 k3
      | ok q =>
        obtain ⟨oo, jj⟩ := q
        cases oo with
        | none => exact fun hc => hx (by cases hc; rfl)
        | some e =>
          have r3 := (pe 0 true start _ _ h3).2.1 rfl
          simp only []
          cases h4 : try_consume tokens jj .close_paren with
          | none => exact fun hc => hy (by cases hc; rfl)
          | some p4 =>
            obtain ⟨g1, g2⟩ := try_consume_some h4
            simp only []
            have k5 := ihs p4.2 (by omega)
            cases h5 : parse_scope tokens n p4.2 with
            | error e => exact error_ne_of h5 k5
            | ok q5 =>
              obtain ⟨o5, j5⟩ := q5
              have r5 := ps p4.2 _ _ (by omega) h5
              cases o5 with
              | none => exact fun hc => hz (by cases hc; rfl)
              | some sc =>
                simp only []
                have k6 := ihc j5 (by omega)
                cases h6 : parse_if_cont tokens n j5 with
                | error e => exact error_ne_of h6 k6
                | ok q6 => intro hc; cases hc
    refine ⟨?_, ?_, ?_, ?_⟩
    · intro i hb
      rw [parse_scope]
      cases h1 : try_consume tokens i .open_curly with
      | none => intro hc; cases hc
      | some p =>
        obtain ⟨e1, e2⟩ := try_consume_some h1
        simp only []
        have k2 := ihl [] p.2 (by omega)
        cases h2 : parse_scope_loop tokens n [] p.2 with
        | error e => exact error_ne_of h2 k2
        | ok q =>
          obtain ⟨stmts, jj⟩ := q
          simp only []
          cases h3 : try_consume tokens jj .close_curly with
          | none => intro hc; cases hc
          | some p3 => intro hc; cases hc
    · intro l i hb
      rw [parse_scope_loop]
      cases h1 : peek tokens i with
      | none => intro hc; cases hc
      | some t =>
        have hlt := peek_some_lt h1
        simp only []
        split_ifs with hc
        · intro hc; cases hc
        · have k2 := iht i (by omega)
          cases h2 : parse_stmt tokens n i with
          | error e => exact error_ne_of h2 k2
          | ok q =>
            obtain ⟨oo, jj⟩ := q
            have r2 := pt i _ _ (by omega) h2
            cases oo with
            | none => intro hc; cases hc
            | some s =>
              simp only []
              have := r2.2.2 rfl
              exact ihl _ jj (by omega)
    · intro i hb
      rw [parse_if_cont]
      cases h1 : try_consume tokens i .elif with
      | some p =>
        obtain ⟨e1, e2⟩ := try_consume_some h1
        simp only []
        cases h2 : try_consume tokens p.2 .open_paren with
        | none => intro hc; cases hc
        | some p2 =>
          obtain ⟨f1, f2⟩ := try_consume_some h2
          simp only []
          exact cond i p2.2 (fun e sc c => some (.Elif e sc c)) _ _ _ (by decide) (by decide)
            (by decide) (by omega) (by omega) hb
      | none =>
        simp only []
        cases h2 : try_consume tokens i .else_ with
        | none => intro hc; cases hc
        | some p =>
          obtain ⟨e1, e2⟩ := try_consume_some h2
          simp only []
          have k5 := ihs p.2 (by omega)
          cases h5 : parse_scope tokens n p.2 with
          | error e => exact error_ne_of h5 k5
          | ok q5 =>
            obtain ⟨o5, j5⟩ := q5
            cases o5 with
            | none => intro hc; cases hc
            | some sc => intro hc; cases hc
    · intro i hb
      rw [parse_stmt]
      cases h1 : peek tokens i with
      | none => intro hc; cases hc
      | some t =>
        have hlt := peek_some_lt h1
        simp only []
        have tail : ∀ (start : Nat) (mk : NodeExpr → NodeStmt) (x y : ParseError),
            x ≠ .out_of_fuel → y ≠ .out_of_fuel → i < start →
            (match parse_expr tokens n 0 true start with
              | .error e => .error e
              | .ok (none, _) => .error x
              | .ok (some node_expr, j) =>
                match try_consume tokens j .semi with
                | none => .error y
                | some (_, k) => .ok (some (mk node_expr), k)) ≠
              (.error .out_of_fuel : Except ParseError (Option NodeStmt × Nat)) := by
          intro start mk x y hx hy hs
          have k3 := te 0 true start (by omega)
          cases h3 : parse_expr tokens n 0 true start with
          | error e => exact error_ne_of h3 k3
          | ok q =>
            obtain ⟨oo, jj⟩ := q
            cases oo with
            | none => exact fun hc => hx (by cases hc; rfl)
            | some e =>
              simp only []
              cases h4 : try_consume tokens jj .semi with
              | none => exact fun hc => hy (by cases hc; rfl)
              | some p4 => intro hc; cases hc
        by_cases c1 : t.type = .exit
        · rw [if_pos c1]
          exact tail (i + 1) _ _ _ (by decide) (by decide) (by omega)
        rw [if_neg c1]
        by_cases c2 : t.type = .print
        · rw [if_pos c2]
          exact tail (i + 1) _ _ _ (by decide) (by decide) (by omega)
        rw [if_neg c2]
        by_cases c3 : t.type = .cnst
        · rw [if_pos c3]
          cases p1 : peek tokens (i + 1) with
          | none => intro hc; cases hc
          | some ty =>
            simp only []
            cases p2 : type_mapping ty.type with
            | none => intro hc; cases hc
            | some dt =>
              simp only []
              cases p3 : peek tokens (i + 2) with
              | none => intro hc; cases hc
              | some id =>
                simp only []
                split_ifs with d1
                · intro hc; cases hc
                · cases p4 : peek tokens (i + 3) with
                  | none => intro hc; cases hc
                  | some asg =>
                    simp only []
                    split_ifs with d2
                    · intro hc; cases hc
                    · exact tail (i + 4) _ _ _ (by decide) (by decide) (by omega)
        rw [if_neg c3]
        by_cases c4 : t.type = .let_
        · rw [if_pos c4]
          cases p1 : peek tokens (i + 1) with
          | none => intro hc; cases hc
          | some ty =>
            simp only []
            cases p2 : type_mapping ty.type with
            | none => intro hc; cases hc
            | some dt =>
              simp only []
              cases p3 : peek tokens (i + 2) with
              | none => intro hc; cases hc
              | some id =>
                simp only []
                split_ifs with d1
                · intro hc; cases hc
                · cases p4 : try_consume tokens (i + 3) .assign with
                  | some p =>
                    obtain ⟨e1, e2⟩ := try_consume_some p4
                    simp only []
                    exact tail p.2 _ _ _ (by decide) (by decide) (by omega)
                  | none =>
                    simp only []
                    cases p5 : try_consume tokens (i + 3) .semi with
                    | none => intro hc; cases hc
                    | some p => intro hc; cases hc
        rw [if_neg c4]
        by_cases c5 : t.type = .ident
        · rw [if_pos c5]
          cases p1 : peek tokens (i + 1) with
          | none => intro hc; cases hc
          | some asg =>
            simp only []
            split_ifs with d2
            · intro hc; cases hc
            · exact tail (i + 2) _ _ _ (by decide) (by decide) (by omega)
        rw [if_neg c5]
        by_cases c6 : t.type = .open_curly
        · rw [if_pos c6]
          have k5 := ihs i (by omega)
          cases h5 : parse_scope tokens n i with
          | error e => exact error_ne_of h5 k5
          | ok q5 =>
            obtain ⟨o5, j5⟩ := q5
            cases o5 with
            | none => intro hc; cases hc
            | some sc => intro hc; cases hc
        rw [if_neg c6]
        by_cases c7 : t.type = .if_
        · rw [if_pos c7]
          cases h2 : try_consume tokens (i + 1) .open_paren with
          | none => intro hc; cases hc
          | some p2 =>
            obtain ⟨f1, f2⟩ := try_consume_some h2
            simp only []
            have k3 := te 0 true p2.2 (by omega)
            cases h3 : parse_expr tokens n 0 true p2.2 with
            | error e => exact error_ne_of h3 k3
            | ok q =>
              obtain ⟨oo, jj⟩ := q
              cases oo with
              | none => intro hc; cases hc
              | some e =>
                have r3 := (pe 0 true p2.2 _ _ h3).2.1 rfl
                simp only []
                cases h4 : try_consume tokens jj .close_paren with
                | none => intro hc; cases hc
                | some p4 =>
                  obtain ⟨g1, g2⟩ := try_consume_some h4
                  simp only []
                  have k5 := ihs p4.2 (by omega)
                  cases h5 : parse_scope tokens n p4.2 with
                  | error e => exact error_ne_of h5 k5
                  | ok q5 =>
                    obtain ⟨o5, j5⟩ := q5
                    have r5 := ps p4.2 _ _ (by omega) h5
                    cases o5 with
                    | none => intro hc; cases hc
                    | some sc =>
                      simp only []
                      have k6 := ihc j5 (by omega)
                      cases h6 : parse_if_cont tokens n j5 with
                      | error e => exact error_ne_of h6 k6
                      | ok q6 => intro hc; cases hc
        rw [if_neg c7]
        intro hc
        cases hc

theorem parse_prog_loop_mono (tokens : List Token) : ∀ (n : Nat) (l : List NodeStmt) (i : Nat),
    parse_prog_loop tokens n l i ≠ .error .out_of_fuel →
    parse_prog_loop tokens (n + 1) l i = parse_prog_loop tokens n l i
  | 0, l, i, h => absurd (by rw [parse_prog_loop]) h
  | n + 1, l, i, hr => by
    rw [parse_prog_loop] at hr
    rw [parse_prog_loop, parse_prog_loop]
    cases h1 : peek tokens i with
    | none => rfl
    | some t =>
      simp only [h1] at hr ⊢
      cases h2 : parse_stmt tokens n i with
      | error e =>
        simp only [h2] at hr
        rw [step_err ((parse_stmt_mono tokens n).2.2.2 i) h2 hr]
      | ok q =>
        rw [step_of ((parse_stmt_mono tokens n).2.2.2 i) h2 (by simp)]
        obtain ⟨o, j⟩ := q
        cases o with
        | none => rfl
        | some s =>
          simp only [h2] at hr ⊢
          exact parse_prog_loop_mono tokens n _ j hr

theorem parse_prog_loop_terminates (tokens : List Token) : ∀ (n : Nat) (l : List NodeStmt)
    (i : Nat), 3 * (tokens.length - i) + 3 ≤ n →
    parse_prog_loop tokens n l i ≠ .error .out_of_fuel
  | 0, l, i, h => by omega
  | n + 1, l, i, hb => by
    rw [parse_prog_loop]
    cases h1 : peek tokens i with
    | none => intro hc; cases hc
    | some t =>
      have hlt := peek_some_lt h1
      simp only []
      have k2 := (parse_stmt_terminates tokens n).2.2.2 i (by omega)
      cases h2 : parse_stmt tokens n i with
      | error e => exact error_ne_of h2 k2
      | ok q =>
        obtain ⟨o, j⟩ := q
        have r2 := (parse_stmt_progress tokens n).2.2.2 i _ _ (by omega) h2
        cases o with
        | none => intro hc; cases hc
        | some s =>
          simp only []
          have := r2.2.2 rfl
          exact parse_prog_loop_terminates tokens n _ j (by omega)

/-- The loop of `parse_prog` appends to the statements collected so far the
statements parsed one after the other from its index, and ends at the end of
the tokens. -/
theorem parse_prog_loop_order (tokens : List Token) : ∀ (n : Nat) (l : List NodeStmt)
    (i : Nat) (l2 : List NodeStmt) (j : Nat), i ≤ tokens.length →
    parse_prog_loop tokens n l i = .ok (l2, j) →
    j = tokens.length ∧ ∃ rest, l2 = l ++ rest ∧ stmts_from tokens i rest
  | 0, l, i, l2, j, _, h => by rw [parse_prog_loop] at h; cases h
  | n + 1, l, i, l2, j, hi, h => by
    rw [parse_prog_loop] at h
    cases h1 : peek tokens i with
    | none =>
      simp only [h1, Except.ok.injEq, Prod.mk.injEq] at h
      obtain ⟨rfl, rfl⟩ := h
      have hge : tokens.length ≤ i := by
        by_contra hc
        unfold peek at h1
        rw [List.getElem?_eq_getElem (by omega)] at h1
        cases h1
      exact ⟨by omega, [], (List.append_nil _).symm, hge⟩
    | some t =>
      simp only [h1] at h
      cases h2 : parse_stmt tokens n i with
      | error e => rw [h2] at h; cases h
      | ok q =>
        obtain ⟨o, jj⟩ := q
        have r2 := (parse_stmt_progress tokens n).2.2.2 i _ _ hi h2
        rw [h2] at h
        cases o with
        | none => cases h
        | some s =>
          simp only at h
          obtain ⟨e1, rest, e2, e3⟩ := parse_prog_loop_order tokens n _ jj l2 j r2.2.1 h
          refine ⟨e1, s :: rest, by rw [e2, List.append_assoc, List.singleton_append], ?_⟩
          exact ⟨jj, r2.2.2 rfl, r2.2.1, parse_stmt_returns h2, e3⟩

theorem parse_prog_loop_stable (tokens : List Token) (l : List NodeStmt) (i n : Nat)
    (h : parse_prog_loop tokens n l i ≠ .error .out_of_fuel) :
    ∀ k, parse_prog_loop tokens (n + k) l i = parse_prog_loop tokens n l i
  | 0 => rfl
  | k + 1 => by
    have ih := parse_prog_loop_stable tokens l i n h k
    rw [← Nat.add_assoc, parse_prog_loop_mono tokens (n + k) l i (by rw [ih]; exact h), ih]

/-- C37: on every token list the parser moves forwards, stays inside the
tokens and returns.  `try_consume` advances the index by one only over a
token that exists.  A call of `parse_term`, `parse_expr`, `parse_scope` or
`parse_stmt` never returns a smaller index, returns a larger one whenever it
returns a node, and started within the tokens returns an index within the
tokens.  With a budget of at least three times the number of tokens plus
three, `parse` returns one and the same result, a program or a fatal error.
When `parse_prog` returns a program, its index is the number of tokens and
its statements are those parsed one after the other from index 0, in that
order.  On no tokens the result is the empty program. -/
theorem parse_makes_progress_and_terminates (tokens : List Token) :
    (∀ index type p, try_consume tokens index type = some p →
      index < tokens.length ∧ p.2 = index + 1 ∧ tokens[index]? = some p.1) ∧
    (∀ fuel a i o j, parse_term tokens fuel a i = .ok (o, j) →
      i ≤ j ∧ (o.isSome = true → i < j ∧ j ≤ tokens.length) ∧
        (i ≤ tokens.length → j ≤ tokens.length)) ∧
    (∀ fuel m a i o j, parse_expr tokens fuel m a i = .ok (o, j) →
      i ≤ j ∧ (o.isSome = true → i < j ∧ j < tokens.length) ∧
        (i ≤ tokens.length → j ≤ tokens.length)) ∧
    (∀ fuel i o j, i ≤ tokens.length → parse_scope tokens fuel i = .ok (o, j) →
      i < j ∧ j ≤ tokens.length) ∧
    (∀ fuel i o j, i ≤ tokens.length → parse_stmt tokens fuel i = .ok (o, j) →
      i ≤ j ∧ j ≤ tokens.length ∧ (o.isSome = true → i < j)) ∧
    (∃ r, r ≠ .error .out_of_fuel ∧
      ∀ fuel, 3 * tokens.length + 3 ≤ fuel → parse tokens fuel = r) ∧
    (∀ fuel prog index, parse_prog tokens fuel = .ok (prog, index) →
      index = tokens.length ∧ stmts_from tokens 0 prog.stmts) ∧
    (tokens = [] → ∀ fuel, parse tokens (fuel + 1) = .ok ⟨[]⟩) := by
  refine ⟨?_, fun fuel => (parse_progress tokens fuel).1,
    fun fuel => (parse_progress tokens fuel).2.1,
    fun fuel => (parse_stmt_progress tokens fuel).1,
    fun fuel => (parse_stmt_progress tokens fuel).2.2.2, ?_, ?_, ?_⟩
  · intro index type p h
    obtain ⟨e1, e2⟩ := try_consume_some h
    refine ⟨e2, e1, ?_⟩
    unfold try_consume peek at h
    cases ht : tokens[index]? with
    | none => rw [ht] at h; cases h
    | some t =>
      rw [ht] at h
      simp only at h
      split_ifs at h
      simp only [Option.some.injEq] at h
      rw [← h]
  · have hN := parse_prog_loop_terminates tokens (3 * tokens.length + 3) [] 0 (by omega)
    refine ⟨parse tokens (3 * tokens.length + 3), ?_, ?_⟩
    · unfold parse parse_prog
      cases hl : parse_prog_loop tokens (3 * tokens.length + 3) [] 0 with
      | error e => exact error_ne_of hl hN
      | ok q => intro hc; cases hc
    · intro fuel hf
      obtain ⟨k, rfl⟩ : ∃ k, fuel = 3 * tokens.length + 3 + k := ⟨fuel - (3 * tokens.length + 3),
        by omega⟩
      unfold parse parse_prog
      rw [parse_prog_loop_stable tokens [] 0 _ hN k]
  · intro fuel prog index h
    unfold parse_prog at h
    cases hl : parse_prog_loop tokens fuel [] 0 with
    | error e => rw [hl] at h; cases h
    | ok q =>
      obtain ⟨l2, j⟩ := q
      rw [hl] at h
      simp only [Except.ok.injEq, Prod.mk.injEq] at h
      obtain ⟨rfl, rfl⟩ := h
      obtain ⟨e1, rest, e2, e3⟩ := parse_prog_loop_order tokens fuel [] 0 l2 j (Nat.zero_le _) hl
      rw [List.nil_append] at e2
      subst e2
      exact ⟨e1, e3⟩
  · intro h fuel
    subst h
    rfl

/-- Witness of C37: `exit 5 ; print 6 ;` has six tokens; every budget from 21
on gives the program of the two statements, the first parsed from index 0 to
3 and the second from 3 to 6.  `exit 5` without a semicolon is fatal for every
budget from 9 on. -/
theorem parse_makes_progress_and_terminates_witness :
    (∀ fuel, 21 ≤ fuel →
      parse [⟨.exit, none⟩, ⟨.int_lit, some "5"⟩, ⟨.semi, none⟩, ⟨.print, none⟩,
        ⟨.int_lit, some "6"⟩, ⟨.semi, none⟩] fuel =
        .ok ⟨[.Exit (int_expr "5"), .Print (int_expr "6")]⟩) ∧
    stmts_from [⟨.exit, none⟩, ⟨.int_lit, some "5"⟩, ⟨.semi, none⟩, ⟨.print, none⟩,
        ⟨.int_lit, some "6"⟩, ⟨.semi, none⟩] 0 [.Exit (int_expr "5"), .Print (int_expr "6")] ∧
    (∀ fuel, 9 ≤ fuel →
      parse [⟨.exit, none⟩, ⟨.int_lit, some "5"⟩] fuel = .error .expected_semi) ∧
    parse [] 1 = .ok ⟨[]⟩ := by
  obtain ⟨-, -, -, -, -, ⟨r, -, hr⟩, hord, -⟩ := parse_makes_progress_and_terminates
    [⟨.exit, none⟩, ⟨.int_lit, some "5"⟩, ⟨.semi, none⟩, ⟨.print, none⟩,
      ⟨.int_lit, some "6"⟩, ⟨.semi, none⟩]
  obtain ⟨-, -, -, -, -, ⟨r2, -, hr2⟩, -, -⟩ := parse_makes_progress_and_terminates
    [⟨.exit, none⟩, ⟨.int_lit, some "5"⟩]
  refine ⟨fun fuel hf => ?_, (hord 21 ⟨[.Exit (int_expr "5"), .Print (int_expr "6")]⟩ 6 rfl).2,
    fun fuel hf => ?_, (parse_makes_progress_and_terminates []).2.2.2.2.2.2.2 rfl 0⟩
  · rw [hr fuel hf, ← hr 21 (by decide)]
    rfl
  · rw [hr2 fuel hf, ← hr2 9 (by decide)]
    rfl

end Compiler
